import Mathlib

/-!
# CEX: the TSX1024 authenticated stream cipher

A shallow embedding of `TSX1024.cpp` and of the `IntegerTools.h` helpers it calls.

* Bytes, 64-bit words and sizes are natural numbers; a byte vector is a `List Nat`.
  Arithmetic that wraps in the source carries an explicit `% 2 ^ 64`.
* A call returns an `Outcome`: a normal return, a thrown exception (with the object
  as it stands at the throw), or `undefined` when the source would index a container
  outside its bounds.
* The Threefish permutation, the cSHAKE generator and the MAC are fixed functions,
  collected in `Primitives`.
* The scalar build is modelled: the `__AVX2__` and `__AVX512__` sections of `Generate`
  are compiled out.
-/

namespace CEX

/-- The error codes of `Enumeration::ErrorCodes` that the modelled code raises. -/
inductive ErrorCodes
  | AuthenticationFailure
  | IllegalOperation
  | InvalidInfo
  | InvalidKey
  | InvalidNonce
  | InvalidParam
  | InvalidSize
  | NotInitialized
  | NotSupported
  deriving DecidableEq, Repr

/-- The result of a call on an object of type `σ`: a normal return with the final
object, an exception with the object as it is when the exception leaves the call, or
undefined behaviour (an access outside a container). -/
inductive Outcome (σ : Type)
  | ok (s : σ) : Outcome σ
  | throw (e : ErrorCodes) (s : σ) : Outcome σ
  | undefined : Outcome σ
  deriving DecidableEq, Repr

/-- Sequencing of two steps on the same object: the second runs when the first returns
normally; an exception or undefined behaviour ends the call. -/
def Outcome.andThen {σ : Type} (x : Outcome σ) (f : σ → Outcome σ) : Outcome σ :=
  match x with
  | .ok s => f s
  | .throw e s => .throw e s
  | .undefined => .undefined

/-- The elements `v[off], …, v[off + len - 1]` of a vector. -/
def slice (v : List Nat) (off len : Nat) : List Nat :=
  (v.drop off).take len

/-- The vector `v` with the elements from index `off` on overwritten by `blk`. -/
def writeAt (v : List Nat) (off : Nat) (blk : List Nat) : List Nat :=
  v.take off ++ blk ++ v.drop (off + blk.length)

/-- The element-wise exclusive or of two byte strings. -/
def xorBytes (a b : List Nat) : List Nat :=
  List.zipWith (fun x y => x ^^^ y) a b

/-- A vector after `resize(n)`: the first `n` elements are kept, new elements are zero. -/
def resize (v : List Nat) (n : Nat) : List Nat :=
  v.take n ++ List.replicate (n - v.length) 0

/-! ## MemoryTools -/

namespace MemoryTools

/-- Modelled from the spec: `MemoryTools::Copy` is not among the sources. It copies
`Length` bytes from `Input` at `InOffset` to `Output` at `OutOffset`; both ranges must
lie inside their containers. -/
def Copy (Input : List Nat) (InOffset : Nat) (Output : List Nat) (OutOffset Length : Nat) :
    Option (List Nat) :=
  if InOffset + Length ≤ Input.length ∧ OutOffset + Length ≤ Output.length then
    some (writeAt Output OutOffset (slice Input InOffset Length))
  else none

/-- Modelled from the spec: `MemoryTools::XOR` is not among the sources. It replaces
`Output[OutOffset + i]` by `Output[OutOffset + i] ^ Input[InOffset + i]` for `i < Length`;
both ranges must lie inside their containers. -/
def XOR (Input : List Nat) (InOffset : Nat) (Output : List Nat) (OutOffset Length : Nat) :
    Option (List Nat) :=
  if InOffset + Length ≤ Input.length ∧ OutOffset + Length ≤ Output.length then
    some (writeAt Output OutOffset
      (xorBytes (slice Output OutOffset Length) (slice Input InOffset Length)))
  else none

/-- Modelled from the spec: `MemoryTools::Clear` is not among the sources. It sets every
element of the container to zero and keeps its size. -/
def Clear (v : List Nat) : List Nat :=
  List.replicate v.length 0

end MemoryTools

/-! ## IntegerTools -/

namespace IntegerTools

/-- `IntegerTools::LeBytesTo64`: the 64-bit word whose little-endian bytes are
`Input[InOffset .. InOffset + 8)`. The source asserts
`(Input.size() - InOffset) >= sizeof(ulong)`; a read outside the container is undefined. -/
def LeBytesTo64 (Input : List Nat) (InOffset : Nat) : Option Nat :=
  if InOffset + 8 ≤ Input.length then
    some (Input.getD InOffset 0
      ||| (Input.getD (InOffset + 1) 0 <<< 8)
      ||| (Input.getD (InOffset + 2) 0 <<< 16)
      ||| (Input.getD (InOffset + 3) 0 <<< 24)
      ||| (Input.getD (InOffset + 4) 0 <<< 32)
      ||| (Input.getD (InOffset + 5) 0 <<< 40)
      ||| (Input.getD (InOffset + 6) 0 <<< 48)
      ||| (Input.getD (InOffset + 7) 0 <<< 56))
  else none

/-- The eight bytes of a 64-bit word, least significant first (what
`Le64ToBytes<std::vector<byte>>(Value)` returns). -/
def Le64Bytes (Value : Nat) : List Nat :=
  [Value % 256, (Value >>> 8) % 256, (Value >>> 16) % 256, (Value >>> 24) % 256,
   (Value >>> 32) % 256, (Value >>> 40) % 256, (Value >>> 48) % 256, (Value >>> 56) % 256]

/-- `IntegerTools::Le64ToBytes(Value, Output, OutOffset)`: stores the eight bytes of
`Value` at `Output[OutOffset .. OutOffset + 8)`. The source asserts
`(Output.size() - OutOffset) >= sizeof(ulong)`. -/
def Le64ToBytes (Value : Nat) (Output : List Nat) (OutOffset : Nat) : Option (List Nat) :=
  if OutOffset + 8 ≤ Output.length then
    some (writeAt Output OutOffset (Le64Bytes Value))
  else none

/-- `IntegerTools::LeIncrementW` on a counter of two 64-bit words:
`if (++Output[0] == 0) ++Output[1];`. -/
def LeIncrementW (Output : Nat × Nat) : Nat × Nat :=
  let o0 := (Output.1 + 1) % 2 ^ 64
  if o0 = 0 then (o0, (Output.2 + 1) % 2 ^ 64) else (o0, Output.2)

/-- `IntegerTools::LeIncreaseW(Input, Output, Length)`, the copy-then-add overload:
`Output = Input; Output[0] += Length; if (Output[0] < Input[0]) ++Output[1];`. -/
def LeIncreaseW (Input : Nat × Nat) (Length : Nat) : Nat × Nat :=
  let o0 := (Input.1 + Length % 2 ^ 64) % 2 ^ 64
  if o0 < Input.1 then (o0, (Input.2 + 1) % 2 ^ 64) else (o0, Input.2)

/-- The accumulator of `IntegerTools::Compare` after positions `0 .. n - 1`:
`delta |= (A[AOffset + i] ^ B[BOffset + i])`. -/
def CompareDelta (A : List Nat) (AOffset : Nat) (B : List Nat) (BOffset : Nat) : Nat → Nat
  | 0 => 0
  | i + 1 =>
    CompareDelta A AOffset B BOffset i ||| (A.getD (AOffset + i) 0 ^^^ B.getD (BOffset + i) 0)

/-- `IntegerTools::Compare`: the constant-time comparison of `Length` elements. Each of
the `Length` positions of both containers is read; a position outside a container is
undefined. -/
def Compare (A : List Nat) (AOffset : Nat) (B : List Nat) (BOffset Length : Nat) :
    Option Bool :=
  if AOffset + Length ≤ A.length ∧ BOffset + Length ≤ B.length then
    some (CompareDelta A AOffset B BOffset Length == 0)
  else none

end IntegerTools

/-! ## The primitives TSX1024 is built from -/

/-- The functions the cipher calls and that are fixed here: the Threefish-1024
permutation `Threefish::PemuteR120P1024U(Key, Counter, Tweak, tmp)` (word `i` of `tmp`),
the cSHAKE generator `Kdf::SHAKE` (byte `i` of the output stream for a key and a
customization string), and the MAC generator behind `IMac` (byte `i` of the code for a
key and a message), with its `TagSize()`, the key size `LegalKeySizes()[1].KeySize()`
and the ASCII bytes of its name. -/
structure Primitives where
  Permute : List Nat → Nat × Nat → Nat × Nat → Nat → Nat
  Shake : List Nat → List Nat → Nat → Nat
  MacCode : List Nat → List Nat → Nat → Nat
  TagSize : Nat
  MacKeySize : Nat
  MacName : List Nat

/-- Modelled from the spec: `Kdf::SHAKE` is not among the sources. `Generate` squeezes
the output stream of the generator, successive calls continuing where the previous one
stopped: these are the bytes `pos .. pos + n - 1` of the stream. -/
def ShakeGenerate (P : Primitives) (key custom : List Nat) (pos n : Nat) : List Nat :=
  (List.range n).map (fun i => P.Shake key custom (pos + i))

/-! ## The MAC generator (IMac) -/

/-- The state of a MAC generator: whether it is keyed, its key, and the bytes absorbed
since it was keyed. -/
structure MacState where
  Initialized : Bool
  Key : List Nat
  Absorbed : List Nat
  deriving DecidableEq, Repr

namespace IMac

/-- The MAC code of the absorbed bytes: `TagSize` bytes. -/
def Code (P : Primitives) (m : MacState) : List Nat :=
  (List.range P.TagSize).map (P.MacCode m.Key m.Absorbed)

/-- Modelled from the spec: the MAC classes behind `IMac` are not among the sources.
`init(key)` keys the generator and empties its input. -/
def Initialize (key : List Nat) : MacState :=
  { Initialized := true, Key := key, Absorbed := [] }

/-- Modelled from the spec: `update(data)` is a streaming absorb. As in `GMAC::Update`,
an unkeyed generator raises `IllegalOperation` and a range outside `Input` raises
`InvalidSize`. -/
def Update (m : MacState) (Input : List Nat) (InOffset Length : Nat) :
    Except ErrorCodes MacState :=
  if m.Initialized = false then .error .IllegalOperation
  else if Input.length < InOffset + Length then .error .InvalidSize
  else .ok { m with Absorbed := m.Absorbed ++ slice Input InOffset Length }

/-- Modelled from the spec: `finalize(dst)` writes a fixed-length tag and the generator
returns to the uninitialized state. As in `GMAC::Finalize`, an unkeyed generator raises
`IllegalOperation` and a short `Output` raises `InvalidSize`. -/
def Finalize (P : Primitives) (m : MacState) (Output : List Nat) (OutOffset : Nat) :
    Except ErrorCodes (MacState × List Nat) :=
  if m.Initialized = false then .error .IllegalOperation
  else if Output.length < OutOffset + P.TagSize then .error .InvalidSize
  else .ok ({ m with Initialized := false, Absorbed := [] },
            writeAt Output OutOffset (Code P m))

/-- Modelled from the spec: `Reset` empties the input of the generator, as `GMAC::Reset`
does. -/
def Reset (m : MacState) : MacState :=
  { m with Absorbed := [] }

end IMac

/-! ## TSX1024 -/

/-- Modelled from the spec: `TSX1024.h` is not among the sources. The block is 128 bytes
(sixteen 64-bit words). -/
def BLOCK_SIZE : Nat := 128

/-- Modelled from the spec: the tweak, and so the info field, is 16 bytes. -/
def INFO_SIZE : Nat := 16

/-- Modelled from the spec: the key is 128 bytes. -/
def KEY_SIZE : Nat := 128

/-- Modelled from the spec: the nonce is two 64-bit words. -/
def NONCE_SIZE : Nat := 2

/-- `TSX1024::CLASS_NAME`, the ASCII bytes of "TSX1024". -/
def CLASS_NAME : List Nat := [0x54, 0x53, 0x58, 0x31, 0x30, 0x32, 0x34]

/-- `TSX1024::OMEGA_INFO`, the default tweak. -/
def OMEGA_INFO : List Nat :=
  [0x54, 0x68, 0x72, 0x65, 0x65, 0x66, 0x69, 0x73, 0x68, 0x31, 0x30, 0x32, 0x34, 0x31, 0x32, 0x30]

/-- `TSX1024::TSX1024State`. -/
structure TSX1024State where
  Key : List Nat
  Nonce : Nat × Nat
  Tweak : Nat × Nat
  Custom : List Nat
  MacKey : List Nat
  MacTag : List Nat
  Counter : Nat
  Encryption : Bool
  Initialized : Bool
  deriving DecidableEq, Repr

/-- The state a `TSX1024State` is constructed with. -/
def TSX1024State.new : TSX1024State :=
  { Key := List.replicate 16 0, Nonce := (0, 0), Tweak := (0, 0), Custom := [], MacKey := [],
    MacTag := [], Counter := 0, Encryption := false, Initialized := false }

/-- `TSX1024State::Reset`. -/
def TSX1024State.Reset (s : TSX1024State) : TSX1024State :=
  { Key := MemoryTools.Clear s.Key, Nonce := (0, 0), Tweak := (0, 0),
    Custom := MemoryTools.Clear s.Custom, MacKey := MemoryTools.Clear s.MacKey,
    MacTag := MemoryTools.Clear s.MacTag, Counter := 0, Encryption := false,
    Initialized := false }

/-- The fields of `ParallelOptions` that TSX1024 reads (the class is not among the
sources). -/
structure ParallelOptions where
  IsParallel : Bool
  ParallelBlockSize : Nat
  ParallelMinimumSize : Nat
  ParallelMaximumSize : Nat
  ParallelMaxDegree : Nat
  ProcessorCount : Nat
  deriving DecidableEq, Repr

/-- The members of a `TSX1024` object: the cipher state, the MAC generator (`none` for
the null pointer of an unauthenticated cipher) and the parallel profile. -/
structure TSX1024 where
  State : TSX1024State
  Mac : Option MacState
  Profile : ParallelOptions
  deriving DecidableEq, Repr

/-- The key container `ISymmetricKey`: key, nonce and info. -/
structure SymmetricKey where
  Key : List Nat
  Nonce : List Nat
  Info : List Nat
  deriving DecidableEq, Repr

namespace TSX1024

/-- `TSX1024::IsAuthenticator`. -/
def IsAuthenticator (c : TSX1024) : Bool := c.Mac.isSome

/-- `TSX1024::IsEncryption`. -/
def IsEncryption (c : TSX1024) : Bool := c.State.Encryption

/-- `TSX1024::IsInitialized`. -/
def IsInitialized (c : TSX1024) : Bool := c.State.Initialized

/-- `TSX1024::Name`: the class name, followed by "-" and the name of the MAC generator
when there is one. -/
def Name (P : Primitives) (c : TSX1024) : List Nat :=
  if c.IsAuthenticator then CLASS_NAME ++ [0x2D] ++ P.MacName else CLASS_NAME

/-- `TSX1024::TagSize`. -/
def TagSize (P : Primitives) (c : TSX1024) : Nat :=
  if c.IsAuthenticator then P.TagSize else 0

/-- `TSX1024::Reset`. -/
def Reset (c : TSX1024) : TSX1024 :=
  { c with State := c.State.Reset, Mac := c.Mac.map IMac.Reset }

/-- `TSX1024::TSX1024(AuthenticatorType)`: a fresh state, a MAC generator that is not keyed
yet unless the authenticator type is `None` (`auth = false`), and the parallel profile,
whose values are set by `ParallelOptions`. -/
def new (auth : Bool) (Profile : ParallelOptions) : TSX1024 :=
  { State := TSX1024State.new
    Mac := if auth then some { Initialized := false, Key := [], Absorbed := [] } else none
    Profile := Profile }

/-- The little-endian bytes of the sixteen words of a permuted block: what
`MemoryTools::Copy(tmp, 0, Output, …)` reads from the `std::array<ulong, 16>` on the
little-endian targets of the library. -/
def BlockBytes (tmp : Nat → Nat) : List Nat :=
  (List.range BLOCK_SIZE).map (fun j => (tmp (j / 8) >>> (8 * (j % 8))) % 256)

/-- The loop `while (ctr != ALNLEN)` of `TSX1024::Generate`, with the number of
iterations it may still take; `none` when a copy leaves `Output` or when the iterations
are used up before the loop ends. It returns `ctr`, the counter and the output. -/
def GenerateLoop (P : Primitives) (Key : List Nat) (Tweak : Nat × Nat) (OutOffset ALNLEN : Nat) :
    Nat → Nat → Nat × Nat → List Nat → Option (Nat × (Nat × Nat) × List Nat)
  | 0, ctr, Counter, Output => if ctr ≠ ALNLEN then none else some (ctr, Counter, Output)
  | fuel + 1, ctr, Counter, Output =>
    if ctr ≠ ALNLEN then
      match MemoryTools.Copy (BlockBytes (P.Permute Key Counter Tweak)) 0 Output
          (OutOffset + ctr) BLOCK_SIZE with
      | none => none
      | some out =>
        GenerateLoop P Key Tweak OutOffset ALNLEN fuel (ctr + BLOCK_SIZE)
          (IntegerTools.LeIncrementW Counter) out
    else some (ctr, Counter, Output)

/-- `TSX1024::Generate` (scalar section): key stream of `Length` bytes written to
`Output` at `OutOffset`, from the counter `Counter`; it returns the advanced counter and
the output. The loop runs `Length / BLOCK_SIZE` times. -/
def Generate (P : Primitives) (State : TSX1024State) (Counter : Nat × Nat) (Output : List Nat)
    (OutOffset Length : Nat) : Option ((Nat × Nat) × List Nat) :=
  let ALNLEN := Length - (Length % BLOCK_SIZE)
  match GenerateLoop P State.Key State.Tweak OutOffset ALNLEN (Length / BLOCK_SIZE) 0
      Counter Output with
  | none => none
  | some (ctr, Counter, Output) =>
    if ctr ≠ Length then
      let FNLLEN := Length % BLOCK_SIZE
      match MemoryTools.Copy (BlockBytes (P.Permute State.Key Counter State.Tweak)) 0 Output
          (OutOffset + ctr) FNLLEN with
      | none => none
      | some out => some (IntegerTools.LeIncrementW Counter, out)
    else some (Counter, Output)

/-- The loop `for (i = …; …; ++i) Output[i + OutBase] ^= Input[i + InBase];` run for `n`
iterations from index `i`. -/
def XorLoop (Input : List Nat) (InBase OutBase : Nat) : Nat → Nat → List Nat → Option (List Nat)
  | _, 0, Output => some Output
  | i, n + 1, Output =>
    if i + OutBase < Output.length ∧ i + InBase < Input.length then
      XorLoop Input InBase OutBase (i + 1) n
        (Output.set (i + OutBase) (Output.getD (i + OutBase) 0 ^^^ Input.getD (i + InBase) 0))
    else none

/-- The sequential branch of `TSX1024::Process`. -/
def ProcessSequential (P : Primitives) (c : TSX1024) (Input : List Nat) (InOffset : Nat)
    (Output : List Nat) (OutOffset PRCLEN : Nat) : Option (TSX1024 × List Nat) :=
  match Generate P c.State c.State.Nonce Output OutOffset PRCLEN with
  | none => none
  | some (nonce, out) =>
    let c1 : TSX1024 := { c with State := { c.State with Nonce := nonce } }
    let ALNLEN := PRCLEN - (PRCLEN % BLOCK_SIZE)
    match (if ALNLEN ≠ 0 then MemoryTools.XOR Input InOffset out OutOffset ALNLEN
           else some out) with
    | none => none
    | some out1 =>
      if ALNLEN ≠ PRCLEN then
        match XorLoop Input InOffset OutOffset ALNLEN (PRCLEN - ALNLEN) out1 with
        | none => none
        | some out2 => some (c1, out2)
      else some (c1, out1)

/-- The body of the `ParallelFor` lambda of `TSX1024::Process` for thread `i`: it returns
the thread counter after the chunk and the output. -/
def ProcessThread (P : Primitives) (c : TSX1024) (Input : List Nat) (InOffset OutOffset : Nat)
    (CNKLEN CTROFT i : Nat) (Output : List Nat) : Option ((Nat × Nat) × List Nat) :=
  let thdCtr := IntegerTools.LeIncreaseW c.State.Nonce (CTROFT * i)
  let STMPOS := i * CNKLEN
  match Generate P c.State thdCtr Output (OutOffset + STMPOS) CNKLEN with
  | none => none
  | some (thdCtr1, out) =>
    match MemoryTools.XOR Input (InOffset + STMPOS) out (OutOffset + STMPOS) CNKLEN with
    | none => none
    | some out1 => some (thdCtr1, out1)

/-- `ParallelTools::ParallelFor(0, n, …)` of `TSX1024::Process`: the threads `0 .. n - 1`
write disjoint chunks of `Output`, so they are run here in index order; the thread
`ParallelMaxDegree() - 1` stores its counter in `tmpCtr`. -/
def ProcessThreads (P : Primitives) (c : TSX1024) (Input : List Nat) (InOffset OutOffset : Nat)
    (CNKLEN CTROFT : Nat) : Nat → Nat × Nat → List Nat → Option ((Nat × Nat) × List Nat)
  | 0, tmpCtr, Output => some (tmpCtr, Output)
  | n + 1, tmpCtr, Output =>
    match ProcessThreads P c Input InOffset OutOffset CNKLEN CTROFT n tmpCtr Output with
    | none => none
    | some (tmpCtr1, out) =>
      match ProcessThread P c Input InOffset OutOffset CNKLEN CTROFT n out with
      | none => none
      | some (thdCtr, out1) =>
        some (if n = c.Profile.ParallelMaxDegree - 1 then thdCtr else tmpCtr1, out1)

/-- The parallel branch of `TSX1024::Process`. A division by zero (`ParallelMaxDegree()`
or `RNDLEN` zero) is undefined. -/
def ProcessParallel (P : Primitives) (c : TSX1024) (Input : List Nat) (InOffset : Nat)
    (Output : List Nat) (OutOffset PRCLEN : Nat) : Option (TSX1024 × List Nat) :=
  if c.Profile.ParallelMaxDegree = 0 then none
  else
    let CNKLEN := (PRCLEN / BLOCK_SIZE / c.Profile.ParallelMaxDegree) * BLOCK_SIZE
    let RNDLEN := CNKLEN * c.Profile.ParallelMaxDegree
    let CTROFT := CNKLEN / BLOCK_SIZE
    match ProcessThreads P c Input InOffset OutOffset CNKLEN CTROFT
        c.Profile.ParallelMaxDegree (0, 0) Output with
    | none => none
    | some (tmpCtr, out) =>
      let c1 : TSX1024 := { c with State := { c.State with Nonce := tmpCtr } }
      if RNDLEN < PRCLEN then
        if RNDLEN = 0 then none
        else
          let FNLLEN := PRCLEN % RNDLEN
          match Generate P c1.State c1.State.Nonce out RNDLEN FNLLEN with
          | none => none
          | some (nonce, out1) =>
            let c2 : TSX1024 := { c1 with State := { c1.State with Nonce := nonce } }
            match XorLoop Input (InOffset + RNDLEN) (OutOffset + RNDLEN) 0 FNLLEN out1 with
            | none => none
            | some out2 => some (c2, out2)
      else some (c1, out)

/-- `TSX1024::Process`. -/
def Process (P : Primitives) (c : TSX1024) (Input : List Nat) (InOffset : Nat)
    (Output : List Nat) (OutOffset Length : Nat) : Option (TSX1024 × List Nat) :=
  if c.Profile.IsParallel = false ∨ Length < c.Profile.ParallelMinimumSize then
    ProcessSequential P c Input InOffset Output OutOffset Length
  else
    ProcessParallel P c Input InOffset Output OutOffset Length

/-- `m_macAuthenticator->Update(Input, Offset, Length)` inside a call that holds the cipher
and the caller's `Output`; a null authenticator is undefined. -/
def MacUpdate (Input : List Nat) (Offset Length : Nat) (w : TSX1024 × List Nat) :
    Outcome (TSX1024 × List Nat) :=
  match w.1.Mac with
  | none => .undefined
  | some m =>
    match IMac.Update m Input Offset Length with
    | .error e => .throw e w
    | .ok m1 => .ok ({ w.1 with Mac := some m1 }, w.2)

/-- `TSX1024::Finalize(State, Authenticator)`: the MAC code goes to `State->MacTag`, the
counter to the first eight bytes of `State->Custom`, and a new MAC key is drawn from
cSHAKE keyed with the stored MAC key, with which the generator is keyed again. -/
def Finalize (P : Primitives) (c : TSX1024) : Outcome TSX1024 :=
  match c.Mac with
  | none => .undefined
  | some m =>
    match IMac.Finalize P m c.State.MacTag 0 with
    | .error e => .throw e c
    | .ok (_, tag) =>
      match IntegerTools.Le64ToBytes c.State.Counter c.State.Custom 0 with
      | none => .undefined
      | some custom =>
        let mack := ShakeGenerate P c.State.MacKey custom 0 P.MacKeySize
        match MemoryTools.Copy mack 0 c.State.MacKey 0 mack.length with
        | none => .undefined
        | some mackey =>
          .ok { c with
                State := { c.State with MacTag := tag, Custom := custom, MacKey := mackey }
                Mac := some (IMac.Initialize mack) }

/-- `TSX1024::Process` as a step of `Transform`. -/
def ProcessStep (P : Primitives) (Input : List Nat) (InOffset OutOffset Length : Nat)
    (w : TSX1024 × List Nat) : Outcome (TSX1024 × List Nat) :=
  match Process P w.1 Input InOffset w.2 OutOffset Length with
  | none => .undefined
  | some r => .ok r

/-- The step `m_tsx1024State->Counter += Length;`. -/
def AddCounter (Length : Nat) (w : TSX1024 × List Nat) : Outcome (TSX1024 × List Nat) :=
  .ok ({ w.1 with State := { w.1.State with Counter := (w.1.State.Counter + Length) % 2 ^ 64 } },
       w.2)

/-- `TSX1024::Finalize` as a step of `Transform`. -/
def FinalizeStep (P : Primitives) (w : TSX1024 × List Nat) : Outcome (TSX1024 × List Nat) :=
  match Finalize P w.1 with
  | .ok c => .ok (c, w.2)
  | .throw e c => .throw e (c, w.2)
  | .undefined => .undefined

/-- The step `MemoryTools::Copy(MacTag, 0, Output, OutOffset + Length, MacTag.size())`. -/
def AppendTag (OutOffset Length : Nat) (w : TSX1024 × List Nat) :
    Outcome (TSX1024 × List Nat) :=
  match MemoryTools.Copy w.1.State.MacTag 0 w.2 (OutOffset + Length) w.1.State.MacTag.length with
  | none => .undefined
  | some out => .ok (w.1, out)

/-- The step of the decryption branch that compares the tag after the ciphertext with
`MacTag` and raises `AuthenticationFailure` when they differ. -/
def VerifyTag (Input : List Nat) (InOffset Length : Nat) (w : TSX1024 × List Nat) :
    Outcome (TSX1024 × List Nat) :=
  match IntegerTools.Compare Input (InOffset + Length) w.1.State.MacTag 0
      w.1.State.MacTag.length with
  | none => .undefined
  | some true => .ok w
  | some false => .throw .AuthenticationFailure w

/-- `TSX1024::Transform`. The result holds the cipher and the caller's `Output`. The size
test of the encryption branch is computed in `size_t`. -/
def Transform (P : Primitives) (c : TSX1024) (Input : List Nat) (InOffset : Nat)
    (Output : List Nat) (OutOffset Length : Nat) : Outcome (TSX1024 × List Nat) :=
  if c.IsEncryption then
    if c.IsAuthenticator then
      if Output.length < (Length + OutOffset + P.TagSize) % 2 ^ 64 then
        .throw .InvalidSize (c, Output)
      else
        (MacUpdate (IntegerTools.Le64Bytes c.State.Nonce.1) 0 8 (c, Output)).andThen fun w =>
        (MacUpdate (IntegerTools.Le64Bytes c.State.Nonce.2) 0 8 w).andThen fun w =>
        (ProcessStep P Input InOffset OutOffset Length w).andThen fun w =>
        (MacUpdate w.2 OutOffset Length w).andThen fun w =>
        (AddCounter Length w).andThen fun w =>
        (FinalizeStep P w).andThen fun w =>
        AppendTag OutOffset Length w
    else
      ProcessStep P Input InOffset OutOffset Length (c, Output)
  else
    if c.IsAuthenticator then
      (MacUpdate (IntegerTools.Le64Bytes c.State.Nonce.1) 0 8 (c, Output)).andThen fun w =>
      (MacUpdate (IntegerTools.Le64Bytes c.State.Nonce.2) 0 8 w).andThen fun w =>
      (MacUpdate Input InOffset Length w).andThen fun w =>
      (AddCounter Length w).andThen fun w =>
      (FinalizeStep P w).andThen fun w =>
      (VerifyTag Input InOffset Length w).andThen fun w =>
      ProcessStep P Input InOffset OutOffset Length w
    else
      ProcessStep P Input InOffset OutOffset Length (c, Output)

/-- `TSX1024::SetAssociatedData`. -/
def SetAssociatedData (c : TSX1024) (Input : List Nat) (Offset Length : Nat) : Outcome TSX1024 :=
  if c.IsInitialized = false then .throw .NotInitialized c
  else
    match c.Mac with
    | none => .throw .IllegalOperation c
    | some m =>
      match IMac.Update m Input Offset Length with
      | .error e => .throw e c
      | .ok m1 => .ok { c with Mac := some m1 }

/-- The sixteen assignments `Key[i] = LeBytesTo64(k, 8 * i)` of `TSX1024::Initialize`. -/
def LoadKey (k : List Nat) : Option (List Nat) :=
  (List.range 16).foldr
    (fun i acc =>
      match IntegerTools.LeBytesTo64 k (8 * i), acc with
      | some w, some ws => some (w :: ws)
      | _, _ => none)
    (some [])

/-- The part of `TSX1024::Initialize` that loads the tweak: from the info field when its
size is not zero, otherwise from `OMEGA_INFO`. -/
def LoadTweak (Info : List Nat) : Option (Nat × Nat) :=
  if Info.length ≠ 0 then
    match IntegerTools.LeBytesTo64 Info 0, IntegerTools.LeBytesTo64 Info 8 with
    | some t0, some t1 => some (t0, t1)
    | _, _ => none
  else
    match IntegerTools.LeBytesTo64 OMEGA_INFO 0, IntegerTools.LeBytesTo64 OMEGA_INFO 8 with
    | some t0, some t1 => some (t0, t1)
    | _, _ => none

/-- The authenticated branch of `TSX1024::Initialize`: the counter is set to one, the
customization string is built, the cipher key and the MAC key are drawn from cSHAKE and
the MAC generator is keyed. -/
def InitializeAuth (P : Primitives) (c : TSX1024) (Parameters : SymmetricKey) : Option TSX1024 :=
  let name := Name P c
  let custom0 := resize c.State.Custom (8 + name.length)
  match IntegerTools.Le64ToBytes 1 custom0 0 with
  | none => none
  | some custom1 =>
    match MemoryTools.Copy name 0 custom1 8 name.length with
    | none => none
    | some custom =>
      let ck := ShakeGenerate P Parameters.Key custom 0 KEY_SIZE
      match LoadKey ck with
      | none => none
      | some key =>
        let mack := ShakeGenerate P Parameters.Key custom KEY_SIZE P.MacKeySize
        match MemoryTools.Copy mack 0 (resize c.State.MacKey mack.length) 0 mack.length with
        | none => none
        | some mackey =>
          some { c with
                 State := { c.State with
                            Counter := 1, Custom := custom, Key := key, MacKey := mackey,
                            MacTag := resize c.State.MacTag (TagSize P c) }
                 Mac := some (IMac.Initialize mack) }

/-- `TSX1024::Initialize`. -/
def Initialize (P : Primitives) (c : TSX1024) (Encryption : Bool) (Parameters : SymmetricKey) :
    Outcome TSX1024 :=
  if Parameters.Key.length ≠ KEY_SIZE then .throw .InvalidKey c
  else if Parameters.Nonce.length ≠ NONCE_SIZE * 8 then .throw .InvalidNonce c
  else if Parameters.Info.length > 0 ∧ Parameters.Info.length > INFO_SIZE then
    .throw .InvalidInfo c
  else if c.Profile.IsParallel = true ∧
      (c.Profile.ParallelBlockSize < c.Profile.ParallelMinimumSize ∨
        c.Profile.ParallelBlockSize > c.Profile.ParallelMaximumSize) then
    .throw .InvalidSize c
  else if c.Profile.IsParallel = true ∧ c.Profile.ParallelMinimumSize = 0 then .undefined
  else if c.Profile.IsParallel = true ∧
      c.Profile.ParallelBlockSize % c.Profile.ParallelMinimumSize ≠ 0 then
    .throw .InvalidParam c
  else
    let c0 := if c.IsInitialized then Reset c else c
    match IntegerTools.LeBytesTo64 Parameters.Nonce 0,
          IntegerTools.LeBytesTo64 Parameters.Nonce 8 with
    | some n0, some n1 =>
      match LoadTweak Parameters.Info with
      | none => .undefined
      | some tweak =>
        let c1 : TSX1024 := { c0 with State := { c0.State with Nonce := (n0, n1), Tweak := tweak } }
        match (if c1.IsAuthenticator = false then
                 (LoadKey Parameters.Key).map
                   (fun key => ({ c1 with State := { c1.State with Key := key } } : TSX1024))
               else InitializeAuth P c1 Parameters) with
        | none => .undefined
        | some c2 =>
          .ok { c2 with State := { c2.State with Encryption := Encryption, Initialized := true } }
    | _, _ => .undefined

/-! ### Reference functions used to state the properties -/

/-- The 128-bit value of a counter of two words, word 0 being the low half. -/
def CounterValue (c : Nat × Nat) : Nat := c.1 + 2 ^ 64 * c.2

/-- The counter of two 64-bit words that holds `v` modulo `2 ^ 128`. -/
def CounterOfValue (v : Nat) : Nat × Nat := (v % 2 ^ 64, v / 2 ^ 64 % 2 ^ 64)

/-- Both words of a counter are 64-bit values. -/
def WordsOk (c : Nat × Nat) : Prop := c.1 < 2 ^ 64 ∧ c.2 < 2 ^ 64

instance (c : Nat × Nat) : Decidable (WordsOk c) := by
  unfold WordsOk; exact inferInstance

/-- Byte `i` of the key stream that starts at counter `c`: byte `i mod 128` of the
little-endian serialization of the permutation of the counter value `c + i / 128`. -/
def KeyStreamByte (P : Primitives) (Key : List Nat) (Tweak c : Nat × Nat) (i : Nat) : Nat :=
  (BlockBytes (P.Permute Key (CounterOfValue (CounterValue c + i / BLOCK_SIZE)) Tweak)).getD
    (i % BLOCK_SIZE) 0

/-- The first `L` bytes of the key stream that starts at counter `c`. -/
def KeyStream (P : Primitives) (Key : List Nat) (Tweak c : Nat × Nat) (L : Nat) : List Nat :=
  (List.range L).map (KeyStreamByte P Key Tweak c)

/-- The parallel profile passes the tests of `Initialize`: parallel processing is off, or
the parallel block size lies between the minimum and the maximum size and is a multiple
of the minimum size. -/
def ProfileOk (p : ParallelOptions) : Prop :=
  p.IsParallel = true →
    p.ParallelMinimumSize ≤ p.ParallelBlockSize ∧ p.ParallelBlockSize ≤ p.ParallelMaximumSize ∧
      p.ParallelMinimumSize ≠ 0 ∧ p.ParallelBlockSize % p.ParallelMinimumSize = 0

/-- The object that `Initialize` works on after its size tests: `Reset` is called when the
cipher was initialized before. -/
def Restarted (c : TSX1024) : TSX1024 :=
  if c.IsInitialized then Reset c else c

/-- An authenticated cipher ready for a `Transform` call, with MAC generator `m`: the
generator is keyed, the tag buffer has the tag size, the customization buffer holds at
least the eight counter bytes and the stored MAC key has the MAC key size. -/
def AuthReady (P : Primitives) (c : TSX1024) (m : MacState) : Prop :=
  c.Mac = some m ∧ m.Initialized = true ∧ c.State.MacTag.length = P.TagSize ∧
    8 ≤ c.State.Custom.length ∧ c.State.MacKey.length = P.MacKeySize

/-- The cipher `c` after a `Transform` call of length `L` has fed `msg` to the MAC
generator `m`, added `L` to the MAC counter and run `Finalize`. -/
def Rekeyed (P : Primitives) (c : TSX1024) (m : MacState) (msg : List Nat) (L : Nat) : TSX1024 :=
  let counter := (c.State.Counter + L) % 2 ^ 64
  let custom := writeAt c.State.Custom 0 (IntegerTools.Le64Bytes counter)
  let mack := ShakeGenerate P c.State.MacKey custom 0 P.MacKeySize
  { c with
    State := { c.State with
               Counter := counter, Custom := custom,
               MacKey := writeAt c.State.MacKey 0 mack,
               MacTag := writeAt c.State.MacTag 0
                 (IMac.Code P { m with Absorbed := m.Absorbed ++ msg }) }
    Mac := some (IMac.Initialize mack) }

end TSX1024

/-! ## Concrete inputs used to instantiate the theorems -/

/-- A choice of primitives: simple arithmetic stands for the permutation, the cSHAKE
stream and the MAC code (a MAC code that depends on the first bytes of the message and
on its length); tags are 4 bytes, MAC keys 6 bytes, the MAC is named "K". -/
def SamplePrimitives : Primitives :=
  { Permute := fun k c t i => (k.getD i 0 + c.1 * 3 + c.2 * 7 + t.1 + i * 0x0102030405060708) % 2 ^ 64
    Shake := fun k c i => (k.getD (i % 128) 0 + c.getD (i % 8) 0 + i) % 256
    MacCode := fun k m i => (k.getD i 0 + m.getD i 0 + m.length) % 256
    TagSize := 4
    MacKeySize := 6
    MacName := [0x4B] }

/-- A parallel profile with parallel processing switched off. -/
def SequentialProfile : ParallelOptions :=
  { IsParallel := false, ParallelBlockSize := 1024, ParallelMinimumSize := 256,
    ParallelMaximumSize := 4096, ParallelMaxDegree := 2, ProcessorCount := 2 }

/-- A parallel profile with two threads and a minimum parallel size of two blocks. -/
def ParallelProfile : ParallelOptions :=
  { IsParallel := true, ParallelBlockSize := 1024, ParallelMinimumSize := 256,
    ParallelMaximumSize := 4096, ParallelMaxDegree := 2, ProcessorCount := 2 }

/-- A key container with a 128-byte key, a 16-byte nonce and no info. -/
def SampleKey : SymmetricKey :=
  { Key := (List.range 128).map (fun i => (3 * i + 1) % 256)
    Nonce := (List.range 16).map (fun i => i + 1)
    Info := [] }

/-- The object of a normal return; `d` stands for the other outcomes. -/
def Outcome.get {σ : Type} (x : Outcome σ) (d : σ) : σ :=
  match x with
  | .ok s => s
  | _ => d

/-- The authenticated cipher initialized for encryption with the sample key. -/
def SampleEncryptor : TSX1024 :=
  (TSX1024.Initialize SamplePrimitives (TSX1024.new true SequentialProfile) true SampleKey).get
    (TSX1024.new true SequentialProfile)

/-- The authenticated cipher initialized for decryption with the sample key. -/
def SampleDecryptor : TSX1024 :=
  (TSX1024.Initialize SamplePrimitives (TSX1024.new true SequentialProfile) false SampleKey).get
    (TSX1024.new true SequentialProfile)

/-- The set-up of the round trip: a cipher is initialized and, when it has an
authenticator, given the associated data. -/
def TSX1024.Keyed (P : Primitives) (c : TSX1024) (Encryption : Bool) (Parameters : SymmetricKey)
    (aad : List Nat) : Outcome TSX1024 :=
  (TSX1024.Initialize P c Encryption Parameters).andThen fun c1 =>
    if c1.IsAuthenticator then TSX1024.SetAssociatedData c1 aad 0 aad.length else .ok c1

/-- The sample primitives with a MAC code that returns the first 21 bytes of the message
it is computed over, so that the tag shows what the generator absorbed. -/
def EchoPrimitives : Primitives :=
  { SamplePrimitives with
    MacCode := fun _ m i => m.getD i 0
    TagSize := 21 }

/-- A message of 257 bytes: two blocks and one byte. -/
def SampleMessage : List Nat :=
  (List.range 257).map (fun i => (5 * i + 2) % 256)

/-! ## Further members of `IntegerTools` and `TSX1024` -/

namespace IntegerTools

/-- The second loop of `IntegerTools::LeIncrease8`, run for `n` iterations from the index
`lctr` with the carry `carry`; `cinc` holds the bytes of the value, low byte first. The sum
`odst + osrc + carry` is cast to a byte, and the carry is `ndst < odst ? 1 : 0`. -/
def LeIncrease8Loop (cinc : List Nat) : Nat → Nat → Nat → List Nat → List Nat
  | 0, _, _, Output => Output
  | n + 1, lctr, carry, Output =>
    let odst := Output.getD lctr 0
    let osrc := if lctr < cinc.length then cinc.getD lctr 0 else 0
    let ndst := (odst + osrc + carry) % 256
    LeIncrease8Loop cinc n (lctr + 1) (if ndst < odst then 1 else 0) (Output.set lctr ndst)

/-- `IntegerTools::LeIncrease8(Output, Value)` for a value type `T` of `size` bytes (2, 4
or 8): the first loop stores the bytes of the value in `cinc`, the second adds them to
`Output`, which runs over all of `Output`. -/
def LeIncrease8 (Output : List Nat) (size Value : Nat) : List Nat :=
  let cinc := (List.range size).map (fun lctr => (Value >>> (lctr * 8)) % 256)
  LeIncrease8Loop cinc Output.length 0 0 Output

/-- The loop of `IntegerTools::CMov`, run for `n` iterations from the index `i`:
`R[ROffset + i] ^= Condition & (X[XOffset + i] ^ R[ROffset + i])`; `none` when an index
leaves an array. -/
def CMovLoop (X : List Nat) (ROffset XOffset Condition : Nat) :
    Nat → Nat → List Nat → Option (List Nat)
  | _, 0, R => some R
  | i, n + 1, R =>
    if ROffset + i < R.length ∧ XOffset + i < X.length then
      CMovLoop X ROffset XOffset Condition (i + 1) n
        (R.set (ROffset + i)
          (R.getD (ROffset + i) 0 ^^^
            (Condition &&& (X.getD (XOffset + i) 0 ^^^ R.getD (ROffset + i) 0))))
    else none

/-- `IntegerTools::CMov`: the condition byte is replaced by `~Condition + 1` cast to a
byte, that is its negation modulo 256, and the loop runs with it as the mask. -/
def CMov (R : List Nat) (ROffset : Nat) (X : List Nat) (XOffset Length Condition : Nat) :
    Option (List Nat) :=
  CMovLoop X ROffset XOffset ((255 - Condition + 1) % 256) 0 Length R

end IntegerTools

/-- The integer that a byte array holds when it is read as a little-endian number. -/
def LeValue : List Nat → Nat
  | [] => 0
  | b :: bs => b + 256 * LeValue bs

/-- The little-endian byte array of `n` bytes that holds `v` modulo `2 ^ (8 * n)`. -/
def LeBytes : Nat → Nat → List Nat
  | 0, _ => []
  | n + 1, v => v % 256 :: LeBytes n (v / 256)

namespace TSX1024

/-- `TSX1024::ParallelMaxDegree`. `SetMaxDegree` stands for the member of that name of
`ParallelOptions`, a class that is not among the sources. -/
def ParallelMaxDegree (SetMaxDegree : ParallelOptions → Nat → ParallelOptions) (c : TSX1024)
    (Degree : Nat) : Outcome TSX1024 :=
  if Degree = 0 ∨ Degree % 2 ≠ 0 ∨ Degree > c.Profile.ProcessorCount then
    .throw .NotSupported c
  else .ok { c with Profile := SetMaxDegree c.Profile Degree }

end TSX1024

/-- A `SetMaxDegree` that stores the degree and leaves the other values of the profile. -/
def StoreMaxDegree (p : ParallelOptions) (Degree : Nat) : ParallelOptions :=
  { p with ParallelMaxDegree := Degree }

/-- The unauthenticated cipher initialized for encryption with the sample key. -/
def SamplePlainEncryptor : TSX1024 :=
  (TSX1024.Initialize SamplePrimitives (TSX1024.new false SequentialProfile) true SampleKey).get
    (TSX1024.new false SequentialProfile)

/-! ## Further members of `IntegerTools`: loads, stores, increments and selectors -/

namespace IntegerTools

/-- `IntegerTools::LeBytesTo16`: the 16-bit word whose little-endian bytes are
`Input[InOffset .. InOffset + 2)`. The source asserts
`(Input.size() - InOffset) >= sizeof(ushort)`. -/
def LeBytesTo16 (Input : List Nat) (InOffset : Nat) : Option Nat :=
  if InOffset + 2 ≤ Input.length then
    some (Input.getD InOffset 0 ||| (Input.getD (InOffset + 1) 0 <<< 8))
  else none

/-- `IntegerTools::LeBytesTo32`: the 32-bit word whose little-endian bytes are
`Input[InOffset .. InOffset + 4)`. The source asserts
`(Input.size() - InOffset) >= sizeof(uint)`. -/
def LeBytesTo32 (Input : List Nat) (InOffset : Nat) : Option Nat :=
  if InOffset + 4 ≤ Input.length then
    some (Input.getD InOffset 0
      ||| (Input.getD (InOffset + 1) 0 <<< 8)
      ||| (Input.getD (InOffset + 2) 0 <<< 16)
      ||| (Input.getD (InOffset + 3) 0 <<< 24))
  else none

/-- `IntegerTools::Le16ToBytes(Value, Output, OutOffset)`: `Output[OutOffset]` is
`static_cast<byte>(Value)` and `Output[OutOffset + 1]` is `static_cast<byte>(Value >> 8)`.
The source asserts `(Output.size() - OutOffset) >= sizeof(ushort)`. -/
def Le16ToBytes (Value : Nat) (Output : List Nat) (OutOffset : Nat) : Option (List Nat) :=
  if OutOffset + 2 ≤ Output.length then
    some (writeAt Output OutOffset [Value % 256, (Value >>> 8) % 256])
  else none

/-- `IntegerTools::Le32ToBytes(Value, Output, OutOffset)`: the four bytes
`static_cast<byte>(Value >> 8 * i)` are stored at `Output[OutOffset + i]`. The source
asserts `(Output.size() - OutOffset) >= sizeof(uint)`. -/
def Le32ToBytes (Value : Nat) (Output : List Nat) (OutOffset : Nat) : Option (List Nat) :=
  if OutOffset + 4 ≤ Output.length then
    some (writeAt Output OutOffset
      [Value % 256, (Value >>> 8) % 256, (Value >>> 16) % 256, (Value >>> 24) % 256])
  else none

/-- `IntegerTools::BeBytesTo64`: the 64-bit word whose big-endian bytes are
`Input[InOffset .. InOffset + 8)`. The source asserts
`(Input.size() - InOffset) >= sizeof(ulong)`. -/
def BeBytesTo64 (Input : List Nat) (InOffset : Nat) : Option Nat :=
  if InOffset + 8 ≤ Input.length then
    some ((Input.getD InOffset 0 <<< 56)
      ||| (Input.getD (InOffset + 1) 0 <<< 48)
      ||| (Input.getD (InOffset + 2) 0 <<< 40)
      ||| (Input.getD (InOffset + 3) 0 <<< 32)
      ||| (Input.getD (InOffset + 4) 0 <<< 24)
      ||| (Input.getD (InOffset + 5) 0 <<< 16)
      ||| (Input.getD (InOffset + 6) 0 <<< 8)
      ||| Input.getD (InOffset + 7) 0)
  else none

/-- The loop `while (--i >= 0 && ++Output[i] == 0) {}` of `IntegerTools::LeIncrement` on
elements of `w` bits; the first argument is the value of `i` before the decrement. -/
def LeIncrementLoop (w : Nat) : Nat → List Nat → List Nat
  | 0, Output => Output
  | i + 1, Output =>
    let v := (Output.getD i 0 + 1) % 2 ^ w
    if v = 0 then LeIncrementLoop w i (Output.set i v) else Output.set i v

/-- `IntegerTools::LeIncrement(Output)` on an array of `w`-bit elements:
`int i = Output.size(); while (--i >= 0 && ++Output[i] == 0) {}`. -/
def LeIncrement (w : Nat) (Output : List Nat) : List Nat :=
  LeIncrementLoop w Output.length Output

/-- The loop `while (--i >= 0 && ++Output[Offset + i] == 0) {}` of
`IntegerTools::BeIncrement8(Output, Offset, Length)`; the first argument is the value of
`i` before the decrement. An index outside `Output` is undefined. -/
def BeIncrement8Loop (Offset : Nat) : Nat → List Nat → Option (List Nat)
  | 0, Output => some Output
  | i + 1, Output =>
    if Offset + i < Output.length then
      let v := (Output.getD (Offset + i) 0 + 1) % 256
      if v = 0 then BeIncrement8Loop Offset i (Output.set (Offset + i) v)
      else some (Output.set (Offset + i) v)
    else none

/-- `IntegerTools::BeIncrement8(Output, Offset, Length)`:
`int i = Length + Offset; while (--i >= 0 && ++Output[Offset + i] == 0) {}`. -/
def BeIncrement8 (Output : List Nat) (Offset Length : Nat) : Option (List Nat) :=
  BeIncrement8Loop Offset (Length + Offset) Output

/-- `IntegerTools::Max`. -/
def Max (A B : Nat) : Nat := if A > B then A else B

/-- `IntegerTools::Min`. -/
def Min (A B : Nat) : Nat := if A < B then A else B

/-- The loop `for (i = 1; i != sizeof(T) * 8; i *= 2) r |= r >> i;` of
`IntegerTools::ExpandMask`, from the value `i`, with the number of iterations it may
still take. -/
def ExpandMaskLoop (w : Nat) : Nat → Nat → Nat → Nat
  | 0, _, r => r
  | fuel + 1, i, r => if i ≠ w then ExpandMaskLoop w fuel (i * 2) (r ||| (r >>> i)) else r

/-- `IntegerTools::ExpandMask<T>` for a type `T` of `w` bits (8, 16, 32 or 64, for which
the loop ends after fewer than `w` iterations): `r` is folded to its lowest bit, then
`r &= 1; r = ~(r - 1);` in `w` bits. -/
def ExpandMask (w X : Nat) : Nat :=
  let r := ExpandMaskLoop w w 1 X &&& 1
  (2 ^ w - 1) - (r + 2 ^ w - 1) % 2 ^ w

/-- `IntegerTools::ExpandTopBit<T>`: `ExpandMask<T>(A >> (sizeof(T) * 8 - 1))`. -/
def ExpandTopBit (w A : Nat) : Nat :=
  ExpandMask w (A >>> (w - 1))

/-- `IntegerTools::Select<T>`: `(A & Mask) | (B & ~Mask)` in `w` bits. -/
def Select (w Mask A B : Nat) : Nat :=
  (A &&& Mask) ||| (B &&& (2 ^ w - 1 - Mask))

/-- `IntegerTools::CMax<T>`: `Select<T>(ExpandTopBit<T>(A), A, B)`. -/
def CMax (w A B : Nat) : Nat :=
  Select w (ExpandTopBit w A) A B

/-- `IntegerTools::CMin<T>`: `Select<T>(ExpandTopBit<T>(B), B, A)`. -/
def CMin (w A B : Nat) : Nat :=
  Select w (ExpandTopBit w B) B A

end IntegerTools

/-- The integer that a byte array holds when it is read as a big-endian number. -/
def BeValue (l : List Nat) : Nat :=
  l.foldl (fun acc b => 256 * acc + b) 0

/-! ## AsymmetricParameters -/

/-- The enumeration `AsymmetricParameters`: `None` and the enumerals that
`AsymmetricTransformConvert::ToName` names (the header is not among the sources). -/
inductive AsymmetricParameters
  | None
  | DLMS1N256Q8380417
  | DLMS2N256Q8380417
  | DLMS3N256Q8380417
  | MLWES1Q3329N256
  | MLWES2Q3329N256
  | MLWES3Q3329N256
  | MPKCS1N4096T62
  | MPKCS1N6960T119
  | MPKCS1N8192T128
  | NTRUS1SQ4621N653
  | NTRUS2SQ4591N761
  | NTRUS3SQ5167N857
  | RLWES1Q12289N1024
  | RLWES2Q12289N2048
  | SPXS1S128SHAKE
  | SPXS2S192SHAKE
  | SPXS3S256SHAKE
  | XMSSSHA256H10
  | XMSSSHA256H16
  | XMSSSHA256H20
  | XMSSSHA512H10
  | XMSSSHA512H16
  | XMSSSHA512H20
  | XMSSSHAKE256H10
  | XMSSSHAKE256H16
  | XMSSSHAKE256H20
  | XMSSSHAKE512H10
  | XMSSSHAKE512H16
  | XMSSSHAKE512H20
  | XMSSMTSHA256H20D2
  | XMSSMTSHA256H40D2
  | XMSSMTSHA256H20D4
  | XMSSMTSHA256H40D4
  | XMSSMTSHA256H40D8
  | XMSSMTSHA256H60D3
  | XMSSMTSHA256H60D6
  | XMSSMTSHA256H60D12
  | XMSSMTSHA512H20D2
  | XMSSMTSHA512H20D4
  | XMSSMTSHA512H40D2
  | XMSSMTSHA512H40D4
  | XMSSMTSHA512H40D8
  | XMSSMTSHA512H60D3
  | XMSSMTSHA512H60D6
  | XMSSMTSHA512H60D12
  | XMSSMTSHAKE256H20D2
  | XMSSMTSHAKE256H20D4
  | XMSSMTSHAKE256H40D2
  | XMSSMTSHAKE256H40D4
  | XMSSMTSHAKE256H40D8
  | XMSSMTSHAKE256H60D3
  | XMSSMTSHAKE256H60D6
  | XMSSMTSHAKE256H60D12
  | XMSSMTSHAKE512H20D2
  | XMSSMTSHAKE512H20D4
  | XMSSMTSHAKE512H40D2
  | XMSSMTSHAKE512H40D4
  | XMSSMTSHAKE512H40D8
  | XMSSMTSHAKE512H60D3
  | XMSSMTSHAKE512H60D6
  | XMSSMTSHAKE512H60D12
  deriving DecidableEq, Repr

namespace AsymmetricTransformConvert

/-- `AsymmetricTransformConvert::ToName`: the switch over the enumeral, with "None" as
the default. -/
def ToName : AsymmetricParameters → String
  | .DLMS1N256Q8380417 => "DLMS1N256Q8380417"
  | .DLMS2N256Q8380417 => "DLMS2N256Q8380417"
  | .DLMS3N256Q8380417 => "DLMS3N256Q8380417"
  | .MLWES1Q3329N256 => "MLWES1Q3329N256"
  | .MLWES2Q3329N256 => "MLWES2Q3329N256"
  | .MLWES3Q3329N256 => "MLWES3Q3329N256"
  | .MPKCS1N4096T62 => "MPKCS1N4096T62"
  | .MPKCS1N6960T119 => "MPKCS1N6960T119"
  | .MPKCS1N8192T128 => "MPKCS1N8192T128"
  | .NTRUS1SQ4621N653 => "NTRUS1SQ4621N653"
  | .NTRUS2SQ4591N761 => "NTRUS2SQ4591N761"
  | .NTRUS3SQ5167N857 => "NTRUS3SQ5167N857"
  | .RLWES1Q12289N1024 => "RLWES1Q12289N1024"
  | .RLWES2Q12289N2048 => "RLWES2Q12289N2048"
  | .SPXS1S128SHAKE => "SPXS1S128SHAKE"
  | .SPXS2S192SHAKE => "SPXS2S192SHAKE"
  | .SPXS3S256SHAKE => "SPXS3S256SHAKE"
  | .XMSSSHA256H10 => "XMSSSHA256H10"
  | .XMSSSHA256H16 => "XMSSSHA256H16"
  | .XMSSSHA256H20 => "XMSSSHA256H20"
  | .XMSSSHA512H10 => "XMSSSHA512H10"
  | .XMSSSHA512H16 => "XMSSSHA512H16"
  | .XMSSSHA512H20 => "XMSSSHA512H20"
  | .XMSSSHAKE256H10 => "XMSSSHAKE256H10"
  | .XMSSSHAKE256H16 => "XMSSSHAKE256H16"
  | .XMSSSHAKE256H20 => "XMSSSHAKE256H20"
  | .XMSSSHAKE512H10 => "XMSSSHAKE512H10"
  | .XMSSSHAKE512H16 => "XMSSSHAKE512H16"
  | .XMSSSHAKE512H20 => "XMSSSHAKE512H20"
  | .XMSSMTSHA256H20D2 => "XMSSMTSHA256H20D2"
  | .XMSSMTSHA256H40D2 => "XMSSMTSHA256H40D2"
  | .XMSSMTSHA256H20D4 => "XMSSMTSHA256H20D4"
  | .XMSSMTSHA256H40D4 => "XMSSMTSHA256H40D4"
  | .XMSSMTSHA256H40D8 => "XMSSMTSHA256H40D8"
  | .XMSSMTSHA256H60D3 => "XMSSMTSHA256H60D3"
  | .XMSSMTSHA256H60D6 => "XMSSMTSHA256H60D6"
  | .XMSSMTSHA256H60D12 => "XMSSMTSHA256H60D12"
  | .XMSSMTSHA512H20D2 => "XMSSMTSHA512H20D2"
  | .XMSSMTSHA512H20D4 => "XMSSMTSHA512H20D4"
  | .XMSSMTSHA512H40D2 => "XMSSMTSHA512H40D2"
  | .XMSSMTSHA512H40D4 => "XMSSMTSHA512H40D4"
  | .XMSSMTSHA512H40D8 => "XMSSMTSHA512H40D8"
  | .XMSSMTSHA512H60D3 => "XMSSMTSHA512H60D3"
  | .XMSSMTSHA512H60D6 => "XMSSMTSHA512H60D6"
  | .XMSSMTSHA512H60D12 => "XMSSMTSHA512H60D12"
  | .XMSSMTSHAKE256H20D2 => "XMSSMTSHAKE256H20D2"
  | .XMSSMTSHAKE256H20D4 => "XMSSMTSHAKE256H20D4"
  | .XMSSMTSHAKE256H40D2 => "XMSSMTSHAKE256H40D2"
  | .XMSSMTSHAKE256H40D4 => "XMSSMTSHAKE256H40D4"
  | .XMSSMTSHAKE256H40D8 => "XMSSMTSHAKE256H40D8"
  | .XMSSMTSHAKE256H60D3 => "XMSSMTSHAKE256H60D3"
  | .XMSSMTSHAKE256H60D6 => "XMSSMTSHAKE256H60D6"
  | .XMSSMTSHAKE256H60D12 => "XMSSMTSHAKE256H60D12"
  | .XMSSMTSHAKE512H20D2 => "XMSSMTSHAKE512H20D2"
  | .XMSSMTSHAKE512H20D4 => "XMSSMTSHAKE512H20D4"
  | .XMSSMTSHAKE512H40D2 => "XMSSMTSHAKE512H40D2"
  | .XMSSMTSHAKE512H40D4 => "XMSSMTSHAKE512H40D4"
  | .XMSSMTSHAKE512H40D8 => "XMSSMTSHAKE512H40D8"
  | .XMSSMTSHAKE512H60D3 => "XMSSMTSHAKE512H60D3"
  | .XMSSMTSHAKE512H60D6 => "XMSSMTSHAKE512H60D6"
  | .XMSSMTSHAKE512H60D12 => "XMSSMTSHAKE512H60D12"
  | .None => "None"

/-- `AsymmetricTransformConvert::FromName`: the chain of string comparisons, with
`None` as the last alternative. -/
def FromName (Name : String) : AsymmetricParameters :=
  if Name = "DLMS1N256Q8380417" then .DLMS1N256Q8380417
  else if Name = "DLMS2N256Q8380417" then .DLMS2N256Q8380417
  else if Name = "DLMS3N256Q8380417" then .DLMS3N256Q8380417
  else if Name = "MLWES1Q3329N256" then .MLWES1Q3329N256
  else if Name = "MLWES2Q3329N256" then .MLWES2Q3329N256
  else if Name = "MLWES3Q3329N256" then .MLWES3Q3329N256
  else if Name = "MPKCS1N4096T62" then .MPKCS1N4096T62
  else if Name = "MPKCS1N6960T119" then .MPKCS1N6960T119
  else if Name = "MPKCS1N8192T128" then .MPKCS1N8192T128
  else if Name = "NTRUS1SQ4621N653" then .NTRUS1SQ4621N653
  else if Name = "NTRUS2SQ4591N761" then .NTRUS2SQ4591N761
  else if Name = "NTRUS3SQ5167N857" then .NTRUS3SQ5167N857
  else if Name = "RLWES1Q12289N1024" then .RLWES1Q12289N1024
  else if Name = "RLWES2Q12289N2048" then .RLWES2Q12289N2048
  else if Name = "SPXS1S128SHAKE" then .SPXS1S128SHAKE
  else if Name = "SPXS2S192SHAKE" then .SPXS2S192SHAKE
  else if Name = "SPXS3S256SHAKE" then .SPXS3S256SHAKE
  else if Name = "XMSSSHA256H10" then .XMSSSHA256H16
  else if Name = "XMSSSHA256H16" then .XMSSSHA256H16
  else if Name = "XMSSSHA256H20" then .XMSSSHA256H20
  else if Name = "XMSSSHA512H10" then .XMSSSHA512H10
  else if Name = "XMSSSHA512H16" then .XMSSSHA512H16
  else if Name = "XMSSSHA512H20" then .XMSSSHA512H20
  else if Name = "XMSSSHAKE256H10" then .XMSSSHAKE256H10
  else if Name = "XMSSSHAKE256H16" then .XMSSSHAKE256H16
  else if Name = "XMSSSHAKE256H20" then .XMSSSHAKE256H20
  else if Name = "XMSSSHAKE512H10" then .XMSSSHAKE512H10
  else if Name = "XMSSSHAKE512H16" then .XMSSSHAKE512H16
  else if Name = "XMSSSHAKE512H20" then .XMSSSHAKE512H20
  else if Name = "XMSSMTSHA256H20D2" then .XMSSMTSHA256H20D2
  else if Name = "XMSSMTSHA256H20D4" then .XMSSMTSHA256H20D4
  else if Name = "XMSSMTSHA256H40D2" then .XMSSMTSHA256H40D2
  else if Name = "XMSSMTSHA256H40D4" then .XMSSMTSHA256H40D4
  else if Name = "XMSSMTSHA256H40D8" then .XMSSMTSHA256H40D8
  else if Name = "XMSSMTSHA256H60D3" then .XMSSMTSHA256H60D3
  else if Name = "XMSSMTSHA256H60D6" then .XMSSMTSHA256H60D6
  else if Name = "XMSSMTSHA256H60D12" then .XMSSMTSHA256H60D12
  else if Name = "XMSSMTSHA512H20D2" then .XMSSMTSHA512H20D2
  else if Name = "XMSSMTSHA512H20D4" then .XMSSMTSHA512H20D4
  else if Name = "XMSSMTSHA512H40D2" then .XMSSMTSHA512H40D2
  else if Name = "XMSSMTSHA512H40D4" then .XMSSMTSHA512H40D4
  else if Name = "XMSSMTSHA512H40D8" then .XMSSMTSHA512H40D8
  else if Name = "XMSSMTSHA512H60D3" then .XMSSMTSHA512H60D3
  else if Name = "XMSSMTSHA512H60D6" then .XMSSMTSHA512H60D6
  else if Name = "XMSSMTSHA512H60D12" then .XMSSMTSHA512H60D12
  else if Name = "XMSSMTSHAKE256H20D2" then .XMSSMTSHAKE256H20D2
  else if Name = "XMSSMTSHAKE256H20D4" then .XMSSMTSHAKE256H20D4
  else if Name = "XMSSMTSHAKE256H40D2" then .XMSSMTSHAKE256H40D2
  else if Name = "XMSSMTSHAKE256H40D4" then .XMSSMTSHAKE256H40D4
  else if Name = "XMSSMTSHAKE256H40D8" then .XMSSMTSHAKE256H40D8
  else if Name = "XMSSMTSHAKE256H60D3" then .XMSSMTSHAKE256H60D3
  else if Name = "XMSSMTSHAKE256H60D6" then .XMSSMTSHAKE256H60D6
  else if Name = "XMSSMTSHAKE256H60D12" then .XMSSMTSHAKE256H60D12
  else if Name = "XMSSMTSHAKE512H20D2" then .XMSSMTSHAKE512H20D2
  else if Name = "XMSSMTSHAKE512H20D4" then .XMSSMTSHAKE512H20D4
  else if Name = "XMSSMTSHAKE512H40D2" then .XMSSMTSHAKE512H40D2
  else if Name = "XMSSMTSHAKE512H40D4" then .XMSSMTSHAKE512H40D4
  else if Name = "XMSSMTSHAKE512H40D8" then .XMSSMTSHAKE512H40D8
  else if Name = "XMSSMTSHAKE512H60D3" then .XMSSMTSHAKE512H60D3
  else if Name = "XMSSMTSHAKE512H60D6" then .XMSSMTSHAKE512H60D6
  else if Name = "XMSSMTSHAKE512H60D12" then .XMSSMTSHAKE512H60D12
  else .None

end AsymmetricTransformConvert

/-! ## AsymmetricKey -/

/-- `AsymmetricPrimitives::None`. The enumerations of the key have the underlying type
`byte` and are held here as their byte values; their headers are not among the sources,
`None` is the value 0 as in `XmssParameters`. -/
def AsymmetricPrimitives.None : Nat := 0

/-- `AsymmetricKeyTypes::None`, as a byte value. -/
def AsymmetricKeyTypes.None : Nat := 0

/-- `AsymmetricParameters::None`, as a byte value. -/
def AsymmetricParameters.NoneId : Nat := 0

/-- `AsymmetricKey::AsymmetricKeyState`, the members of an `AsymmetricKey`. -/
structure AsymmetricKey where
  Polynomial : List Nat
  KeyClass : Nat
  Primitive : Nat
  Parameters : Nat
  deriving DecidableEq, Repr

namespace AsymmetricKey

/-- `AsymmetricKey::AsymmetricKey(Polynomial, PrimitiveType, CipherKeyType, ParameterType)`:
the state is built when the polynomial is not empty and no type is `None`, otherwise the
constructor throws `CryptoAsymmetricException` with `ErrorCodes::InvalidParam`. -/
def new (Polynomial : List Nat) (PrimitiveType CipherKeyType ParameterType : Nat) :
    Except ErrorCodes AsymmetricKey :=
  if Polynomial.length ≠ 0 ∧ PrimitiveType ≠ AsymmetricPrimitives.None ∧
      CipherKeyType ≠ AsymmetricKeyTypes.None ∧
      ParameterType ≠ AsymmetricParameters.NoneId then
    .ok { Polynomial := Polynomial, KeyClass := CipherKeyType, Primitive := PrimitiveType,
          Parameters := ParameterType }
  else .error .InvalidParam

/-- `AsymmetricKey::Serialize`: the key class, the parameter set and the primitive, each
cast to a byte and appended, then the polynomial (`ArrayTools::AppendValue` and
`AppendVector` are not among the sources; they append to the vector). -/
def Serialize (KeyParams : AsymmetricKey) : List Nat :=
  [KeyParams.KeyClass % 256] ++ [KeyParams.Parameters % 256] ++ [KeyParams.Primitive % 256]
    ++ KeyParams.Polynomial

/-- `AsymmetricKey::DeSerialize`: a new key from the polynomial
`KeyStream[3 .. end)`, the primitive `KeyStream[2]`, the key class `KeyStream[0]` and the
parameter set `KeyStream[1]`. A stream of fewer than three bytes is read outside its
range, which is undefined. -/
def DeSerialize (KeyStream : List Nat) : Option (Except ErrorCodes AsymmetricKey) :=
  if KeyStream.length < 3 then none
  else some (new (KeyStream.drop 3) (KeyStream.getD 2 0) (KeyStream.getD 0 0)
    (KeyStream.getD 1 0))

end AsymmetricKey

/-! ## GMAC -/

/-- The members of the block cipher (`IBlockCipher`) and of the hash (`GHASH`) that `GMAC`
calls; neither class is among the sources. `B` is the state of the cipher and `G` that of
the hash. The hash functions take the arguments of the calls in `GMAC.cpp` and return the
hash state and the output array. -/
structure GmacPrimitives (B G : Type) where
  CipherInitialize : B → SymmetricKey → B
  CipherTransform : B → List Nat → List Nat
  HashInitialize : G → List Nat → G
  HashProcessSegment : G → List Nat → Nat → List Nat → Nat → G × List Nat
  HashFinalizeBlock : G → List Nat → Nat → Nat → G × List Nat
  HashUpdate : G → List Nat → Nat → List Nat → Nat → G × List Nat
  HashReset : G → G

/-- The members of a `GMAC` object. `m_legalKeySizes` holds the key sizes of the legal
key sizes that `Scope` takes from the cipher. -/
structure GMAC (B G : Type) where
  m_blockCipher : B
  m_gmacHash : G
  m_gmacNonce : List Nat
  m_gmacKey : List Nat
  m_isInitialized : Bool
  m_legalKeySizes : List Nat
  m_msgBuffer : List Nat
  m_msgCode : List Nat
  m_msgCounter : Nat
  m_msgOffset : Nat

namespace GMAC

/-- Modelled from the spec: `GMAC.h` is not among the sources. The block, and the tag,
is 16 bytes. -/
def BLOCK_SIZE : Nat := 16

/-- Modelled from the spec: the least nonce size, 12 bytes (the text of the exception of
`Initialize` names it). -/
def TAG_MINLEN : Nat := 12

/-- `GMAC::GMAC(IBlockCipher* Cipher)`: the object after construction around a cipher, a
new hash and the key sizes of the cipher. -/
def new {B G : Type} (Cipher : B) (Hash : G) (KeySizes : List Nat) : GMAC B G :=
  { m_blockCipher := Cipher, m_gmacHash := Hash, m_gmacNonce := [], m_gmacKey := [],
    m_isInitialized := false, m_legalKeySizes := KeySizes,
    m_msgBuffer := List.replicate BLOCK_SIZE 0, m_msgCode := List.replicate BLOCK_SIZE 0,
    m_msgCounter := 0, m_msgOffset := 0 }

/-- `GMAC::IsInitialized`. -/
def IsInitialized {B G : Type} (g : GMAC B G) : Bool := g.m_isInitialized

/-- `GMAC::TagSize`. -/
def TagSize : Nat := BLOCK_SIZE

/-- `GMAC::Reset`. -/
def Reset {B G : Type} (P : GmacPrimitives B G) (g : GMAC B G) : GMAC B G :=
  { g with
    m_gmacNonce := MemoryTools.Clear g.m_gmacNonce
    m_msgBuffer := MemoryTools.Clear g.m_msgBuffer
    m_msgCode := MemoryTools.Clear g.m_msgCode
    m_gmacHash := P.HashReset g.m_gmacHash
    m_msgCounter := 0
    m_msgOffset := 0 }

/-- `GMAC::Update(Input, InOffset, Length)`. The size test is computed in `size_t`; a
range that passes it and is not inside `Input` is read outside the array, which is
undefined. -/
def Update {B G : Type} (P : GmacPrimitives B G) (g : GMAC B G) (Input : List Nat)
    (InOffset Length : Nat) : Outcome (GMAC B G) :=
  if g.m_isInitialized = false then .throw .IllegalOperation g
  else if (Input.length + 2 ^ 64 - InOffset) % 2 ^ 64 < Length then .throw .InvalidSize g
  else if Length ≠ 0 then
    if InOffset + Length ≤ Input.length then
      let r := P.HashUpdate g.m_gmacHash Input InOffset g.m_msgCode Length
      .ok { g with m_gmacHash := r.1, m_msgCode := r.2,
                   m_msgCounter := (g.m_msgCounter + Length) % 2 ^ 64 }
    else .undefined
  else .ok g

/-- `GMAC::Finalize(Output, OutOffset)`; the result holds the generator and the caller's
`Output`. The size test is computed in `size_t`. -/
def Finalize {B G : Type} (P : GmacPrimitives B G) (g : GMAC B G) (Output : List Nat)
    (OutOffset : Nat) : Outcome (GMAC B G × List Nat) :=
  if g.m_isInitialized = false then .throw .IllegalOperation (g, Output)
  else if (Output.length + 2 ^ 64 - OutOffset) % 2 ^ 64 < TagSize then
    .throw .InvalidSize (g, Output)
  else
    let r := P.HashFinalizeBlock g.m_gmacHash g.m_msgCode g.m_msgCounter 0
    match MemoryTools.XOR g.m_gmacNonce 0 r.2 0 BLOCK_SIZE with
    | none => .undefined
    | some code =>
      match MemoryTools.Copy code 0 Output OutOffset BLOCK_SIZE with
      | none => .undefined
      | some out => .ok (Reset P { g with m_gmacHash := r.1, m_msgCode := code }, out)

/-- The part of `GMAC::Initialize` that keys the cipher and the hash when the key is not
empty: `H` is the encryption of the zero block, loaded as two big-endian words. -/
def LoadKey {B G : Type} (P : GmacPrimitives B G) (g : GMAC B G)
    (KeyParams : SymmetricKey) : Option (GMAC B G) :=
  if KeyParams.Key.length ≠ 0 then
    let cipher := P.CipherInitialize g.m_blockCipher KeyParams
    let tmpH := P.CipherTransform cipher (List.replicate BLOCK_SIZE 0)
    match IntegerTools.BeBytesTo64 tmpH 0, IntegerTools.BeBytesTo64 tmpH 8 with
    | some h0, some h1 =>
      some { g with m_blockCipher := cipher, m_gmacKey := [h0, h1],
                    m_gmacHash := P.HashInitialize g.m_gmacHash [h0, h1] }
    | _, _ => none
  else some g

/-- The part of `GMAC::Initialize` that forms the pre-counter block from the nonce: a
nonce of 12 bytes is resized to 16 bytes and its last byte set to 1, any other nonce is
hashed into a zero block with `ProcessSegment` and `FinalizeBlock`. -/
def LoadNonce {B G : Type} (P : GmacPrimitives B G) (g : GMAC B G) (Nonce : List Nat) :
    GMAC B G :=
  if Nonce.length = 12 then
    { g with m_gmacNonce := (resize Nonce 16).set 15 1 }
  else
    let y0 := List.replicate BLOCK_SIZE 0
    let r1 := P.HashProcessSegment g.m_gmacHash Nonce 0 y0 Nonce.length
    let r2 := P.HashFinalizeBlock r1.1 r1.2 0 Nonce.length
    { g with m_gmacHash := r2.1, m_gmacNonce := r2.2 }

/-- `GMAC::Initialize`. `SymmetricKeySize::Contains` is not among the sources; it is true
when the key size is one of the legal key sizes. -/
def Initialize {B G : Type} (P : GmacPrimitives B G) (g : GMAC B G)
    (KeyParams : SymmetricKey) : Outcome (GMAC B G) :=
  if KeyParams.Key.length ∉ g.m_legalKeySizes then .throw .InvalidKey g
  else if KeyParams.Nonce.length < TAG_MINLEN then .throw .InvalidSize g
  else
    let g0 := if g.m_isInitialized then Reset P g else g
    match LoadKey P g0 KeyParams with
    | none => .undefined
    | some g1 =>
      let g2 := LoadNonce P g1 KeyParams.Nonce
      .ok { g2 with m_gmacNonce := P.CipherTransform g2.m_blockCipher g2.m_gmacNonce,
                    m_isInitialized := true }

end GMAC

/-- A choice of cipher and hash for `GMAC`: the state of the cipher is its key, that of
the hash the pair of its key words and the bytes it has taken; simple arithmetic stands
for the encryption of a block and for the hash. Blocks are 16 bytes. -/
def SampleGmacPrimitives : GmacPrimitives (List Nat) (List Nat × List Nat) :=
  { CipherInitialize := fun _ k => k.Key
    CipherTransform := fun key x =>
      (List.range 16).map (fun i => (key.getD i 0 + 3 * x.getD i 0 + i + 1) % 256)
    HashInitialize := fun _ h => (h, [])
    HashProcessSegment := fun h Input InOffset Output Length =>
      ((h.1, h.2 ++ slice Input InOffset Length),
       (List.range 16).map (fun i =>
         (Output.getD i 0 + (slice Input InOffset Length).getD i 0 + h.1.getD 0 0) % 256))
    HashFinalizeBlock := fun h Output Counter AdSize =>
      (h, (List.range 16).map (fun i => (Output.getD i 0 + Counter + 2 * AdSize + i) % 256))
    HashUpdate := fun h Input InOffset Output Length =>
      ((h.1, h.2 ++ slice Input InOffset Length),
       (List.range 16).map (fun i =>
         (Output.getD i 0 + (slice Input InOffset Length).getD i 0 + h.1.getD 1 0) % 256))
    HashReset := fun h => (h.1, []) }

/-- A key container for `GMAC` with a 16-byte key and a 12-byte nonce. -/
def SampleGmacKey : SymmetricKey :=
  { Key := (List.range 16).map (fun i => (7 * i + 3) % 256)
    Nonce := (List.range 12).map (fun i => i + 1)
    Info := [] }

/-- The sample generator after `Initialize` with the sample key. -/
def SampleGmac : GMAC (List Nat) (List Nat × List Nat) :=
  (GMAC.Initialize SampleGmacPrimitives (GMAC.new [] ([], []) [16, 32]) SampleGmacKey).get
    (GMAC.new [] ([], []) [16, 32])

/-- A store function and a load function for little-endian words of `n` bytes are inverse
to each other. Storing a word `v` below `2 ^ (8 * n)` at `OutOffset` returns, writes the
byte `(v >> 8 * i) & 0xFF` at `Output[OutOffset + i]` for `i < n`, leaves every other byte
and the size of `Output`, and loading from the result at `OutOffset` returns `v`. Loading
from `n` bytes of a byte array returns a word below `2 ^ (8 * n)`, and storing that word
writes those `n` bytes: stored at the place they were loaded from, the array is as
before. -/
def LeLoadStorePair (n : Nat) (store : Nat → List Nat → Nat → Option (List Nat))
    (load : List Nat → Nat → Option Nat) : Prop :=
  (∀ v Output OutOffset, v < 2 ^ (8 * n) → OutOffset + n ≤ Output.length →
    ∃ out, store v Output OutOffset = some out ∧ out.length = Output.length ∧
      (∀ i, i < n → out.getD (OutOffset + i) 0 = (v >>> (8 * i)) &&& 0xFF) ∧
      (∀ j, j < OutOffset ∨ OutOffset + n ≤ j → out[j]? = Output[j]?) ∧
      load out OutOffset = some v) ∧
  (∀ Input InOffset Output OutOffset, (∀ b ∈ Input, b < 256) →
    InOffset + n ≤ Input.length → OutOffset + n ≤ Output.length →
    ∃ w out, load Input InOffset = some w ∧ w < 2 ^ (8 * n) ∧
      store w Output OutOffset = some out ∧
      slice out OutOffset n = slice Input InOffset n ∧
      store w Input InOffset = some Input)

/-! ## Further members of `IntegerTools` and `GMAC`; the OFB mode -/

namespace IntegerTools

/-- `IntegerTools::LeIncreaseW(Output, Length)`, the overload that works in place on a
counter of two 64-bit words: `Output[0] += Length; if (Output[0] < Length) Output[1] += 1;`
with `Length` a `size_t`. -/
def LeIncreaseWInPlace (Output : Nat × Nat) (Length : Nat) : Nat × Nat :=
  let o0 := (Output.1 + Length % 2 ^ 64) % 2 ^ 64
  if o0 < Length % 2 ^ 64 then (o0, (Output.2 + 1) % 2 ^ 64) else (o0, Output.2)

end IntegerTools

namespace GMAC

/-- `GMAC::Update(byte Input)`, the overload for a single byte: the hash is updated with
the vector that holds the byte, offset 0 and length 1. -/
def UpdateByte {B G : Type} (P : GmacPrimitives B G) (g : GMAC B G) (Input : Nat) :
    Outcome (GMAC B G) :=
  if g.m_isInitialized = false then .throw .IllegalOperation g
  else
    let r := P.HashUpdate g.m_gmacHash [Input] 0 g.m_msgCode 1
    .ok { g with m_gmacHash := r.1, m_msgCode := r.2 }

end GMAC

/-- The members of the block cipher (`IBlockCipher`) that `OFB` calls; the class is not
among the sources. `B` is the state of the cipher, `Transform` returns the block that
`Transform(Input, 0, Output, 0)` leaves in `Output`. -/
structure BlockCipherPrimitives (B : Type) where
  BlockSize : Nat
  LegalKeySizes : List Nat
  Initialize : B → SymmetricKey → B
  Transform : B → List Nat → List Nat

/-- The members of an `OFB` object that the modelled functions use. -/
structure OFB (B : Type) where
  m_blockCipher : B
  m_blockSize : Nat
  m_isEncryption : Bool
  m_isInitialized : Bool
  m_ofbBuffer : List Nat
  m_ofbVector : List Nat
  deriving DecidableEq, Repr

namespace OFB

/-- `OFB::OFB(IBlockCipher* Cipher, size_t RegisterSize)`: the register size must be at
least 1 and at most the block size of the cipher, otherwise the constructor throws
`CryptoCipherModeException`, which carries no error code; the result holds its message. -/
def new {B : Type} (P : BlockCipherPrimitives B) (Cipher : B) (RegisterSize : Nat) :
    Except String (OFB B) :=
  if RegisterSize < 1 then
    .error "Invalid block size! Block must be in bits and a multiple of 8."
  else if RegisterSize > P.BlockSize then
    .error "Invalid block size! Block size can not be larger than Cipher block size."
  else
    .ok { m_blockCipher := Cipher, m_blockSize := RegisterSize, m_isEncryption := false,
          m_isInitialized := false, m_ofbBuffer := List.replicate P.BlockSize 0,
          m_ofbVector := List.replicate P.BlockSize 0 }

/-- `OFB::BlockSize`. -/
def BlockSize {B : Type} (o : OFB B) : Nat := o.m_blockSize

/-- `OFB::Initialize`: a nonce shorter than the register is copied to its right end and
the bytes before it are set to zero. The copies are inside their vectors after the size
tests; `none` stands for a copy outside a vector. -/
def Initialize {B : Type} (P : BlockCipherPrimitives B) (o : OFB B) (Encryption : Bool)
    (KeyParams : SymmetricKey) : Option (Except String (OFB B)) :=
  if KeyParams.Nonce.length < 1 then some (.error "Requires a minimum 1 bytes of Nonce!")
  else if KeyParams.Nonce.length > P.BlockSize then
    some (.error "Nonce can not be larger than the cipher block size!")
  else if KeyParams.Key.length ∉ P.LegalKeySizes then
    some (.error "Invalid key size! Key must be one of the LegalKeySizes() members in length.")
  else
    let tmpIv := KeyParams.Nonce
    let cipher := P.Initialize o.m_blockCipher KeyParams
    let vector :=
      if tmpIv.length < o.m_ofbVector.length then
        (MemoryTools.Copy tmpIv 0 o.m_ofbVector (o.m_ofbVector.length - tmpIv.length)
          tmpIv.length).map
          (fun v => writeAt v 0 (List.replicate (o.m_ofbVector.length - tmpIv.length) 0))
      else MemoryTools.Copy tmpIv 0 o.m_ofbVector 0 o.m_ofbVector.length
    vector.map (fun v =>
      .ok { o with
            m_blockCipher := cipher, m_ofbVector := v, m_isEncryption := Encryption,
            m_isInitialized := true })

/-- `OFB::Encrypt128`: the register is encrypted into the buffer, `m_blockSize` bytes of
`Input` are combined with the buffer into `Output`, the register is shifted left by
`m_blockSize` bytes and the first `m_blockSize` bytes of the buffer enter at its right
end. The assertions of the source are compiled out of a release build. -/
def Encrypt128 {B : Type} (P : BlockCipherPrimitives B) (o : OFB B) (Input : List Nat)
    (InOffset : Nat) (Output : List Nat) (OutOffset : Nat) : Option (OFB B × List Nat) :=
  let buffer := P.Transform o.m_blockCipher o.m_ofbVector
  if o.m_blockSize ≤ buffer.length ∧ InOffset + o.m_blockSize ≤ Input.length ∧
      OutOffset + o.m_blockSize ≤ Output.length then
    let out := writeAt Output OutOffset
      (xorBytes (slice buffer 0 o.m_blockSize) (slice Input InOffset o.m_blockSize))
    let shifted :=
      if o.m_ofbVector.length - o.m_blockSize > 0 then
        MemoryTools.Copy o.m_ofbVector o.m_blockSize o.m_ofbVector 0
          (o.m_ofbVector.length - o.m_blockSize)
      else some o.m_ofbVector
    match shifted with
    | none => none
    | some v1 =>
      match MemoryTools.Copy buffer 0 v1 (v1.length - o.m_blockSize) o.m_blockSize with
      | none => none
      | some v2 => some ({ o with m_ofbBuffer := buffer, m_ofbVector := v2 }, out)
  else none

/-- `OFB::EncryptBlock(Input, InOffset, Output, OutOffset)`. -/
def EncryptBlock {B : Type} (P : BlockCipherPrimitives B) (o : OFB B) (Input : List Nat)
    (InOffset : Nat) (Output : List Nat) (OutOffset : Nat) : Option (OFB B × List Nat) :=
  Encrypt128 P o Input InOffset Output OutOffset

/-- The loop of `OFB::Transform`, which calls
`EncryptBlock(Input, i * BLKSZE + InOffset, Output, i * BLKSZE + OutOffset)` for each
`i < BLKCNT`, run for `n` iterations from index `i`. -/
def TransformLoop {B : Type} (P : BlockCipherPrimitives B) (Input : List Nat)
    (InOffset OutOffset : Nat) : Nat → Nat → OFB B × List Nat → Option (OFB B × List Nat)
  | 0, _, w => some w
  | n + 1, i, w =>
    match EncryptBlock P w.1 Input (i * P.BlockSize + InOffset) w.2
        (i * P.BlockSize + OutOffset) with
    | none => none
    | some w1 => TransformLoop P Input InOffset OutOffset n (i + 1) w1

/-- `OFB::Transform`: `Length` must be a multiple of the block size of the cipher,
otherwise `CryptoCipherModeException` is thrown; `EncryptBlock` is called once for each
`Length / BLKSZE` blocks. A cipher with block size 0 is a division by zero. -/
def Transform {B : Type} (P : BlockCipherPrimitives B) (o : OFB B) (Input : List Nat)
    (InOffset : Nat) (Output : List Nat) (OutOffset Length : Nat) :
    Option (Except String (OFB B × List Nat)) :=
  if P.BlockSize = 0 then none
  else if Length % P.BlockSize ≠ 0 then
    some (.error "Invalid length, must be evenly divisible by the ciphers block size!")
  else
    (TransformLoop P Input InOffset OutOffset (Length / P.BlockSize) 0 (o, Output)).map .ok

end OFB

/-- A block cipher of 16-byte blocks for `OFB`: the state is the key, simple arithmetic
stands for the encryption of a block. -/
def SampleBlockCipher : BlockCipherPrimitives (List Nat) :=
  { BlockSize := 16
    LegalKeySizes := [16, 32]
    Initialize := fun _ k => k.Key
    Transform := fun key x =>
      (List.range 16).map (fun i => (key.getD i 0 + 3 * x.getD i 0 + i + 1) % 256) }

/-- The result of a call that is expected to return: the value, or the default. -/
def resultOr {ε α : Type} (x : Option (Except ε α)) (d : α) : α :=
  match x with
  | some (.ok a) => a
  | _ => d

/-- An OFB mode with a register of 8 bytes around the sample cipher, after `Initialize`
with the sample key of `GMAC` (16 key bytes, 12 nonce bytes). -/
def SampleOfb8 : OFB (List Nat) :=
  resultOr
    (match OFB.new SampleBlockCipher [] 8 with
     | .ok o => OFB.Initialize SampleBlockCipher o true SampleGmacKey
     | .error _ => none)
    ⟨[], 0, false, false, [], []⟩

/-- An OFB mode with a register of 16 bytes, the block size of the sample cipher, after
`Initialize` with the same key. -/
def SampleOfb16 : OFB (List Nat) :=
  resultOr
    (match OFB.new SampleBlockCipher [] 16 with
     | .ok o => OFB.Initialize SampleBlockCipher o true SampleGmacKey
     | .error _ => none)
    ⟨[], 0, false, false, [], []⟩

/-! ## WOTS -/

/-- The members of `SphincsUtils` that `WOTS` calls; the class is not among the sources.
An address is the array of eight 32-bit words. `AddressToBytes` gives byte `i` of the
`SPX_ADDR_BYTES` bytes of an address, `XOF` byte `i` of the output stream for an input
string, `PrfAddress` byte `i` of the `N` bytes derived from a key seed and an address. -/
structure SphincsUtils where
  SetHashAddress : List Nat → Nat → List Nat
  SetChainAddress : List Nat → Nat → List Nat
  AddressToBytes : List Nat → Nat → Nat
  XOF : List Nat → Nat → Nat
  PrfAddress : List Nat → List Nat → Nat → Nat → Nat

namespace WOTS

/-- The Winternitz parameter `SPX_WOTS_W`. `WOTS.h` is not among the sources; the values
of the parameters are those of `SPXS256SHAKE.h`. -/
def SPX_WOTS_W : Nat := 16

/-- The parameter `SPX_WOTS_LOGW`. -/
def SPX_WOTS_LOGW : Nat := 4

/-- The parameter `SPX_WOTS_LEN2`, the number of checksum digits. -/
def SPX_WOTS_LEN2 : Nat := 3

/-- The parameter `SPX_ADDR_BYTES`. -/
def SPX_ADDR_BYTES : Nat := 32

/-- Modelled from the spec: `SphincsUtils::UllToBytes(Output, Offset, Value, Length)` is
not among the sources. It stores `Value` as `Length` bytes at `Output[Offset ..]`, most
significant byte first. -/
def UllToBytes (Output : List Nat) (Offset Value Length : Nat) : Option (List Nat) :=
  if Offset + Length ≤ Output.length then
    some (writeAt Output Offset
      ((List.range Length).map (fun i => (Value >>> (8 * (Length - 1 - i))) % 256)))
  else none

/-- The loop of `WOTS::BaseW`, run for `n` iterations from the state `OutOffset`, `inoff`,
`bits`, `total`. `bits` takes the values 4 and 0 only, as `log_w` divides 8. -/
def BaseWLoop (Input : List Nat) : Nat → Nat → Nat → Nat → Nat → List Nat → Option (List Nat)
  | 0, _, _, _, _, Output => some Output
  | n + 1, OutOffset, inoff, bits, total, Output =>
    if bits = 0 ∧ Input.length ≤ inoff then none
    else
      let total1 := if bits = 0 then Input.getD inoff 0 else total
      let inoff1 := if bits = 0 then inoff + 1 else inoff
      let bits1 := (if bits = 0 then bits + 8 else bits) - SPX_WOTS_LOGW
      if OutOffset < Output.length then
        BaseWLoop Input n (OutOffset + 1) inoff1 bits1 total1
          (Output.set OutOffset ((total1 >>> bits1) &&& (SPX_WOTS_W - 1)))
      else none

/-- `WOTS::BaseW`: the bytes of `Input` as `OutLength` integers in base `w`. -/
def BaseW (Output : List Nat) (OutOffset OutLength : Nat) (Input : List Nat) :
    Option (List Nat) :=
  BaseWLoop Input OutLength OutOffset 0 0 0 Output

/-- The loop of `WOTS::WotsChecksum`,
`csum += static_cast<ulong>(SPX_WOTS_W - 1) - MsgBaseW[idx];`, run for `n` iterations from
index `idx`. -/
def ChecksumLoop (MsgBaseW : List Nat) : Nat → Nat → Nat → Option Nat
  | 0, _, csum => some csum
  | n + 1, idx, csum =>
    if idx < MsgBaseW.length then
      ChecksumLoop MsgBaseW n (idx + 1)
        ((csum + (SPX_WOTS_W - 1 + 2 ^ 64 - MsgBaseW.getD idx 0 % 2 ^ 64)) % 2 ^ 64)
    else none

/-- `WOTS::WotsChecksum`: the checksum of the `SPX_WOTS_LEN1` digits of `MsgBaseW`,
shifted so that its unused bits are the least significant ones, stored in
`(SPX_WOTS_LEN2 * SPX_WOTS_LOGW + 7) / 8` bytes and written to `CSumBaseW` at
`BaseOffset` as `SPX_WOTS_LEN2` digits. -/
def WotsChecksum (CSumBaseW : List Nat) (BaseOffset : Nat) (MsgBaseW : List Nat) (N : Nat) :
    Option (List Nat) :=
  let SPX_WOTS_LEN1 := (8 * N / SPX_WOTS_LOGW) % 2 ^ 32
  let csumbytes := List.replicate ((SPX_WOTS_LEN2 * SPX_WOTS_LOGW + 7) / 8) 0
  match ChecksumLoop MsgBaseW SPX_WOTS_LEN1 0 0 with
  | none => none
  | some csum =>
    let csum1 := (csum <<< (8 - (SPX_WOTS_LEN2 * SPX_WOTS_LOGW) % 8)) % 2 ^ 64
    match UllToBytes csumbytes 0 csum1 csumbytes.length with
    | none => none
    | some bytes => BaseW CSumBaseW BaseOffset SPX_WOTS_LEN2 bytes

/-- `WOTS::ChainLengths`: the chain lengths of a message, its digits in base `w` followed
by the digits of the checksum. -/
def ChainLengths (Lengths Message : List Nat) (N : Nat) : Option (List Nat) :=
  let SPX_WOTS_LEN1 := (8 * N / SPX_WOTS_LOGW) % 2 ^ 32
  match BaseW Lengths 0 SPX_WOTS_LEN1 Message with
  | none => none
  | some Lengths1 => WotsChecksum Lengths1 SPX_WOTS_LEN1 Lengths1 N

/-- `WOTS::THash`. `Buffer` and `Mask` are cleared first; the call returns `Output`, in
which the `N` bytes at `OutOffset` are the XOF output for the public seed, the address
bytes and the masked input. What the call leaves in `Buffer` and `Mask` is not returned:
the callers modelled here pass local vectors. -/
def THash (U : SphincsUtils) (Output : List Nat) (OutOffset : Nat) (Input : List Nat)
    (InOffset InputBlocks : Nat) (PkSeed Address Buffer Mask : List Nat) (N : Nat) :
    Option (List Nat) :=
  match MemoryTools.Copy PkSeed 0 (MemoryTools.Clear Buffer) 0 N with
  | none => none
  | some Buffer1 =>
    if N + SPX_ADDR_BYTES ≤ Buffer1.length ∧ InputBlocks * N ≤ Mask.length ∧
        InOffset + InputBlocks * N ≤ Input.length ∧
        N + SPX_ADDR_BYTES + InputBlocks * N ≤ Buffer1.length ∧
        OutOffset + N ≤ Output.length then
      let Buffer2 := writeAt Buffer1 N ((List.range SPX_ADDR_BYTES).map (U.AddressToBytes Address))
      let k := slice Buffer2 0 (N + SPX_ADDR_BYTES)
      let Mask1 := writeAt (MemoryTools.Clear Mask) 0
        ((List.range (InputBlocks * N)).map (U.XOF k))
      let Buffer3 := writeAt Buffer2 (N + SPX_ADDR_BYTES)
        (xorBytes (slice Input InOffset (InputBlocks * N)) (slice Mask1 0 (InputBlocks * N)))
      let k1 := slice Buffer3 0 (N + SPX_ADDR_BYTES + InputBlocks * N)
      some (writeAt Output OutOffset ((List.range N).map (U.XOF k1)))
    else none

/-- The loop of `WOTS::GenChain`,
`for (idx = Start; idx < (Start + Steps) && idx < SPX_WOTS_W; ++idx)`, with `n` steps left
before `Start + Steps` is reached; the state is `Output` and the address. -/
def GenChainLoop (U : SphincsUtils) (OutOffset : Nat) (PkSeed : List Nat) (N : Nat) :
    Nat → Nat → List Nat × List Nat → Option (List Nat × List Nat)
  | 0, _, w => some w
  | n + 1, idx, w =>
    if idx < SPX_WOTS_W then
      let Address := U.SetHashAddress w.2 idx
      match THash U w.1 OutOffset w.1 OutOffset 1 PkSeed Address
          (List.replicate (N + SPX_ADDR_BYTES + 1 * N) 0) (List.replicate (1 * N) 0) N with
      | none => none
      | some Output => GenChainLoop U OutOffset PkSeed N n (idx + 1) (Output, Address)
    else some w

/-- `WOTS::GenChain`: `Output` at `OutOffset` is initialized with the `N` bytes of `Input`
at `InOffset` and hashed `Steps` times, from step `Start` on. The result holds `Output`
and the address, which the call changes. -/
def GenChain (U : SphincsUtils) (Output : List Nat) (OutOffset : Nat) (Input : List Nat)
    (InOffset Start Steps : Nat) (PkSeed Address : List Nat) (N : Nat) :
    Option (List Nat × List Nat) :=
  match MemoryTools.Copy Input InOffset Output OutOffset N with
  | none => none
  | some Output1 => GenChainLoop U OutOffset PkSeed N Steps Start (Output1, Address)

/-- `WOTS::WotsGenSk`: the hash address is set to zero and the secret element of `N`
bytes is written to `Key` at `Offset`. -/
def WotsGenSk (U : SphincsUtils) (Key : List Nat) (Offset : Nat) (KeySeed WotsAddress : List Nat)
    (N : Nat) : Option (List Nat × List Nat) :=
  let Address := U.SetHashAddress WotsAddress 0
  if Offset + N ≤ Key.length then
    some (writeAt Key Offset ((List.range N).map (U.PrfAddress KeySeed Address N)), Address)
  else none

/-- The loop of `WOTS::WotsGenPk`, run for `n` iterations from index `idx`. -/
def WotsGenPkLoop (U : SphincsUtils) (SkSeed PkSeed : List Nat) (N : Nat) :
    Nat → Nat → List Nat × List Nat → Option (List Nat × List Nat)
  | 0, _, w => some w
  | n + 1, idx, w =>
    match WotsGenSk U w.1 (idx * N) SkSeed (U.SetChainAddress w.2 idx) N with
    | none => none
    | some w1 =>
      match GenChain U w1.1 (idx * N) w1.1 (idx * N) 0 (SPX_WOTS_W - 1) PkSeed w1.2 N with
      | none => none
      | some w2 => WotsGenPkLoop U SkSeed PkSeed N n (idx + 1) w2

/-- `WOTS::WotsGenPk`; the result holds the public key and the address. -/
def WotsGenPk (U : SphincsUtils) (PublicKey SkSeed PkSeed Address : List Nat) (N : Nat) :
    Option (List Nat × List Nat) :=
  let SPX_WOTS_LEN1 := (8 * N / SPX_WOTS_LOGW) % 2 ^ 32
  let SPX_WOTS_LEN := (SPX_WOTS_LEN1 + SPX_WOTS_LEN2) % 2 ^ 32
  WotsGenPkLoop U SkSeed PkSeed N SPX_WOTS_LEN 0 (PublicKey, Address)

/-- The loop of `WOTS::WotsSign`, run for `n` iterations from index `idx`. -/
def WotsSignLoop (U : SphincsUtils) (SigOffset : Nat) (SecretSeed PublicSeed lengths : List Nat)
    (N : Nat) : Nat → Nat → List Nat × List Nat → Option (List Nat × List Nat)
  | 0, _, w => some w
  | n + 1, idx, w =>
    match WotsGenSk U w.1 (SigOffset + idx * N) SecretSeed (U.SetChainAddress w.2 idx) N with
    | none => none
    | some w1 =>
      match GenChain U w1.1 (SigOffset + idx * N) w1.1 (SigOffset + idx * N) 0
          (lengths.getD idx 0) PublicSeed w1.2 N with
      | none => none
      | some w2 => WotsSignLoop U SigOffset SecretSeed PublicSeed lengths N n (idx + 1) w2

/-- `WOTS::WotsSign`; the result holds the signature and the address. -/
def WotsSign (U : SphincsUtils) (Signature : List Nat) (SigOffset : Nat)
    (Message SecretSeed PublicSeed Address : List Nat) (N : Nat) :
    Option (List Nat × List Nat) :=
  let SPX_WOTS_LEN := ((8 * N / SPX_WOTS_LOGW) + SPX_WOTS_LEN2) % 2 ^ 32
  match ChainLengths (List.replicate SPX_WOTS_LEN 0) Message N with
  | none => none
  | some lengths =>
    WotsSignLoop U SigOffset SecretSeed PublicSeed lengths N SPX_WOTS_LEN 0 (Signature, Address)

/-- The loop of `WOTS::WotsPkFromSig`, run for `n` iterations from index `idx`. The number
of steps `(SPX_WOTS_W - 1) - lengths[idx]` is not negative, as a chain length is a digit
in base `w`. -/
def WotsPkFromSigLoop (U : SphincsUtils) (Signature : List Nat) (SigOffset : Nat)
    (PrivateSeed lengths : List Nat) (N : Nat) :
    Nat → Nat → List Nat × List Nat → Option (List Nat × List Nat)
  | 0, _, w => some w
  | n + 1, idx, w =>
    match GenChain U w.1 (idx * N) Signature (SigOffset + idx * N) (lengths.getD idx 0)
        (SPX_WOTS_W - 1 - lengths.getD idx 0) PrivateSeed (U.SetChainAddress w.2 idx) N with
    | none => none
    | some w1 => WotsPkFromSigLoop U Signature SigOffset PrivateSeed lengths N n (idx + 1) w1

/-- `WOTS::WotsPkFromSig`; the result holds the public key and the address. The seed that
the source names `PrivateSeed` is passed to `GenChain` as the public seed. -/
def WotsPkFromSig (U : SphincsUtils) (PublicKey Signature : List Nat) (SigOffset : Nat)
    (Message PrivateSeed Address : List Nat) (N : Nat) : Option (List Nat × List Nat) :=
  let SPX_WOTS_LEN := ((8 * N / SPX_WOTS_LOGW) + SPX_WOTS_LEN2) % 2 ^ 32
  match ChainLengths (List.replicate SPX_WOTS_LEN 0) Message N with
  | none => none
  | some lengths =>
    WotsPkFromSigLoop U Signature SigOffset PrivateSeed lengths N SPX_WOTS_LEN 0
      (PublicKey, Address)

end WOTS

/-- The digits in base 16 of a byte string, the most significant digit of each byte
first. -/
def Digits : List Nat → List Nat
  | [] => []
  | b :: l => ((b >>> 4) &&& 15) :: (b &&& 15) :: Digits l

/-- A choice of `SphincsUtils`: the chain index is word 6 and the hash index word 7 of an
address, simple arithmetic stands for the XOF and the PRF. -/
def SampleSphincsUtils : SphincsUtils :=
  { SetHashAddress := fun a h => a.set 7 h
    SetChainAddress := fun a c => a.set 6 c
    AddressToBytes := fun a i => (a.getD (i / 4) 0 >>> (8 * (i % 4))) % 256
    XOF := fun k i => (k.sum + 7 * k.length + 3 * i + k.getD i 0) % 256
    PrfAddress := fun seed a _ i => (seed.getD i 0 + a.sum + 5 * i) % 256 }

/-! ## Threefish1024 -/

namespace Threefish1024

/-- Modelled from the spec: `IntUtils::RotL64` is not among the sources. The rotation of a
64-bit word to the left by `R` bits. -/
def RotL64 (X R : Nat) : Nat :=
  ((X <<< R) ||| (X >>> (64 - R))) % 2 ^ 64

/-- `Threefish1024::GetParity`: the constant `0x1BD11BDAA9FC1A22` combined by exclusive or
with every word of the key. -/
def GetParity (Key : List Nat) : Nat :=
  Key.foldl (fun parity k => parity ^^^ k) 0x1BD11BDAA9FC1A22

/-- `Threefish1024::Mix`: `A += B; B = RotL64(B, R) ^ A;`. The result holds `A` and `B`. -/
def Mix (A B R : Nat) : Nat × Nat :=
  let A1 := (A + B) % 2 ^ 64
  (A1, RotL64 B R ^^^ A1)

/-- `Threefish1024::Inject`: `B += K1; A += B + K0; B = RotL64(B, R) ^ A;`. -/
def Inject (A B R K0 K1 : Nat) : Nat × Nat :=
  let B1 := (B + K1) % 2 ^ 64
  let A1 := (A + (B1 + K0) % 2 ^ 64) % 2 ^ 64
  (A1, RotL64 B1 R ^^^ A1)

/-- The statement `Mix(Ba, Bb, R);` on the block `B0, …, B15`, held as a list. -/
def MixAt (a b R : Nat) (B : List Nat) : List Nat :=
  (B.set a (Mix (B.getD a 0) (B.getD b 0) R).1).set b (Mix (B.getD a 0) (B.getD b 0) R).2

/-- The statement `Inject(Ba, Bb, R, K0, K1);` on the block `B0, …, B15`. -/
def InjectAt (a b R K0 K1 : Nat) (B : List Nat) : List Nat :=
  (B.set a (Inject (B.getD a 0) (B.getD b 0) R K0 K1).1).set b
    (Inject (B.getD a 0) (B.getD b 0) R K0 K1).2

/-- The 640 statements of the 80 rounds of `Threefish1024::Transfrom128`, in the order of
the source: `InjectAt a b R X Y` stands for `Inject(Ba, Bb, R, X, Y);` and `MixAt a b R`
for `Mix(Ba, Bb, R);`. The sums in the arguments are sums of 64-bit words. -/
def Transfrom128Rounds (K0 K1 K2 K3 K4 K5 K6 K7 K8 K9 K10 K11 K12 K13 K14 K15 K16 T0 T1 T2 : Nat) :
    List (List Nat → List Nat) :=
  [InjectAt 0 1 24 K0 K1, InjectAt 2 3 13 K2 K3, InjectAt 4 5 8 K4 K5, InjectAt 6 7 47 K6 K7,
   InjectAt 8 9 8 K8 K9, InjectAt 10 11 17 K10 K11, InjectAt 12 13 22 K12 ((K13 + T0) % 2 ^ 64),
   InjectAt 14 15 37 ((K14 + T1) % 2 ^ 64) K15,
   MixAt 0 9 38, MixAt 2 13 19, MixAt 6 11 10, MixAt 4 15 55, MixAt 10 7 49, MixAt 12 3 18,
   MixAt 14 5 23, MixAt 8 1 52,
   MixAt 0 7 33, MixAt 2 5 4, MixAt 4 3 51, MixAt 6 1 13, MixAt 12 15 34, MixAt 14 13 41,
   MixAt 8 11 59, MixAt 10 9 17,
   MixAt 0 15 5, MixAt 2 11 20, MixAt 6 13 48, MixAt 4 9 41, MixAt 14 1 47, MixAt 8 5 28,
   MixAt 10 3 16, MixAt 12 7 25,
   InjectAt 0 1 41 K1 K2, InjectAt 2 3 9 K3 K4, InjectAt 4 5 37 K5 K6, InjectAt 6 7 31 K7 K8,
   InjectAt 8 9 12 K9 K10, InjectAt 10 11 47 K11 K12, InjectAt 12 13 44 K13 ((K14 + T1) % 2 ^ 64),
   InjectAt 14 15 30 ((K15 + T2) % 2 ^ 64) ((K16 + 1) % 2 ^ 64),
   MixAt 0 9 16, MixAt 2 13 34, MixAt 6 11 56, MixAt 4 15 51, MixAt 10 7 4, MixAt 12 3 53,
   MixAt 14 5 42, MixAt 8 1 41,
   MixAt 0 7 31, MixAt 2 5 44, MixAt 4 3 47, MixAt 6 1 46, MixAt 12 15 19, MixAt 14 13 42,
   MixAt 8 11 44, MixAt 10 9 25,
   MixAt 0 15 9, MixAt 2 11 48, MixAt 6 13 35, MixAt 4 9 52, MixAt 14 1 23, MixAt 8 5 31,
   MixAt 10 3 37, MixAt 12 7 20,
   InjectAt 0 1 24 K2 K3, InjectAt 2 3 13 K4 K5, InjectAt 4 5 8 K6 K7, InjectAt 6 7 47 K8 K9,
   InjectAt 8 9 8 K10 K11, InjectAt 10 11 17 K12 K13, InjectAt 12 13 22 K14 ((K15 + T2) % 2 ^ 64),
   InjectAt 14 15 37 ((K16 + T0) % 2 ^ 64) ((K0 + 2) % 2 ^ 64),
   MixAt 0 9 38, MixAt 2 13 19, MixAt 6 11 10, MixAt 4 15 55, MixAt 10 7 49, MixAt 12 3 18,
   MixAt 14 5 23, MixAt 8 1 52,
   MixAt 0 7 33, MixAt 2 5 4, MixAt 4 3 51, MixAt 6 1 13, MixAt 12 15 34, MixAt 14 13 41,
   MixAt 8 11 59, MixAt 10 9 17,
   MixAt 0 15 5, MixAt 2 11 20, MixAt 6 13 48, MixAt 4 9 41, MixAt 14 1 47, MixAt 8 5 28,
   MixAt 10 3 16, MixAt 12 7 25,
   InjectAt 0 1 41 K3 K4, InjectAt 2 3 9 K5 K6, InjectAt 4 5 37 K7 K8, InjectAt 6 7 31 K9 K10,
   InjectAt 8 9 12 K11 K12, InjectAt 10 11 47 K13 K14,
   InjectAt 12 13 44 K15 ((K16 + T0) % 2 ^ 64),
   InjectAt 14 15 30 ((K0 + T1) % 2 ^ 64) ((K1 + 3) % 2 ^ 64),
   MixAt 0 9 16, MixAt 2 13 34, MixAt 6 11 56, MixAt 4 15 51, MixAt 10 7 4, MixAt 12 3 53,
   MixAt 14 5 42, MixAt 8 1 41,
   MixAt 0 7 31, MixAt 2 5 44, MixAt 4 3 47, MixAt 6 1 46, MixAt 12 15 19, MixAt 14 13 42,
   MixAt 8 11 44, MixAt 10 9 25,
   MixAt 0 15 9, MixAt 2 11 48, MixAt 6 13 35, MixAt 4 9 52, MixAt 14 1 23, MixAt 8 5 31,
   MixAt 10 3 37, MixAt 12 7 20,
   InjectAt 0 1 24 K4 K5, InjectAt 2 3 13 K6 K7, InjectAt 4 5 8 K8 K9, InjectAt 6 7 47 K10 K11,
   InjectAt 8 9 8 K12 K13, InjectAt 10 11 17 K14 K15, InjectAt 12 13 22 K16 ((K0 + T1) % 2 ^ 64),
   InjectAt 14 15 37 ((K1 + T2) % 2 ^ 64) ((K2 + 4) % 2 ^ 64),
   MixAt 0 9 38, MixAt 2 13 19, MixAt 6 11 10, MixAt 4 15 55, MixAt 10 7 49, MixAt 12 3 18,
   MixAt 14 5 23, MixAt 8 1 52,
   MixAt 0 7 33, MixAt 2 5 4, MixAt 4 3 51, MixAt 6 1 13, MixAt 12 15 34, MixAt 14 13 41,
   MixAt 8 11 59, MixAt 10 9 17,
   MixAt 0 15 5, MixAt 2 11 20, MixAt 6 13 48, MixAt 4 9 41, MixAt 14 1 47, MixAt 8 5 28,
   MixAt 10 3 16, MixAt 12 7 25,
   InjectAt 0 1 41 K5 K6, InjectAt 2 3 9 K7 K8, InjectAt 4 5 37 K9 K10, InjectAt 6 7 31 K11 K12,
   InjectAt 8 9 12 K13 K14, InjectAt 10 11 47 K15 K16, InjectAt 12 13 44 K0 ((K1 + T2) % 2 ^ 64),
   InjectAt 14 15 30 ((K2 + T0) % 2 ^ 64) ((K3 + 5) % 2 ^ 64),
   MixAt 0 9 16, MixAt 2 13 34, MixAt 6 11 56, MixAt 4 15 51, MixAt 10 7 4, MixAt 12 3 53,
   MixAt 14 5 42, MixAt 8 1 41,
   MixAt 0 7 31, MixAt 2 5 44, MixAt 4 3 47, MixAt 6 1 46, MixAt 12 15 19, MixAt 14 13 42,
   MixAt 8 11 44, MixAt 10 9 25,
   MixAt 0 15 9, MixAt 2 11 48, MixAt 6 13 35, MixAt 4 9 52, MixAt 14 1 23, MixAt 8 5 31,
   MixAt 10 3 37, MixAt 12 7 20,
   InjectAt 0 1 24 K6 K7, InjectAt 2 3 13 K8 K9, InjectAt 4 5 8 K10 K11, InjectAt 6 7 47 K12 K13,
   InjectAt 8 9 8 K14 K15, InjectAt 10 11 17 K16 K0, InjectAt 12 13 22 K1 ((K2 + T0) % 2 ^ 64),
   InjectAt 14 15 37 ((K3 + T1) % 2 ^ 64) ((K4 + 6) % 2 ^ 64),
   MixAt 0 9 38, MixAt 2 13 19, MixAt 6 11 10, MixAt 4 15 55, MixAt 10 7 49, MixAt 12 3 18,
   MixAt 14 5 23, MixAt 8 1 52,
   MixAt 0 7 33, MixAt 2 5 4, MixAt 4 3 51, MixAt 6 1 13, MixAt 12 15 34, MixAt 14 13 41,
   MixAt 8 11 59, MixAt 10 9 17,
   MixAt 0 15 5, MixAt 2 11 20, MixAt 6 13 48, MixAt 4 9 41, MixAt 14 1 47, MixAt 8 5 28,
   MixAt 10 3 16, MixAt 12 7 25,
   InjectAt 0 1 41 K7 K8, InjectAt 2 3 9 K9 K10, InjectAt 4 5 37 K11 K12, InjectAt 6 7 31 K13 K14,
   InjectAt 8 9 12 K15 K16, InjectAt 10 11 47 K0 K1, InjectAt 12 13 44 K2 ((K3 + T1) % 2 ^ 64),
   InjectAt 14 15 30 ((K4 + T2) % 2 ^ 64) ((K5 + 7) % 2 ^ 64),
   MixAt 0 9 16, MixAt 2 13 34, MixAt 6 11 56, MixAt 4 15 51, MixAt 10 7 4, MixAt 12 3 53,
   MixAt 14 5 42, MixAt 8 1 41,
   MixAt 0 7 31, MixAt 2 5 44, MixAt 4 3 47, MixAt 6 1 46, MixAt 12 15 19, MixAt 14 13 42,
   MixAt 8 11 44, MixAt 10 9 25,
   MixAt 0 15 9, MixAt 2 11 48, MixAt 6 13 35, MixAt 4 9 52, MixAt 14 1 23, MixAt 8 5 31,
   MixAt 10 3 37, MixAt 12 7 20,
   InjectAt 0 1 24 K8 K9, InjectAt 2 3 13 K10 K11, InjectAt 4 5 8 K12 K13,
   InjectAt 6 7 47 K14 K15, InjectAt 8 9 8 K16 K0, InjectAt 10 11 17 K1 K2,
   InjectAt 12 13 22 K3 ((K4 + T2) % 2 ^ 64),
   InjectAt 14 15 37 ((K5 + T0) % 2 ^ 64) ((K6 + 8) % 2 ^ 64),
   MixAt 0 9 38, MixAt 2 13 19, MixAt 6 11 10, MixAt 4 15 55, MixAt 10 7 49, MixAt 12 3 18,
   MixAt 14 5 23, MixAt 8 1 52,
   MixAt 0 7 33, MixAt 2 5 4, MixAt 4 3 51, MixAt 6 1 13, MixAt 12 15 34, MixAt 14 13 41,
   MixAt 8 11 59, MixAt 10 9 17,
   MixAt 0 15 5, MixAt 2 11 20, MixAt 6 13 48, MixAt 4 9 41, MixAt 14 1 47, MixAt 8 5 28,
   MixAt 10 3 16, MixAt 12 7 25,
   InjectAt 0 1 41 K9 K10, InjectAt 2 3 9 K11 K12, InjectAt 4 5 37 K13 K14,
   InjectAt 6 7 31 K15 K16, InjectAt 8 9 12 K0 K1, InjectAt 10 11 47 K2 K3,
   InjectAt 12 13 44 K4 ((K5 + T0) % 2 ^ 64),
   InjectAt 14 15 30 ((K6 + T1) % 2 ^ 64) ((K7 + 9) % 2 ^ 64),
   MixAt 0 9 16, MixAt 2 13 34, MixAt 6 11 56, MixAt 4 15 51, MixAt 10 7 4, MixAt 12 3 53,
   MixAt 14 5 42, MixAt 8 1 41,
   MixAt 0 7 31, MixAt 2 5 44, MixAt 4 3 47, MixAt 6 1 46, MixAt 12 15 19, MixAt 14 13 42,
   MixAt 8 11 44, MixAt 10 9 25,
   MixAt 0 15 9, MixAt 2 11 48, MixAt 6 13 35, MixAt 4 9 52, MixAt 14 1 23, MixAt 8 5 31,
   MixAt 10 3 37, MixAt 12 7 20,
   InjectAt 0 1 24 K10 K11, InjectAt 2 3 13 K12 K13, InjectAt 4 5 8 K14 K15,
   InjectAt 6 7 47 K16 K0, InjectAt 8 9 8 K1 K2, InjectAt 10 11 17 K3 K4,
   InjectAt 12 13 22 K5 ((K6 + T1) % 2 ^ 64),
   InjectAt 14 15 37 ((K7 + T2) % 2 ^ 64) ((K8 + 10) % 2 ^ 64),
   MixAt 0 9 38, MixAt 2 13 19, MixAt 6 11 10, MixAt 4 15 55, MixAt 10 7 49, MixAt 12 3 18,
   MixAt 14 5 23, MixAt 8 1 52,
   MixAt 0 7 33, MixAt 2 5 4, MixAt 4 3 51, MixAt 6 1 13, MixAt 12 15 34, MixAt 14 13 41,
   MixAt 8 11 59, MixAt 10 9 17,
   MixAt 0 15 5, MixAt 2 11 20, MixAt 6 13 48, MixAt 4 9 41, MixAt 14 1 47, MixAt 8 5 28,
   MixAt 10 3 16, MixAt 12 7 25,
   InjectAt 0 1 41 K11 K12, InjectAt 2 3 9 K13 K14, InjectAt 4 5 37 K15 K16,
   InjectAt 6 7 31 K0 K1, InjectAt 8 9 12 K2 K3, InjectAt 10 11 47 K4 K5,
   InjectAt 12 13 44 K6 ((K7 + T2) % 2 ^ 64),
   InjectAt 14 15 30 ((K8 + T0) % 2 ^ 64) ((K9 + 11) % 2 ^ 64),
   MixAt 0 9 16, MixAt 2 13 34, MixAt 6 11 56, MixAt 4 15 51, MixAt 10 7 4, MixAt 12 3 53,
   MixAt 14 5 42, MixAt 8 1 41,
   MixAt 0 7 31, MixAt 2 5 44, MixAt 4 3 47, MixAt 6 1 46, MixAt 12 15 19, MixAt 14 13 42,
   MixAt 8 11 44, MixAt 10 9 25,
   MixAt 0 15 9, MixAt 2 11 48, MixAt 6 13 35, MixAt 4 9 52, MixAt 14 1 23, MixAt 8 5 31,
   MixAt 10 3 37, MixAt 12 7 20,
   InjectAt 0 1 24 K12 K13, InjectAt 2 3 13 K14 K15, InjectAt 4 5 8 K16 K0, InjectAt 6 7 47 K1 K2,
   InjectAt 8 9 8 K3 K4, InjectAt 10 11 17 K5 K6, InjectAt 12 13 22 K7 ((K8 + T0) % 2 ^ 64),
   InjectAt 14 15 37 ((K9 + T1) % 2 ^ 64) ((K10 + 12) % 2 ^ 64),
   MixAt 0 9 38, MixAt 2 13 19, MixAt 6 11 10, MixAt 4 15 55, MixAt 10 7 49, MixAt 12 3 18,
   MixAt 14 5 23, MixAt 8 1 52,
   MixAt 0 7 33, MixAt 2 5 4, MixAt 4 3 51, MixAt 6 1 13, MixAt 12 15 34, MixAt 14 13 41,
   MixAt 8 11 59, MixAt 10 9 17,
   MixAt 0 15 5, MixAt 2 11 20, MixAt 6 13 48, MixAt 4 9 41, MixAt 14 1 47, MixAt 8 5 28,
   MixAt 10 3 16, MixAt 12 7 25,
   InjectAt 0 1 41 K13 K14, InjectAt 2 3 9 K15 K16, InjectAt 4 5 37 K0 K1, InjectAt 6 7 31 K2 K3,
   InjectAt 8 9 12 K4 K5, InjectAt 10 11 47 K6 K7, InjectAt 12 13 44 K8 ((K9 + T1) % 2 ^ 64),
   InjectAt 14 15 30 ((K10 + T2) % 2 ^ 64) ((K11 + 13) % 2 ^ 64),
   MixAt 0 9 16, MixAt 2 13 34, MixAt 6 11 56, MixAt 4 15 51, MixAt 10 7 4, MixAt 12 3 53,
   MixAt 14 5 42, MixAt 8 1 41,
   MixAt 0 7 31, MixAt 2 5 44, MixAt 4 3 47, MixAt 6 1 46, MixAt 12 15 19, MixAt 14 13 42,
   MixAt 8 11 44, MixAt 10 9 25,
   MixAt 0 15 9, MixAt 2 11 48, MixAt 6 13 35, MixAt 4 9 52, MixAt 14 1 23, MixAt 8 5 31,
   MixAt 10 3 37, MixAt 12 7 20,
   InjectAt 0 1 24 K14 K15, InjectAt 2 3 13 K16 K0, InjectAt 4 5 8 K1 K2, InjectAt 6 7 47 K3 K4,
   InjectAt 8 9 8 K5 K6, InjectAt 10 11 17 K7 K8, InjectAt 12 13 22 K9 ((K10 + T2) % 2 ^ 64),
   InjectAt 14 15 37 ((K11 + T0) % 2 ^ 64) ((K12 + 14) % 2 ^ 64),
   MixAt 0 9 38, MixAt 2 13 19, MixAt 6 11 10, MixAt 4 15 55, MixAt 10 7 49, MixAt 12 3 18,
   MixAt 14 5 23, MixAt 8 1 52,
   MixAt 0 7 33, MixAt 2 5 4, MixAt 4 3 51, MixAt 6 1 13, MixAt 12 15 34, MixAt 14 13 41,
   MixAt 8 11 59, MixAt 10 9 17,
   MixAt 0 15 5, MixAt 2 11 20, MixAt 6 13 48, MixAt 4 9 41, MixAt 14 1 47, MixAt 8 5 28,
   MixAt 10 3 16, MixAt 12 7 25,
   InjectAt 0 1 41 K15 K16, InjectAt 2 3 9 K0 K1, InjectAt 4 5 37 K2 K3, InjectAt 6 7 31 K4 K5,
   InjectAt 8 9 12 K6 K7, InjectAt 10 11 47 K8 K9, InjectAt 12 13 44 K10 ((K11 + T0) % 2 ^ 64),
   InjectAt 14 15 30 ((K12 + T1) % 2 ^ 64) ((K13 + 15) % 2 ^ 64),
   MixAt 0 9 16, MixAt 2 13 34, MixAt 6 11 56, MixAt 4 15 51, MixAt 10 7 4, MixAt 12 3 53,
   MixAt 14 5 42, MixAt 8 1 41,
   MixAt 0 7 31, MixAt 2 5 44, MixAt 4 3 47, MixAt 6 1 46, MixAt 12 15 19, MixAt 14 13 42,
   MixAt 8 11 44, MixAt 10 9 25,
   MixAt 0 15 9, MixAt 2 11 48, MixAt 6 13 35, MixAt 4 9 52, MixAt 14 1 23, MixAt 8 5 31,
   MixAt 10 3 37, MixAt 12 7 20,
   InjectAt 0 1 24 K16 K0, InjectAt 2 3 13 K1 K2, InjectAt 4 5 8 K3 K4, InjectAt 6 7 47 K5 K6,
   InjectAt 8 9 8 K7 K8, InjectAt 10 11 17 K9 K10, InjectAt 12 13 22 K11 ((K12 + T1) % 2 ^ 64),
   InjectAt 14 15 37 ((K13 + T2) % 2 ^ 64) ((K14 + 16) % 2 ^ 64),
   MixAt 0 9 38, MixAt 2 13 19, MixAt 6 11 10, MixAt 4 15 55, MixAt 10 7 49, MixAt 12 3 18,
   MixAt 14 5 23, MixAt 8 1 52,
   MixAt 0 7 33, MixAt 2 5 4, MixAt 4 3 51, MixAt 6 1 13, MixAt 12 15 34, MixAt 14 13 41,
   MixAt 8 11 59, MixAt 10 9 17,
   MixAt 0 15 5, MixAt 2 11 20, MixAt 6 13 48, MixAt 4 9 41, MixAt 14 1 47, MixAt 8 5 28,
   MixAt 10 3 16, MixAt 12 7 25,
   InjectAt 0 1 41 K0 K1, InjectAt 2 3 9 K2 K3, InjectAt 4 5 37 K4 K5, InjectAt 6 7 31 K6 K7,
   InjectAt 8 9 12 K8 K9, InjectAt 10 11 47 K10 K11, InjectAt 12 13 44 K12 ((K13 + T2) % 2 ^ 64),
   InjectAt 14 15 30 ((K14 + T0) % 2 ^ 64) ((K15 + 17) % 2 ^ 64),
   MixAt 0 9 16, MixAt 2 13 34, MixAt 6 11 56, MixAt 4 15 51, MixAt 10 7 4, MixAt 12 3 53,
   MixAt 14 5 42, MixAt 8 1 41,
   MixAt 0 7 31, MixAt 2 5 44, MixAt 4 3 47, MixAt 6 1 46, MixAt 12 15 19, MixAt 14 13 42,
   MixAt 8 11 44, MixAt 10 9 25,
   MixAt 0 15 9, MixAt 2 11 48, MixAt 6 13 35, MixAt 4 9 52, MixAt 14 1 23, MixAt 8 5 31,
   MixAt 10 3 37, MixAt 12 7 20,
   InjectAt 0 1 24 K1 K2, InjectAt 2 3 13 K3 K4, InjectAt 4 5 8 K5 K6, InjectAt 6 7 47 K7 K8,
   InjectAt 8 9 8 K9 K10, InjectAt 10 11 17 K11 K12, InjectAt 12 13 22 K13 ((K14 + T0) % 2 ^ 64),
   InjectAt 14 15 37 ((K15 + T1) % 2 ^ 64) ((K16 + 18) % 2 ^ 64),
   MixAt 0 9 38, MixAt 2 13 19, MixAt 6 11 10, MixAt 4 15 55, MixAt 10 7 49, MixAt 12 3 18,
   MixAt 14 5 23, MixAt 8 1 52,
   MixAt 0 7 33, MixAt 2 5 4, MixAt 4 3 51, MixAt 6 1 13, MixAt 12 15 34, MixAt 14 13 41,
   MixAt 8 11 59, MixAt 10 9 17,
   MixAt 0 15 5, MixAt 2 11 20, MixAt 6 13 48, MixAt 4 9 41, MixAt 14 1 47, MixAt 8 5 28,
   MixAt 10 3 16, MixAt 12 7 25,
   InjectAt 0 1 41 K2 K3, InjectAt 2 3 9 K4 K5, InjectAt 4 5 37 K6 K7, InjectAt 6 7 31 K8 K9,
   InjectAt 8 9 12 K10 K11, InjectAt 10 11 47 K12 K13,
   InjectAt 12 13 44 K14 ((K15 + T1) % 2 ^ 64),
   InjectAt 14 15 30 ((K16 + T2) % 2 ^ 64) ((K0 + 19) % 2 ^ 64),
   MixAt 0 9 16, MixAt 2 13 34, MixAt 6 11 56, MixAt 4 15 51, MixAt 10 7 4, MixAt 12 3 53,
   MixAt 14 5 42, MixAt 8 1 41,
   MixAt 0 7 31, MixAt 2 5 44, MixAt 4 3 47, MixAt 6 1 46, MixAt 12 15 19, MixAt 14 13 42,
   MixAt 8 11 44, MixAt 10 9 25,
   MixAt 0 15 9, MixAt 2 11 48, MixAt 6 13 35, MixAt 4 9 52, MixAt 14 1 23, MixAt 8 5 31,
   MixAt 10 3 37, MixAt 12 7 20]

/-- `Threefish1024::Transfrom128(Input, InOffset, Output)`: the block is read from
`Input[0 .. 15]` (the source does not use `InOffset`), the key from `Output.S` and the
tweak from `Output.T`; the result is `Output.S` after the call. -/
def Transfrom128 (Input : List Nat) (_InOffset : Nat) (S T : List Nat) : Option (List Nat) :=
  if 16 ≤ Input.length ∧ 16 ≤ S.length ∧ 2 ≤ T.length then
    let K0 := S.getD 0 0
    let K1 := S.getD 1 0
    let K2 := S.getD 2 0
    let K3 := S.getD 3 0
    let K4 := S.getD 4 0
    let K5 := S.getD 5 0
    let K6 := S.getD 6 0
    let K7 := S.getD 7 0
    let K8 := S.getD 8 0
    let K9 := S.getD 9 0
    let K10 := S.getD 10 0
    let K11 := S.getD 11 0
    let K12 := S.getD 12 0
    let K13 := S.getD 13 0
    let K14 := S.getD 14 0
    let K15 := S.getD 15 0
    let K16 := GetParity S
    let T0 := T.getD 0 0
    let T1 := T.getD 1 0
    let T2 := T.getD 0 0 ^^^ T.getD 1 0
    let B := (Transfrom128Rounds K0 K1 K2 K3 K4 K5 K6 K7 K8 K9 K10 K11 K12 K13 K14 K15 K16
      T0 T1 T2).foldl (fun B statement => statement B) (Input.take 16)
    some (writeAt S 0
      [(B.getD 0 0 + K3) % 2 ^ 64, (B.getD 1 0 + K4) % 2 ^ 64, (B.getD 2 0 + K5) % 2 ^ 64,
       (B.getD 3 0 + K6) % 2 ^ 64, (B.getD 4 0 + K7) % 2 ^ 64, (B.getD 5 0 + K8) % 2 ^ 64,
       (B.getD 6 0 + K9) % 2 ^ 64, (B.getD 7 0 + K10) % 2 ^ 64, (B.getD 8 0 + K11) % 2 ^ 64,
       (B.getD 9 0 + K12) % 2 ^ 64, (B.getD 10 0 + K13) % 2 ^ 64,
       (B.getD 11 0 + K14) % 2 ^ 64, (B.getD 12 0 + K15) % 2 ^ 64,
       ((B.getD 13 0 + K16) % 2 ^ 64 + T2) % 2 ^ 64,
       ((B.getD 14 0 + K0) % 2 ^ 64 + T0) % 2 ^ 64,
       ((B.getD 15 0 + K1) % 2 ^ 64 + 20) % 2 ^ 64])
  else none

/-- The 32 statements of four rounds of `Transfrom128` that start at a round `d` with
`d mod 8 = 0`, with the key arguments of the eight `Inject` calls as parameters. -/
def FourRoundsA (k0 k1 k2 k3 k4 k5 k6 k7 k8 k9 k10 k11 k12 k13 k14 k15 : Nat) :
    List (List Nat → List Nat) :=
  [InjectAt 0 1 24 k0 k1, InjectAt 2 3 13 k2 k3, InjectAt 4 5 8 k4 k5, InjectAt 6 7 47 k6 k7,
   InjectAt 8 9 8 k8 k9, InjectAt 10 11 17 k10 k11, InjectAt 12 13 22 k12 k13,
   InjectAt 14 15 37 k14 k15,
   MixAt 0 9 38, MixAt 2 13 19, MixAt 6 11 10, MixAt 4 15 55, MixAt 10 7 49, MixAt 12 3 18,
   MixAt 14 5 23, MixAt 8 1 52,
   MixAt 0 7 33, MixAt 2 5 4, MixAt 4 3 51, MixAt 6 1 13, MixAt 12 15 34, MixAt 14 13 41,
   MixAt 8 11 59, MixAt 10 9 17,
   MixAt 0 15 5, MixAt 2 11 20, MixAt 6 13 48, MixAt 4 9 41, MixAt 14 1 47, MixAt 8 5 28,
   MixAt 10 3 16, MixAt 12 7 25]

/-- The 32 statements of four rounds of `Transfrom128` that start at a round `d` with
`d mod 8 = 4`, with the key arguments of the eight `Inject` calls as parameters. -/
def FourRoundsB (k0 k1 k2 k3 k4 k5 k6 k7 k8 k9 k10 k11 k12 k13 k14 k15 : Nat) :
    List (List Nat → List Nat) :=
  [InjectAt 0 1 41 k0 k1, InjectAt 2 3 9 k2 k3, InjectAt 4 5 37 k4 k5, InjectAt 6 7 31 k6 k7,
   InjectAt 8 9 12 k8 k9, InjectAt 10 11 47 k10 k11, InjectAt 12 13 44 k12 k13,
   InjectAt 14 15 30 k14 k15,
   MixAt 0 9 16, MixAt 2 13 34, MixAt 6 11 56, MixAt 4 15 51, MixAt 10 7 4, MixAt 12 3 53,
   MixAt 14 5 42, MixAt 8 1 41,
   MixAt 0 7 31, MixAt 2 5 44, MixAt 4 3 47, MixAt 6 1 46, MixAt 12 15 19, MixAt 14 13 42,
   MixAt 8 11 44, MixAt 10 9 25,
   MixAt 0 15 9, MixAt 2 11 48, MixAt 6 13 35, MixAt 4 9 52, MixAt 14 1 23, MixAt 8 5 31,
   MixAt 10 3 37, MixAt 12 7 20]

/-! ### The reference Threefish-1024 encryption -/

/-- The rotation table of Threefish-1024: row `d mod 8` holds the rotation of the eight
word pairs in round `d`. -/
def RotationTable : List (List Nat) :=
  [[24, 13, 8, 47, 8, 17, 22, 37],
   [38, 19, 10, 55, 49, 18, 23, 52],
   [33, 4, 51, 13, 34, 41, 59, 17],
   [5, 20, 48, 41, 47, 28, 16, 25],
   [41, 9, 37, 31, 12, 47, 44, 30],
   [16, 34, 56, 51, 4, 53, 42, 41],
   [31, 44, 47, 46, 19, 42, 44, 25],
   [9, 48, 35, 52, 23, 31, 37, 20]]

/-- The word permutation of Threefish-1024: after a round, word `i` is the word that was
at position `Permutation[i]`. -/
def Permutation : List Nat :=
  [0, 9, 2, 13, 6, 11, 4, 15, 10, 7, 12, 3, 14, 5, 8, 1]

/-- The function MIX of the reference: `a += b; b = rotl64(b, r) XOR a`. -/
def RefMix (a b r : Nat) : Nat × Nat :=
  ((a + b) % 2 ^ 64, RotL64 b r ^^^ ((a + b) % 2 ^ 64))

/-- Word `i` of subkey `s`, for the extended key `K` of 17 words and the extended tweak
`T` of 3 words: `K[(s + i) mod 17]`, plus `T[s mod 3]` at `i = 13`, plus
`T[(s + 1) mod 3]` at `i = 14`, plus `s` at `i = 15`. -/
def RefSubkey (K T : List Nat) (s i : Nat) : Nat :=
  (K.getD ((s + i) % 17) 0
    + (if i = 13 then T.getD (s % 3) 0 else if i = 14 then T.getD ((s + 1) % 3) 0
       else if i = 15 then s else 0)) % 2 ^ 64

/-- The state after subkey `s` is added, word by word, modulo `2 ^ 64`. -/
def RefAddSubkey (K T : List Nat) (s : Nat) (v : List Nat) : List Nat :=
  (List.range 16).map (fun i => (v.getD i 0 + RefSubkey K T s i) % 2 ^ 64)

/-- The state after MIX is applied to the eight word pairs `(v[2j], v[2j + 1])` with the
rotations of row `d mod 8`. -/
def RefMixPairs (d : Nat) (v : List Nat) : List Nat :=
  (List.range 8).flatMap (fun j =>
    [(RefMix (v.getD (2 * j) 0) (v.getD (2 * j + 1) 0)
        ((RotationTable.getD (d % 8) []).getD j 0)).1,
     (RefMix (v.getD (2 * j) 0) (v.getD (2 * j + 1) 0)
        ((RotationTable.getD (d % 8) []).getD j 0)).2])

/-- The state after the word permutation. -/
def RefPermute (v : List Nat) : List Nat :=
  Permutation.map (fun i => v.getD i 0)

/-- Round `d` of the reference: subkey `d / 4` is added before the round when `d` is a
multiple of 4, MIX is applied to the eight pairs and the words are permuted. -/
def RefRound (K T : List Nat) (d : Nat) (v : List Nat) : List Nat :=
  RefPermute (RefMixPairs d (if d % 4 = 0 then RefAddSubkey K T (d / 4) v else v))

/-- The state after the rounds `0, …, n - 1` of the reference. -/
def RefRounds (K T : List Nat) : Nat → List Nat → List Nat
  | 0, v => v
  | n + 1, v => RefRound K T n (RefRounds K T n v)

/-- The reference Threefish-1024 encryption of the 16 words `v` under the key words
`K0, …, K15` and the tweak `(T0, T1)`: the key is extended by
`K16 = 0x1BD11BDAA9FC1A22 XOR K0 XOR … XOR K15`, the tweak by `T2 = T0 XOR T1`, 80 rounds
are run and subkey 20 is added to the final state. -/
def RefEncrypt (K T v : List Nat) : List Nat :=
  RefAddSubkey (K ++ [K.foldl (fun p k => p ^^^ k) 0x1BD11BDAA9FC1A22])
    (T ++ [T.getD 0 0 ^^^ T.getD 1 0]) 20
    (RefRounds (K ++ [K.foldl (fun p k => p ^^^ k) 0x1BD11BDAA9FC1A22])
      (T ++ [T.getD 0 0 ^^^ T.getD 1 0]) 80 v)

end Threefish1024

/-! ## SHX -/

/-- The functions of `Serpent.h` that `SHX` calls, on the four words `R0, R1, R2, R3`;
the header is not among the sources. -/
structure SerpentFunctions where
  Sb0 : Nat × Nat × Nat × Nat → Nat × Nat × Nat × Nat
  Sb1 : Nat × Nat × Nat × Nat → Nat × Nat × Nat × Nat
  Sb2 : Nat × Nat × Nat × Nat → Nat × Nat × Nat × Nat
  Sb3 : Nat × Nat × Nat × Nat → Nat × Nat × Nat × Nat
  Sb4 : Nat × Nat × Nat × Nat → Nat × Nat × Nat × Nat
  Sb5 : Nat × Nat × Nat × Nat → Nat × Nat × Nat × Nat
  Sb6 : Nat × Nat × Nat × Nat → Nat × Nat × Nat × Nat
  Sb7 : Nat × Nat × Nat × Nat → Nat × Nat × Nat × Nat
  Ib0 : Nat × Nat × Nat × Nat → Nat × Nat × Nat × Nat
  Ib1 : Nat × Nat × Nat × Nat → Nat × Nat × Nat × Nat
  Ib2 : Nat × Nat × Nat × Nat → Nat × Nat × Nat × Nat
  Ib3 : Nat × Nat × Nat × Nat → Nat × Nat × Nat × Nat
  Ib4 : Nat × Nat × Nat × Nat → Nat × Nat × Nat × Nat
  Ib5 : Nat × Nat × Nat × Nat → Nat × Nat × Nat × Nat
  Ib6 : Nat × Nat × Nat × Nat → Nat × Nat × Nat × Nat
  Ib7 : Nat × Nat × Nat × Nat → Nat × Nat × Nat × Nat
  LinearTransform : Nat × Nat × Nat × Nat → Nat × Nat × Nat × Nat
  InverseTransform : Nat × Nat × Nat × Nat → Nat × Nat × Nat × Nat

namespace SHX

/-- The four statements `R0 ^= m_expKey[k]; R1 ^= m_expKey[k + 1]; R2 ^= m_expKey[k + 2];
R3 ^= m_expKey[k + 3];`. In `Encrypt16` they are written with `++keyCtr` and `k` is
`keyCtr + 1`; in `Decrypt16` they are written with `--keyCtr`, from `R3` down to `R0`, and
`k` is `keyCtr - 4`. A key word outside `m_expKey` is undefined. -/
def AddKey (m_expKey : List Nat) (k : Nat) (R : Nat × Nat × Nat × Nat) :
    Option (Nat × Nat × Nat × Nat) :=
  if k + 4 ≤ m_expKey.length then
    some (R.1 ^^^ m_expKey.getD k 0, R.2.1 ^^^ m_expKey.getD (k + 1) 0,
      R.2.2.1 ^^^ m_expKey.getD (k + 2) 0, R.2.2.2 ^^^ m_expKey.getD (k + 3) 0)
  else none

/-- The key addition of `Decrypt16` at the counter `keyCtr`: the words
`keyCtr - 1, …, keyCtr - 4` are used; a counter below 4 wraps and indexes outside the
key. -/
def SubKey (m_expKey : List Nat) (keyCtr : Nat) (R : Nat × Nat × Nat × Nat) :
    Option (Nat × Nat × Nat × Nat) :=
  if 4 ≤ keyCtr then AddKey m_expKey (keyCtr - 4) R else none

/-- The `do … while (keyCtr != LRD)` loop of `SHX::Encrypt16`. `k` is `keyCtr + 1`, the
number of key words used so far; the result holds `keyCtr + 1` and the four words after
the loop. `fuel` bounds the number of passes; a pass uses 32 key words, so more passes
than `m_expKey.size()` index outside the key. -/
def Encrypt16Loop (F : SerpentFunctions) (m_expKey : List Nat) (LRD : Nat) :
    Nat → Nat → Nat × Nat × Nat × Nat → Option (Nat × Nat × Nat × Nat × Nat)
  | 0, _, _ => none
  | fuel + 1, k, R =>
    (AddKey m_expKey k R).bind fun R =>
    (AddKey m_expKey (k + 4) (F.LinearTransform (F.Sb0 R))).bind fun R =>
    (AddKey m_expKey (k + 8) (F.LinearTransform (F.Sb1 R))).bind fun R =>
    (AddKey m_expKey (k + 12) (F.LinearTransform (F.Sb2 R))).bind fun R =>
    (AddKey m_expKey (k + 16) (F.LinearTransform (F.Sb3 R))).bind fun R =>
    (AddKey m_expKey (k + 20) (F.LinearTransform (F.Sb4 R))).bind fun R =>
    (AddKey m_expKey (k + 24) (F.LinearTransform (F.Sb5 R))).bind fun R =>
    (AddKey m_expKey (k + 28) (F.LinearTransform (F.Sb6 R))).bind fun R =>
    if k + 31 ≠ LRD then
      Encrypt16Loop F m_expKey LRD fuel (k + 32) (F.LinearTransform (F.Sb7 R))
    else some (k + 32, F.Sb7 R)

/-- `SHX::Encrypt16`. `IntUtils::BytesToLe32` and `IntUtils::Le32ToBytes` are not among
the sources; `IntegerTools::LeBytesTo32` and `IntegerTools::Le32ToBytes` stand for them.
`LRD` is `m_expKey.size() - 5`, computed in `size_t`. -/
def Encrypt16 (F : SerpentFunctions) (m_expKey Input : List Nat) (InOffset : Nat)
    (Output : List Nat) (OutOffset : Nat) : Option (List Nat) :=
  let LRD := (m_expKey.length + 2 ^ 64 - 5) % 2 ^ 64
  match IntegerTools.LeBytesTo32 Input InOffset, IntegerTools.LeBytesTo32 Input (InOffset + 4),
      IntegerTools.LeBytesTo32 Input (InOffset + 8),
      IntegerTools.LeBytesTo32 Input (InOffset + 12) with
  | some R0, some R1, some R2, some R3 =>
    (Encrypt16Loop F m_expKey LRD m_expKey.length 0 (R0, R1, R2, R3)).bind fun r =>
    (AddKey m_expKey r.1 r.2).bind fun R =>
    (IntegerTools.Le32ToBytes R.1 Output OutOffset).bind fun Output =>
    (IntegerTools.Le32ToBytes R.2.1 Output (OutOffset + 4)).bind fun Output =>
    (IntegerTools.Le32ToBytes R.2.2.1 Output (OutOffset + 8)).bind fun Output =>
    IntegerTools.Le32ToBytes R.2.2.2 Output (OutOffset + 12)
  | _, _, _, _ => none

/-- The `do … while (keyCtr != LRD)` loop of `SHX::Decrypt16`, with `LRD = 4`; the result
holds `keyCtr` and the four words after the loop. -/
def Decrypt16Loop (F : SerpentFunctions) (m_expKey : List Nat) (LRD : Nat) :
    Nat → Nat → Nat × Nat × Nat × Nat → Option (Nat × Nat × Nat × Nat × Nat)
  | 0, _, _ => none
  | fuel + 1, keyCtr, R =>
    (SubKey m_expKey keyCtr (F.Ib7 R)).bind fun R =>
    (SubKey m_expKey (keyCtr - 4) (F.Ib6 (F.InverseTransform R))).bind fun R =>
    (SubKey m_expKey (keyCtr - 8) (F.Ib5 (F.InverseTransform R))).bind fun R =>
    (SubKey m_expKey (keyCtr - 12) (F.Ib4 (F.InverseTransform R))).bind fun R =>
    (SubKey m_expKey (keyCtr - 16) (F.Ib3 (F.InverseTransform R))).bind fun R =>
    (SubKey m_expKey (keyCtr - 20) (F.Ib2 (F.InverseTransform R))).bind fun R =>
    (SubKey m_expKey (keyCtr - 24) (F.Ib1 (F.InverseTransform R))).bind fun R =>
    if keyCtr - 28 ≠ LRD then
      (SubKey m_expKey (keyCtr - 28) (F.Ib0 (F.InverseTransform R))).bind fun R =>
      Decrypt16Loop F m_expKey LRD fuel (keyCtr - 32) (F.InverseTransform R)
    else some (keyCtr - 28, F.Ib0 (F.InverseTransform R))

/-- `SHX::Decrypt16`. -/
def Decrypt16 (F : SerpentFunctions) (m_expKey Input : List Nat) (InOffset : Nat)
    (Output : List Nat) (OutOffset : Nat) : Option (List Nat) :=
  match IntegerTools.LeBytesTo32 Input (InOffset + 12),
      IntegerTools.LeBytesTo32 Input (InOffset + 8), IntegerTools.LeBytesTo32 Input (InOffset + 4),
      IntegerTools.LeBytesTo32 Input InOffset with
  | some R3, some R2, some R1, some R0 =>
    (SubKey m_expKey m_expKey.length (R0, R1, R2, R3)).bind fun R =>
    (Decrypt16Loop F m_expKey 4 m_expKey.length (m_expKey.length - 4) R).bind fun r =>
    (SubKey m_expKey r.1 r.2).bind fun R =>
    (IntegerTools.Le32ToBytes R.2.2.2 Output (OutOffset + 12)).bind fun Output =>
    (IntegerTools.Le32ToBytes R.2.2.1 Output (OutOffset + 8)).bind fun Output =>
    (IntegerTools.Le32ToBytes R.2.1 Output (OutOffset + 4)).bind fun Output =>
    IntegerTools.Le32ToBytes R.1 Output OutOffset
  | _, _, _, _ => none

end SHX

/-- The four words are 32-bit words. -/
def Words32 (R : Nat × Nat × Nat × Nat) : Prop :=
  R.1 < 2 ^ 32 ∧ R.2.1 < 2 ^ 32 ∧ R.2.2.1 < 2 ^ 32 ∧ R.2.2.2 < 2 ^ 32

/-- The four key words of round `r`, added to the four words `R`. -/
def RoundKey (K : List Nat) (r : Nat) (R : Nat × Nat × Nat × Nat) : Nat × Nat × Nat × Nat :=
  (R.1 ^^^ K.getD (4 * r) 0, R.2.1 ^^^ K.getD (4 * r + 1) 0, R.2.2.1 ^^^ K.getD (4 * r + 2) 0,
    R.2.2.2 ^^^ K.getD (4 * r + 3) 0)

/-- The S-box of round `r`: `Sb0, …, Sb7` in turn. -/
def SboxOf (F : SerpentFunctions) (r : Nat) : Nat × Nat × Nat × Nat → Nat × Nat × Nat × Nat :=
  match r % 8 with
  | 0 => F.Sb0
  | 1 => F.Sb1
  | 2 => F.Sb2
  | 3 => F.Sb3
  | 4 => F.Sb4
  | 5 => F.Sb5
  | 6 => F.Sb6
  | _ => F.Sb7

/-- The words at the start of round `r` of the encryption of `x` under the expanded key
`K`: round `r` adds the key words `4r, …, 4r + 3`, applies the S-box of the round and the
linear transform. -/
def RoundInput (F : SerpentFunctions) (K : List Nat) (x : Nat × Nat × Nat × Nat) :
    Nat → Nat × Nat × Nat × Nat
  | 0 => x
  | r + 1 => F.LinearTransform (SboxOf F r (RoundKey K r (RoundInput F K x r)))

/-- The words that the encryption of `x` with `R` rounds under the expanded key `K`
writes: the last round has no linear transform and is followed by the key words
`4R, …, 4R + 3`. -/
def EncryptWords (F : SerpentFunctions) (K : List Nat) (R : Nat) (x : Nat × Nat × Nat × Nat) :
    Nat × Nat × Nat × Nat :=
  RoundKey K R (SboxOf F (R - 1) (RoundKey K (R - 1) (RoundInput F K x (R - 1))))

/-- The little-endian bytes of four 32-bit words. -/
def WordBytes (R : Nat × Nat × Nat × Nat) : List Nat :=
  LeBytes 4 R.1 ++ LeBytes 4 R.2.1 ++ LeBytes 4 R.2.2.1 ++ LeBytes 4 R.2.2.2

/-- The four little-endian 32-bit words of 16 bytes. -/
def BytesWords (b : List Nat) : Nat × Nat × Nat × Nat :=
  (LeValue (slice b 0 4), LeValue (slice b 4 4), LeValue (slice b 8 4), LeValue (slice b 12 4))

/-- A choice of functions for `SHX`: the S-boxes rotate the four words and add a
constant, the linear transform exchanges words and flips bits; each has its inverse. -/
def SampleSerpent : SerpentFunctions :=
  { Sb0 := fun R => (R.2.1, R.2.2.1, R.2.2.2, R.1 ^^^ 1)
    Sb1 := fun R => (R.2.1, R.2.2.1, R.2.2.2, R.1 ^^^ 2)
    Sb2 := fun R => (R.2.1, R.2.2.1, R.2.2.2, R.1 ^^^ 3)
    Sb3 := fun R => (R.2.1, R.2.2.1, R.2.2.2, R.1 ^^^ 4)
    Sb4 := fun R => (R.2.1, R.2.2.1, R.2.2.2, R.1 ^^^ 5)
    Sb5 := fun R => (R.2.1, R.2.2.1, R.2.2.2, R.1 ^^^ 6)
    Sb6 := fun R => (R.2.1, R.2.2.1, R.2.2.2, R.1 ^^^ 7)
    Sb7 := fun R => (R.2.1, R.2.2.1, R.2.2.2, R.1 ^^^ 8)
    Ib0 := fun R => (R.2.2.2 ^^^ 1, R.1, R.2.1, R.2.2.1)
    Ib1 := fun R => (R.2.2.2 ^^^ 2, R.1, R.2.1, R.2.2.1)
    Ib2 := fun R => (R.2.2.2 ^^^ 3, R.1, R.2.1, R.2.2.1)
    Ib3 := fun R => (R.2.2.2 ^^^ 4, R.1, R.2.1, R.2.2.1)
    Ib4 := fun R => (R.2.2.2 ^^^ 5, R.1, R.2.1, R.2.2.1)
    Ib5 := fun R => (R.2.2.2 ^^^ 6, R.1, R.2.1, R.2.2.1)
    Ib6 := fun R => (R.2.2.2 ^^^ 7, R.1, R.2.1, R.2.2.1)
    Ib7 := fun R => (R.2.2.2 ^^^ 8, R.1, R.2.1, R.2.2.1)
    LinearTransform := fun R => (R.2.2.1 ^^^ 0x55, R.1, R.2.2.2, R.2.1)
    InverseTransform := fun R => (R.2.1, R.2.2.2, R.1 ^^^ 0x55, R.2.2.1) }

/-- An expanded key of `4 * (32 + 1)` words for `SHX`. -/
def SampleExpandedKey : List Nat :=
  (List.range 132).map (fun i => (0x01000193 * (i + 1)) % 2 ^ 32)

namespace Threefish1024

/-- The 32 statements of the rounds `4s, …, 4s + 3` of `Transfrom128` with the words of
subkey `s` of the reference as the key arguments of the `Inject` calls. -/
def FourRounds (K T : List Nat) (s : Nat) : List (List Nat → List Nat) :=
  if s % 2 = 0 then
    FourRoundsA (RefSubkey K T s 0) (RefSubkey K T s 1) (RefSubkey K T s 2) (RefSubkey K T s 3)
      (RefSubkey K T s 4) (RefSubkey K T s 5) (RefSubkey K T s 6) (RefSubkey K T s 7)
      (RefSubkey K T s 8) (RefSubkey K T s 9) (RefSubkey K T s 10) (RefSubkey K T s 11)
      (RefSubkey K T s 12) (RefSubkey K T s 13) (RefSubkey K T s 14) (RefSubkey K T s 15)
  else
    FourRoundsB (RefSubkey K T s 0) (RefSubkey K T s 1) (RefSubkey K T s 2) (RefSubkey K T s 3)
      (RefSubkey K T s 4) (RefSubkey K T s 5) (RefSubkey K T s 6) (RefSubkey K T s 7)
      (RefSubkey K T s 8) (RefSubkey K T s 9) (RefSubkey K T s 10) (RefSubkey K T s 11)
      (RefSubkey K T s 12) (RefSubkey K T s 13) (RefSubkey K T s 14) (RefSubkey K T s 15)

end Threefish1024

/-- The assumptions on the functions of `Serpent.h`: each of them maps 32-bit words to
32-bit words (their arguments are `uint` references), each `Ib` inverts the `Sb` of the
same number and `InverseTransform` inverts `LinearTransform`. -/
def SerpentInverses (F : SerpentFunctions) : Prop :=
  (∀ x, Words32 x → Words32 (F.Sb0 x) ∧ F.Ib0 (F.Sb0 x) = x) ∧
  (∀ x, Words32 x → Words32 (F.Sb1 x) ∧ F.Ib1 (F.Sb1 x) = x) ∧
  (∀ x, Words32 x → Words32 (F.Sb2 x) ∧ F.Ib2 (F.Sb2 x) = x) ∧
  (∀ x, Words32 x → Words32 (F.Sb3 x) ∧ F.Ib3 (F.Sb3 x) = x) ∧
  (∀ x, Words32 x → Words32 (F.Sb4 x) ∧ F.Ib4 (F.Sb4 x) = x) ∧
  (∀ x, Words32 x → Words32 (F.Sb5 x) ∧ F.Ib5 (F.Sb5 x) = x) ∧
  (∀ x, Words32 x → Words32 (F.Sb6 x) ∧ F.Ib6 (F.Sb6 x) = x) ∧
  (∀ x, Words32 x → Words32 (F.Sb7 x) ∧ F.Ib7 (F.Sb7 x) = x) ∧
  (∀ x, Words32 x →
    Words32 (F.LinearTransform x) ∧ F.InverseTransform (F.LinearTransform x) = x)

/-- The assumptions on the address setters of `SphincsUtils`: each stores its argument in
a field of its own. Setting the hash index twice keeps the second value, and so for the
chain index; the two setters commute. -/
def AddressLaws (U : SphincsUtils) : Prop :=
  (∀ a i j, U.SetHashAddress (U.SetHashAddress a i) j = U.SetHashAddress a j) ∧
  (∀ a i c, U.SetChainAddress (U.SetHashAddress a i) c
    = U.SetHashAddress (U.SetChainAddress a c) i) ∧
  (∀ a c d, U.SetChainAddress (U.SetChainAddress a c) d = U.SetChainAddress a d)

/-- The value of one hash step of a chain: the `N` bytes that `THash` writes for one
input block `x`. The first XOF input is the public seed followed by the address bytes,
its output masks the block, and the second XOF input is the first one followed by the
masked block. -/
def ChainStep (U : SphincsUtils) (PkSeed Address : List Nat) (N : Nat) (x : List Nat) :
    List Nat :=
  (List.range N).map (U.XOF
    (slice PkSeed 0 N ++ (List.range WOTS.SPX_ADDR_BYTES).map (U.AddressToBytes Address)
      ++ xorBytes x ((List.range N).map (U.XOF
          (slice PkSeed 0 N
            ++ (List.range WOTS.SPX_ADDR_BYTES).map (U.AddressToBytes Address))))))

/-- The value of a chain of address `a` (the address with its chain index set) after the
hash steps `start, …, start + n - 1`, from the block `x`. -/
def ChainValue (U : SphincsUtils) (PkSeed a : List Nat) (N : Nat) :
    Nat → Nat → List Nat → List Nat
  | _, 0, x => x
  | start, n + 1, x =>
    ChainValue U PkSeed a N (start + 1) n (ChainStep U PkSeed (U.SetHashAddress a start) N x)

/-- The secret element of chain `idx` for the starting address `a0`. -/
def SecretElement (U : SphincsUtils) (SkSeed a0 : List Nat) (N idx : Nat) : List Nat :=
  (List.range N).map
    (U.PrfAddress SkSeed (U.SetHashAddress (U.SetChainAddress a0 idx) 0) N)

/-- The checksum of a list of digits in base 16: the sum of `15 - d` over the digits. -/
def DigitChecksum : List Nat → Nat
  | [] => 0
  | d :: l => (15 - d) + DigitChecksum l

/-- Two addresses that differ at most in the hash index: setting the hash index makes
them equal. -/
def SameHash (U : SphincsUtils) (a b : List Nat) : Prop :=
  ∀ j, U.SetHashAddress a j = U.SetHashAddress b j

/-- Two addresses that differ at most in the chain index and the hash index. -/
def SameChains (U : SphincsUtils) (a b : List Nat) : Prop :=
  ∀ c j, U.SetHashAddress (U.SetChainAddress a c) j = U.SetHashAddress (U.SetChainAddress b c) j

/-- The first `k` elements of the public key for the starting address `a0`: element `idx`
is the secret element of chain `idx` after the hash steps `0, …, w - 2`. -/
def PublicKeyOf (U : SphincsUtils) (SkSeed PkSeed a0 : List Nat) (N k : Nat) : List Nat :=
  (List.range k).flatMap (fun idx =>
    ChainValue U PkSeed (U.SetChainAddress a0 idx) N 0 (WOTS.SPX_WOTS_W - 1)
      (SecretElement U SkSeed a0 N idx))

/-- The first `k` elements of the signature for the chain lengths `lengths`: element `idx`
is the secret element of chain `idx` after the hash steps `0, …, lengths[idx] - 1`. -/
def SignatureOf (U : SphincsUtils) (SkSeed PkSeed a0 lengths : List Nat) (N k : Nat) :
    List Nat :=
  (List.range k).flatMap (fun idx =>
    ChainValue U PkSeed (U.SetChainAddress a0 idx) N 0 (lengths.getD idx 0)
      (SecretElement U SkSeed a0 N idx))

/-! ## Lemmas on vectors -/

theorem writeAt_length (v : List Nat) (off : Nat) (blk : List Nat)
    (h : off + blk.length ≤ v.length) : (writeAt v off blk).length = v.length := by
  simp only [writeAt, List.length_append, List.length_take, List.length_drop]
  omega

theorem slice_length (v : List Nat) (off len : Nat) (h : off + len ≤ v.length) :
    (slice v off len).length = len := by
  simp only [slice, List.length_take, List.length_drop]
  omega

theorem take_writeAt (v : List Nat) (off : Nat) (a : List Nat) (h : off ≤ v.length) :
    (writeAt v off a).take (off + a.length) = v.take off ++ a := by
  have h1 : (v.take off ++ a).length = off + a.length := by
    simp only [List.length_append, List.length_take]; omega
  unfold writeAt
  rw [← h1, List.take_left']
  rfl

theorem drop_writeAt (v : List Nat) (off : Nat) (a : List Nat) (h : off ≤ v.length) :
    (writeAt v off a).drop (off + a.length) = v.drop (off + a.length) := by
  have h1 : (v.take off ++ a).length = off + a.length := by
    simp only [List.length_append, List.length_take]; omega
  unfold writeAt
  rw [← h1, List.drop_left', h1]
  rfl

theorem writeAt_writeAt (v : List Nat) (off : Nat) (a b : List Nat)
    (h : off + a.length ≤ v.length) :
    writeAt (writeAt v off a) (off + a.length) b = writeAt v off (a ++ b) := by
  have e1 := take_writeAt v off a (by omega)
  have e2 : (writeAt v off a).drop (off + a.length + b.length)
      = v.drop (off + a.length + b.length) := by
    rw [← List.drop_drop, drop_writeAt v off a (by omega), List.drop_drop]
  rw [show writeAt (writeAt v off a) (off + a.length) b
      = (writeAt v off a).take (off + a.length) ++ b
        ++ (writeAt v off a).drop (off + a.length + b.length) from rfl]
  rw [e1, e2]
  simp only [writeAt, List.length_append, List.append_assoc, Nat.add_assoc]

theorem slice_writeAt (v : List Nat) (off : Nat) (blk : List Nat)
    (h : off ≤ v.length) : slice (writeAt v off blk) off blk.length = blk := by
  have h1 : (v.take off).length = off := by simp only [List.length_take]; omega
  unfold slice writeAt
  rw [List.append_assoc, List.drop_left' h1, List.take_left' rfl]

theorem writeAt_slice (v : List Nat) (off len : Nat) (h : off + len ≤ v.length) :
    writeAt v off (slice v off len) = v := by
  have hl := slice_length v off len h
  unfold writeAt
  rw [hl]
  unfold slice
  rw [List.append_assoc, ← List.drop_drop, List.take_append_drop, List.take_append_drop]

theorem writeAt_nil (v : List Nat) (off : Nat) : writeAt v off [] = v := by
  simp [writeAt]

theorem getElem?_writeAt (v : List Nat) (o : Nat) (X : List Nat) (h : o ≤ v.length) (j : Nat) :
    (writeAt v o X)[j]? = if j < o then v[j]? else if j < o + X.length then X[j - o]? else v[j]? := by
  unfold writeAt
  have h1 : (v.take o).length = o := by simp only [List.length_take]; omega
  rw [List.append_assoc, List.getElem?_append, h1]
  by_cases h2 : j < o
  · rw [if_pos h2, if_pos h2, List.getElem?_take_of_lt h2]
  · rw [if_neg h2, if_neg h2, List.getElem?_append]
    by_cases h3 : j < o + X.length
    · rw [if_pos h3, if_pos (by omega)]
    · rw [if_neg h3, if_neg (by omega), List.getElem?_drop]
      congr 1
      omega

theorem getElem?_slice (v : List Nat) (o n j : Nat) :
    (slice v o n)[j]? = if j < n then v[o + j]? else none := by
  unfold slice
  split_ifs with h
  · rw [List.getElem?_take_of_lt h, List.getElem?_drop]
  · rw [List.getElem?_eq_none]
    simp only [List.length_take, List.length_drop]
    omega

theorem getElem?_xorBytes (a b : List Nat) (j : Nat) :
    (xorBytes a b)[j]? = match a[j]?, b[j]? with
      | some x, some y => some (x ^^^ y)
      | _, _ => none := by
  unfold xorBytes
  rw [List.getElem?_zipWith]
  cases a[j]? <;> cases b[j]? <;> rfl

theorem xorBytes_length (a b : List Nat) : (xorBytes a b).length = min a.length b.length := by
  simp [xorBytes]

theorem writeAt_writeAt_inner (v : List Nat) (o : Nat) (X : List Nat) (a : Nat) (B : List Nat)
    (h1 : o + X.length ≤ v.length) (h2 : a + B.length ≤ X.length) :
    writeAt (writeAt v o X) (o + a) B = writeAt v o (writeAt X a B) := by
  have hl1 := writeAt_length v o X h1
  have hl2 := writeAt_length X a B h2
  apply List.ext_getElem?
  intro t
  rw [getElem?_writeAt (writeAt v o X) _ _ (by omega), getElem?_writeAt v o X (by omega),
    getElem?_writeAt v o (writeAt X a B) (by omega), hl2]
  by_cases c1 : t < o
  · simp only [c1, if_true, show t < o + a by omega]
  · by_cases c4 : t < o + X.length
    · rw [getElem?_writeAt X a B (by omega)]
      simp only [c1, c4, if_true, if_false]
      split_ifs <;> first | rfl | (exfalso; omega) | (congr 1; omega)
    · simp only [c1, c4, if_false, show ¬ t < o + a by omega,
        show ¬ t < o + a + B.length by omega]

theorem slice_writeAt_inner (v : List Nat) (o : Nat) (X : List Nat) (a n : Nat)
    (h1 : o ≤ v.length) (h2 : a + n ≤ X.length) :
    slice (writeAt v o X) (o + a) n = slice X a n := by
  apply List.ext_getElem?
  intro t
  rw [getElem?_slice, getElem?_slice, getElem?_writeAt _ _ _ h1]
  by_cases c1 : t < n
  · rw [if_pos c1, if_pos c1, if_neg (by omega), if_pos (by omega)]
    congr 1
    omega
  · rw [if_neg c1, if_neg c1]

theorem slice_slice (v : List Nat) (o L a n : Nat) (h : a + n ≤ L) :
    slice (slice v o L) a n = slice v (o + a) n := by
  apply List.ext_getElem?
  intro t
  rw [getElem?_slice, getElem?_slice, getElem?_slice]
  by_cases c1 : t < n
  · rw [if_pos c1, if_pos c1, if_pos (by omega), Nat.add_assoc]
  · rw [if_neg c1, if_neg c1]

theorem xorBytes_two_phase (K I : List Nat) (A : Nat) (hK : K.length = I.length)
    (hA : A ≤ K.length) :
    writeAt (writeAt K 0 (xorBytes (slice K 0 A) (slice I 0 A))) A
        (xorBytes (slice (writeAt K 0 (xorBytes (slice K 0 A) (slice I 0 A))) A (K.length - A))
          (slice I A (K.length - A)))
      = xorBytes K I := by
  have hx1 : (xorBytes (slice K 0 A) (slice I 0 A)).length = A := by
    rw [xorBytes_length, slice_length _ _ _ (by omega), slice_length _ _ _ (by omega),
      Nat.min_self]
  have hl1 : (writeAt K 0 (xorBytes (slice K 0 A) (slice I 0 A))).length = K.length :=
    writeAt_length _ _ _ (by omega)
  have hx2 : (xorBytes (slice (writeAt K 0 (xorBytes (slice K 0 A) (slice I 0 A))) A
      (K.length - A)) (slice I A (K.length - A))).length = K.length - A := by
    rw [xorBytes_length, slice_length _ _ _ (by omega), slice_length _ _ _ (by omega),
      Nat.min_self]
  apply List.ext_getElem?
  intro t
  rw [getElem?_writeAt _ _ _ (by omega), hx2, getElem?_writeAt _ _ _ (by omega), hx1]
  by_cases c1 : t < A
  · rw [if_pos c1, if_neg (by omega), if_pos (by omega), getElem?_xorBytes, getElem?_xorBytes,
      getElem?_slice, getElem?_slice, if_pos (by omega), if_pos (by omega)]
    simp only [Nat.zero_add, Nat.sub_zero]
  · rw [if_neg c1]
    by_cases c2 : t < A + (K.length - A)
    · rw [if_pos c2, getElem?_xorBytes, getElem?_xorBytes, getElem?_slice, getElem?_slice,
        if_pos (by omega), if_pos (by omega), getElem?_writeAt _ _ _ (by omega), hx1,
        if_neg (by omega), if_neg (by omega)]
      have e : A + (t - A) = t := by omega
      rw [e]
    · rw [if_neg c2, if_neg (by omega), if_neg (by omega), getElem?_xorBytes,
        List.getElem?_eq_none (by omega : K.length ≤ t)]

/-! ## Lemmas on the counter and the key stream -/

namespace TSX1024
open IntegerTools

theorem CounterOfValue_wordsOk (v : Nat) : WordsOk (CounterOfValue v) := by
  unfold WordsOk CounterOfValue
  constructor <;> exact Nat.mod_lt _ (by norm_num)

theorem CounterOfValue_value (c : Nat × Nat) (h : WordsOk c) :
    CounterOfValue (CounterValue c) = c := by
  obtain ⟨a, b⟩ := c
  unfold WordsOk at h
  simp only [CounterOfValue, CounterValue, Prod.mk.injEq] at *
  omega

theorem CounterOfValue_add (v k : Nat) :
    CounterOfValue (CounterValue (CounterOfValue v) + k) = CounterOfValue (v + k) := by
  simp only [CounterOfValue, CounterValue, Prod.mk.injEq]
  omega

theorem LeIncrementW_eq (c : Nat × Nat) (h : WordsOk c) :
    LeIncrementW c = CounterOfValue (CounterValue c + 1) := by
  obtain ⟨a, b⟩ := c
  unfold WordsOk at h
  simp only [LeIncrementW, CounterOfValue, CounterValue] at *
  split_ifs with h0 <;> simp only [Prod.mk.injEq] <;> omega

theorem BlockBytes_length (tmp : Nat → Nat) : (BlockBytes tmp).length = BLOCK_SIZE := by
  simp [BlockBytes]

theorem KeyStream_length (P : Primitives) (Key : List Nat) (Tweak c : Nat × Nat) (L : Nat) :
    (KeyStream P Key Tweak c L).length = L := by
  simp [KeyStream]

theorem map_getD_range (l : List Nat) : (List.range l.length).map (fun i => l.getD i 0) = l := by
  apply List.ext_getElem
  · simp
  · intro i h1 h2
    simp only [List.getElem_map, List.getElem_range]
    exact List.getD_eq_getElem l 0 h2

theorem KeyStreamByte_first (P : Primitives) (Key : List Nat) (Tweak c : Nat × Nat)
    (h : WordsOk c) (i : Nat) (hi : i < BLOCK_SIZE) :
    KeyStreamByte P Key Tweak c i = (BlockBytes (P.Permute Key c Tweak)).getD i 0 := by
  unfold KeyStreamByte
  rw [Nat.div_eq_of_lt hi, Nat.mod_eq_of_lt hi, Nat.add_zero, CounterOfValue_value c h]

theorem KeyStreamByte_next (P : Primitives) (Key : List Nat) (Tweak c : Nat × Nat)
    (h : WordsOk c) (i : Nat) :
    KeyStreamByte P Key Tweak c (BLOCK_SIZE + i)
      = KeyStreamByte P Key Tweak (LeIncrementW c) i := by
  unfold KeyStreamByte
  rw [LeIncrementW_eq c h, CounterOfValue_add]
  have e1 : (BLOCK_SIZE + i) / BLOCK_SIZE = 1 + i / BLOCK_SIZE := by
    unfold BLOCK_SIZE; omega
  have e2 : (BLOCK_SIZE + i) % BLOCK_SIZE = i % BLOCK_SIZE := by
    unfold BLOCK_SIZE; omega
  rw [e1, e2, Nat.add_assoc]

theorem KeyStream_block (P : Primitives) (Key : List Nat) (Tweak c : Nat × Nat)
    (h : WordsOk c) (n : Nat) :
    KeyStream P Key Tweak c (BLOCK_SIZE + n)
      = BlockBytes (P.Permute Key c Tweak) ++ KeyStream P Key Tweak (LeIncrementW c) n := by
  unfold KeyStream
  rw [List.range_add, List.map_append, List.map_map]
  congr 1
  · conv_rhs => rw [← map_getD_range (BlockBytes (P.Permute Key c Tweak))]
    rw [BlockBytes_length]
    apply List.map_congr_left
    intro i hi
    exact KeyStreamByte_first P Key Tweak c h i (List.mem_range.mp hi)
  · apply List.map_congr_left
    intro i _
    exact KeyStreamByte_next P Key Tweak c h i

theorem KeyStream_take (P : Primitives) (Key : List Nat) (Tweak c : Nat × Nat) (n m : Nat)
    (h : n ≤ m) : (KeyStream P Key Tweak c m).take n = KeyStream P Key Tweak c n := by
  unfold KeyStream
  rw [← List.map_take, List.take_range, Nat.min_eq_left h]

/-! ### `Generate` and the sequential branch of `Process` in closed form -/

theorem KeyStream_zero (P : Primitives) (Key : List Nat) (Tweak c : Nat × Nat) :
    KeyStream P Key Tweak c 0 = [] := rfl

theorem KeyStream_append (P : Primitives) (Key : List Nat) (Tweak c : Nat × Nat) (n m : Nat) :
    KeyStream P Key Tweak c (BLOCK_SIZE * n + m)
      = KeyStream P Key Tweak c (BLOCK_SIZE * n)
        ++ KeyStream P Key Tweak (CounterOfValue (CounterValue c + n)) m := by
  unfold KeyStream
  rw [List.range_add, List.map_append, List.map_map]
  congr 1
  apply List.map_congr_left
  intro i _
  simp only [Function.comp, KeyStreamByte]
  rw [CounterOfValue_add]
  have e1 : (BLOCK_SIZE * n + i) / BLOCK_SIZE = n + i / BLOCK_SIZE := by
    unfold BLOCK_SIZE; omega
  have e2 : (BLOCK_SIZE * n + i) % BLOCK_SIZE = i % BLOCK_SIZE := by
    unfold BLOCK_SIZE; omega
  rw [e1, e2, Nat.add_assoc]

theorem BlockBytes_take (P : Primitives) (Key : List Nat) (Tweak c : Nat × Nat)
    (h : WordsOk c) (m : Nat) (hm : m ≤ BLOCK_SIZE) :
    (BlockBytes (P.Permute Key c Tweak)).take m = KeyStream P Key Tweak c m := by
  have e := KeyStream_block P Key Tweak c h 0
  rw [KeyStream_zero, List.append_nil, Nat.add_zero] at e
  rw [← e, KeyStream_take P Key Tweak c m BLOCK_SIZE hm]

theorem Copy_eq (Input : List Nat) (InOffset : Nat) (Output : List Nat) (OutOffset Length : Nat)
    (h1 : InOffset + Length ≤ Input.length) (h2 : OutOffset + Length ≤ Output.length) :
    MemoryTools.Copy Input InOffset Output OutOffset Length
      = some (writeAt Output OutOffset (slice Input InOffset Length)) := by
  unfold MemoryTools.Copy
  rw [if_pos ⟨h1, h2⟩]

theorem GenerateLoop_eq (P : Primitives) (Key : List Nat) (Tweak : Nat × Nat)
    (OutOffset ALNLEN : Nat) :
    ∀ (fuel ctr : Nat) (Counter : Nat × Nat) (Output : List Nat), WordsOk Counter →
      ALNLEN = ctr + BLOCK_SIZE * fuel → OutOffset + ALNLEN ≤ Output.length →
      GenerateLoop P Key Tweak OutOffset ALNLEN fuel ctr Counter Output
        = some (ALNLEN, CounterOfValue (CounterValue Counter + fuel),
            writeAt Output (OutOffset + ctr) (KeyStream P Key Tweak Counter (BLOCK_SIZE * fuel))) := by
  intro fuel
  induction fuel with
  | zero =>
    intro ctr Counter Output hw hA _
    simp only [Nat.mul_zero, Nat.add_zero] at hA
    subst hA
    simp only [GenerateLoop, ne_eq, not_true_eq_false, if_false, Nat.add_zero, Nat.mul_zero,
      KeyStream_zero, writeAt_nil, CounterOfValue_value Counter hw]
  | succ fuel ih =>
    intro ctr Counter Output hw hA hlen
    have hne : ctr ≠ ALNLEN := by unfold BLOCK_SIZE at hA; omega
    have hb := BlockBytes_length (P.Permute Key Counter Tweak)
    have hcopy := Copy_eq (BlockBytes (P.Permute Key Counter Tweak)) 0 Output (OutOffset + ctr)
      BLOCK_SIZE (by omega) (by unfold BLOCK_SIZE at hA ⊢; omega)
    have hsl : slice (BlockBytes (P.Permute Key Counter Tweak)) 0 BLOCK_SIZE
        = BlockBytes (P.Permute Key Counter Tweak) := by
      unfold slice
      rw [List.drop_zero, List.take_of_length_le (by omega)]
    rw [hsl] at hcopy
    rw [GenerateLoop, if_pos hne, hcopy]
    simp only
    have hw1 : WordsOk (LeIncrementW Counter) := by
      rw [LeIncrementW_eq Counter hw]; exact CounterOfValue_wordsOk _
    have hlen1 : (writeAt Output (OutOffset + ctr) (BlockBytes (P.Permute Key Counter Tweak))).length
        = Output.length :=
      writeAt_length _ _ _ (by unfold BLOCK_SIZE at hA hb; omega)
    rw [ih (ctr + BLOCK_SIZE) (LeIncrementW Counter) _ hw1 (by rw [hA]; ring) (by omega)]
    have e3 : OutOffset + (ctr + BLOCK_SIZE)
        = OutOffset + ctr + (BlockBytes (P.Permute Key Counter Tweak)).length := by
      rw [hb]; omega
    rw [e3, writeAt_writeAt _ _ _ _ (by unfold BLOCK_SIZE at hA hb; omega),
      ← KeyStream_block P Key Tweak Counter hw]
    have e4 : BLOCK_SIZE * (fuel + 1) = BLOCK_SIZE + BLOCK_SIZE * fuel := by ring
    have e5 : CounterOfValue (CounterValue (LeIncrementW Counter) + fuel)
        = CounterOfValue (CounterValue Counter + (fuel + 1)) := by
      rw [LeIncrementW_eq Counter hw, CounterOfValue_add, Nat.add_assoc, Nat.add_comm 1 fuel]
    rw [e4, e5]

theorem Generate_eq (P : Primitives) (State : TSX1024State) (Counter : Nat × Nat)
    (Output : List Nat) (OutOffset Length : Nat) (hw : WordsOk Counter)
    (hlen : OutOffset + Length ≤ Output.length) :
    Generate P State Counter Output OutOffset Length
      = some (CounterOfValue (CounterValue Counter + (Length + (BLOCK_SIZE - 1)) / BLOCK_SIZE),
          writeAt Output OutOffset (KeyStream P State.Key State.Tweak Counter Length)) := by
  have hA : Length - Length % BLOCK_SIZE = 0 + BLOCK_SIZE * (Length / BLOCK_SIZE) := by
    unfold BLOCK_SIZE; omega
  have hloop := GenerateLoop_eq P State.Key State.Tweak OutOffset (Length - Length % BLOCK_SIZE)
    (Length / BLOCK_SIZE) 0 Counter Output hw hA (by omega)
  unfold Generate
  simp only [hloop, Nat.add_zero]
  by_cases hz : Length % BLOCK_SIZE = 0
  · have e1 : Length - Length % BLOCK_SIZE = Length := by omega
    have e2 : BLOCK_SIZE * (Length / BLOCK_SIZE) = Length := by unfold BLOCK_SIZE at *; omega
    have e3 : (Length + (BLOCK_SIZE - 1)) / BLOCK_SIZE = Length / BLOCK_SIZE := by
      unfold BLOCK_SIZE at *; omega
    simp only [e1, e2, e3, ne_eq, not_true_eq_false, if_false]
  · have e1 : Length - Length % BLOCK_SIZE ≠ Length := by
      have := Nat.mod_le Length BLOCK_SIZE
      unfold BLOCK_SIZE at *; omega
    have hm : Length % BLOCK_SIZE ≤ BLOCK_SIZE := by unfold BLOCK_SIZE; omega
    set C1 := CounterOfValue (CounterValue Counter + Length / BLOCK_SIZE) with hC1
    have hw1 : WordsOk C1 := CounterOfValue_wordsOk _
    have hb := BlockBytes_length (P.Permute State.Key C1 State.Tweak)
    have hks := KeyStream_length P State.Key State.Tweak Counter (BLOCK_SIZE * (Length / BLOCK_SIZE))
    have hl1 : (writeAt Output OutOffset
        (KeyStream P State.Key State.Tweak Counter (BLOCK_SIZE * (Length / BLOCK_SIZE)))).length
        = Output.length := writeAt_length _ _ _ (by rw [hks]; unfold BLOCK_SIZE at *; omega)
    have hcopy := Copy_eq (BlockBytes (P.Permute State.Key C1 State.Tweak)) 0
      (writeAt Output OutOffset
        (KeyStream P State.Key State.Tweak Counter (BLOCK_SIZE * (Length / BLOCK_SIZE))))
      (OutOffset + (Length - Length % BLOCK_SIZE)) (Length % BLOCK_SIZE)
      (by omega) (by rw [hl1]; have := Nat.mod_le Length BLOCK_SIZE; omega)
    have hsl : slice (BlockBytes (P.Permute State.Key C1 State.Tweak)) 0 (Length % BLOCK_SIZE)
        = KeyStream P State.Key State.Tweak C1 (Length % BLOCK_SIZE) := by
      unfold slice
      rw [List.drop_zero, BlockBytes_take P State.Key State.Tweak C1 hw1 _ hm]
    rw [hsl] at hcopy
    rw [if_pos e1]
    simp only [hcopy]
    have e3 : OutOffset + (Length - Length % BLOCK_SIZE)
        = OutOffset + (KeyStream P State.Key State.Tweak Counter
            (BLOCK_SIZE * (Length / BLOCK_SIZE))).length := by
      rw [hks]; unfold BLOCK_SIZE at *; omega
    rw [e3, writeAt_writeAt _ _ _ _ (by rw [hks]; unfold BLOCK_SIZE at *; omega),
      ← KeyStream_append]
    have e4 : BLOCK_SIZE * (Length / BLOCK_SIZE) + Length % BLOCK_SIZE = Length :=
      Nat.div_add_mod Length BLOCK_SIZE
    rw [e4, LeIncrementW_eq C1 hw1, hC1, CounterOfValue_add]
    have e5 : (Length + (BLOCK_SIZE - 1)) / BLOCK_SIZE = Length / BLOCK_SIZE + 1 := by
      unfold BLOCK_SIZE at *; omega
    rw [e5, Nat.add_assoc]

theorem XorLoop_spec (Input : List Nat) (InBase OutBase : Nat) :
    ∀ (n i : Nat) (Output : List Nat), i + n + OutBase ≤ Output.length →
      i + n + InBase ≤ Input.length →
      ∃ R, XorLoop Input InBase OutBase i n Output = some R ∧
        ∀ t, R[t]? = if i + OutBase ≤ t ∧ t < i + OutBase + n then
            some (Output.getD t 0 ^^^ Input.getD (t - OutBase + InBase) 0)
          else Output[t]? := by
  intro n
  induction n with
  | zero =>
    intro i Output _ _
    refine ⟨Output, rfl, fun t => ?_⟩
    rw [if_neg (by omega)]
  | succ n ih =>
    intro i Output h1 h2
    obtain ⟨R, hR, hpt⟩ := ih (i + 1)
      (Output.set (i + OutBase) (Output.getD (i + OutBase) 0 ^^^ Input.getD (i + InBase) 0))
      (by rw [List.length_set]; omega) (by omega)
    refine ⟨R, ?_, fun t => ?_⟩
    · rw [XorLoop, if_pos ⟨by omega, by omega⟩, hR]
    · rw [hpt t]
      by_cases ht : t = i + OutBase
      · subst ht
        rw [if_neg (by omega), if_pos ⟨by omega, by omega⟩, List.getElem?_set_self (by omega)]
        congr 3
        omega
      · have hset : ∀ d, (Output.set (i + OutBase) d)[t]? = Output[t]? := fun d =>
          List.getElem?_set_ne (fun h => ht h.symm)
        by_cases hr : i + 1 + OutBase ≤ t ∧ t < i + 1 + OutBase + n
        · rw [if_pos hr, if_pos ⟨by omega, by omega⟩, List.getD_eq_getElem?_getD, hset,
            ← List.getD_eq_getElem?_getD]
        · rw [if_neg hr, if_neg (by omega), hset]

theorem XorLoop_eq (Input : List Nat) (InBase OutBase : Nat) (n i : Nat) (Output : List Nat)
    (h1 : i + n + OutBase ≤ Output.length) (h2 : i + n + InBase ≤ Input.length) :
    XorLoop Input InBase OutBase i n Output
      = some (writeAt Output (i + OutBase)
          (xorBytes (slice Output (i + OutBase) n) (slice Input (i + InBase) n))) := by
  obtain ⟨R, hR, hpt⟩ := XorLoop_spec Input InBase OutBase n i Output h1 h2
  rw [hR]
  congr 1
  apply List.ext_getElem?
  intro t
  have hl : (xorBytes (slice Output (i + OutBase) n) (slice Input (i + InBase) n)).length = n := by
    rw [xorBytes_length, slice_length _ _ _ (by omega), slice_length _ _ _ (by omega), Nat.min_self]
  rw [hpt t, getElem?_writeAt _ _ _ (by omega), hl]
  by_cases ha : t < i + OutBase
  · rw [if_pos ha, if_neg (by omega)]
  · rw [if_neg ha]
    by_cases hb : t < i + OutBase + n
    · rw [if_pos hb, if_pos ⟨by omega, hb⟩, getElem?_xorBytes, getElem?_slice, getElem?_slice,
        if_pos (by omega), if_pos (by omega)]
      have e1 : i + OutBase + (t - (i + OutBase)) = t := by omega
      have e2 : i + InBase + (t - (i + OutBase)) = t - OutBase + InBase := by omega
      rw [e1, e2]
      have g1 : t < Output.length := by omega
      have g2 : t - OutBase + InBase < Input.length := by omega
      rw [List.getElem?_eq_getElem g1, List.getElem?_eq_getElem g2,
        List.getD_eq_getElem _ _ g1, List.getD_eq_getElem _ _ g2]
    · rw [if_neg hb, if_neg (by omega)]

theorem XOR_eq (Input : List Nat) (InOffset : Nat) (Output : List Nat) (OutOffset Length : Nat)
    (h1 : InOffset + Length ≤ Input.length) (h2 : OutOffset + Length ≤ Output.length) :
    MemoryTools.XOR Input InOffset Output OutOffset Length
      = some (writeAt Output OutOffset
          (xorBytes (slice Output OutOffset Length) (slice Input InOffset Length))) := by
  unfold MemoryTools.XOR
  rw [if_pos ⟨h1, h2⟩]

/-- The sequential branch of `Process` in closed form: the output range receives the key
stream xored with the input and the counter advances by one per block, whole or not. -/
theorem ProcessSequential_eq (P : Primitives) (c : TSX1024) (Input : List Nat) (InOffset : Nat)
    (Output : List Nat) (OutOffset L : Nat) (hw : WordsOk c.State.Nonce)
    (hin : InOffset + L ≤ Input.length) (hout : OutOffset + L ≤ Output.length) :
    ProcessSequential P c Input InOffset Output OutOffset L
      = some ({ c with State := { c.State with
                  Nonce := CounterOfValue (CounterValue c.State.Nonce
                    + (L + (BLOCK_SIZE - 1)) / BLOCK_SIZE) } },
          writeAt Output OutOffset
            (xorBytes (KeyStream P c.State.Key c.State.Tweak c.State.Nonce L)
              (slice Input InOffset L))) := by
  set KS := KeyStream P c.State.Key c.State.Tweak c.State.Nonce L with hKS
  have hKl : KS.length = L := KeyStream_length _ _ _ _ _
  set A := L - L % BLOCK_SIZE with hA
  have hAL : A ≤ L := by omega
  set I := slice Input InOffset L with hI
  have hIl : I.length = L := slice_length _ _ _ hin
  set X1 := writeAt KS 0 (xorBytes (slice KS 0 A) (slice I 0 A)) with hX1
  have hx1 : (xorBytes (slice KS 0 A) (slice I 0 A)).length = A := by
    rw [xorBytes_length, slice_length _ _ _ (by omega), slice_length _ _ _ (by omega),
      Nat.min_self]
  have hX1l : X1.length = L := by rw [hX1, writeAt_length _ _ _ (by omega), hKl]
  have hout0 : (writeAt Output OutOffset KS).length = Output.length :=
    writeAt_length _ _ _ (by omega)
  -- after the aligned part
  have step1 : (if A ≠ 0 then MemoryTools.XOR Input InOffset (writeAt Output OutOffset KS)
        OutOffset A else some (writeAt Output OutOffset KS))
      = some (writeAt Output OutOffset X1) := by
    have e : writeAt (writeAt Output OutOffset KS) OutOffset
        (xorBytes (slice (writeAt Output OutOffset KS) OutOffset A) (slice Input InOffset A))
        = writeAt Output OutOffset X1 := by
      have := writeAt_writeAt_inner Output OutOffset KS 0
        (xorBytes (slice KS 0 A) (slice I 0 A)) (by omega) (by omega)
      rw [Nat.add_zero] at this
      rw [← this]
      have s1 := slice_writeAt_inner Output OutOffset KS 0 A (by omega) (by omega)
      rw [Nat.add_zero] at s1
      have s2 := slice_slice Input InOffset L 0 A (by omega)
      rw [Nat.add_zero] at s2
      rw [s1, hI, s2]
    by_cases hz : A = 0
    · rw [if_neg (by simpa using hz)]
      rw [← e, hz]
      simp [slice, xorBytes, writeAt_nil]
    · rw [if_pos hz, XOR_eq _ _ _ _ _ (by omega) (by omega), e]
  -- after the remaining bytes
  have hout1 : (writeAt Output OutOffset X1).length = Output.length :=
    writeAt_length _ _ _ (by omega)
  have e2 : writeAt (writeAt Output OutOffset X1) (A + OutOffset)
      (xorBytes (slice (writeAt Output OutOffset X1) (A + OutOffset) (L - A))
        (slice Input (A + InOffset) (L - A)))
      = writeAt Output OutOffset (xorBytes KS I) := by
    have s1 := slice_writeAt_inner Output OutOffset X1 A (L - A) (by omega) (by omega)
    have s2 := slice_slice Input InOffset L A (L - A) (by omega)
    rw [Nat.add_comm A OutOffset, Nat.add_comm A InOffset, s1, ← s2, ← hI]
    have hx2 : (xorBytes (slice X1 A (L - A)) (slice I A (L - A))).length = L - A := by
      rw [xorBytes_length, slice_length _ _ _ (by omega), slice_length _ _ _ (by omega),
        Nat.min_self]
    rw [writeAt_writeAt_inner Output OutOffset X1 A _ (by omega) (by omega)]
    have := xorBytes_two_phase KS I A (by omega) (by omega)
    rw [hKl] at this
    rw [hX1, this]
  unfold ProcessSequential
  rw [Generate_eq P c.State c.State.Nonce Output OutOffset L hw hout]
  simp only [← hKS, ← hA, step1]
  by_cases hAe : A = L
  · rw [if_neg (by simpa using hAe)]
    rw [← e2, hAe, Nat.sub_self]
    simp [slice, xorBytes, writeAt_nil]
  · rw [if_pos hAe, XorLoop_eq _ _ _ _ _ _ (by omega) (by omega), e2]

/-! ### What `Process` leaves unchanged -/

theorem Copy_length (Input : List Nat) (InOffset : Nat) (Output : List Nat)
    (OutOffset Length : Nat) (out : List Nat)
    (h : MemoryTools.Copy Input InOffset Output OutOffset Length = some out) :
    out.length = Output.length := by
  unfold MemoryTools.Copy at h
  split_ifs at h with hb
  cases h
  exact writeAt_length _ _ _ (by rw [slice_length _ _ _ hb.1]; exact hb.2)

theorem XOR_length (Input : List Nat) (InOffset : Nat) (Output : List Nat)
    (OutOffset Length : Nat) (out : List Nat)
    (h : MemoryTools.XOR Input InOffset Output OutOffset Length = some out) :
    out.length = Output.length := by
  unfold MemoryTools.XOR at h
  split_ifs at h with hb
  cases h
  exact writeAt_length _ _ _ (by
    rw [xorBytes_length, slice_length _ _ _ hb.1, slice_length _ _ _ hb.2, Nat.min_self]
    exact hb.2)

theorem GenerateLoop_length (P : Primitives) (Key : List Nat) (Tweak : Nat × Nat)
    (OutOffset ALNLEN : Nat) :
    ∀ (fuel ctr : Nat) (Counter : Nat × Nat) (Output : List Nat) (r : Nat × (Nat × Nat) × List Nat),
      GenerateLoop P Key Tweak OutOffset ALNLEN fuel ctr Counter Output = some r →
      r.2.2.length = Output.length := by
  intro fuel
  induction fuel with
  | zero =>
    intro ctr Counter Output r h
    unfold GenerateLoop at h
    split_ifs at h
    cases h
    rfl
  | succ fuel ih =>
    intro ctr Counter Output r h
    unfold GenerateLoop at h
    split_ifs at h with hne
    · cases hc : MemoryTools.Copy (BlockBytes (P.Permute Key Counter Tweak)) 0 Output
          (OutOffset + ctr) BLOCK_SIZE with
      | none => rw [hc] at h; cases h
      | some out =>
        rw [hc] at h
        rw [ih _ _ _ _ h, Copy_length _ _ _ _ _ _ hc]
    · cases h
      rfl

theorem Generate_length (P : Primitives) (State : TSX1024State) (Counter : Nat × Nat)
    (Output : List Nat) (OutOffset Length : Nat) (r : (Nat × Nat) × List Nat)
    (h : Generate P State Counter Output OutOffset Length = some r) :
    r.2.length = Output.length := by
  unfold Generate at h
  simp only at h
  cases hl : GenerateLoop P State.Key State.Tweak OutOffset (Length - Length % BLOCK_SIZE)
      (Length / BLOCK_SIZE) 0 Counter Output with
  | none => rw [hl] at h; cases h
  | some q =>
    obtain ⟨ctr, C, out⟩ := q
    have h1 := GenerateLoop_length _ _ _ _ _ _ _ _ _ _ hl
    rw [hl] at h
    simp only at h
    split_ifs at h with hne
    · cases hc : MemoryTools.Copy (BlockBytes (P.Permute State.Key C State.Tweak)) 0 out
          (OutOffset + ctr) (Length % BLOCK_SIZE) with
      | none => rw [hc] at h; cases h
      | some out1 =>
        rw [hc] at h
        cases h
        rw [Copy_length _ _ _ _ _ _ hc]
        exact h1
    · cases h
      exact h1

theorem XorLoop_length (Input : List Nat) (InBase OutBase : Nat) :
    ∀ (n i : Nat) (Output out : List Nat),
      XorLoop Input InBase OutBase i n Output = some out → out.length = Output.length := by
  intro n
  induction n with
  | zero =>
    intro i Output out h
    cases h
    rfl
  | succ n ih =>
    intro i Output out h
    unfold XorLoop at h
    split_ifs at h
    rw [ih _ _ _ h, List.length_set]

theorem ProcessThreads_length (P : Primitives) (c : TSX1024) (Input : List Nat)
    (InOffset OutOffset CNKLEN CTROFT : Nat) :
    ∀ (n : Nat) (tmpCtr : Nat × Nat) (Output : List Nat) (r : (Nat × Nat) × List Nat),
      ProcessThreads P c Input InOffset OutOffset CNKLEN CTROFT n tmpCtr Output = some r →
      r.2.length = Output.length := by
  intro n
  induction n with
  | zero =>
    intro tmpCtr Output r h
    cases h
    rfl
  | succ n ih =>
    intro tmpCtr Output r h
    unfold ProcessThreads at h
    cases h1 : ProcessThreads P c Input InOffset OutOffset CNKLEN CTROFT n tmpCtr Output with
    | none => rw [h1] at h; cases h
    | some q =>
      rw [h1] at h
      simp only at h
      unfold ProcessThread at h
      simp only at h
      cases h2 : Generate P c.State (LeIncreaseW c.State.Nonce (CTROFT * n)) q.2
          (OutOffset + n * CNKLEN) CNKLEN with
      | none => rw [h2] at h; cases h
      | some g =>
        rw [h2] at h
        simp only at h
        cases h3 : MemoryTools.XOR Input (InOffset + n * CNKLEN) g.2 (OutOffset + n * CNKLEN)
            CNKLEN with
        | none => rw [h3] at h; cases h
        | some x =>
          rw [h3] at h
          cases h
          simp only
          rw [XOR_length _ _ _ _ _ _ h3, Generate_length _ _ _ _ _ _ _ h2, ih _ _ _ h1]

theorem ProcessSequential_frame (P : Primitives) (c : TSX1024) (Input : List Nat)
    (InOffset : Nat) (Output : List Nat) (OutOffset L : Nat) (r : TSX1024 × List Nat)
    (h : ProcessSequential P c Input InOffset Output OutOffset L = some r) :
    r.1 = { c with State := { c.State with Nonce := r.1.State.Nonce } } ∧
      r.2.length = Output.length := by
  unfold ProcessSequential at h
  cases h1 : Generate P c.State c.State.Nonce Output OutOffset L with
  | none => rw [h1] at h; cases h
  | some g =>
    have l1 := Generate_length _ _ _ _ _ _ _ h1
    rw [h1] at h
    simp only at h
    cases h2 : (if L - L % BLOCK_SIZE ≠ 0 then
        MemoryTools.XOR Input InOffset g.2 OutOffset (L - L % BLOCK_SIZE) else some g.2) with
    | none => rw [h2] at h; cases h
    | some out1 =>
      have l2 : out1.length = g.2.length := by
        split_ifs at h2 with hz
        · exact XOR_length _ _ _ _ _ _ h2
        · cases h2; rfl
      rw [h2] at h
      simp only at h
      split_ifs at h with hne
      · cases h3 : XorLoop Input InOffset OutOffset (L - L % BLOCK_SIZE)
            (L - (L - L % BLOCK_SIZE)) out1 with
        | none => rw [h3] at h; cases h
        | some out2 =>
          rw [h3] at h
          cases h
          exact ⟨rfl, by rw [XorLoop_length _ _ _ _ _ _ _ h3, l2, l1]⟩
      · cases h
        exact ⟨rfl, by rw [l2, l1]⟩

theorem ProcessParallel_frame (P : Primitives) (c : TSX1024) (Input : List Nat)
    (InOffset : Nat) (Output : List Nat) (OutOffset L : Nat) (r : TSX1024 × List Nat)
    (h : ProcessParallel P c Input InOffset Output OutOffset L = some r) :
    r.1 = { c with State := { c.State with Nonce := r.1.State.Nonce } } ∧
      r.2.length = Output.length := by
  unfold ProcessParallel at h
  split_ifs at h with hd
  simp only at h
  cases h1 : ProcessThreads P c Input InOffset OutOffset
      (L / BLOCK_SIZE / c.Profile.ParallelMaxDegree * BLOCK_SIZE)
      (L / BLOCK_SIZE / c.Profile.ParallelMaxDegree * BLOCK_SIZE / BLOCK_SIZE)
      c.Profile.ParallelMaxDegree (0, 0) Output with
  | none => rw [h1] at h; cases h
  | some q =>
    have l1 := ProcessThreads_length _ _ _ _ _ _ _ _ _ _ _ h1
    rw [h1] at h
    simp only at h
    split_ifs at h with ha hb
    · split at h
      · cases h
      · rename_i nonce out1 h2
        have l2 := Generate_length _ _ _ _ _ _ _ h2
        split at h
        · cases h
        · rename_i out2 h3
          cases h
          exact ⟨rfl, by rw [XorLoop_length _ _ _ _ _ _ _ h3]; exact l2.trans l1⟩
    · cases h
      exact ⟨rfl, l1⟩

theorem Process_frame (P : Primitives) (c : TSX1024) (Input : List Nat)
    (InOffset : Nat) (Output : List Nat) (OutOffset L : Nat) (r : TSX1024 × List Nat)
    (h : Process P c Input InOffset Output OutOffset L = some r) :
    r.1 = { c with State := { c.State with Nonce := r.1.State.Nonce } } ∧
      r.2.length = Output.length := by
  unfold Process at h
  split_ifs at h
  · exact ProcessSequential_frame _ _ _ _ _ _ _ _ h
  · exact ProcessParallel_frame _ _ _ _ _ _ _ _ h

/-! ### `Compare`, and the members `Process` depends on -/

theorem or_eq_zero (a b : Nat) : a ||| b = 0 ↔ a = 0 ∧ b = 0 := by
  constructor
  · intro h
    have key : ∀ i, a.testBit i = false ∧ b.testBit i = false := by
      intro i
      have := congrArg (fun x => x.testBit i) h
      simpa [Nat.testBit_or] using this
    exact ⟨Nat.eq_of_testBit_eq (by intro i; simp [(key i).1]),
      Nat.eq_of_testBit_eq (by intro i; simp [(key i).2])⟩
  · rintro ⟨rfl, rfl⟩
    rfl

theorem CompareDelta_eq_zero (A : List Nat) (AOffset : Nat) (B : List Nat) (BOffset : Nat) :
    ∀ n, CompareDelta A AOffset B BOffset n = 0 ↔
      ∀ i, i < n → A.getD (AOffset + i) 0 = B.getD (BOffset + i) 0 := by
  intro n
  induction n with
  | zero => simp [CompareDelta]
  | succ n ih =>
    rw [CompareDelta, or_eq_zero, ih, Nat.xor_eq_zero]
    constructor
    · rintro ⟨h1, h2⟩ i hi
      rcases Nat.lt_succ_iff_lt_or_eq.mp hi with h | h
      · exact h1 i h
      · rw [h]; exact h2
    · intro h
      exact ⟨fun i hi => h i (by omega), h n (by omega)⟩

theorem slice_eq_iff (A : List Nat) (a : Nat) (B : List Nat) (b n : Nat)
    (hA : a + n ≤ A.length) (hB : b + n ≤ B.length) :
    slice A a n = slice B b n ↔ ∀ i, i < n → A.getD (a + i) 0 = B.getD (b + i) 0 := by
  constructor
  · intro h i hi
    have h1 := congrArg (fun l => l[i]?) h
    simp only [getElem?_slice, if_pos hi] at h1
    rw [List.getD_eq_getElem?_getD, List.getD_eq_getElem?_getD, h1]
  · intro h
    apply List.ext_getElem?
    intro i
    rw [getElem?_slice, getElem?_slice]
    by_cases hi : i < n
    · rw [if_pos hi, if_pos hi, List.getElem?_eq_getElem (by omega),
        List.getElem?_eq_getElem (by omega)]
      have := h i hi
      rw [List.getD_eq_getElem _ _ (by omega : a + i < A.length),
        List.getD_eq_getElem _ _ (by omega : b + i < B.length)] at this
      rw [this]
    · rw [if_neg hi, if_neg hi]

theorem Compare_eq (A : List Nat) (AOffset : Nat) (B : List Nat) (BOffset Length : Nat)
    (hA : AOffset + Length ≤ A.length) (hB : BOffset + Length ≤ B.length) :
    Compare A AOffset B BOffset Length
      = some (decide (slice A AOffset Length = slice B BOffset Length)) := by
  unfold Compare
  rw [if_pos ⟨hA, hB⟩]
  congr 1
  by_cases h : slice A AOffset Length = slice B BOffset Length
  · rw [decide_eq_true h, beq_iff_eq, CompareDelta_eq_zero]
    exact (slice_eq_iff A AOffset B BOffset Length hA hB).mp h
  · rw [decide_eq_false h, beq_eq_false_iff_ne]
    intro h0
    exact h ((slice_eq_iff A AOffset B BOffset Length hA hB).mpr
      ((CompareDelta_eq_zero A AOffset B BOffset Length).mp h0))

theorem Generate_congr (P : Primitives) (S S1 : TSX1024State) (hK : S1.Key = S.Key)
    (hT : S1.Tweak = S.Tweak) (Counter : Nat × Nat) (Output : List Nat) (OutOffset Length : Nat) :
    Generate P S1 Counter Output OutOffset Length = Generate P S Counter Output OutOffset Length := by
  unfold Generate
  rw [hK, hT]

theorem ProcessThreads_congr (P : Primitives) (c c1 : TSX1024) (hK : c1.State.Key = c.State.Key)
    (hT : c1.State.Tweak = c.State.Tweak) (hN : c1.State.Nonce = c.State.Nonce)
    (hP : c1.Profile = c.Profile) (Input : List Nat) (InOffset OutOffset CNKLEN CTROFT : Nat) :
    ∀ (n : Nat) (tmpCtr : Nat × Nat) (Output : List Nat),
      ProcessThreads P c1 Input InOffset OutOffset CNKLEN CTROFT n tmpCtr Output
        = ProcessThreads P c Input InOffset OutOffset CNKLEN CTROFT n tmpCtr Output := by
  intro n
  induction n with
  | zero => intro tmpCtr Output; rfl
  | succ n ih =>
    intro tmpCtr Output
    unfold ProcessThreads
    rw [ih]
    unfold ProcessThread
    simp only [hN, hP, Generate_congr P c.State c1.State hK hT]

theorem Process_congr (P : Primitives) (c c1 : TSX1024) (hK : c1.State.Key = c.State.Key)
    (hT : c1.State.Tweak = c.State.Tweak) (hN : c1.State.Nonce = c.State.Nonce)
    (hP : c1.Profile = c.Profile) (Input : List Nat) (InOffset : Nat) (Output : List Nat)
    (OutOffset L : Nat) :
    Process P c1 Input InOffset Output OutOffset L
      = (Process P c Input InOffset Output OutOffset L).map
          (fun r => ({ c1 with State := { c1.State with Nonce := r.1.State.Nonce } }, r.2)) := by
  obtain ⟨S1, M1, Pr1⟩ := c1
  obtain ⟨S, M, Pr⟩ := c
  simp only at hK hT hN hP
  subst hP
  unfold Process
  simp only
  split_ifs with hs
  · unfold ProcessSequential
    simp only
    rw [Generate_congr P S S1 hK hT, hN]
    cases Generate P S S.Nonce Output OutOffset L with
    | none => rfl
    | some g =>
      simp only
      cases (if L - L % BLOCK_SIZE ≠ 0 then
          MemoryTools.XOR Input InOffset g.2 OutOffset (L - L % BLOCK_SIZE) else some g.2) with
      | none => rfl
      | some out1 =>
        simp only
        split_ifs
        · cases XorLoop Input InOffset OutOffset (L - L % BLOCK_SIZE)
            (L - (L - L % BLOCK_SIZE)) out1 <;> rfl
        · rfl
  · unfold ProcessParallel
    simp only
    rw [ProcessThreads_congr P ⟨S, M, Pr1⟩ ⟨S1, M1, Pr1⟩ hK hT hN rfl]
    by_cases hd : Pr1.ParallelMaxDegree = 0
    · rw [if_pos hd, if_pos hd]
      rfl
    · rw [if_neg hd, if_neg hd]
      cases ProcessThreads P ⟨S, M, Pr1⟩ Input InOffset OutOffset
        (L / BLOCK_SIZE / Pr1.ParallelMaxDegree * BLOCK_SIZE)
        (L / BLOCK_SIZE / Pr1.ParallelMaxDegree * BLOCK_SIZE / BLOCK_SIZE)
        Pr1.ParallelMaxDegree (0, 0) Output with
      | none => rfl
      | some q =>
        simp only
        by_cases ha : L / BLOCK_SIZE / Pr1.ParallelMaxDegree * BLOCK_SIZE * Pr1.ParallelMaxDegree < L
        · rw [if_pos ha, if_pos ha]
          by_cases hb : L / BLOCK_SIZE / Pr1.ParallelMaxDegree * BLOCK_SIZE * Pr1.ParallelMaxDegree = 0
          · rw [if_pos hb, if_pos hb]
            rfl
          · rw [if_neg hb, if_neg hb,
              Generate_congr P { S with Nonce := q.1 } { S1 with Nonce := q.1 } hK hT]
            cases Generate P { S with Nonce := q.1 } q.1 q.2
              (L / BLOCK_SIZE / Pr1.ParallelMaxDegree * BLOCK_SIZE * Pr1.ParallelMaxDegree)
              (L % (L / BLOCK_SIZE / Pr1.ParallelMaxDegree * BLOCK_SIZE
                * Pr1.ParallelMaxDegree)) with
            | none => rfl
            | some g =>
              simp only
              cases XorLoop Input
                (InOffset + L / BLOCK_SIZE / Pr1.ParallelMaxDegree * BLOCK_SIZE
                  * Pr1.ParallelMaxDegree)
                (OutOffset + L / BLOCK_SIZE / Pr1.ParallelMaxDegree * BLOCK_SIZE
                  * Pr1.ParallelMaxDegree) 0
                (L % (L / BLOCK_SIZE / Pr1.ParallelMaxDegree * BLOCK_SIZE
                  * Pr1.ParallelMaxDegree)) g.2 <;> rfl
        · rw [if_neg ha, if_neg ha]
          rfl

/-! ### The MAC steps and the authenticated branches of `Transform` in closed form -/

theorem Le64Bytes_length (v : Nat) : (Le64Bytes v).length = 8 := rfl

theorem slice_full (v : List Nat) (n : Nat) (h : v.length = n) : slice v 0 n = v := by
  unfold slice
  rw [List.drop_zero, List.take_of_length_le (by omega)]

theorem Code_length (P : Primitives) (m : MacState) : (IMac.Code P m).length = P.TagSize := by
  simp [IMac.Code]

theorem ShakeGenerate_length (P : Primitives) (key custom : List Nat) (pos n : Nat) :
    (ShakeGenerate P key custom pos n).length = n := by
  simp [ShakeGenerate]

theorem MacUpdate_eq (c : TSX1024) (m : MacState) (Output Input : List Nat) (Offset Length : Nat)
    (hm : c.Mac = some m) (hi : m.Initialized = true) (hb : Offset + Length ≤ Input.length) :
    MacUpdate Input Offset Length (c, Output)
      = .ok ({ c with Mac := some { m with Absorbed := m.Absorbed ++ slice Input Offset Length } },
          Output) := by
  unfold MacUpdate IMac.Update
  simp only [hm, hi, Bool.true_eq_false, if_false, if_neg (Nat.not_lt.mpr hb)]

theorem Finalize_eq (P : Primitives) (c : TSX1024) (m : MacState)
    (hm : c.Mac = some m) (hi : m.Initialized = true)
    (ht : P.TagSize ≤ c.State.MacTag.length) (hc : 8 ≤ c.State.Custom.length)
    (hk : P.MacKeySize ≤ c.State.MacKey.length) :
    Finalize P c
      = .ok { c with
              State := { c.State with
                MacTag := writeAt c.State.MacTag 0 (IMac.Code P m)
                Custom := writeAt c.State.Custom 0 (Le64Bytes c.State.Counter)
                MacKey := writeAt c.State.MacKey 0
                  (ShakeGenerate P c.State.MacKey
                    (writeAt c.State.Custom 0 (Le64Bytes c.State.Counter)) 0 P.MacKeySize) }
              Mac := some (IMac.Initialize
                (ShakeGenerate P c.State.MacKey
                  (writeAt c.State.Custom 0 (Le64Bytes c.State.Counter)) 0 P.MacKeySize)) } := by
  have hl := ShakeGenerate_length P c.State.MacKey
    (writeAt c.State.Custom 0 (Le64Bytes c.State.Counter)) 0 P.MacKeySize
  unfold Finalize IMac.Finalize Le64ToBytes
  simp only [hm, hi, Bool.true_eq_false, if_false, Nat.zero_add, if_neg (Nat.not_lt.mpr ht),
    if_pos hc]
  rw [Copy_eq _ _ _ _ _ (by omega) (by omega), slice_full _ _ rfl]

theorem writeAt_full (v blk : List Nat) (h : v.length = blk.length) : writeAt v 0 blk = blk := by
  unfold writeAt
  rw [List.take_zero, List.nil_append, List.drop_eq_nil_of_le (by omega), List.append_nil]

theorem Transform_decrypt_auth (P : Primitives) (c : TSX1024) (m : MacState)
    (Input : List Nat) (InOffset : Nat) (Output : List Nat) (OutOffset L : Nat)
    (hr : AuthReady P c m) (he : c.State.Encryption = false)
    (hin : InOffset + L + P.TagSize ≤ Input.length) :
    Transform P c Input InOffset Output OutOffset L =
      if slice Input (InOffset + L) P.TagSize
          = IMac.Code P { m with Absorbed := m.Absorbed ++ (Le64Bytes c.State.Nonce.1
              ++ Le64Bytes c.State.Nonce.2 ++ slice Input InOffset L) } then
        ProcessStep P Input InOffset OutOffset L
          (Rekeyed P c m (Le64Bytes c.State.Nonce.1 ++ Le64Bytes c.State.Nonce.2
            ++ slice Input InOffset L) L, Output)
      else
        .throw .AuthenticationFailure
          (Rekeyed P c m (Le64Bytes c.State.Nonce.1 ++ Le64Bytes c.State.Nonce.2
            ++ slice Input InOffset L) L, Output) := by
  obtain ⟨hm, hi, ht, hc, hk⟩ := hr
  obtain ⟨S, M, Pr⟩ := c
  simp only at hm he ht hc hk
  subst hm
  unfold Transform
  simp only [IsEncryption, IsAuthenticator, he, Bool.false_eq_true, if_false, Option.isSome_some,
    if_true]
  rw [MacUpdate_eq _ m _ _ _ _ rfl hi (by rw [Le64Bytes_length])]
  simp only [Outcome.andThen]
  rw [MacUpdate_eq _ _ _ _ _ _ rfl (by exact hi) (by rw [Le64Bytes_length])]
  simp only [Outcome.andThen]
  rw [MacUpdate_eq _ _ _ _ _ _ rfl (by exact hi) (by omega)]
  simp only [Outcome.andThen, AddCounter, FinalizeStep]
  rw [Finalize_eq P _ _ rfl (by exact hi) (by simp only; omega) (by simpa using hc)
    (by simp only; omega)]
  simp only [Outcome.andThen, VerifyTag]
  have hcl := Code_length P (⟨m.Initialized, m.Key,
    ((m.Absorbed ++ slice (Le64Bytes S.Nonce.1) 0 8)
      ++ slice (Le64Bytes S.Nonce.2) 0 8) ++ slice Input InOffset L⟩ : MacState)
  rw [writeAt_full S.MacTag _ (by rw [hcl, ht]), hcl,
    Compare_eq _ _ _ _ _ (by omega) (by rw [hcl]; omega), slice_full _ _ hcl]
  simp only [slice_full (Le64Bytes S.Nonce.1) 8 rfl, slice_full (Le64Bytes S.Nonce.2) 8 rfl,
    List.append_assoc]
  by_cases hq : slice Input (InOffset + L) P.TagSize
      = IMac.Code P (⟨m.Initialized, m.Key,
          m.Absorbed ++ (Le64Bytes S.Nonce.1 ++ (Le64Bytes S.Nonce.2
            ++ slice Input InOffset L))⟩ : MacState)
  · rw [if_pos hq, decide_eq_true hq]
    simp only [Rekeyed]
    rw [writeAt_full S.MacTag _ (by rw [Code_length, ht])]
  · rw [if_neg hq, decide_eq_false hq]
    simp only [Rekeyed]
    rw [writeAt_full S.MacTag _ (by rw [Code_length, ht])]

theorem Transform_encrypt_auth (P : Primitives) (c : TSX1024) (m : MacState)
    (Input : List Nat) (InOffset : Nat) (Output : List Nat) (OutOffset L : Nat)
    (c1 : TSX1024) (out1 : List Nat)
    (hr : AuthReady P c m) (he : c.State.Encryption = true)
    (hout : OutOffset + L + P.TagSize ≤ Output.length)
    (hproc : Process P c Input InOffset Output OutOffset L = some (c1, out1)) :
    Transform P c Input InOffset Output OutOffset L =
      .ok ({ c with
             State := { (Rekeyed P c m (Le64Bytes c.State.Nonce.1 ++ Le64Bytes c.State.Nonce.2
                          ++ slice out1 OutOffset L) L).State with Nonce := c1.State.Nonce }
             Mac := (Rekeyed P c m (Le64Bytes c.State.Nonce.1 ++ Le64Bytes c.State.Nonce.2
                          ++ slice out1 OutOffset L) L).Mac },
           writeAt out1 (OutOffset + L)
             (IMac.Code P { m with Absorbed := m.Absorbed ++ (Le64Bytes c.State.Nonce.1
               ++ Le64Bytes c.State.Nonce.2 ++ slice out1 OutOffset L) })) := by
  obtain ⟨hm, hi, ht, hc, hk⟩ := hr
  have hfr := (Process_frame P c Input InOffset Output OutOffset L (c1, out1) hproc).2
  simp only at hfr
  obtain ⟨S, M, Pr⟩ := c
  simp only at hm he ht hc hk
  subst hm
  have hguard : ¬ Output.length < (L + OutOffset + P.TagSize) % 2 ^ 64 := by
    have := Nat.mod_le (L + OutOffset + P.TagSize) (2 ^ 64)
    omega
  unfold Transform
  simp only [IsEncryption, IsAuthenticator, he, if_true, Option.isSome_some, if_neg hguard]
  rw [MacUpdate_eq _ m _ _ _ _ rfl hi (by rw [Le64Bytes_length])]
  simp only [Outcome.andThen]
  rw [MacUpdate_eq _ _ _ _ _ _ rfl (by exact hi) (by rw [Le64Bytes_length])]
  simp only [Outcome.andThen, ProcessStep]
  rw [Process_congr P ⟨S, some m, Pr⟩
    ⟨S, some ⟨m.Initialized, m.Key, m.Absorbed ++ slice (Le64Bytes S.Nonce.1) 0 8
      ++ slice (Le64Bytes S.Nonce.2) 0 8⟩, Pr⟩ rfl rfl rfl rfl, hproc]
  simp only [Option.map_some']
  rw [MacUpdate_eq _ _ _ _ _ _ rfl (by exact hi) (by omega)]
  simp only [Outcome.andThen, AddCounter, FinalizeStep]
  rw [Finalize_eq P _ _ rfl (by exact hi) (by simp only; omega) (by simpa using hc)
    (by simp only; omega)]
  simp only [Outcome.andThen, AppendTag]
  have hcl := Code_length P (⟨m.Initialized, m.Key,
    ((m.Absorbed ++ slice (Le64Bytes S.Nonce.1) 0 8)
      ++ slice (Le64Bytes S.Nonce.2) 0 8) ++ slice out1 OutOffset L⟩ : MacState)
  rw [writeAt_full S.MacTag _ (by rw [hcl, ht]), hcl,
    Copy_eq _ _ _ _ _ (by rw [hcl]; omega) (by omega), slice_full _ _ hcl]
  simp only [slice_full (Le64Bytes S.Nonce.1) 8 rfl, slice_full (Le64Bytes S.Nonce.2) 8 rfl,
    List.append_assoc, Rekeyed]
  rw [writeAt_full S.MacTag _ (by rw [Code_length, ht])]

/-! ### `Initialize` in closed form -/

theorem getD_lt (v : List Nat) (hb : ∀ b ∈ v, b < 256) (i : Nat) : v.getD i 0 < 256 := by
  by_cases h : i < v.length
  · rw [List.getD_eq_getElem _ _ h]
    exact hb _ (List.getElem_mem h)
  · rw [List.getD_eq_default _ _ (by omega)]
    omega

theorem shift_lt (b k : Nat) (hb : b < 256) (hk : k ≤ 56) : b <<< k < 2 ^ 64 := by
  rw [Nat.shiftLeft_eq]
  calc b * 2 ^ k < 256 * 2 ^ k := Nat.mul_lt_mul_of_pos_right hb (Nat.two_pow_pos k)
    _ = 2 ^ (8 + k) := by rw [Nat.pow_add]
    _ ≤ 2 ^ 64 := Nat.pow_le_pow_right (by omega) (by omega)

theorem LeBytesTo64_lt (Input : List Nat) (hb : ∀ b ∈ Input, b < 256) (off w : Nat)
    (h : LeBytesTo64 Input off = some w) : w < 2 ^ 64 := by
  unfold LeBytesTo64 at h
  split_ifs at h
  cases h
  have g := getD_lt Input hb
  have g0 : Input.getD off 0 < 2 ^ 64 := by have := g off; omega
  exact Nat.or_lt_two_pow (Nat.or_lt_two_pow (Nat.or_lt_two_pow (Nat.or_lt_two_pow
    (Nat.or_lt_two_pow (Nat.or_lt_two_pow (Nat.or_lt_two_pow g0
      (shift_lt _ 8 (g _) (by omega))) (shift_lt _ 16 (g _) (by omega)))
      (shift_lt _ 24 (g _) (by omega))) (shift_lt _ 32 (g _) (by omega)))
      (shift_lt _ 40 (g _) (by omega))) (shift_lt _ 48 (g _) (by omega)))
      (shift_lt _ 56 (g _) (by omega))

theorem LeBytesTo64_isSome (Input : List Nat) (off : Nat) (h : off + 8 ≤ Input.length) :
    ∃ w, LeBytesTo64 Input off = some w := by
  unfold LeBytesTo64
  rw [if_pos h]
  exact ⟨_, rfl⟩

theorem LoadKey_isSome (k : List Nat) (h : 128 ≤ k.length) : ∃ key, LoadKey k = some key := by
  unfold LoadKey
  simp only [List.range_succ, List.range_zero, List.nil_append, List.cons_append, List.foldr_cons,
    List.foldr_nil, LeBytesTo64]
  simp only [if_pos (show 8 * 0 + 8 ≤ k.length by omega),
    if_pos (show 8 * 1 + 8 ≤ k.length by omega), if_pos (show 8 * 2 + 8 ≤ k.length by omega),
    if_pos (show 8 * 3 + 8 ≤ k.length by omega), if_pos (show 8 * 4 + 8 ≤ k.length by omega),
    if_pos (show 8 * 5 + 8 ≤ k.length by omega), if_pos (show 8 * 6 + 8 ≤ k.length by omega),
    if_pos (show 8 * 7 + 8 ≤ k.length by omega), if_pos (show 8 * 8 + 8 ≤ k.length by omega),
    if_pos (show 8 * 9 + 8 ≤ k.length by omega), if_pos (show 8 * 10 + 8 ≤ k.length by omega),
    if_pos (show 8 * 11 + 8 ≤ k.length by omega), if_pos (show 8 * 12 + 8 ≤ k.length by omega),
    if_pos (show 8 * 13 + 8 ≤ k.length by omega), if_pos (show 8 * 14 + 8 ≤ k.length by omega),
    if_pos (show 8 * 15 + 8 ≤ k.length by omega)]
  exact ⟨_, rfl⟩

theorem LoadTweak_isSome (Info : List Nat) (h : Info.length = 0 ∨ Info.length = 16) :
    ∃ t, LoadTweak Info = some t := by
  unfold LoadTweak
  rcases h with h | h
  · rw [if_neg (by simpa using h)]
    exact ⟨_, rfl⟩
  · rw [if_pos (by omega)]
    obtain ⟨t0, h0⟩ := LeBytesTo64_isSome Info 0 (by omega)
    obtain ⟨t1, h1⟩ := LeBytesTo64_isSome Info 8 (by omega)
    rw [h0, h1]
    exact ⟨_, rfl⟩

theorem custom_build (v name : List Nat) :
    writeAt (writeAt (resize v (8 + name.length)) 0 (Le64Bytes 1)) 8 name
      = Le64Bytes 1 ++ name := by
  have hl : (resize v (8 + name.length)).length = 8 + name.length := by
    simp only [resize, List.length_append, List.length_take, List.length_replicate]
    omega
  have := writeAt_writeAt (resize v (8 + name.length)) 0 (Le64Bytes 1) name
    (by rw [hl, Le64Bytes_length]; omega)
  rw [Le64Bytes_length, Nat.zero_add] at this
  rw [this, writeAt_full _ _ (by rw [hl, List.length_append, Le64Bytes_length])]

theorem resize_length (v : List Nat) (n : Nat) : (resize v n).length = n := by
  simp only [resize, List.length_append, List.length_take, List.length_replicate]
  omega

theorem InitializeAuth_eq (P : Primitives) (c : TSX1024) (Parameters : SymmetricKey)
    (ha : c.Mac.isSome = true) :
    ∃ key, LoadKey (ShakeGenerate P Parameters.Key (Le64Bytes 1 ++ Name P c) 0 KEY_SIZE)
        = some key ∧
      InitializeAuth P c Parameters
        = some { c with
                 State := { c.State with
                   Counter := 1, Custom := Le64Bytes 1 ++ Name P c, Key := key,
                   MacKey := ShakeGenerate P Parameters.Key (Le64Bytes 1 ++ Name P c) KEY_SIZE
                     P.MacKeySize,
                   MacTag := resize c.State.MacTag P.TagSize }
                 Mac := some (IMac.Initialize
                   (ShakeGenerate P Parameters.Key (Le64Bytes 1 ++ Name P c) KEY_SIZE
                     P.MacKeySize)) } := by
  obtain ⟨key, hkey⟩ := LoadKey_isSome
    (ShakeGenerate P Parameters.Key (Le64Bytes 1 ++ Name P c) 0 KEY_SIZE)
    (by rw [ShakeGenerate_length]; unfold KEY_SIZE; omega)
  refine ⟨key, hkey, ?_⟩
  have hts : TagSize P c = P.TagSize := by
    unfold TagSize IsAuthenticator
    rw [if_pos ha]
  have hl := ShakeGenerate_length P Parameters.Key (Le64Bytes 1 ++ Name P c) KEY_SIZE P.MacKeySize
  unfold InitializeAuth Le64ToBytes
  simp only [Nat.zero_add, resize_length, if_pos (Nat.le_add_right 8 (Name P c).length)]
  rw [Copy_eq _ _ _ _ _ (by omega) (by
    rw [writeAt_length _ _ _ (by rw [resize_length, Le64Bytes_length]; omega), resize_length])]
  simp only [slice_full (Name P c) _ rfl, custom_build, hkey, hl]
  rw [Copy_eq _ _ _ _ _ (by omega) (by rw [resize_length]; omega)]
  simp only [slice_full _ _ hl, writeAt_full _ _ ((resize_length _ _).trans hl.symm), hts]

theorem Initialize_checks (P : Primitives) (c : TSX1024) (Encryption : Bool)
    (Parameters : SymmetricKey) (hk : Parameters.Key.length = 128)
    (hn : Parameters.Nonce.length = 16) (hi : Parameters.Info.length ≤ 16)
    (hp : ProfileOk c.Profile) :
    Initialize P c Encryption Parameters =
      match LeBytesTo64 Parameters.Nonce 0, LeBytesTo64 Parameters.Nonce 8 with
      | some n0, some n1 =>
        match LoadTweak Parameters.Info with
        | none => .undefined
        | some tweak =>
          match (if (Restarted c).IsAuthenticator = false then
                   (LoadKey Parameters.Key).map
                     (fun key => ({ Restarted c with
                        State := { (Restarted c).State with
                          Nonce := (n0, n1), Tweak := tweak, Key := key } } : TSX1024))
                 else InitializeAuth P { Restarted c with
                        State := { (Restarted c).State with Nonce := (n0, n1), Tweak := tweak } }
                      Parameters) with
          | none => .undefined
          | some c2 =>
            .ok { c2 with
                  State := { c2.State with Encryption := Encryption, Initialized := true } }
      | _, _ => .undefined := by
  unfold Initialize
  have c1 : ¬ Parameters.Key.length ≠ KEY_SIZE := by unfold KEY_SIZE; omega
  have c2 : ¬ Parameters.Nonce.length ≠ NONCE_SIZE * 8 := by unfold NONCE_SIZE; omega
  have c3 : ¬ (Parameters.Info.length > 0 ∧ Parameters.Info.length > INFO_SIZE) := by
    unfold INFO_SIZE; omega
  have c4 : ¬ (c.Profile.IsParallel = true ∧
      (c.Profile.ParallelBlockSize < c.Profile.ParallelMinimumSize ∨
        c.Profile.ParallelBlockSize > c.Profile.ParallelMaximumSize)) := by
    rintro ⟨h1, h2⟩
    have := hp h1
    omega
  have c5 : ¬ (c.Profile.IsParallel = true ∧ c.Profile.ParallelMinimumSize = 0) := by
    rintro ⟨h1, h2⟩
    exact (hp h1).2.2.1 h2
  have c6 : ¬ (c.Profile.IsParallel = true ∧
      c.Profile.ParallelBlockSize % c.Profile.ParallelMinimumSize ≠ 0) := by
    rintro ⟨h1, h2⟩
    exact h2 (hp h1).2.2.2
  rw [if_neg c1, if_neg c2, if_neg c3, if_neg c4, if_neg c5, if_neg c6]
  rfl

theorem Restarted_isSome (c : TSX1024) : (Restarted c).Mac.isSome = c.Mac.isSome := by
  unfold Restarted
  split_ifs
  · simp [Reset]
  · rfl

theorem Restarted_profile (c : TSX1024) : (Restarted c).Profile = c.Profile := by
  unfold Restarted
  split_ifs <;> rfl

theorem Initialize_auth_eq (P : Primitives) (c : TSX1024) (Encryption : Bool)
    (Parameters : SymmetricKey) (ha : c.Mac.isSome = true)
    (hk : Parameters.Key.length = 128) (hn : Parameters.Nonce.length = 16)
    (hi : Parameters.Info.length = 0 ∨ Parameters.Info.length = 16)
    (hp : ProfileOk c.Profile) :
    ∃ key n0 n1 tweak,
      LeBytesTo64 Parameters.Nonce 0 = some n0 ∧ LeBytesTo64 Parameters.Nonce 8 = some n1 ∧
      LoadTweak Parameters.Info = some tweak ∧
      LoadKey (ShakeGenerate P Parameters.Key (Le64Bytes 1 ++ Name P c) 0 KEY_SIZE) = some key ∧
      Initialize P c Encryption Parameters
        = .ok { State :=
                  { Key := key, Nonce := (n0, n1), Tweak := tweak,
                    Custom := Le64Bytes 1 ++ Name P c,
                    MacKey := ShakeGenerate P Parameters.Key (Le64Bytes 1 ++ Name P c) KEY_SIZE
                      P.MacKeySize,
                    MacTag := resize (Restarted c).State.MacTag P.TagSize,
                    Counter := 1, Encryption := Encryption, Initialized := true }
                Mac := some (IMac.Initialize
                  (ShakeGenerate P Parameters.Key (Le64Bytes 1 ++ Name P c) KEY_SIZE
                    P.MacKeySize))
                Profile := c.Profile } := by
  obtain ⟨n0, h0⟩ := LeBytesTo64_isSome Parameters.Nonce 0 (by omega)
  obtain ⟨n1, h1⟩ := LeBytesTo64_isSome Parameters.Nonce 8 (by omega)
  obtain ⟨tweak, ht⟩ := LoadTweak_isSome Parameters.Info hi
  have hs := Restarted_isSome c
  have hname : ∀ S, Name P { Restarted c with State := S } = Name P c := by
    intro S
    unfold Name IsAuthenticator
    simp only [hs]
  obtain ⟨key, hkey, hinit⟩ := InitializeAuth_eq P
    { Restarted c with State := { (Restarted c).State with Nonce := (n0, n1), Tweak := tweak } }
    Parameters (by simp only [hs, ha])
  rw [hname] at hkey hinit
  dsimp only at hinit
  rw [Restarted_profile] at hinit
  refine ⟨key, n0, n1, tweak, h0, h1, ht, hkey, ?_⟩
  rw [Initialize_checks P c Encryption Parameters hk hn (by omega) hp, h0, h1]
  simp only [ht, IsAuthenticator, hs, ha, Bool.true_eq_false, if_false, hinit, Restarted_profile]

theorem Initialize_plain_eq (P : Primitives) (c : TSX1024) (Encryption : Bool)
    (Parameters : SymmetricKey) (ha : c.Mac = none)
    (hk : Parameters.Key.length = 128) (hn : Parameters.Nonce.length = 16)
    (hi : Parameters.Info.length = 0 ∨ Parameters.Info.length = 16)
    (hp : ProfileOk c.Profile) :
    ∃ key n0 n1 tweak,
      LeBytesTo64 Parameters.Nonce 0 = some n0 ∧ LeBytesTo64 Parameters.Nonce 8 = some n1 ∧
      LoadTweak Parameters.Info = some tweak ∧
      LoadKey Parameters.Key = some key ∧
      Initialize P c Encryption Parameters
        = .ok { State :=
                  { (Restarted c).State with
                    Key := key, Nonce := (n0, n1), Tweak := tweak,
                    Encryption := Encryption, Initialized := true }
                Mac := none
                Profile := c.Profile } := by
  obtain ⟨n0, h0⟩ := LeBytesTo64_isSome Parameters.Nonce 0 (by omega)
  obtain ⟨n1, h1⟩ := LeBytesTo64_isSome Parameters.Nonce 8 (by omega)
  obtain ⟨tweak, ht⟩ := LoadTweak_isSome Parameters.Info hi
  obtain ⟨key, hkey⟩ := LoadKey_isSome Parameters.Key (by omega)
  have hs := Restarted_isSome c
  have hm : (Restarted c).Mac = none := by
    rw [ha] at hs
    simpa using hs
  refine ⟨key, n0, n1, tweak, h0, h1, ht, hkey, ?_⟩
  rw [Initialize_checks P c Encryption Parameters hk hn (by omega) hp, h0, h1]
  simp only [ht, IsAuthenticator, hm, Option.isSome_none, if_true, hkey, Option.map_some',
    Restarted_profile]

/-! ## Properties of `Process`, `Initialize` and `Transform` -/

/-- C2: on the sequential path, `Process` returns; byte `OutOffset + i` of the output
(`i < L`) is `Input[InOffset + i]` xored with byte `i mod 128` of the little-endian
serialization of the permutation of the counter value `c + i / 128`, `c` being the
counter at entry; every other byte of `Output` is unchanged. -/
theorem Process_sequential_bytes (P : Primitives) (c : TSX1024) (Input : List Nat)
    (InOffset : Nat) (Output : List Nat) (OutOffset L : Nat)
    (hseq : c.Profile.IsParallel = false ∨ L < c.Profile.ParallelMinimumSize)
    (hw : WordsOk c.State.Nonce)
    (hin : InOffset + L ≤ Input.length) (hout : OutOffset + L ≤ Output.length) :
    ∃ c1 out, Process P c Input InOffset Output OutOffset L = some (c1, out) ∧
      out.length = Output.length ∧
      (∀ i, i < L → out[OutOffset + i]? = some (Input.getD (InOffset + i) 0 ^^^
        (BlockBytes (P.Permute c.State.Key
          (CounterOfValue (CounterValue c.State.Nonce + i / 128)) c.State.Tweak)).getD
            (i % 128) 0)) ∧
      (∀ j, j < OutOffset ∨ OutOffset + L ≤ j → out[j]? = Output[j]?) := by
  have hp := ProcessSequential_eq P c Input InOffset Output OutOffset L hw hin hout
  have hKl := KeyStream_length P c.State.Key c.State.Tweak c.State.Nonce L
  have hx : (xorBytes (KeyStream P c.State.Key c.State.Tweak c.State.Nonce L)
      (slice Input InOffset L)).length = L := by
    rw [xorBytes_length, hKl, slice_length _ _ _ hin, Nat.min_self]
  have hP : Process P c Input InOffset Output OutOffset L
      = ProcessSequential P c Input InOffset Output OutOffset L := by
    unfold Process
    rw [if_pos hseq]
  rw [← hP] at hp
  refine ⟨_, _, hp, ?_, ?_, ?_⟩
  · exact writeAt_length _ _ _ (by omega)
  · intro i hi
    rw [getElem?_writeAt _ _ _ (by omega), hx, if_neg (by omega), if_pos (by omega),
      getElem?_xorBytes, getElem?_slice, if_pos (by omega)]
    have e : OutOffset + i - OutOffset = i := by omega
    rw [e]
    have h1 : (KeyStream P c.State.Key c.State.Tweak c.State.Nonce L)[i]?
        = some (KeyStreamByte P c.State.Key c.State.Tweak c.State.Nonce i) := by
      unfold KeyStream
      rw [List.getElem?_map, List.getElem?_range hi]
      rfl
    have h2 : Input[InOffset + i]? = some (Input.getD (InOffset + i) 0) := by
      rw [List.getElem?_eq_getElem (by omega), List.getD_eq_getElem _ _ (by omega)]
    rw [h1, h2]
    simp only [Option.some.injEq]
    rw [Nat.xor_comm]
    rfl
  · intro j hj
    rw [getElem?_writeAt _ _ _ (by omega), hx]
    rcases hj with hj | hj
    · rw [if_pos hj]
    · rw [if_neg (by omega), if_neg (by omega)]

set_option maxRecDepth 100000 in
/-- C2, at a concrete input: the unauthenticated cipher initialized with the sample key
encrypts 130 bytes, one block and two bytes, at offset 1 of an output of 132 bytes. Byte 0
of the key stream is `0x97` and the first output byte is `0x03 xor 0x97`; byte 128 of the
input meets byte 0 of the block of the next counter value, `0x9A`. -/
theorem Process_sequential_bytes_witness :
    SamplePlainEncryptor.State.Initialized = true ∧
    ∃ c1 out, Process SamplePrimitives SamplePlainEncryptor
        ((List.range 130).map (fun i => (7 * i + 3) % 256)) 0 (List.replicate 132 9) 1 130
        = some (c1, out) ∧
      out.length = (List.replicate 132 9).length ∧
      (∀ i, i < 130 → out[1 + i]?
        = some (((List.range 130).map (fun i => (7 * i + 3) % 256)).getD (0 + i) 0 ^^^
          (BlockBytes (SamplePrimitives.Permute SamplePlainEncryptor.State.Key
            (CounterOfValue (CounterValue SamplePlainEncryptor.State.Nonce + i / 128))
            SamplePlainEncryptor.State.Tweak)).getD (i % 128) 0)) ∧
      (∀ j, j < 1 ∨ 1 + 130 ≤ j → out[j]? = (List.replicate 132 9)[j]?) ∧
      out[1]? = some (0x03 ^^^ 0x97) ∧ out[129]? = some (0x83 ^^^ 0x9A) ∧
      out[0]? = some 9 ∧ out[131]? = some 9 := by
  obtain ⟨c1, out, h1, h2, h3, h4⟩ := Process_sequential_bytes SamplePrimitives
    SamplePlainEncryptor ((List.range 130).map (fun i => (7 * i + 3) % 256)) 0
    (List.replicate 132 9) 1 130 (Or.inl (by decide)) (by decide) (by decide) (by decide)
  refine ⟨by decide, c1, out, h1, h2, h3, h4, ?_, ?_, ?_, ?_⟩
  · rw [h3 0 (by decide)]
    decide
  · rw [h3 128 (by decide)]
    decide
  · rw [h4 0 (Or.inl (by decide))]
    decide
  · rw [h4 131 (Or.inr (by decide))]
    decide

theorem LoadTweak_short (Info : List Nat) (h0 : Info.length ≠ 0) (h1 : Info.length < 16) :
    LoadTweak Info = none := by
  unfold LoadTweak
  rw [if_pos h0]
  have : LeBytesTo64 Info 8 = none := by
    unfold LeBytesTo64
    rw [if_neg (by omega)]
  rw [this]
  cases LeBytesTo64 Info 0 <;> rfl

theorem Initialize_short_info (P : Primitives) (c : TSX1024) (Encryption : Bool)
    (Parameters : SymmetricKey) (hk : Parameters.Key.length = 128)
    (hn : Parameters.Nonce.length = 16) (h0 : Parameters.Info.length ≠ 0)
    (h1 : Parameters.Info.length < 16) (hp : ProfileOk c.Profile) :
    Initialize P c Encryption Parameters = .undefined := by
  rw [Initialize_checks P c Encryption Parameters hk hn (by omega) hp,
    LoadTweak_short Parameters.Info h0 h1]
  cases LeBytesTo64 Parameters.Nonce 0 <;> cases LeBytesTo64 Parameters.Nonce 8 <;> rfl

theorem Initialize_ok_inv (P : Primitives) (c : TSX1024) (Encryption : Bool)
    (Parameters : SymmetricKey) (c1 : TSX1024)
    (h : Initialize P c Encryption Parameters = .ok c1) :
    Parameters.Key.length = 128 ∧ Parameters.Nonce.length = 16 ∧
      (Parameters.Info.length = 0 ∨ Parameters.Info.length = 16) ∧ ProfileOk c.Profile := by
  have hk : Parameters.Key.length = 128 := by
    by_contra hc
    unfold Initialize at h
    rw [if_pos (by unfold KEY_SIZE; exact hc)] at h
    cases h
  have hn : Parameters.Nonce.length = 16 := by
    by_contra hc
    unfold Initialize at h
    rw [if_neg (by unfold KEY_SIZE; omega), if_pos (by unfold NONCE_SIZE; omega)] at h
    cases h
  have hi : Parameters.Info.length ≤ 16 := by
    by_contra hc
    unfold Initialize at h
    rw [if_neg (by unfold KEY_SIZE; omega), if_neg (by unfold NONCE_SIZE; omega),
      if_pos (by unfold INFO_SIZE; omega)] at h
    cases h
  have hp : ProfileOk c.Profile := by
    intro hpar
    unfold Initialize at h
    rw [if_neg (by unfold KEY_SIZE; omega), if_neg (by unfold NONCE_SIZE; omega),
      if_neg (by unfold INFO_SIZE; omega)] at h
    by_cases c4 : c.Profile.IsParallel = true ∧
        (c.Profile.ParallelBlockSize < c.Profile.ParallelMinimumSize ∨
          c.Profile.ParallelBlockSize > c.Profile.ParallelMaximumSize)
    · rw [if_pos c4] at h
      cases h
    · rw [if_neg c4] at h
      by_cases c5 : c.Profile.IsParallel = true ∧ c.Profile.ParallelMinimumSize = 0
      · rw [if_pos c5] at h
        cases h
      · rw [if_neg c5] at h
        by_cases c6 : c.Profile.IsParallel = true ∧
            c.Profile.ParallelBlockSize % c.Profile.ParallelMinimumSize ≠ 0
        · rw [if_pos c6] at h
          cases h
        · have a4 : ¬ (c.Profile.ParallelBlockSize < c.Profile.ParallelMinimumSize ∨
              c.Profile.ParallelBlockSize > c.Profile.ParallelMaximumSize) :=
            fun x => c4 ⟨hpar, x⟩
          have a5 : c.Profile.ParallelMinimumSize ≠ 0 := fun x => c5 ⟨hpar, x⟩
          have a6 : c.Profile.ParallelBlockSize % c.Profile.ParallelMinimumSize = 0 := by
            by_contra x
            exact c6 ⟨hpar, x⟩
          exact ⟨by omega, by omega, a5, a6⟩
  refine ⟨hk, hn, ?_, hp⟩
  by_contra hc
  rw [Initialize_short_info P c Encryption Parameters hk hn (by omega) (by omega) hp] at h
  cases h

/-- C9: `Initialize` raises `InvalidKey` when the key is not 128 bytes long, otherwise
`InvalidNonce` when the nonce is not 16 bytes long, otherwise `InvalidInfo` when the info is
longer than 16 bytes; whenever `Initialize` raises an exception the cipher object is the
one it was called on. -/
theorem Initialize_rejects (P : Primitives) (c : TSX1024) (Encryption : Bool)
    (Parameters : SymmetricKey) :
    (Parameters.Key.length ≠ 128 →
      Initialize P c Encryption Parameters = .throw .InvalidKey c) ∧
    (Parameters.Key.length = 128 → Parameters.Nonce.length ≠ 16 →
      Initialize P c Encryption Parameters = .throw .InvalidNonce c) ∧
    (Parameters.Key.length = 128 → Parameters.Nonce.length = 16 → 16 < Parameters.Info.length →
      Initialize P c Encryption Parameters = .throw .InvalidInfo c) ∧
    (∀ e c1, Initialize P c Encryption Parameters = .throw e c1 → c1 = c) := by
  refine ⟨?_, ?_, ?_, ?_⟩
  · intro h
    unfold Initialize
    rw [if_pos (by unfold KEY_SIZE; exact h)]
  · intro hk h
    unfold Initialize
    rw [if_neg (by unfold KEY_SIZE; omega), if_pos (by unfold NONCE_SIZE; omega)]
  · intro hk hn h
    unfold Initialize
    rw [if_neg (by unfold KEY_SIZE; omega), if_neg (by unfold NONCE_SIZE; omega),
      if_pos (by unfold INFO_SIZE; omega)]
  · intro e c1 h
    by_cases hk : Parameters.Key.length = 128
    · by_cases hn : Parameters.Nonce.length = 16
      · by_cases hi : Parameters.Info.length ≤ 16
        · by_cases c4 : c.Profile.IsParallel = true ∧
              (c.Profile.ParallelBlockSize < c.Profile.ParallelMinimumSize ∨
                c.Profile.ParallelBlockSize > c.Profile.ParallelMaximumSize)
          · unfold Initialize at h
            rw [if_neg (by unfold KEY_SIZE; omega), if_neg (by unfold NONCE_SIZE; omega),
              if_neg (by unfold INFO_SIZE; omega), if_pos c4] at h
            cases h
            rfl
          · by_cases c5 : c.Profile.IsParallel = true ∧ c.Profile.ParallelMinimumSize = 0
            · unfold Initialize at h
              rw [if_neg (by unfold KEY_SIZE; omega), if_neg (by unfold NONCE_SIZE; omega),
                if_neg (by unfold INFO_SIZE; omega), if_neg c4, if_pos c5] at h
              cases h
            · by_cases c6 : c.Profile.IsParallel = true ∧
                  c.Profile.ParallelBlockSize % c.Profile.ParallelMinimumSize ≠ 0
              · unfold Initialize at h
                rw [if_neg (by unfold KEY_SIZE; omega), if_neg (by unfold NONCE_SIZE; omega),
                  if_neg (by unfold INFO_SIZE; omega), if_neg c4, if_neg c5, if_pos c6] at h
                cases h
                rfl
              · have hp : ProfileOk c.Profile := by
                  intro hpar
                  have a4 : ¬ (c.Profile.ParallelBlockSize < c.Profile.ParallelMinimumSize ∨
                      c.Profile.ParallelBlockSize > c.Profile.ParallelMaximumSize) :=
                    fun x => c4 ⟨hpar, x⟩
                  have a5 : c.Profile.ParallelMinimumSize ≠ 0 := fun x => c5 ⟨hpar, x⟩
                  have a6 : c.Profile.ParallelBlockSize % c.Profile.ParallelMinimumSize = 0 := by
                    by_contra x
                    exact c6 ⟨hpar, x⟩
                  exact ⟨by omega, by omega, a5, a6⟩
                rw [Initialize_checks P c Encryption Parameters hk hn hi hp] at h
                split at h
                · split at h
                  · cases h
                  · split at h
                    · cases h
                    · cases h
                · cases h
        · unfold Initialize at h
          rw [if_neg (by unfold KEY_SIZE; omega), if_neg (by unfold NONCE_SIZE; omega),
            if_pos (by unfold INFO_SIZE; omega)] at h
          cases h
          rfl
      · unfold Initialize at h
        rw [if_neg (by unfold KEY_SIZE; omega), if_pos (by unfold NONCE_SIZE; omega)] at h
        cases h
        rfl
    · unfold Initialize at h
      rw [if_pos (by unfold KEY_SIZE; exact hk)] at h
      cases h
      rfl

set_option maxRecDepth 100000 in
/-- C10, at the failing input: with an info field of 8 bytes `Initialize` takes the branch
that loads the tweak from the info field and reads `Info[8 .. 16)`, outside the field, so
the call is undefined and the default tweak is not loaded; the default tweak, the two
little-endian words of "Threefish1024120", is loaded only for an empty info field. -/
theorem Initialize_info_of_8_bytes :
    Initialize SamplePrimitives (TSX1024.new false SequentialProfile) true
        { SampleKey with Info := [1, 2, 3, 4, 5, 6, 7, 8] } = .undefined ∧
      LoadTweak [1, 2, 3, 4, 5, 6, 7, 8] = none ∧
      LoadTweak [] = some (0x7369666565726854, 0x3032313432303168) := by
  decide

/-- C8: an authenticated `Initialize` returns when the key is 128 bytes, the nonce 16
bytes, the info empty or 16 bytes and the parallel profile valid; whenever it returns, the
MAC counter is 1, the customization buffer is the little-endian encoding of 1 followed by
the cipher name, the key words are loaded from the first 128 bytes of the cSHAKE stream
keyed with the caller's key and that customization, the stored MAC key is the next
`MacKeySize` bytes of the same stream, and the MAC generator is keyed with the stored
MAC key. -/
theorem Initialize_authenticated (P : Primitives) (c : TSX1024) (Encryption : Bool)
    (Parameters : SymmetricKey) (ha : c.Mac.isSome = true) :
    (Parameters.Key.length = 128 → Parameters.Nonce.length = 16 →
      (Parameters.Info.length = 0 ∨ Parameters.Info.length = 16) → ProfileOk c.Profile →
      ∃ c1, Initialize P c Encryption Parameters = .ok c1) ∧
    ∀ c1, Initialize P c Encryption Parameters = .ok c1 →
      c1.State.Counter = 1 ∧
      c1.State.Custom = [1, 0, 0, 0, 0, 0, 0, 0] ++ Name P c1 ∧
      Name P c1 = CLASS_NAME ++ [0x2D] ++ P.MacName ∧
      LoadKey (ShakeGenerate P Parameters.Key c1.State.Custom 0 128) = some c1.State.Key ∧
      c1.State.MacKey = ShakeGenerate P Parameters.Key c1.State.Custom 128 P.MacKeySize ∧
      c1.Mac = some (IMac.Initialize c1.State.MacKey) := by
  constructor
  · intro hk hn hi hp
    obtain ⟨key, n0, n1, tweak, -, -, -, -, h⟩ :=
      Initialize_auth_eq P c Encryption Parameters ha hk hn hi hp
    exact ⟨_, h⟩
  · intro c1 h
    obtain ⟨hk, hn, hi, hp⟩ := Initialize_ok_inv P c Encryption Parameters c1 h
    obtain ⟨key, n0, n1, tweak, -, -, -, hkey, h1⟩ :=
      Initialize_auth_eq P c Encryption Parameters ha hk hn hi hp
    rw [h1] at h
    injection h with h
    subst h
    have e0 : Le64Bytes 1 = [1, 0, 0, 0, 0, 0, 0, 0] := by decide
    refine ⟨rfl, ?_, ?_, hkey, rfl, rfl⟩
    · simp only [Name, IsAuthenticator, Option.isSome_some, if_true, ha, e0]
    · simp only [Name, IsAuthenticator, Option.isSome_some, if_true]

set_option maxRecDepth 100000 in
/-- C8, at a concrete input: the sample key on a fresh authenticated cipher. -/
theorem Initialize_authenticated_witness :
    ∃ c1, Initialize SamplePrimitives (TSX1024.new true SequentialProfile) true SampleKey
        = .ok c1 ∧
      c1.State.Counter = 1 ∧
      c1.State.Custom = [1, 0, 0, 0, 0, 0, 0, 0, 0x54, 0x53, 0x58, 0x31, 0x30, 0x32, 0x34,
        0x2D, 0x4B] ∧
      c1.Mac = some (IMac.Initialize c1.State.MacKey) :=
  have h := Initialize_authenticated SamplePrimitives (TSX1024.new true SequentialProfile) true
    SampleKey rfl
  have ⟨c1, h1⟩ := h.1 (by decide) (by decide) (Or.inl (by decide)) (by unfold ProfileOk; decide)
  have h2 := h.2 c1 h1
  ⟨c1, h1, h2.1, by rw [h2.2.1, h2.2.2.1]; rfl, h2.2.2.2.2.2⟩

/-- C3: in authenticated decryption, when the tag bytes after the ciphertext differ from
the MAC code over what the generator has absorbed before the call, the entry nonce and
`Input[InOffset .. InOffset + L)`, `Transform` raises `AuthenticationFailure` and `Output`
is unchanged; when they are equal, `Transform` returns and `Output` is what `Process`
(the decryption) writes from the entry state. -/
theorem Transform_verify_gate (P : Primitives) (c : TSX1024) (m : MacState)
    (Input : List Nat) (InOffset : Nat) (Output : List Nat) (OutOffset L : Nat)
    (hr : AuthReady P c m) (he : c.State.Encryption = false)
    (hin : InOffset + L + P.TagSize ≤ Input.length) :
    (slice Input (InOffset + L) P.TagSize
        ≠ IMac.Code P { m with Absorbed := m.Absorbed ++ (Le64Bytes c.State.Nonce.1
            ++ Le64Bytes c.State.Nonce.2 ++ slice Input InOffset L) } →
      ∃ c1, Transform P c Input InOffset Output OutOffset L
        = .throw .AuthenticationFailure (c1, Output)) ∧
    (slice Input (InOffset + L) P.TagSize
        = IMac.Code P { m with Absorbed := m.Absorbed ++ (Le64Bytes c.State.Nonce.1
            ++ Le64Bytes c.State.Nonce.2 ++ slice Input InOffset L) } →
      ∀ c1 out1, Process P c Input InOffset Output OutOffset L = some (c1, out1) →
        ∃ c2, Transform P c Input InOffset Output OutOffset L = .ok (c2, out1)) := by
  have h := Transform_decrypt_auth P c m Input InOffset Output OutOffset L hr he hin
  constructor
  · intro hne
    rw [if_neg hne] at h
    exact ⟨_, h⟩
  · intro heq c1 out1 hproc
    rw [if_pos heq] at h
    unfold ProcessStep at h
    simp only at h
    rw [Process_congr P c (Rekeyed P c m (Le64Bytes c.State.Nonce.1 ++ Le64Bytes c.State.Nonce.2
      ++ slice Input InOffset L) L) rfl rfl rfl rfl, hproc] at h
    exact ⟨_, h⟩

set_option maxRecDepth 100000 in
/-- C3, at a concrete input: two ciphertext bytes followed by four tag bytes. -/
theorem Transform_verify_gate_witness :
    (slice [5, 6, 0, 0, 0, 0] (0 + 2) SamplePrimitives.TagSize
        ≠ IMac.Code SamplePrimitives
            { IMac.Initialize SampleDecryptor.State.MacKey with
              Absorbed := (IMac.Initialize SampleDecryptor.State.MacKey).Absorbed
                ++ (Le64Bytes SampleDecryptor.State.Nonce.1
                ++ Le64Bytes SampleDecryptor.State.Nonce.2 ++ slice [5, 6, 0, 0, 0, 0] 0 2) } →
      ∃ c1, Transform SamplePrimitives SampleDecryptor [5, 6, 0, 0, 0, 0] 0 [9, 9] 0 2
        = .throw .AuthenticationFailure (c1, [9, 9])) ∧
    (slice [5, 6, 0, 0, 0, 0] (0 + 2) SamplePrimitives.TagSize
        = IMac.Code SamplePrimitives
            { IMac.Initialize SampleDecryptor.State.MacKey with
              Absorbed := (IMac.Initialize SampleDecryptor.State.MacKey).Absorbed
                ++ (Le64Bytes SampleDecryptor.State.Nonce.1
                ++ Le64Bytes SampleDecryptor.State.Nonce.2 ++ slice [5, 6, 0, 0, 0, 0] 0 2) } →
      ∀ c1 out1, Process SamplePrimitives SampleDecryptor [5, 6, 0, 0, 0, 0] 0 [9, 9] 0 2
          = some (c1, out1) →
        ∃ c2, Transform SamplePrimitives SampleDecryptor [5, 6, 0, 0, 0, 0] 0 [9, 9] 0 2
          = .ok (c2, out1)) :=
  Transform_verify_gate SamplePrimitives SampleDecryptor
    (IMac.Initialize SampleDecryptor.State.MacKey) [5, 6, 0, 0, 0, 0] 0 [9, 9] 0 2
    (by unfold AuthReady; decide) (by decide) (by decide)

theorem Transform_encrypt_short (P : Primitives) (c : TSX1024) (Input : List Nat)
    (InOffset : Nat) (Output : List Nat) (OutOffset L : Nat)
    (ha : c.Mac.isSome = true) (he : c.State.Encryption = true)
    (hsz : OutOffset + L + P.TagSize < 2 ^ 64)
    (hlt : Output.length < OutOffset + L + P.TagSize) :
    Transform P c Input InOffset Output OutOffset L = .throw .InvalidSize (c, Output) := by
  have e : (L + OutOffset + P.TagSize) % 2 ^ 64 = OutOffset + L + P.TagSize := by
    rw [Nat.mod_eq_of_lt (by omega)]
    omega
  unfold Transform
  simp only [IsEncryption, IsAuthenticator, he, ha, if_true, e, if_pos hlt]

/-- Authenticated encryption with `OutOffset + L + TagSize` within the range of `size_t`:
`Transform` raises `InvalidSize`, with `Output` unchanged, when `Output.size() < OutOffset
+ L + TagSize`; otherwise it returns, the range `[OutOffset, OutOffset + L)` of the output holds
the ciphertext written by `Process`, and the `TagSize` bytes that follow hold the MAC code
over what the generator absorbed before the call, the entry nonce and that ciphertext,
which is also the stored tag. -/
theorem Transform_encrypt_layout (P : Primitives) (c : TSX1024) (m : MacState)
    (Input : List Nat) (InOffset : Nat) (Output : List Nat) (OutOffset L : Nat)
    (hr : AuthReady P c m) (he : c.State.Encryption = true)
    (hsz : OutOffset + L + P.TagSize < 2 ^ 64) :
    (Output.length < OutOffset + L + P.TagSize →
      Transform P c Input InOffset Output OutOffset L = .throw .InvalidSize (c, Output)) ∧
    (OutOffset + L + P.TagSize ≤ Output.length →
      ∀ c1 out1, Process P c Input InOffset Output OutOffset L = some (c1, out1) →
        ∃ c2 out, Transform P c Input InOffset Output OutOffset L = .ok (c2, out) ∧
          out.length = Output.length ∧
          slice out OutOffset L = slice out1 OutOffset L ∧
          slice out (OutOffset + L) P.TagSize
            = IMac.Code P { m with Absorbed := m.Absorbed ++ (Le64Bytes c.State.Nonce.1
                ++ Le64Bytes c.State.Nonce.2 ++ slice out1 OutOffset L) } ∧
          c2.State.MacTag = slice out (OutOffset + L) P.TagSize ∧
          (∀ j, j < OutOffset + L ∨ OutOffset + L + P.TagSize ≤ j → out[j]? = out1[j]?)) := by
  constructor
  · intro hlt
    exact Transform_encrypt_short P c Input InOffset Output OutOffset L
      (by rw [hr.1]; rfl) he hsz hlt
  · intro hge c1 out1 hproc
    have h := Transform_encrypt_auth P c m Input InOffset Output OutOffset L c1 out1 hr he hge
      hproc
    have hfr := (Process_frame P c Input InOffset Output OutOffset L (c1, out1) hproc).2
    simp only at hfr
    have hcl := Code_length P { m with Absorbed := m.Absorbed ++ (Le64Bytes c.State.Nonce.1
      ++ Le64Bytes c.State.Nonce.2 ++ slice out1 OutOffset L) }
    have hs2 : slice (writeAt out1 (OutOffset + L) (IMac.Code P { m with Absorbed := m.Absorbed
        ++ (Le64Bytes c.State.Nonce.1 ++ Le64Bytes c.State.Nonce.2 ++ slice out1 OutOffset L) }))
        (OutOffset + L) P.TagSize = IMac.Code P { m with Absorbed := m.Absorbed
        ++ (Le64Bytes c.State.Nonce.1 ++ Le64Bytes c.State.Nonce.2 ++ slice out1 OutOffset L) } := by
      have := slice_writeAt out1 (OutOffset + L) (IMac.Code P { m with Absorbed := m.Absorbed
        ++ (Le64Bytes c.State.Nonce.1 ++ Le64Bytes c.State.Nonce.2 ++ slice out1 OutOffset L) })
        (by omega)
      rw [hcl] at this
      exact this
    refine ⟨_, _, h, ?_, ?_, hs2, ?_, ?_⟩
    · rw [writeAt_length _ _ _ (by rw [hcl]; omega), hfr]
    · apply List.ext_getElem?
      intro t
      rw [getElem?_slice, getElem?_slice, getElem?_writeAt _ _ _ (by omega)]
      by_cases ht : t < L
      · rw [if_pos ht, if_pos ht, if_pos (by omega)]
      · rw [if_neg ht, if_neg ht]
    · rw [hs2]
      simp only [Rekeyed]
      rw [writeAt_full _ _ (by rw [hr.2.2.1, Code_length])]
    · intro j hj
      rw [getElem?_writeAt _ _ _ (by omega), hcl]
      rcases hj with hj | hj
      · rw [if_pos hj]
      · rw [if_neg (by omega), if_neg (by omega)]

set_option maxRecDepth 100000 in
/-- The layout at a concrete input: two bytes encrypted into an output of six bytes. -/
theorem Transform_encrypt_layout_witness :
    ∃ c2 out, Transform SamplePrimitives SampleEncryptor [5, 6] 0 [9, 9, 9, 9, 9, 9] 0 2
        = .ok (c2, out) ∧ out.length = 6 ∧ c2.State.MacTag = slice out 2 4 :=
  have h := Transform_encrypt_layout SamplePrimitives SampleEncryptor
    (IMac.Initialize SampleEncryptor.State.MacKey) [5, 6] 0 [9, 9, 9, 9, 9, 9] 0 2
    (by unfold AuthReady; decide) (by decide) (by decide)
  have ⟨c2, out, h1, h2, _, _, h5, _⟩ := h.2 (by decide) _ _ rfl
  ⟨c2, out, h1, h2, h5⟩

set_option maxRecDepth 100000 in
/-- C5, at the failing input: the sample encryptor (tags of 4 bytes) is called with an
output of 6 bytes, `OutOffset = 2 ^ 64 - 4` and `Length = 2`. `Output.size()` is below
`OutOffset + Length + TagSize`, but the sum computed in `size_t` is 2, the size test
passes, `InvalidSize` is not raised and `Process` writes at `Output[2 ^ 64 - 4]`, outside
the vector: the call is undefined. With `OutOffset = 1` the same call raises `InvalidSize`
and leaves `Output` as it was, and with `OutOffset = 0` it returns. -/
theorem Transform_encrypt_size_wraps :
    [9, 9, 9, 9, 9, 9].length < (2 ^ 64 - 4) + 2 + SamplePrimitives.TagSize ∧
      (2 + (2 ^ 64 - 4) + SamplePrimitives.TagSize) % 2 ^ 64 = 2 ∧
      Transform SamplePrimitives SampleEncryptor [5, 6] 0 [9, 9, 9, 9, 9, 9] (2 ^ 64 - 4) 2
        = .undefined ∧
      Transform SamplePrimitives SampleEncryptor [5, 6] 0 [9, 9, 9, 9, 9, 9] (2 ^ 64 - 4) 2
        ≠ .throw .InvalidSize (SampleEncryptor, [9, 9, 9, 9, 9, 9]) ∧
      Transform SamplePrimitives SampleEncryptor [5, 6] 0 [9, 9, 9, 9, 9, 9] 1 2
        = .throw .InvalidSize (SampleEncryptor, [9, 9, 9, 9, 9, 9]) ∧
      (∃ c2 out, Transform SamplePrimitives SampleEncryptor [5, 6] 0 [9, 9, 9, 9, 9, 9] 0 2
        = .ok (c2, out)) := by
  have h : Transform SamplePrimitives SampleEncryptor [5, 6] 0 [9, 9, 9, 9, 9, 9] (2 ^ 64 - 4) 2
      = .undefined := by rfl
  refine ⟨by decide, by decide, h, ?_, by rfl, _, _, rfl⟩
  rw [h]
  intro e
  cases e

theorem Rekeyed_fields (P : Primitives) (c : TSX1024) (m : MacState) (msg : List Nat) (L : Nat)
    (hk : c.State.MacKey.length = P.MacKeySize) :
    (Rekeyed P c m msg L).State.Counter = (c.State.Counter + L) % 2 ^ 64 ∧
    (Rekeyed P c m msg L).State.Custom
      = Le64Bytes ((c.State.Counter + L) % 2 ^ 64) ++ c.State.Custom.drop 8 ∧
    (Rekeyed P c m msg L).State.MacKey
      = ShakeGenerate P c.State.MacKey (Rekeyed P c m msg L).State.Custom 0 P.MacKeySize ∧
    (Rekeyed P c m msg L).Mac = some (IMac.Initialize (Rekeyed P c m msg L).State.MacKey) := by
  have e : ∀ k, writeAt c.State.MacKey 0 (ShakeGenerate P c.State.MacKey k 0 P.MacKeySize)
      = ShakeGenerate P c.State.MacKey k 0 P.MacKeySize := fun k =>
    writeAt_full _ _ (by rw [hk, ShakeGenerate_length])
  refine ⟨rfl, ?_, ?_, ?_⟩
  · simp only [Rekeyed, writeAt, List.take_zero, List.nil_append, Nat.zero_add, Le64Bytes_length]
  · simp only [Rekeyed, e]
  · simp only [Rekeyed, e]

set_option maxRecDepth 100000 in
/-- C7, counterexample: an authenticated encryption call of length 2 whose output has no
room for the tag is rejected with `InvalidSize`, and the MAC counter is still 1 after the
call, not 1 + 2. -/
theorem Transform_rejected_keeps_counter :
    SampleEncryptor.State.Counter = 1 ∧
    ∃ c1 out, Transform SamplePrimitives SampleEncryptor [5, 6] 0 [9, 9] 0 2
        = .throw .InvalidSize (c1, out) ∧
      c1.State.Counter ≠ (SampleEncryptor.State.Counter + 2) % 2 ^ 64 := by
  refine ⟨by decide, SampleEncryptor, [9, 9], by decide, by decide⟩

/-- C7, amended: an authenticated `Transform` call of length `L` that is not rejected for
the size of `Output`, and whose key stream generation returns, ends normally or with
`AuthenticationFailure`, and in both cases the MAC counter has grown by `L` modulo `2 ^ 64`,
the first 8 bytes of the customization buffer are the little-endian encoding of the new
counter and the bytes after them are unchanged, the stored MAC key is the cSHAKE output
keyed with the previous MAC key and the new customization, and the MAC generator is keyed
with the new stored key. -/
theorem Transform_rekeys (P : Primitives) (c : TSX1024) (m : MacState)
    (Input : List Nat) (InOffset : Nat) (Output : List Nat) (OutOffset L : Nat)
    (c1 : TSX1024) (out1 : List Nat)
    (hr : AuthReady P c m)
    (henc : c.State.Encryption = true → OutOffset + L + P.TagSize ≤ Output.length)
    (hdec : c.State.Encryption = false → InOffset + L + P.TagSize ≤ Input.length)
    (hproc : Process P c Input InOffset Output OutOffset L = some (c1, out1)) :
    ∃ c2 out,
      (Transform P c Input InOffset Output OutOffset L = .ok (c2, out) ∨
        Transform P c Input InOffset Output OutOffset L
          = .throw .AuthenticationFailure (c2, out)) ∧
      c2.State.Counter = (c.State.Counter + L) % 2 ^ 64 ∧
      c2.State.Custom = Le64Bytes ((c.State.Counter + L) % 2 ^ 64) ++ c.State.Custom.drop 8 ∧
      c2.State.MacKey = ShakeGenerate P c.State.MacKey c2.State.Custom 0 P.MacKeySize ∧
      c2.Mac = some (IMac.Initialize c2.State.MacKey) := by
  obtain ⟨hm, hi, ht, hc, hk⟩ := hr
  by_cases he : c.State.Encryption = true
  · have h := Transform_encrypt_auth P c m Input InOffset Output OutOffset L c1 out1
      ⟨hm, hi, ht, hc, hk⟩ he (henc he) hproc
    obtain ⟨f1, f2, f3, f4⟩ := Rekeyed_fields P c m (Le64Bytes c.State.Nonce.1
      ++ Le64Bytes c.State.Nonce.2 ++ slice out1 OutOffset L) L hk
    exact ⟨_, _, Or.inl h, f1, f2, f3, f4⟩
  · have he1 : c.State.Encryption = false := by simpa using he
    have h := Transform_decrypt_auth P c m Input InOffset Output OutOffset L
      ⟨hm, hi, ht, hc, hk⟩ he1 (hdec he1)
    obtain ⟨f1, f2, f3, f4⟩ := Rekeyed_fields P c m (Le64Bytes c.State.Nonce.1
      ++ Le64Bytes c.State.Nonce.2 ++ slice Input InOffset L) L hk
    by_cases hq : slice Input (InOffset + L) P.TagSize
        = IMac.Code P { m with Absorbed := m.Absorbed ++ (Le64Bytes c.State.Nonce.1
            ++ Le64Bytes c.State.Nonce.2 ++ slice Input InOffset L) }
    · rw [if_pos hq] at h
      unfold ProcessStep at h
      simp only at h
      rw [Process_congr P c (Rekeyed P c m (Le64Bytes c.State.Nonce.1
        ++ Le64Bytes c.State.Nonce.2 ++ slice Input InOffset L) L) rfl rfl rfl rfl, hproc] at h
      exact ⟨_, _, Or.inl h, f1, f2, f3, f4⟩
    · rw [if_neg hq] at h
      exact ⟨_, _, Or.inr h, f1, f2, f3, f4⟩

set_option maxRecDepth 100000 in
/-- C7, amended, at a concrete input: two bytes encrypted into an output of six bytes; the
MAC counter goes from 1 to 3. -/
theorem Transform_rekeys_witness :
    ∃ c2 out,
      (Transform SamplePrimitives SampleEncryptor [5, 6] 0 [9, 9, 9, 9, 9, 9] 0 2 = .ok (c2, out) ∨
        Transform SamplePrimitives SampleEncryptor [5, 6] 0 [9, 9, 9, 9, 9, 9] 0 2
          = .throw .AuthenticationFailure (c2, out)) ∧
      c2.State.Counter = 3 ∧
      c2.Mac = some (IMac.Initialize c2.State.MacKey) :=
  have ⟨c2, out, h1, h2, _, _, h5⟩ := Transform_rekeys SamplePrimitives SampleEncryptor
    (IMac.Initialize SampleEncryptor.State.MacKey) [5, 6] 0 [9, 9, 9, 9, 9, 9] 0 2 _ _
    (by unfold AuthReady; decide) (by decide) (by decide) rfl
  ⟨c2, out, h1, by rw [h2]; decide, h5⟩

set_option maxRecDepth 100000 in
/-- C6, counterexample: with a MAC code that echoes its message, after associated data
7 7 7 and an encryption of two bytes the tag is the associated data, then the 16 nonce
bytes, then the ciphertext; it is not the nonce followed by the associated data. -/
theorem Mac_absorbs_associated_data_first :
    ∃ c0 ca c2 out,
      Initialize EchoPrimitives (TSX1024.new true SequentialProfile) true SampleKey = .ok c0 ∧
      SetAssociatedData c0 [7, 7, 7] 0 3 = .ok ca ∧
      Transform EchoPrimitives ca [5, 6] 0 (List.replicate 23 0) 0 2 = .ok (c2, out) ∧
      c2.State.MacTag = [7, 7, 7] ++ Le64Bytes c0.State.Nonce.1 ++ Le64Bytes c0.State.Nonce.2
        ++ slice out 0 2 ∧
      c2.State.MacTag ≠ Le64Bytes c0.State.Nonce.1 ++ Le64Bytes c0.State.Nonce.2 ++ [7, 7, 7]
        ++ slice out 0 2 := by
  refine ⟨_, _, _, _, rfl, rfl, rfl, ?_, ?_⟩
  · decide
  · decide

theorem SetAssociatedData_eq (c : TSX1024) (m : MacState) (aad : List Nat) (Offset Length : Nat)
    (hm : c.Mac = some m) (hi : m.Initialized = true) (hinit : c.State.Initialized = true)
    (haad : Offset + Length ≤ aad.length) :
    SetAssociatedData c aad Offset Length
      = .ok { c with Mac := some { m with Absorbed := m.Absorbed ++ slice aad Offset Length } } := by
  unfold SetAssociatedData IMac.Update
  simp only [IsInitialized, hinit, hm, hi, Bool.true_eq_false, if_false,
    if_neg (Nat.not_lt.mpr haad)]

/-- C6, amended: on an authenticated cipher whose MAC generator has absorbed nothing yet,
after `SetAssociatedData` a `Transform` call ends normally or with `AuthenticationFailure`,
and the stored tag is the MAC code over, in this order, the associated data, the 16 bytes
of the entry nonce (two words, each little-endian) and the ciphertext (the bytes `Process`
writes when encrypting, the input bytes when decrypting), and nothing else. -/
theorem Mac_input_order (P : Primitives) (c : TSX1024) (m : MacState)
    (aad : List Nat) (Offset Length : Nat)
    (Input : List Nat) (InOffset : Nat) (Output : List Nat) (OutOffset L : Nat)
    (c1 : TSX1024) (out1 : List Nat)
    (hr : AuthReady P c m) (hinit : c.State.Initialized = true) (hfresh : m.Absorbed = [])
    (haad : Offset + Length ≤ aad.length)
    (henc : c.State.Encryption = true → OutOffset + L + P.TagSize ≤ Output.length)
    (hdec : c.State.Encryption = false → InOffset + L + P.TagSize ≤ Input.length)
    (hproc : Process P c Input InOffset Output OutOffset L = some (c1, out1)) :
    ∃ ca c2 out,
      SetAssociatedData c aad Offset Length = .ok ca ∧
      (Transform P ca Input InOffset Output OutOffset L = .ok (c2, out) ∨
        Transform P ca Input InOffset Output OutOffset L
          = .throw .AuthenticationFailure (c2, out)) ∧
      c2.State.MacTag = IMac.Code P
        { Initialized := true, Key := m.Key,
          Absorbed := (slice aad Offset Length ++ Le64Bytes c.State.Nonce.1
            ++ Le64Bytes c.State.Nonce.2
            ++ (if c.State.Encryption then slice out1 OutOffset L
                else slice Input InOffset L)) } := by
  obtain ⟨hm, hi, ht, hc, hk⟩ := hr
  have hsa := SetAssociatedData_eq c m aad Offset Length hm hi hinit haad
  have hr1 : AuthReady P { c with Mac := some { m with Absorbed := (m.Absorbed
      ++ slice aad Offset Length) } } { m with Absorbed := m.Absorbed ++ slice aad Offset Length } :=
    ⟨rfl, hi, ht, hc, hk⟩
  have hproc1 := Process_congr P c { c with Mac := some { m with Absorbed := (m.Absorbed
      ++ slice aad Offset Length) } } rfl rfl rfl rfl Input InOffset Output OutOffset L
  rw [hproc] at hproc1
  simp only [Option.map_some'] at hproc1
  have htag : ∀ msg, writeAt c.State.MacTag 0 (IMac.Code P
      (⟨m.Initialized, m.Key, m.Absorbed ++ slice aad Offset Length ++ msg⟩ : MacState))
      = IMac.Code P (⟨true, m.Key, slice aad Offset Length ++ msg⟩ : MacState) := by
    intro msg
    rw [writeAt_full _ _ (by rw [ht, Code_length]), hi, hfresh, List.nil_append]
  by_cases he : c.State.Encryption = true
  · have h := Transform_encrypt_auth P _ _ Input InOffset Output OutOffset L _ out1 hr1 he
      (henc he) hproc1
    refine ⟨_, _, _, hsa, Or.inl h, ?_⟩
    simp only [Rekeyed, he, if_true, List.append_assoc]
    have := htag (Le64Bytes c.State.Nonce.1 ++ Le64Bytes c.State.Nonce.2
      ++ slice out1 OutOffset L)
    simp only [List.append_assoc] at this
    exact this
  · have he1 : c.State.Encryption = false := by simpa using he
    have h := Transform_decrypt_auth P _ _ Input InOffset Output OutOffset L hr1 he1 (hdec he1)
    have hmt : (Rekeyed P { c with Mac := some { m with Absorbed := (m.Absorbed
        ++ slice aad Offset Length) } } { m with Absorbed := m.Absorbed ++ slice aad Offset Length }
        (Le64Bytes c.State.Nonce.1 ++ Le64Bytes c.State.Nonce.2 ++ slice Input InOffset L)
        L).State.MacTag
        = IMac.Code P (⟨true, m.Key, slice aad Offset Length ++ Le64Bytes c.State.Nonce.1
              ++ Le64Bytes c.State.Nonce.2
              ++ (if c.State.Encryption then slice out1 OutOffset L
                  else slice Input InOffset L)⟩ : MacState) := by
      simp only [Rekeyed, he1, Bool.false_eq_true, if_false, List.append_assoc]
      have := htag (Le64Bytes c.State.Nonce.1 ++ Le64Bytes c.State.Nonce.2
        ++ slice Input InOffset L)
      simp only [List.append_assoc] at this
      exact this
    by_cases hq : slice Input (InOffset + L) P.TagSize
        = IMac.Code P (⟨m.Initialized, m.Key,
            (m.Absorbed ++ slice aad Offset Length) ++ (Le64Bytes c.State.Nonce.1
              ++ Le64Bytes c.State.Nonce.2 ++ slice Input InOffset L)⟩ : MacState)
    · rw [if_pos hq] at h
      unfold ProcessStep at h
      simp only at h
      have hpR : ∀ cR : TSX1024, cR.State.Key = c.State.Key → cR.State.Tweak = c.State.Tweak →
          cR.State.Nonce = c.State.Nonce → cR.Profile = c.Profile →
          Process P cR Input InOffset Output OutOffset L
            = some ({ cR with State := { cR.State with Nonce := c1.State.Nonce } }, out1) := by
        intro cR h1 h2 h3 h4
        rw [Process_congr P c cR h1 h2 h3 h4, hproc]
        rfl
      rw [hpR (Rekeyed P ⟨c.State, some ⟨m.Initialized, m.Key, m.Absorbed
        ++ slice aad Offset Length⟩, c.Profile⟩ ⟨m.Initialized, m.Key, m.Absorbed
        ++ slice aad Offset Length⟩ (Le64Bytes c.State.Nonce.1 ++ Le64Bytes c.State.Nonce.2
        ++ slice Input InOffset L) L) rfl rfl rfl rfl] at h
      exact ⟨_, _, _, hsa, Or.inl h, hmt⟩
    · rw [if_neg hq] at h
      exact ⟨_, _, _, hsa, Or.inr h, hmt⟩

set_option maxRecDepth 100000 in
/-- C6, amended, at a concrete input: associated data 7 7 7, then two bytes encrypted. -/
theorem Mac_input_order_witness :
    ∃ ca c2 out,
      SetAssociatedData SampleEncryptor [7, 7, 7] 0 3 = .ok ca ∧
      (Transform SamplePrimitives ca [5, 6] 0 [9, 9, 9, 9, 9, 9] 0 2 = .ok (c2, out) ∨
        Transform SamplePrimitives ca [5, 6] 0 [9, 9, 9, 9, 9, 9] 0 2
          = .throw .AuthenticationFailure (c2, out)) ∧
      c2.State.MacTag.length = 4 :=
  have ⟨ca, c2, out, h1, h2, h3⟩ := Mac_input_order SamplePrimitives SampleEncryptor
    (IMac.Initialize SampleEncryptor.State.MacKey) [7, 7, 7] 0 3 [5, 6] 0 [9, 9, 9, 9, 9, 9] 0 2
    _ _ (by unfold AuthReady; decide) (by decide) rfl (by decide) (by decide) (by decide) rfl
  ⟨ca, c2, out, h1, h2, by rw [h3]; exact Code_length _ _⟩

/-! ### Round trip -/

theorem xorBytes_cancel (K M : List Nat) (h : K.length = M.length) :
    xorBytes K (xorBytes K M) = M := by
  apply List.ext_getElem?
  intro t
  rw [getElem?_xorBytes, getElem?_xorBytes]
  by_cases ht : t < K.length
  · rw [List.getElem?_eq_getElem ht, List.getElem?_eq_getElem (by omega : t < M.length)]
    simp only [Option.some.injEq]
    rw [← Nat.xor_assoc, Nat.xor_self, Nat.zero_xor]
  · rw [List.getElem?_eq_none (by omega : K.length ≤ t),
      List.getElem?_eq_none (by omega : M.length ≤ t)]

theorem slice_writeAt_before (v : List Nat) (o n : Nat) (blk : List Nat) (a : Nat)
    (ho : o ≤ v.length) (ha : a + n ≤ o) :
    slice (writeAt v o blk) a n = slice v a n := by
  apply List.ext_getElem?
  intro t
  rw [getElem?_slice, getElem?_slice, getElem?_writeAt _ _ _ (by omega)]
  by_cases ht : t < n
  · rw [if_pos ht, if_pos ht, if_pos (by omega)]
  · rw [if_neg ht, if_neg ht]

theorem Process_sequential_eq (P : Primitives) (c : TSX1024) (Input : List Nat) (InOffset : Nat)
    (Output : List Nat) (OutOffset L : Nat)
    (hseq : c.Profile.IsParallel = false ∨ L < c.Profile.ParallelMinimumSize)
    (hw : WordsOk c.State.Nonce)
    (hin : InOffset + L ≤ Input.length) (hout : OutOffset + L ≤ Output.length) :
    Process P c Input InOffset Output OutOffset L
      = some ({ c with State := { c.State with
                  Nonce := CounterOfValue (CounterValue c.State.Nonce
                    + (L + (BLOCK_SIZE - 1)) / BLOCK_SIZE) } },
          writeAt Output OutOffset
            (xorBytes (KeyStream P c.State.Key c.State.Tweak c.State.Nonce L)
              (slice Input InOffset L))) := by
  unfold Process
  rw [if_pos hseq]
  exact ProcessSequential_eq P c Input InOffset Output OutOffset L hw hin hout

theorem round_trip_bytes (P : Primitives) (Key : List Nat) (Tweak Nonce : Nat × Nat)
    (Input : List Nat) (InOffset : Nat) (Output : List Nat) (OutOffset L : Nat)
    (Output2 : List Nat) (OutOffset2 : Nat) (tail : List Nat)
    (hin : InOffset + L ≤ Input.length) (hout : OutOffset + L ≤ Output.length)
    (hout2 : OutOffset2 + L ≤ Output2.length) :
    slice (writeAt Output2 OutOffset2
        (xorBytes (KeyStream P Key Tweak Nonce L)
          (slice (writeAt (writeAt Output OutOffset
            (xorBytes (KeyStream P Key Tweak Nonce L) (slice Input InOffset L)))
              (OutOffset + L) tail) OutOffset L))) OutOffset2 L
      = slice Input InOffset L := by
  have hK := KeyStream_length P Key Tweak Nonce L
  have hI := slice_length Input InOffset L hin
  have hx : (xorBytes (KeyStream P Key Tweak Nonce L) (slice Input InOffset L)).length = L := by
    rw [xorBytes_length, hK, hI, Nat.min_self]
  have hw1 : (writeAt Output OutOffset
      (xorBytes (KeyStream P Key Tweak Nonce L) (slice Input InOffset L))).length
      = Output.length := writeAt_length _ _ _ (by omega)
  have e1 : slice (writeAt (writeAt Output OutOffset
      (xorBytes (KeyStream P Key Tweak Nonce L) (slice Input InOffset L)))
        (OutOffset + L) tail) OutOffset L
      = xorBytes (KeyStream P Key Tweak Nonce L) (slice Input InOffset L) := by
    rw [slice_writeAt_before _ _ _ _ _ (by omega) (by omega)]
    have := slice_writeAt Output OutOffset
      (xorBytes (KeyStream P Key Tweak Nonce L) (slice Input InOffset L)) (by omega)
    rw [hx] at this
    exact this
  rw [e1, xorBytes_cancel _ _ (by rw [hK, hI])]
  have := slice_writeAt Output2 OutOffset2 (slice Input InOffset L) (by omega)
  rw [hI] at this
  exact this

theorem Transform_plain (P : Primitives) (c : TSX1024) (Input : List Nat) (InOffset : Nat)
    (Output : List Nat) (OutOffset L : Nat) (hm : c.Mac = none) :
    Transform P c Input InOffset Output OutOffset L
      = ProcessStep P Input InOffset OutOffset L (c, Output) := by
  unfold Transform
  simp only [IsAuthenticator, hm, Option.isSome_none, Bool.false_eq_true, if_false, ite_self]

theorem round_trip_plain (P : Primitives) (cE cD : TSX1024)
    (Input : List Nat) (InOffset : Nat) (Output : List Nat) (OutOffset L : Nat)
    (Output2 : List Nat) (OutOffset2 : Nat)
    (hmE : cE.Mac = none) (hmD : cD.Mac = none)
    (hK : cD.State.Key = cE.State.Key) (hT : cD.State.Tweak = cE.State.Tweak)
    (hN : cD.State.Nonce = cE.State.Nonce) (hP : cD.Profile = cE.Profile)
    (hseq : cE.Profile.IsParallel = false ∨ L < cE.Profile.ParallelMinimumSize)
    (hw : WordsOk cE.State.Nonce)
    (hin : InOffset + L ≤ Input.length) (hout : OutOffset + L ≤ Output.length)
    (hout2 : OutOffset2 + L ≤ Output2.length) :
    ∃ e1 ct d1 pt,
      Transform P cE Input InOffset Output OutOffset L = .ok (e1, ct) ∧
      Transform P cD ct OutOffset Output2 OutOffset2 L = .ok (d1, pt) ∧
      slice pt OutOffset2 L = slice Input InOffset L := by
  have hE := Process_sequential_eq P cE Input InOffset Output OutOffset L hseq hw hin hout
  have hx : (xorBytes (KeyStream P cE.State.Key cE.State.Tweak cE.State.Nonce L)
      (slice Input InOffset L)).length = L := by
    rw [xorBytes_length, KeyStream_length, slice_length _ _ _ hin, Nat.min_self]
  have hD := Process_sequential_eq P cD
    (writeAt Output OutOffset (xorBytes (KeyStream P cE.State.Key cE.State.Tweak cE.State.Nonce L)
      (slice Input InOffset L))) OutOffset Output2 OutOffset2 L (by rw [hP]; exact hseq)
    (by rw [hN]; exact hw) (by rw [writeAt_length _ _ _ (by omega)]; exact hout) hout2
  rw [hK, hT, hN] at hD
  have hTE := Transform_plain P cE Input InOffset Output OutOffset L hmE
  unfold ProcessStep at hTE
  simp only [hE] at hTE
  have hTD := Transform_plain P cD (writeAt Output OutOffset (xorBytes (KeyStream P cE.State.Key
    cE.State.Tweak cE.State.Nonce L) (slice Input InOffset L))) OutOffset Output2 OutOffset2 L hmD
  unfold ProcessStep at hTD
  simp only [hD] at hTD
  refine ⟨_, _, _, _, hTE, hTD, ?_⟩
  · have := round_trip_bytes P cE.State.Key cE.State.Tweak cE.State.Nonce Input InOffset Output
      OutOffset L Output2 OutOffset2 [] hin hout hout2
    rw [writeAt_nil] at this
    exact this

theorem round_trip_auth (P : Primitives) (cE cD : TSX1024) (m : MacState)
    (Input : List Nat) (InOffset : Nat) (Output : List Nat) (OutOffset L : Nat)
    (Output2 : List Nat) (OutOffset2 : Nat)
    (hrE : AuthReady P cE m) (hrD : AuthReady P cD m)
    (heE : cE.State.Encryption = true) (heD : cD.State.Encryption = false)
    (hK : cD.State.Key = cE.State.Key) (hT : cD.State.Tweak = cE.State.Tweak)
    (hN : cD.State.Nonce = cE.State.Nonce) (hP : cD.Profile = cE.Profile)
    (hseq : cE.Profile.IsParallel = false ∨ L < cE.Profile.ParallelMinimumSize)
    (hw : WordsOk cE.State.Nonce)
    (hin : InOffset + L ≤ Input.length) (hout : OutOffset + L + P.TagSize ≤ Output.length)
    (hout2 : OutOffset2 + L ≤ Output2.length) :
    ∃ e1 ct d1 pt,
      Transform P cE Input InOffset Output OutOffset L = .ok (e1, ct) ∧
      Transform P cD ct OutOffset Output2 OutOffset2 L = .ok (d1, pt) ∧
      slice pt OutOffset2 L = slice Input InOffset L := by
  have hE := Process_sequential_eq P cE Input InOffset Output OutOffset L hseq hw hin (by omega)
  have hx : (xorBytes (KeyStream P cE.State.Key cE.State.Tweak cE.State.Nonce L)
      (slice Input InOffset L)).length = L := by
    rw [xorBytes_length, KeyStream_length, slice_length _ _ _ hin, Nat.min_self]
  have hl1 : (writeAt Output OutOffset (xorBytes (KeyStream P cE.State.Key cE.State.Tweak
      cE.State.Nonce L) (slice Input InOffset L))).length = Output.length :=
    writeAt_length _ _ _ (by omega)
  have hct : slice (writeAt Output OutOffset (xorBytes (KeyStream P cE.State.Key cE.State.Tweak
      cE.State.Nonce L) (slice Input InOffset L))) OutOffset L
      = xorBytes (KeyStream P cE.State.Key cE.State.Tweak cE.State.Nonce L)
          (slice Input InOffset L) := by
    have := slice_writeAt Output OutOffset (xorBytes (KeyStream P cE.State.Key cE.State.Tweak
      cE.State.Nonce L) (slice Input InOffset L)) (by omega)
    rw [hx] at this
    exact this
  have hTE := Transform_encrypt_auth P cE m Input InOffset Output OutOffset L _ _ hrE heE hout hE
  rw [hct] at hTE
  -- the tag and the output of the encryption
  have hcl := Code_length P (⟨m.Initialized, m.Key, m.Absorbed ++ (Le64Bytes cE.State.Nonce.1
    ++ Le64Bytes cE.State.Nonce.2 ++ xorBytes (KeyStream P cE.State.Key cE.State.Tweak
      cE.State.Nonce L) (slice Input InOffset L))⟩ : MacState)
  have hl2 : (writeAt (writeAt Output OutOffset (xorBytes (KeyStream P cE.State.Key
      cE.State.Tweak cE.State.Nonce L) (slice Input InOffset L))) (OutOffset + L)
      (IMac.Code P (⟨m.Initialized, m.Key, m.Absorbed ++ (Le64Bytes cE.State.Nonce.1
        ++ Le64Bytes cE.State.Nonce.2 ++ xorBytes (KeyStream P cE.State.Key cE.State.Tweak
          cE.State.Nonce L) (slice Input InOffset L))⟩ : MacState))).length = Output.length := by
    rw [writeAt_length _ _ _ (by rw [hcl, hl1]; omega), hl1]
  have hs1 : slice (writeAt (writeAt Output OutOffset (xorBytes (KeyStream P cE.State.Key
      cE.State.Tweak cE.State.Nonce L) (slice Input InOffset L))) (OutOffset + L)
      (IMac.Code P (⟨m.Initialized, m.Key, m.Absorbed ++ (Le64Bytes cE.State.Nonce.1
        ++ Le64Bytes cE.State.Nonce.2 ++ xorBytes (KeyStream P cE.State.Key cE.State.Tweak
          cE.State.Nonce L) (slice Input InOffset L))⟩ : MacState))) OutOffset L
      = xorBytes (KeyStream P cE.State.Key cE.State.Tweak cE.State.Nonce L)
          (slice Input InOffset L) := by
    rw [slice_writeAt_before _ _ _ _ _ (by rw [hl1]; omega) (by omega), hct]
  have hs2 : slice (writeAt (writeAt Output OutOffset (xorBytes (KeyStream P cE.State.Key
      cE.State.Tweak cE.State.Nonce L) (slice Input InOffset L))) (OutOffset + L)
      (IMac.Code P (⟨m.Initialized, m.Key, m.Absorbed ++ (Le64Bytes cE.State.Nonce.1
        ++ Le64Bytes cE.State.Nonce.2 ++ xorBytes (KeyStream P cE.State.Key cE.State.Tweak
          cE.State.Nonce L) (slice Input InOffset L))⟩ : MacState))) (OutOffset + L) P.TagSize
      = IMac.Code P (⟨m.Initialized, m.Key, m.Absorbed ++ (Le64Bytes cE.State.Nonce.1
        ++ Le64Bytes cE.State.Nonce.2 ++ xorBytes (KeyStream P cE.State.Key cE.State.Tweak
          cE.State.Nonce L) (slice Input InOffset L))⟩ : MacState) := by
    have := slice_writeAt (writeAt Output OutOffset (xorBytes (KeyStream P cE.State.Key
      cE.State.Tweak cE.State.Nonce L) (slice Input InOffset L))) (OutOffset + L)
      (IMac.Code P (⟨m.Initialized, m.Key, m.Absorbed ++ (Le64Bytes cE.State.Nonce.1
        ++ Le64Bytes cE.State.Nonce.2 ++ xorBytes (KeyStream P cE.State.Key cE.State.Tweak
          cE.State.Nonce L) (slice Input InOffset L))⟩ : MacState)) (by rw [hl1]; omega)
    rw [hcl] at this
    exact this
  have hTD := Transform_decrypt_auth P cD m _ OutOffset Output2 OutOffset2 L hrD heD
    (by rw [hl2]; exact hout)
  rw [hN, hs1, hs2, if_pos rfl] at hTD
  have hD := Process_sequential_eq P
    (Rekeyed P cD m (Le64Bytes cE.State.Nonce.1 ++ Le64Bytes cE.State.Nonce.2
      ++ xorBytes (KeyStream P cE.State.Key cE.State.Tweak cE.State.Nonce L)
        (slice Input InOffset L)) L)
    (writeAt (writeAt Output OutOffset (xorBytes (KeyStream P cE.State.Key
      cE.State.Tweak cE.State.Nonce L) (slice Input InOffset L))) (OutOffset + L)
      (IMac.Code P (⟨m.Initialized, m.Key, m.Absorbed ++ (Le64Bytes cE.State.Nonce.1
        ++ Le64Bytes cE.State.Nonce.2 ++ xorBytes (KeyStream P cE.State.Key cE.State.Tweak
          cE.State.Nonce L) (slice Input InOffset L))⟩ : MacState)))
    OutOffset Output2 OutOffset2 L
    (by show cD.Profile.IsParallel = false ∨ L < cD.Profile.ParallelMinimumSize
        rw [hP]; exact hseq)
    (by show WordsOk cD.State.Nonce
        rw [hN]; exact hw)
    (by rw [hl2]; omega) hout2
  unfold ProcessStep at hTD
  simp only [hD] at hTD
  refine ⟨_, _, _, _, hTE, hTD, ?_⟩
  show slice (writeAt Output2 OutOffset2 (xorBytes (KeyStream P cD.State.Key cD.State.Tweak
    cD.State.Nonce L) _)) OutOffset2 L = _
  rw [hK, hT, hN]
  exact round_trip_bytes P cE.State.Key cE.State.Tweak cE.State.Nonce Input InOffset Output
    OutOffset L Output2 OutOffset2 _ hin (by omega) hout2

theorem Keyed_plain (P : Primitives) (Profile : ParallelOptions) (Parameters : SymmetricKey)
    (aad : List Nat)
    (hk : Parameters.Key.length = 128) (hn : Parameters.Nonce.length = 16)
    (hi : Parameters.Info.length = 0 ∨ Parameters.Info.length = 16)
    (hb : ∀ b ∈ Parameters.Nonce, b < 256) (hp : ProfileOk Profile) :
    ∃ S : TSX1024State, WordsOk S.Nonce ∧
      ∀ enc, Keyed P (TSX1024.new false Profile) enc Parameters aad
        = .ok ⟨{ S with Encryption := enc }, none, Profile⟩ := by
  obtain ⟨key, n0, n1, tweak, h0, h1, ht, hkey, -⟩ :=
    Initialize_plain_eq P (TSX1024.new false Profile) true Parameters rfl hk hn hi hp
  refine ⟨{ (Restarted (TSX1024.new false Profile)).State with
            Key := key, Nonce := (n0, n1), Tweak := tweak, Initialized := true },
    ⟨LeBytesTo64_lt _ hb 0 n0 h0, LeBytesTo64_lt _ hb 8 n1 h1⟩, ?_⟩
  intro enc
  obtain ⟨key2, m0, m1, tweak2, g0, g1, gt, gkey, hE⟩ :=
    Initialize_plain_eq P (TSX1024.new false Profile) enc Parameters rfl hk hn hi hp
  rw [h0] at g0; rw [h1] at g1; rw [ht] at gt; rw [hkey] at gkey
  cases g0; cases g1; cases gt; cases gkey
  unfold Keyed
  rw [hE]
  rfl

theorem Keyed_auth (P : Primitives) (Profile : ParallelOptions) (Parameters : SymmetricKey)
    (aad : List Nat)
    (hk : Parameters.Key.length = 128) (hn : Parameters.Nonce.length = 16)
    (hi : Parameters.Info.length = 0 ∨ Parameters.Info.length = 16)
    (hb : ∀ b ∈ Parameters.Nonce, b < 256) (hp : ProfileOk Profile) :
    ∃ (S : TSX1024State) (m : MacState), WordsOk S.Nonce ∧
      (∀ enc, AuthReady P ⟨{ S with Encryption := enc }, some m, Profile⟩ m) ∧
      ∀ enc, Keyed P (TSX1024.new true Profile) enc Parameters aad
        = .ok ⟨{ S with Encryption := enc }, some m, Profile⟩ := by
  obtain ⟨key, n0, n1, tweak, h0, h1, ht, hkey, -⟩ :=
    Initialize_auth_eq P (TSX1024.new true Profile) true Parameters rfl hk hn hi hp
  refine ⟨{ Key := key, Nonce := (n0, n1), Tweak := tweak,
            Custom := Le64Bytes 1 ++ Name P (TSX1024.new true Profile),
            MacKey := ShakeGenerate P Parameters.Key
              (Le64Bytes 1 ++ Name P (TSX1024.new true Profile)) KEY_SIZE P.MacKeySize,
            MacTag := resize (Restarted (TSX1024.new true Profile)).State.MacTag P.TagSize,
            Counter := 1, Encryption := true, Initialized := true },
    { Initialized := true,
      Key := ShakeGenerate P Parameters.Key
        (Le64Bytes 1 ++ Name P (TSX1024.new true Profile)) KEY_SIZE P.MacKeySize,
      Absorbed := [] ++ slice aad 0 aad.length },
    ⟨LeBytesTo64_lt _ hb 0 n0 h0, LeBytesTo64_lt _ hb 8 n1 h1⟩, ?_, ?_⟩
  · intro enc
    refine ⟨rfl, rfl, resize_length _ _, ?_, ShakeGenerate_length _ _ _ _ _⟩
    show 8 ≤ (Le64Bytes 1 ++ Name P (TSX1024.new true Profile)).length
    rw [List.length_append, Le64Bytes_length]
    omega
  · intro enc
    obtain ⟨key2, m0, m1, tweak2, g0, g1, gt, gkey, hE⟩ :=
      Initialize_auth_eq P (TSX1024.new true Profile) enc Parameters rfl hk hn hi hp
    rw [h0] at g0; rw [h1] at g1; rw [ht] at gt; rw [hkey] at gkey
    cases g0; cases g1; cases gt; cases gkey
    unfold Keyed
    rw [hE]
    simp only [Outcome.andThen, IsAuthenticator, Option.isSome_some, if_true]
    rw [SetAssociatedData_eq _ (IMac.Initialize (ShakeGenerate P Parameters.Key
      (Le64Bytes 1 ++ Name P (TSX1024.new true Profile)) KEY_SIZE P.MacKeySize)) aad 0 aad.length
      rfl rfl rfl (by omega)]
    rfl

/-- C1: round trip on the sequential path, without and with an authenticator. For a
128-byte key, a 16-byte nonce, an info field that is absent or 16 bytes long, associated
data `aad` and the message `Input[InOffset .. InOffset + L)`: a cipher initialized for
encryption (and given `aad` when authenticated) transforms the message without error; a
second cipher initialized for decryption with the same key container (and `aad`)
transforms the produced ciphertext, followed by the tag in authenticated mode, without
error, and its output range holds exactly the message. -/
theorem Transform_round_trip (P : Primitives) (auth : Bool) (Profile : ParallelOptions)
    (Parameters : SymmetricKey) (aad Input : List Nat) (InOffset : Nat) (Output : List Nat)
    (OutOffset L : Nat) (Output2 : List Nat) (OutOffset2 : Nat)
    (hk : Parameters.Key.length = 128) (hn : Parameters.Nonce.length = 16)
    (hi : Parameters.Info.length = 0 ∨ Parameters.Info.length = 16)
    (hb : ∀ b ∈ Parameters.Nonce, b < 256)
    (hp : ProfileOk Profile)
    (hseq : Profile.IsParallel = false ∨ L < Profile.ParallelMinimumSize)
    (hin : InOffset + L ≤ Input.length)
    (hout : OutOffset + L + (if auth then P.TagSize else 0) ≤ Output.length)
    (hout2 : OutOffset2 + L ≤ Output2.length) :
    ∃ enc e1 ct dec d1 pt,
      Keyed P (TSX1024.new auth Profile) true Parameters aad = .ok enc ∧
      Transform P enc Input InOffset Output OutOffset L = .ok (e1, ct) ∧
      Keyed P (TSX1024.new auth Profile) false Parameters aad = .ok dec ∧
      Transform P dec ct OutOffset Output2 OutOffset2 L = .ok (d1, pt) ∧
      slice pt OutOffset2 L = slice Input InOffset L := by
  cases auth with
  | false =>
    obtain ⟨S, hw, hK⟩ := Keyed_plain P Profile Parameters aad hk hn hi hb hp
    obtain ⟨e1, ct, d1, pt, t1, t2, t3⟩ := round_trip_plain P
      ⟨{ S with Encryption := true }, none, Profile⟩ ⟨{ S with Encryption := false }, none, Profile⟩
      Input InOffset Output OutOffset L Output2 OutOffset2 rfl rfl rfl rfl rfl rfl hseq hw hin
      (by simpa using hout) hout2
    exact ⟨_, e1, ct, _, d1, pt, hK true, t1, hK false, t2, t3⟩
  | true =>
    obtain ⟨S, m, hw, hr, hK⟩ := Keyed_auth P Profile Parameters aad hk hn hi hb hp
    obtain ⟨e1, ct, d1, pt, t1, t2, t3⟩ := round_trip_auth P
      ⟨{ S with Encryption := true }, some m, Profile⟩
      ⟨{ S with Encryption := false }, some m, Profile⟩ m
      Input InOffset Output OutOffset L Output2 OutOffset2 (hr true) (hr false) rfl rfl rfl rfl
      rfl rfl hseq hw hin (by simpa using hout) hout2
    exact ⟨_, e1, ct, _, d1, pt, hK true, t1, hK false, t2, t3⟩

set_option maxRecDepth 100000 in
/-- C1, at a concrete input: the sample key, associated data 7 7 7 and the message 5 6 on
an authenticated cipher. -/
theorem Transform_round_trip_witness :
    ∃ enc e1 ct dec d1 pt,
      Keyed SamplePrimitives (TSX1024.new true SequentialProfile) true SampleKey [7, 7, 7]
        = .ok enc ∧
      Transform SamplePrimitives enc [5, 6] 0 [9, 9, 9, 9, 9, 9] 0 2 = .ok (e1, ct) ∧
      Keyed SamplePrimitives (TSX1024.new true SequentialProfile) false SampleKey [7, 7, 7]
        = .ok dec ∧
      Transform SamplePrimitives dec ct 0 [0, 0] 0 2 = .ok (d1, pt) ∧
      slice pt 0 2 = slice [5, 6] 0 2 :=
  Transform_round_trip SamplePrimitives true SequentialProfile SampleKey [7, 7, 7] [5, 6] 0
    [9, 9, 9, 9, 9, 9] 0 2 [0, 0] 0 (by decide) (by decide) (Or.inl (by decide)) (by decide)
    (by unfold ProfileOk; decide) (Or.inl rfl) (by decide) (by decide) (by decide)

set_option maxRecDepth 1000000 in
set_option maxHeartbeats 4000000 in
/-- C4, at the failing input: two threads, a minimum parallel size of 256 bytes, a message
of 257 bytes and `OutOffset = 1`. Both branches of `Process` return and leave the same
counter, but the outputs differ at indices 256 and 257: the parallel branch generates the
residual key stream at `Output[RNDLEN]` instead of `Output[OutOffset + RNDLEN]`, so it
overwrites the last ciphertext byte of the chunks with key stream, and the residual byte
is the old content of `Output` xored with the input. With `OutOffset = 0` the two
branches write the same bytes. -/
theorem Process_parallel_residual_offset :
    ∃ s p rs rp,
      Initialize SamplePrimitives (TSX1024.new false SequentialProfile) true SampleKey = .ok s ∧
      Initialize SamplePrimitives (TSX1024.new false ParallelProfile) true SampleKey = .ok p ∧
      Process SamplePrimitives s SampleMessage 0 (List.replicate 258 0) 1 257 = some rs ∧
      Process SamplePrimitives p SampleMessage 0 (List.replicate 258 0) 1 257 = some rp ∧
      rs.1.State.Nonce = rp.1.State.Nonce ∧
      (slice rs.2 1 255 == slice rp.2 1 255) = true ∧
      rs.2.getD 256 0 ≠ rp.2.getD 256 0 ∧
      rs.2.getD 257 0 ≠ rp.2.getD 257 0 ∧
      rp.2.getD 257 0 = 0 ^^^ SampleMessage.getD 256 0 ∧
      ((Process SamplePrimitives s SampleMessage 0 (List.replicate 258 0) 0 257).map Prod.snd
        == (Process SamplePrimitives p SampleMessage 0 (List.replicate 258 0) 0 257).map Prod.snd)
        = true := by
  refine ⟨_, _, _, _, rfl, rfl, rfl, rfl, ?_, ?_, ?_, ?_, ?_, ?_⟩ <;> decide

/-! ## The counter of `Generate` -/

theorem LeIncrementW_iterate (c : Nat × Nat) (h : WordsOk c) (n : Nat) :
    Nat.iterate LeIncrementW n c = CounterOfValue (CounterValue c + n) := by
  induction n with
  | zero => rw [Function.iterate_zero, id, Nat.add_zero, CounterOfValue_value c h]
  | succ n ih =>
    rw [Function.iterate_succ_apply', ih, LeIncrementW_eq _ (CounterOfValue_wordsOk _),
      CounterOfValue_add, Nat.add_assoc]

theorem CounterValue_ofValue (v : Nat) : CounterValue (CounterOfValue v) = v % 2 ^ 128 := by
  unfold CounterValue CounterOfValue
  simp only
  omega

theorem getD_writeAt (v : List Nat) (o : Nat) (X : List Nat) (h : o ≤ v.length) (j : Nat) :
    (writeAt v o X).getD j 0
      = if j < o then v.getD j 0 else if j < o + X.length then X.getD (j - o) 0
        else v.getD j 0 := by
  rw [List.getD_eq_getElem?_getD, getElem?_writeAt v o X h j]
  split_ifs <;> rw [List.getD_eq_getElem?_getD]

theorem KeyStream_getD (P : Primitives) (Key : List Nat) (Tweak c : Nat × Nat) (L i : Nat)
    (h : i < L) : (KeyStream P Key Tweak c L).getD i 0 = KeyStreamByte P Key Tweak c i := by
  unfold KeyStream
  rw [List.getD_eq_getElem?_getD, List.getElem?_map, List.getElem?_range h]
  rfl

/-- C11: the scalar `Generate` called for `L` bytes returns, with the counter advanced by
`ceil(L / 128)` modulo `2 ^ 128` (one `LeIncrementW` per full block and one more for a
final partial block); byte `i < L` of the range written is byte `i mod 128` of the block
of counter value `c + i / 128`, so only the first `L mod 128` bytes of a partial block are
emitted and every byte outside `[OutOffset, OutOffset + L)` is left; for `L = 0` the
counter and the output are unchanged. -/
theorem Generate_counter_advance (P : Primitives) (State : TSX1024State) (Counter : Nat × Nat)
    (Output : List Nat) (OutOffset L : Nat) (hw : WordsOk Counter)
    (hlen : OutOffset + L ≤ Output.length) :
    ∃ ctr out, Generate P State Counter Output OutOffset L = some (ctr, out) ∧
      ctr = Nat.iterate LeIncrementW (L / BLOCK_SIZE + (if L % BLOCK_SIZE = 0 then 0 else 1))
        Counter ∧
      WordsOk ctr ∧
      CounterValue ctr
        = (CounterValue Counter + (L + (BLOCK_SIZE - 1)) / BLOCK_SIZE) % 2 ^ 128 ∧
      out.length = Output.length ∧
      (∀ i, i < L →
        out.getD (OutOffset + i) 0
          = (BlockBytes (P.Permute State.Key
              (CounterOfValue (CounterValue Counter + i / BLOCK_SIZE)) State.Tweak)).getD
              (i % BLOCK_SIZE) 0) ∧
      (∀ j, j < OutOffset ∨ OutOffset + L ≤ j → out.getD j 0 = Output.getD j 0) ∧
      (L = 0 → ctr = Counter ∧ out = Output) := by
  have hceil : L / BLOCK_SIZE + (if L % BLOCK_SIZE = 0 then 0 else 1)
      = (L + (BLOCK_SIZE - 1)) / BLOCK_SIZE := by
    unfold BLOCK_SIZE
    split_ifs <;> omega
  refine ⟨_, _, Generate_eq P State Counter Output OutOffset L hw hlen, ?_,
    CounterOfValue_wordsOk _, CounterValue_ofValue _, ?_, ?_, ?_, ?_⟩
  · rw [hceil, LeIncrementW_iterate Counter hw]
  · rw [writeAt_length _ _ _ (by rw [KeyStream_length]; omega)]
  · intro i hi
    rw [getD_writeAt _ _ _ (by omega), if_neg (by omega),
      if_pos (by rw [KeyStream_length]; omega), Nat.add_sub_cancel_left,
      KeyStream_getD _ _ _ _ _ _ hi]
    rfl
  · intro j hj
    rw [getD_writeAt _ _ _ (by omega), KeyStream_length]
    split_ifs
    · rfl
    · exfalso; omega
    · rfl
  · intro h0
    subst h0
    constructor
    · have : (0 + (BLOCK_SIZE - 1)) / BLOCK_SIZE = 0 := by unfold BLOCK_SIZE; rfl
      rw [this, Nat.add_zero, CounterOfValue_value Counter hw]
    · rw [KeyStream_zero, writeAt_nil]

/-- The scalar `Generate` at a request of 129 bytes from the counter `(2 ^ 64 - 1, 0)`: the
low word wraps and the counter advances by two. -/
theorem Generate_counter_advance_witness :
    ∃ ctr out, Generate SamplePrimitives SampleEncryptor.State (2 ^ 64 - 1, 0)
        (List.replicate 130 0) 1 129 = some (ctr, out) ∧ ctr = (1, 1) ∧ out.getD 0 0 = 0 := by
  obtain ⟨ctr, out, h, hc, _, _, _, _, hf, _⟩ :=
    Generate_counter_advance SamplePrimitives SampleEncryptor.State (2 ^ 64 - 1, 0)
      (List.replicate 130 0) 1 129 (by decide) (by simp)
  refine ⟨ctr, out, h, ?_, ?_⟩
  · rw [hc]
    decide
  · rw [hf 0 (Or.inl (by decide))]
    rfl

/-! ### `Compare`, `Reset` and `ParallelMaxDegree` -/

theorem CompareDelta_foldl (A : List Nat) (AOffset : Nat) (B : List Nat) (BOffset : Nat) :
    ∀ n, CompareDelta A AOffset B BOffset n
      = (List.range n).foldl
          (fun delta i => delta ||| (A.getD (AOffset + i) 0 ^^^ B.getD (BOffset + i) 0)) 0 := by
  intro n
  induction n with
  | zero => rfl
  | succ n ih => rw [CompareDelta, ih, List.range_succ, List.foldl_append, List.foldl_cons,
      List.foldl_nil]

/-- C18: `Compare` over `n` positions inside both arrays returns; the result is
`accum == 0`, `accum` being the OR over all `n` positions of the element-wise XOR, and it
is true exactly when `A[AOffset + i] = B[BOffset + i]` for every `i < n`, so it is true
for `n = 0`. -/
theorem Compare_all_positions (A : List Nat) (AOffset : Nat) (B : List Nat)
    (BOffset n : Nat) (hA : AOffset + n ≤ A.length) (hB : BOffset + n ≤ B.length) :
    ∃ r, Compare A AOffset B BOffset n = some r ∧
      r = ((List.range n).foldl
          (fun delta i => delta ||| (A.getD (AOffset + i) 0 ^^^ B.getD (BOffset + i) 0)) 0
            == 0) ∧
      (r = true ↔ ∀ i, i < n → A.getD (AOffset + i) 0 = B.getD (BOffset + i) 0) ∧
      (n = 0 → r = true) := by
  have hc : Compare A AOffset B BOffset n = some (CompareDelta A AOffset B BOffset n == 0) := by
    unfold Compare
    rw [if_pos ⟨hA, hB⟩]
  have hiff : (CompareDelta A AOffset B BOffset n == 0) = true ↔
      ∀ i, i < n → A.getD (AOffset + i) 0 = B.getD (BOffset + i) 0 := by
    rw [beq_iff_eq, CompareDelta_eq_zero]
  refine ⟨_, hc, ?_, hiff, ?_⟩
  · rw [CompareDelta_foldl]
  · intro h0
    subst h0
    rfl

/-- Arrays that differ at the first of three positions compared and agree at the other
two: `Compare` returns false; the positions 1 and 2 of the second array hold `2, 3`. -/
theorem Compare_all_positions_witness :
    ∃ r, Compare [7, 1, 2, 3] 1 [9, 2, 3] 0 3 = some r ∧ r = false := by
  obtain ⟨r, h, hr, _, _⟩ := Compare_all_positions [7, 1, 2, 3] 1 [9, 2, 3] 0 3
    (by decide) (by decide)
  refine ⟨r, h, ?_⟩
  rw [hr]
  decide

/-- C16: after `TSX1024::Reset`, from any state, the key words, the customization, the MAC
key and the tag buffer hold only zeros (each buffer keeps its size, so all 16 key words are
zero), both nonce words and both tweak words are zero, the MAC counter is zero and the
flags `Encryption` and `Initialized` are false. -/
theorem Reset_zeroizes_state (c : TSX1024) :
    (Reset c).State.Key = List.replicate c.State.Key.length 0 ∧
    (Reset c).State.Nonce = (0, 0) ∧
    (Reset c).State.Tweak = (0, 0) ∧
    (Reset c).State.Custom = List.replicate c.State.Custom.length 0 ∧
    (Reset c).State.MacKey = List.replicate c.State.MacKey.length 0 ∧
    (Reset c).State.MacTag = List.replicate c.State.MacTag.length 0 ∧
    (Reset c).State.Counter = 0 ∧
    (Reset c).State.Encryption = false ∧
    (Reset c).State.Initialized = false ∧
    (∀ w ∈ (Reset c).State.Key ++ (Reset c).State.Custom ++ (Reset c).State.MacKey
        ++ (Reset c).State.MacTag, w = 0) := by
  refine ⟨rfl, rfl, rfl, rfl, rfl, rfl, rfl, rfl, rfl, ?_⟩
  intro w hw
  simp only [Reset, TSX1024State.Reset, MemoryTools.Clear, List.mem_append,
    List.mem_replicate] at hw
  rcases hw with ((h | h) | h) | h <;> exact h.2

set_option maxRecDepth 100000 in
/-- C15, counterexample: the key words of the sample encryptor are not all zero, and
`Reset` does not leave them as they were: it sets them to zero. -/
theorem Reset_zeroes_sample_key :
    (Reset SampleEncryptor).State.Key ≠ SampleEncryptor.State.Key ∧
      (Reset SampleEncryptor).State.Key = List.replicate 16 0 := by
  decide

/-- C15, amended: `TSX1024::Reset` zeroizes the nonce, the MAC counter and the stored tag,
and it zeroizes the key words as well: they are as before the call only when they were all
zero already. -/
theorem Reset_clears_key_too (c : TSX1024) :
    (Reset c).State.Nonce = (0, 0) ∧
    (Reset c).State.Counter = 0 ∧
    (Reset c).State.MacTag = List.replicate c.State.MacTag.length 0 ∧
    (Reset c).State.Key = List.replicate c.State.Key.length 0 ∧
    ((Reset c).State.Key = c.State.Key ↔ ∀ w ∈ c.State.Key, w = 0) := by
  refine ⟨rfl, rfl, rfl, rfl, ?_⟩
  show List.replicate c.State.Key.length 0 = c.State.Key ↔ _
  constructor
  · intro h w hw
    rw [← h] at hw
    exact (List.mem_replicate.mp hw).2
  · intro h
    exact (List.eq_replicate_iff.mpr ⟨rfl, h⟩).symm

/-- C17, counterexample: `ParallelMaxDegree(0)` on the sample encryptor raises
`NotSupported`, which is not `InvalidParam`. -/
theorem ParallelMaxDegree_raises_not_supported :
    ParallelMaxDegree StoreMaxDegree SampleEncryptor 0
        = .throw .NotSupported SampleEncryptor ∧
      ParallelMaxDegree StoreMaxDegree SampleEncryptor 0
        ≠ .throw .InvalidParam SampleEncryptor := by
  constructor
  · rfl
  · intro h
    cases h

/-- C17, amended: `ParallelMaxDegree(0)` is rejected with the error kind `NotSupported`,
and the cipher, with the maximum degree of its parallel profile, is as before the call. -/
theorem ParallelMaxDegree_zero (SetMaxDegree : ParallelOptions → Nat → ParallelOptions)
    (c : TSX1024) :
    ParallelMaxDegree SetMaxDegree c 0 = .throw .NotSupported c := by
  unfold ParallelMaxDegree
  rw [if_pos (Or.inl rfl)]

/-! ### `CMov` -/

theorem CMovLoop_spec (X : List Nat) (ROffset XOffset Condition : Nat) :
    ∀ (n i : Nat) (R : List Nat), ROffset + i + n ≤ R.length →
      XOffset + i + n ≤ X.length →
      ∃ out, CMovLoop X ROffset XOffset Condition i n R = some out ∧
        ∀ t, out[t]? = if ROffset + i ≤ t ∧ t < ROffset + i + n then
            some (R.getD t 0 ^^^
              (Condition &&& (X.getD (t - ROffset + XOffset) 0 ^^^ R.getD t 0)))
          else R[t]? := by
  intro n
  induction n with
  | zero =>
    intro i R _ _
    refine ⟨R, rfl, fun t => ?_⟩
    rw [if_neg (by omega)]
  | succ n ih =>
    intro i R h1 h2
    obtain ⟨out, hout, hpt⟩ := ih (i + 1)
      (R.set (ROffset + i)
        (R.getD (ROffset + i) 0 ^^^
          (Condition &&& (X.getD (XOffset + i) 0 ^^^ R.getD (ROffset + i) 0))))
      (by rw [List.length_set]; omega) (by omega)
    refine ⟨out, ?_, fun t => ?_⟩
    · rw [CMovLoop, if_pos ⟨by omega, by omega⟩, hout]
    · rw [hpt t]
      by_cases ht : t = ROffset + i
      · subst ht
        rw [if_neg (by omega), if_pos ⟨by omega, by omega⟩, List.getElem?_set_self (by omega)]
        congr 5
        omega
      · have hset : ∀ d, (R.set (ROffset + i) d)[t]? = R[t]? := fun d =>
          List.getElem?_set_ne (fun h => ht h.symm)
        by_cases hr : ROffset + (i + 1) ≤ t ∧ t < ROffset + (i + 1) + n
        · rw [if_pos hr, if_pos ⟨by omega, by omega⟩, List.getD_eq_getElem?_getD, hset,
            ← List.getD_eq_getElem?_getD]
        · rw [if_neg hr, if_neg (by omega), hset]

theorem and_255 (a : Nat) (h : a < 256) : 255 &&& a = a := by
  rw [Nat.and_comm]
  exact (Nat.and_pow_two_sub_one_eq_mod a 8).trans (Nat.mod_eq_of_lt h)

theorem xor_move (r x : Nat) (hr : r < 256) (hx : x < 256) : r ^^^ (255 &&& (x ^^^ r)) = x := by
  rw [and_255 _ (Nat.xor_lt_two_pow (n := 8) hx hr), Nat.xor_comm x r, ← Nat.xor_assoc,
    Nat.xor_self, Nat.zero_xor]

/-- C19, counterexample: with the condition byte 2 the mask is `0xFE`, and `CMov` of the
byte 1 onto the byte 0 leaves the destination 0, not the source byte. -/
theorem CMov_condition_two :
    CMov [0] 0 [1] 0 1 2 = some [0] ∧ [0].getD 0 0 ≠ [1].getD 0 0 := by
  decide

/-- C19, amended: on byte arrays, with the ranges inside both arrays, `CMov` returns. For
the condition byte 1 it leaves `R[ROffset + i] = X[XOffset + i]` for all `i < n` and the
rest of `R` as it was; for the condition byte 0 it leaves `R` unchanged; for every
condition byte, `R[ROffset + i]` becomes `R ^ (mask & (X ^ R))` at the two elements, with
`mask = (256 - cond) mod 256`, the size of `R` is kept and the elements of `R` outside
`[ROffset, ROffset + n)` are not modified. -/
theorem CMov_moves (R : List Nat) (ROffset : Nat) (X : List Nat) (XOffset n : Nat)
    (hR : ROffset + n ≤ R.length) (hX : XOffset + n ≤ X.length)
    (hRb : ∀ b ∈ R, b < 256) (hXb : ∀ b ∈ X, b < 256) :
    CMov R ROffset X XOffset n 1 = some (writeAt R ROffset (slice X XOffset n)) ∧
    CMov R ROffset X XOffset n 0 = some R ∧
    ∀ Condition, Condition < 256 → ∃ out, CMov R ROffset X XOffset n Condition = some out ∧
      out.length = R.length ∧
      (∀ i, i < n → out.getD (ROffset + i) 0
        = R.getD (ROffset + i) 0 ^^^
            ((256 - Condition) % 256 &&& (X.getD (XOffset + i) 0 ^^^ R.getD (ROffset + i) 0))) ∧
      (∀ j, j < ROffset ∨ ROffset + n ≤ j → out[j]? = R[j]?) := by
  have hsl : (slice X XOffset n).length = n := slice_length _ _ _ hX
  refine ⟨?_, ?_, ?_⟩
  · obtain ⟨out, hout, hpt⟩ := CMovLoop_spec X ROffset XOffset 255 n 0 R (by omega) (by omega)
    have : CMov R ROffset X XOffset n 1 = some out := hout
    rw [this]
    congr 1
    apply List.ext_getElem?
    intro t
    rw [hpt t, getElem?_writeAt _ _ _ (by omega), hsl]
    by_cases h1 : t < ROffset
    · rw [if_neg (by omega), if_pos h1]
    · by_cases h2 : t < ROffset + n
      · rw [if_pos ⟨by omega, by omega⟩, if_neg h1, if_pos h2, getElem?_slice,
          if_pos (by omega), xor_move _ _ (getD_lt R hRb t) (getD_lt X hXb _),
          List.getD_eq_getElem?_getD, List.getElem?_eq_getElem (by omega),
          List.getElem?_eq_getElem (by omega)]
        simp only [Option.getD_some]
        congr 2
        omega
      · rw [if_neg (by omega), if_neg h1, if_neg h2]
  · obtain ⟨out, hout, hpt⟩ := CMovLoop_spec X ROffset XOffset 0 n 0 R (by omega) (by omega)
    have : CMov R ROffset X XOffset n 0 = some out := hout
    rw [this]
    congr 1
    apply List.ext_getElem?
    intro t
    rw [hpt t]
    split_ifs with h
    · rw [Nat.zero_and, Nat.xor_zero, List.getD_eq_getElem?_getD,
        List.getElem?_eq_getElem (by omega)]
      rfl
    · rfl
  · intro Condition hc
    obtain ⟨out, hout, hpt⟩ := CMovLoop_spec X ROffset XOffset ((255 - Condition + 1) % 256)
      n 0 R (by omega) (by omega)
    have hmask : (255 - Condition + 1) % 256 = (256 - Condition) % 256 := by omega
    refine ⟨out, hout, ?_, ?_, ?_⟩
    · by_contra hne
      rcases Nat.lt_or_gt_of_ne hne with hlt | hgt
      · have := hpt out.length
        rw [List.getElem?_eq_none (Nat.le_refl _)] at this
        split_ifs at this
        rw [List.getElem?_eq_getElem hlt] at this
        cases this
      · have := hpt R.length
        rw [List.getElem?_eq_getElem hgt, if_neg (by omega),
          List.getElem?_eq_none (Nat.le_refl _)] at this
        cases this
    · intro i hi
      rw [List.getD_eq_getElem?_getD, hpt, if_pos ⟨by omega, by omega⟩, hmask]
      simp only [Option.getD_some]
      congr 4
      omega
    · intro j hj
      rw [hpt j, if_neg (by omega)]

/-- Three bytes moved into the middle of an array of five with the condition byte 1. -/
theorem CMov_moves_witness :
    CMov [1, 2, 3, 4, 5] 1 [9, 8, 7, 6] 1 3 1 = some [1, 8, 7, 6, 5] ∧
      CMov [1, 2, 3, 4, 5] 1 [9, 8, 7, 6] 1 3 0 = some [1, 2, 3, 4, 5] := by
  have h := CMov_moves [1, 2, 3, 4, 5] 1 [9, 8, 7, 6] 1 3 (by decide) (by decide)
    (by decide) (by decide)
  exact ⟨h.1, h.2.1⟩

/-! ### `LeIncrease8`, and `Transform` on a cipher that is not initialized -/

/-- C20, at the failing input: a three-byte array holding 1 increased by the 16-bit value
`0xFFFF`. At byte 1 the carry from byte 0 meets the addend byte `0xFF`: the sum cast to a
byte equals the old byte, the test `ndst < odst` is false and the carry is lost, so the
array ends as 0 instead of `0x010000`; with a 32-bit value the same happens and the bytes
above are wrong as well. -/
theorem LeIncrease8_loses_carry :
    LeIncrease8 [1, 0, 0] 2 0xFFFF = [0, 0, 0] ∧
      LeBytes 3 ((LeValue [1, 0, 0] + 0xFFFF) % 2 ^ (8 * 3)) = [0, 0, 1] ∧
      LeValue (LeIncrease8 [1, 0, 0] 2 0xFFFF) ≠ (LeValue [1, 0, 0] + 0xFFFF) % 2 ^ (8 * 3) ∧
      LeIncrease8 [1, 0, 0, 0, 0] 4 0xFFFFFFFF = [0, 0, 255, 255, 0] ∧
      LeBytes 5 ((LeValue [1, 0, 0, 0, 0] + 0xFFFFFFFF) % 2 ^ (8 * 5)) = [0, 0, 0, 0, 1] := by
  decide

set_option maxRecDepth 100000 in
/-- C13, at the failing input: `Transform` of ten bytes on an unauthenticated cipher that
was never initialized, and on one that was initialized and then reset, returns normally
and writes the input xored with the key stream of the zero key to the output; it does not
raise `NotInitialized`. -/
theorem Transform_without_initialize :
    (∃ c, Transform SamplePrimitives (TSX1024.new false SequentialProfile)
        [1, 2, 3, 4, 5, 6, 7, 8, 9, 10] 0 (List.replicate 10 0) 0 10
          = .ok (c, [1, 2, 3, 4, 5, 6, 7, 8, 1, 13]) ∧ c.State.Initialized = false) ∧
      (∃ c, Transform SamplePrimitives (Reset SamplePlainEncryptor)
        [1, 2, 3, 4, 5, 6, 7, 8, 9, 10] 0 (List.replicate 10 0) 0 10
          = .ok (c, [1, 2, 3, 4, 5, 6, 7, 8, 1, 13]) ∧ c.State.Initialized = false) ∧
      SamplePlainEncryptor.State.Initialized = true := by
  refine ⟨⟨_, rfl, ?_⟩, ⟨_, rfl, ?_⟩, ?_⟩ <;> decide

set_option maxRecDepth 100000 in
/-- C14, counterexample: after `Initialize` and a `Transform` call of three bytes on the
sample encryptor, `SetAssociatedData` of two bytes returns normally, and the MAC generator
has absorbed the two bytes. -/
theorem SetAssociatedData_after_transform :
    ∃ c2 out c3, SampleEncryptor.State.Initialized = true ∧
      Transform SamplePrimitives SampleEncryptor [1, 2, 3] 0 (List.replicate 7 0) 0 3
        = .ok (c2, out) ∧
      SetAssociatedData c2 [9, 9] 0 2 = .ok c3 ∧
      c2.Mac = some ⟨true, [134, 134, 139, 144, 149, 154], []⟩ ∧
      c3.Mac = some ⟨true, [134, 134, 139, 144, 149, 154], [9, 9]⟩ := by
  refine ⟨_, _, _, ?_, rfl, rfl, ?_, ?_⟩ <;> decide

/-! ### `Transform` calls that return, and the cipher after `Reset` and `Initialize` -/

theorem Transform_encrypt_auth_inv (P : Primitives) (c : TSX1024) (m : MacState)
    (Input : List Nat) (InOffset : Nat) (Output : List Nat) (OutOffset L : Nat)
    (r : TSX1024 × List Nat)
    (hr : AuthReady P c m) (he : c.State.Encryption = true)
    (h : Transform P c Input InOffset Output OutOffset L = .ok r) :
    OutOffset + L + P.TagSize ≤ Output.length ∧
      ∃ c1 out1, Process P c Input InOffset Output OutOffset L = some (c1, out1) := by
  obtain ⟨hm, hi, ht, hc, hk⟩ := hr
  obtain ⟨S, M, Pr⟩ := c
  simp only at hm he ht hc hk
  subst hm
  unfold Transform at h
  simp only [IsEncryption, IsAuthenticator, he, if_true, Option.isSome_some] at h
  by_cases hguard : Output.length < (L + OutOffset + P.TagSize) % 2 ^ 64
  · rw [if_pos hguard] at h
    cases h
  rw [if_neg hguard, MacUpdate_eq _ m _ _ _ _ rfl hi (by rw [Le64Bytes_length])] at h
  simp only [Outcome.andThen] at h
  rw [MacUpdate_eq _ _ _ _ _ _ rfl (by exact hi) (by rw [Le64Bytes_length])] at h
  simp only [Outcome.andThen, ProcessStep] at h
  rw [Process_congr P ⟨S, some m, Pr⟩
    ⟨S, some ⟨m.Initialized, m.Key, m.Absorbed ++ slice (Le64Bytes S.Nonce.1) 0 8
      ++ slice (Le64Bytes S.Nonce.2) 0 8⟩, Pr⟩ rfl rfl rfl rfl] at h
  cases hproc : Process P ⟨S, some m, Pr⟩ Input InOffset Output OutOffset L with
  | none =>
    rw [hproc] at h
    cases h
  | some q =>
    obtain ⟨c1, out1⟩ := q
    have hfr := (Process_frame P _ Input InOffset Output OutOffset L (c1, out1) hproc).2
    simp only at hfr
    rw [hproc] at h
    simp only [Option.map_some'] at h
    refine ⟨?_, c1, out1, rfl⟩
    by_cases hb : OutOffset + L ≤ out1.length
    · rw [MacUpdate_eq _ _ _ _ _ _ rfl (by exact hi) hb] at h
      simp only [Outcome.andThen, AddCounter, FinalizeStep] at h
      rw [Finalize_eq P _ _ rfl (by exact hi) (by simp only; omega) (by simpa using hc)
        (by simp only; omega)] at h
      simp only [Outcome.andThen, AppendTag] at h
      have hcl := Code_length P (⟨m.Initialized, m.Key,
        ((m.Absorbed ++ slice (Le64Bytes S.Nonce.1) 0 8)
          ++ slice (Le64Bytes S.Nonce.2) 0 8) ++ slice out1 OutOffset L⟩ : MacState)
      rw [writeAt_full S.MacTag _ (by rw [hcl, ht]), hcl] at h
      unfold MemoryTools.Copy at h
      by_cases hcopy : 0 + P.TagSize ≤ (IMac.Code P (⟨m.Initialized, m.Key,
          ((m.Absorbed ++ slice (Le64Bytes S.Nonce.1) 0 8)
            ++ slice (Le64Bytes S.Nonce.2) 0 8) ++ slice out1 OutOffset L⟩ : MacState)).length ∧
          OutOffset + L + P.TagSize ≤ out1.length
      · omega
      · rw [if_neg hcopy] at h
        cases h
    · unfold MacUpdate IMac.Update at h
      simp only [hi, Bool.true_eq_false, if_false, if_pos (Nat.lt_of_not_le hb),
        Outcome.andThen] at h
      cases h

theorem ProcessStep_ok (P : Primitives) (Input : List Nat) (InOffset OutOffset L : Nat)
    (w r : TSX1024 × List Nat) (h : ProcessStep P Input InOffset OutOffset L w = .ok r) :
    Process P w.1 Input InOffset w.2 OutOffset L = some r := by
  unfold ProcessStep at h
  cases hp : Process P w.1 Input InOffset w.2 OutOffset L with
  | none =>
    rw [hp] at h
    cases h
  | some q =>
    rw [hp] at h
    cases h
    rfl

theorem Name_congr (P : Primitives) (c c1 : TSX1024) (h : c1.Mac.isSome = c.Mac.isSome) :
    Name P c1 = Name P c := by
  unfold Name IsAuthenticator
  rw [h]

theorem Initialize_plain_fields (P : Primitives) (c : TSX1024) (Encryption : Bool)
    (Parameters : SymmetricKey) (c1 : TSX1024) (ha : c.Mac = none)
    (h : Initialize P c Encryption Parameters = .ok c1) :
    c1.Mac = none ∧ c1.Profile = c.Profile ∧
      ∃ key n0 n1 tweak,
        LeBytesTo64 Parameters.Nonce 0 = some n0 ∧ LeBytesTo64 Parameters.Nonce 8 = some n1 ∧
        LoadTweak Parameters.Info = some tweak ∧ LoadKey Parameters.Key = some key ∧
        c1.State.Key = key ∧ c1.State.Nonce = (n0, n1) ∧ c1.State.Tweak = tweak := by
  obtain ⟨hk, hn, hi, hp⟩ := Initialize_ok_inv P c Encryption Parameters c1 h
  obtain ⟨key, n0, n1, tweak, e0, e1, et, ekey, einit⟩ :=
    Initialize_plain_eq P c Encryption Parameters ha hk hn hi hp
  rw [h] at einit
  cases einit
  exact ⟨rfl, rfl, key, n0, n1, tweak, e0, e1, et, ekey, rfl, rfl, rfl⟩

theorem Initialize_auth_fields (P : Primitives) (c : TSX1024) (Encryption : Bool)
    (Parameters : SymmetricKey) (c1 : TSX1024) (ha : c.Mac.isSome = true)
    (h : Initialize P c Encryption Parameters = .ok c1) :
    c1.Profile = c.Profile ∧ c1.State.Encryption = Encryption ∧
      c1.State.Initialized = true ∧
      AuthReady P c1 (IMac.Initialize
        (ShakeGenerate P Parameters.Key (Le64Bytes 1 ++ Name P c) KEY_SIZE P.MacKeySize)) ∧
      ∃ key n0 n1 tweak,
        LeBytesTo64 Parameters.Nonce 0 = some n0 ∧ LeBytesTo64 Parameters.Nonce 8 = some n1 ∧
        LoadTweak Parameters.Info = some tweak ∧
        LoadKey (ShakeGenerate P Parameters.Key (Le64Bytes 1 ++ Name P c) 0 KEY_SIZE)
          = some key ∧
        c1.State.Key = key ∧ c1.State.Nonce = (n0, n1) ∧ c1.State.Tweak = tweak := by
  obtain ⟨hk, hn, hi, hp⟩ := Initialize_ok_inv P c Encryption Parameters c1 h
  obtain ⟨key, n0, n1, tweak, e0, e1, et, ekey, einit⟩ :=
    Initialize_auth_eq P c Encryption Parameters ha hk hn hi hp
  rw [h] at einit
  cases einit
  refine ⟨rfl, rfl, rfl, ⟨rfl, rfl, resize_length _ _, ?_, ShakeGenerate_length _ _ _ _ _⟩,
    key, n0, n1, tweak, e0, e1, et, ekey, rfl, rfl, rfl⟩
  simp only [List.length_append, Le64Bytes_length]
  omega

/-- C12: when `Initialize` for encryption with the key container `k` and a `Transform`
call have returned, with the output `out` (ciphertext, followed by the tag on an
authenticated cipher), then after `Reset` the same `Initialize` call returns again and the
same `Transform` call returns with the same output `out`. -/
theorem Transform_deterministic (P : Primitives) (c0 : TSX1024) (k : SymmetricKey)
    (Input : List Nat) (InOffset : Nat) (Output : List Nat) (OutOffset L : Nat)
    (c1 c2 : TSX1024) (out : List Nat)
    (h1 : Initialize P c0 true k = .ok c1)
    (h2 : Transform P c1 Input InOffset Output OutOffset L = .ok (c2, out)) :
    ∃ c3 c4, Initialize P (Reset c2) true k = .ok c3 ∧
      Transform P c3 Input InOffset Output OutOffset L = .ok (c4, out) := by
  obtain ⟨hk, hn, hi, hp⟩ := Initialize_ok_inv P c0 true k c1 h1
  cases hmac : c0.Mac with
  | none =>
    obtain ⟨m1, p1, key, n0, n1, tweak, e0, e1, et, ekey, k1, nn1, t1⟩ :=
      Initialize_plain_fields P c0 true k c1 hmac h1
    rw [Transform_plain _ _ _ _ _ _ _ m1] at h2
    have hproc := ProcessStep_ok _ _ _ _ _ _ _ h2
    simp only at hproc
    have hfr := (Process_frame P c1 Input InOffset Output OutOffset L _ hproc).1
    simp only at hfr
    have hm2 : (Reset c2).Mac = none := by
      rw [hfr]
      simp only [Reset, m1, Option.map_none']
    have hp2 : (Reset c2).Profile = c0.Profile := by
      rw [hfr]
      exact p1
    have hex : ∃ c3, Initialize P (Reset c2) true k = .ok c3 := by
      obtain ⟨_, _, _, _, _, _, _, _, einit3⟩ :=
        Initialize_plain_eq P (Reset c2) true k hm2 hk hn hi (by rw [hp2]; exact hp)
      exact ⟨_, einit3⟩
    obtain ⟨c3, h3⟩ := hex
    obtain ⟨m3, p3, key4, n04, n14, tweak4, e04, e14, et4, ekey4, k3, nn3, t3⟩ :=
      Initialize_plain_fields P (Reset c2) true k c3 hm2 h3
    have hproc3 := Process_congr P c1 c3
      (by rw [k3, k1]; exact Option.some.inj (ekey4.symm.trans ekey))
      (by rw [t3, t1]; exact Option.some.inj (et4.symm.trans et))
      (by rw [nn3, nn1, Option.some.inj (e04.symm.trans e0),
        Option.some.inj (e14.symm.trans e1)])
      (by rw [p3, hp2, p1]) Input InOffset Output OutOffset L
    rw [hproc] at hproc3
    have hT3 : Transform P c3 Input InOffset Output OutOffset L
        = .ok ({ c3 with State := { c3.State with Nonce := c2.State.Nonce } }, out) := by
      rw [Transform_plain _ _ _ _ _ _ _ m3]
      unfold ProcessStep
      simp only
      rw [hproc3]
      rfl
    exact ⟨c3, _, h3, hT3⟩
  | some m0 =>
    have ha : c0.Mac.isSome = true := by rw [hmac]; rfl
    obtain ⟨p1, en1, _, hr1, key, n0, n1, tweak, e0, e1, et, ekey, k1, nn1, t1⟩ :=
      Initialize_auth_fields P c0 true k c1 ha h1
    obtain ⟨hout, cp, outp, hproc⟩ :=
      Transform_encrypt_auth_inv P c1 _ Input InOffset Output OutOffset L _ hr1 en1 h2
    have hT := Transform_encrypt_auth P c1 _ Input InOffset Output OutOffset L cp outp hr1 en1
      hout hproc
    rw [h2] at hT
    injection hT with hT
    injection hT with hc2 hO
    have hm2 : (Reset c2).Mac.isSome = true := by
      rw [hc2]
      rfl
    have hp2 : (Reset c2).Profile = c0.Profile := by
      rw [hc2]
      exact p1
    have hname : Name P (Reset c2) = Name P c0 := Name_congr P c0 _ (by rw [hm2, ha])
    have hex : ∃ c3, Initialize P (Reset c2) true k = .ok c3 := by
      obtain ⟨_, _, _, _, _, _, _, _, einit3⟩ :=
        Initialize_auth_eq P (Reset c2) true k hm2 hk hn hi (by rw [hp2]; exact hp)
      exact ⟨_, einit3⟩
    obtain ⟨c3, h3⟩ := hex
    obtain ⟨p3, en3, _, hr3, key4, n04, n14, tweak4, e04, e14, et4, ekey4, k3, nn3, t3⟩ :=
      Initialize_auth_fields P (Reset c2) true k c3 hm2 h3
    rw [hname] at hr3 ekey4
    have hN : c3.State.Nonce = c1.State.Nonce := by
      rw [nn3, nn1, Option.some.inj (e04.symm.trans e0), Option.some.inj (e14.symm.trans e1)]
    have hproc3 := Process_congr P c1 c3
      (by rw [k3, k1]; exact Option.some.inj (ekey4.symm.trans ekey))
      (by rw [t3, t1]; exact Option.some.inj (et4.symm.trans et))
      hN (by rw [p3, hp2, p1]) Input InOffset Output OutOffset L
    rw [hproc] at hproc3
    have hT3 := Transform_encrypt_auth P c3 _ Input InOffset Output OutOffset L _ outp hr3 en3
      hout hproc3
    rw [hN, ← hO] at hT3
    exact ⟨c3, _, h3, hT3⟩

set_option maxRecDepth 100000 in
/-- The sample encryptor: three bytes are encrypted, and after `Reset` and the same
`Initialize` the same call gives the same seven bytes of ciphertext and tag. -/
theorem Transform_deterministic_witness :
    ∃ c1 c2 out c3 c4,
      Initialize SamplePrimitives (TSX1024.new true SequentialProfile) true SampleKey = .ok c1 ∧
      Transform SamplePrimitives c1 [1, 2, 3] 0 (List.replicate 7 0) 0 3 = .ok (c2, out) ∧
      Initialize SamplePrimitives (Reset c2) true SampleKey = .ok c3 ∧
      Transform SamplePrimitives c3 [1, 2, 3] 0 (List.replicate 7 0) 0 3 = .ok (c4, out) := by
  have h1 : Initialize SamplePrimitives (TSX1024.new true SequentialProfile) true SampleKey
      = .ok SampleEncryptor := rfl
  obtain ⟨c2, out, h2⟩ : ∃ c2 out,
      Transform SamplePrimitives SampleEncryptor [1, 2, 3] 0 (List.replicate 7 0) 0 3
        = .ok (c2, out) := ⟨_, _, rfl⟩
  obtain ⟨c3, c4, h3, h4⟩ := Transform_deterministic SamplePrimitives _ SampleKey [1, 2, 3] 0
    (List.replicate 7 0) 0 3 _ c2 out h1 h2
  exact ⟨_, c2, out, c3, c4, h1, h2, h3, h4⟩

theorem Transform_decrypt_auth_inv (P : Primitives) (c : TSX1024) (m : MacState)
    (Input : List Nat) (InOffset : Nat) (Output : List Nat) (OutOffset L : Nat)
    (r : TSX1024 × List Nat)
    (hr : AuthReady P c m) (he : c.State.Encryption = false)
    (h : Transform P c Input InOffset Output OutOffset L = .ok r) :
    InOffset + L + P.TagSize ≤ Input.length := by
  obtain ⟨hm, hi, ht, hc, hk⟩ := hr
  obtain ⟨S, M, Pr⟩ := c
  simp only at hm he ht hc hk
  subst hm
  unfold Transform at h
  simp only [IsEncryption, IsAuthenticator, he, Bool.false_eq_true, if_false,
    Option.isSome_some, if_true] at h
  rw [MacUpdate_eq _ m _ _ _ _ rfl hi (by rw [Le64Bytes_length])] at h
  simp only [Outcome.andThen] at h
  rw [MacUpdate_eq _ _ _ _ _ _ rfl (by exact hi) (by rw [Le64Bytes_length])] at h
  simp only [Outcome.andThen] at h
  by_cases hb : InOffset + L ≤ Input.length
  · rw [MacUpdate_eq _ _ _ _ _ _ rfl (by exact hi) hb] at h
    simp only [Outcome.andThen, AddCounter, FinalizeStep] at h
    rw [Finalize_eq P _ _ rfl (by exact hi) (by simp only; omega) (by simpa using hc)
      (by simp only; omega)] at h
    simp only [Outcome.andThen, VerifyTag] at h
    have hcl := Code_length P (⟨m.Initialized, m.Key,
      ((m.Absorbed ++ slice (Le64Bytes S.Nonce.1) 0 8)
        ++ slice (Le64Bytes S.Nonce.2) 0 8) ++ slice Input InOffset L⟩ : MacState)
    rw [writeAt_full S.MacTag _ (by rw [hcl, ht]), hcl] at h
    unfold Compare at h
    by_cases hcmp : InOffset + L + P.TagSize ≤ Input.length ∧
        0 + P.TagSize ≤ (IMac.Code P (⟨m.Initialized, m.Key,
          ((m.Absorbed ++ slice (Le64Bytes S.Nonce.1) 0 8)
            ++ slice (Le64Bytes S.Nonce.2) 0 8) ++ slice Input InOffset L⟩ : MacState)).length
    · exact hcmp.1
    · rw [if_neg hcmp] at h
      cases h
  · unfold MacUpdate IMac.Update at h
    simp only [hi, Bool.true_eq_false, if_false, if_pos (Nat.lt_of_not_le hb),
      Outcome.andThen] at h
    cases h

theorem Transform_auth_ok (P : Primitives) (c : TSX1024) (m : MacState)
    (Input : List Nat) (InOffset : Nat) (Output : List Nat) (OutOffset L : Nat)
    (c2 : TSX1024) (out : List Nat) (hr : AuthReady P c m)
    (h : Transform P c Input InOffset Output OutOffset L = .ok (c2, out)) :
    c2.State.Initialized = c.State.Initialized ∧
      ∃ key, c2.Mac = some (IMac.Initialize key) := by
  by_cases he : c.State.Encryption = true
  · obtain ⟨hout, cp, outp, hproc⟩ :=
      Transform_encrypt_auth_inv P c m Input InOffset Output OutOffset L _ hr he h
    have hT := Transform_encrypt_auth P c m Input InOffset Output OutOffset L cp outp hr he
      hout hproc
    rw [h] at hT
    injection hT with hT
    injection hT with hc2 hO
    rw [hc2]
    exact ⟨rfl, _, rfl⟩
  · have he1 : c.State.Encryption = false := by simpa using he
    have hin := Transform_decrypt_auth_inv P c m Input InOffset Output OutOffset L _ hr he1 h
    have hT := Transform_decrypt_auth P c m Input InOffset Output OutOffset L hr he1 hin
    rw [h] at hT
    split_ifs at hT
    have hproc := ProcessStep_ok _ _ _ _ _ _ _ hT.symm
    have hfr := (Process_frame P _ Input InOffset Output OutOffset L _ hproc).1
    simp only at hfr
    rw [hfr]
    exact ⟨rfl, _, rfl⟩

/-- C14, amended: `SetAssociatedData` raises `NotInitialized` on a cipher that is not
initialized and `IllegalOperation` on an initialized cipher without authenticator, and the
cipher is as before the call in both cases; on an authenticated cipher it is accepted
after `Initialize` also when a `Transform` call has returned since: the MAC generator,
keyed again by that call, absorbs the associated data. -/
theorem SetAssociatedData_accepts (P : Primitives) (c0 : TSX1024) (Encryption : Bool)
    (k : SymmetricKey) (Input : List Nat) (InOffset : Nat) (Output : List Nat)
    (OutOffset L : Nat) (c1 c2 : TSX1024) (out aad : List Nat) (Offset Length : Nat)
    (ha : c0.Mac.isSome = true)
    (h1 : Initialize P c0 Encryption k = .ok c1)
    (h2 : Transform P c1 Input InOffset Output OutOffset L = .ok (c2, out))
    (haad : Offset + Length ≤ aad.length) :
    (∀ u : TSX1024, u.State.Initialized = false →
      SetAssociatedData u aad Offset Length = .throw .NotInitialized u) ∧
    (∀ u : TSX1024, u.State.Initialized = true → u.Mac = none →
      SetAssociatedData u aad Offset Length = .throw .IllegalOperation u) ∧
    ∃ m1 m2, c1.Mac = some m1 ∧ c2.Mac = some m2 ∧ m2.Absorbed = [] ∧
      SetAssociatedData c1 aad Offset Length
        = .ok { c1 with Mac := some { m1 with Absorbed := slice aad Offset Length } } ∧
      SetAssociatedData c2 aad Offset Length
        = .ok { c2 with Mac := some { m2 with Absorbed := slice aad Offset Length } } := by
  refine ⟨?_, ?_, ?_⟩
  · intro u hu
    unfold SetAssociatedData IsInitialized
    rw [if_pos hu]
  · intro u hu hm
    unfold SetAssociatedData IsInitialized
    rw [if_neg (by rw [hu]; decide), hm]
  · obtain ⟨_, _, hinit, hr1, _⟩ := Initialize_auth_fields P c0 Encryption k c1 ha h1
    obtain ⟨hi2, key, hm2⟩ := Transform_auth_ok P c1 _ Input InOffset Output OutOffset L c2 out
      hr1 h2
    refine ⟨_, _, hr1.1, hm2, rfl, ?_, ?_⟩
    · rw [SetAssociatedData_eq c1 _ aad Offset Length hr1.1 rfl hinit haad]
      rfl
    · rw [SetAssociatedData_eq c2 _ aad Offset Length hm2 rfl (by rw [hi2, hinit]) haad]
      rfl

set_option maxRecDepth 100000 in
/-- The sample encryptor after a `Transform` call of three bytes accepts two bytes of
associated data. -/
theorem SetAssociatedData_accepts_witness :
    ∃ c2 out m2, Transform SamplePrimitives SampleEncryptor [1, 2, 3] 0 (List.replicate 7 0) 0 3
        = .ok (c2, out) ∧ c2.Mac = some m2 ∧
      SetAssociatedData c2 [9, 9] 0 2
        = .ok { c2 with Mac := some { m2 with Absorbed := [9, 9] } } := by
  have h1 : Initialize SamplePrimitives (TSX1024.new true SequentialProfile) true SampleKey
      = .ok SampleEncryptor := rfl
  obtain ⟨c2, out, h2⟩ : ∃ c2 out,
      Transform SamplePrimitives SampleEncryptor [1, 2, 3] 0 (List.replicate 7 0) 0 3
        = .ok (c2, out) := ⟨_, _, rfl⟩
  obtain ⟨_, _, m1, m2, _, hm2, _, _, h⟩ := SetAssociatedData_accepts SamplePrimitives
    (TSX1024.new true SequentialProfile) true SampleKey [1, 2, 3] 0 (List.replicate 7 0) 0 3
    SampleEncryptor c2 out [9, 9] 0 2 rfl h1 h2 (by decide)
  exact ⟨c2, out, m2, h2, hm2, h⟩

/-! ## Increments, selectors and names of parameter sets -/

/-- C21, at the failing input: `LeIncrement` on the two bytes `FF 00`, whose little-endian
value is 255, increments the last element and leaves `FF 01`, the value 511, instead of
`00 01`, the value 256; on `00 00` it leaves `00 01`, the value 256 instead of 1. The loop
runs from the last element down, as in `BeIncrement8`, so element 0 is the most
significant one. -/
theorem LeIncrement_from_last_element :
    LeIncrement 8 [0xFF, 0] = [0xFF, 1] ∧
      LeValue (LeIncrement 8 [0xFF, 0]) = 511 ∧
      (LeValue [0xFF, 0] + 1) % 2 ^ (8 * 2) = 256 ∧
      LeBytes 2 ((LeValue [0xFF, 0] + 1) % 2 ^ (8 * 2)) = [0, 1] ∧
      LeIncrement 8 [0, 0] = [0, 1] ∧
      LeValue (LeIncrement 8 [0, 0]) = 256 ∧
      BeValue (LeIncrement 8 [0xFF, 0]) = BeValue [0xFF, 0] + 1 := by
  decide

/-- C29, at the failing input: with `Offset = 1` and `Length = 2` on the five bytes
`07 00 FF 09 09` the call increments `Output[3]`, outside the range `[1, 3)`, and leaves
the range as it was, instead of storing `01 00` in the range; with `Offset = 1` and
`Length = 1` on an array of two bytes it reads `Output[2]`, outside the array. With
`Offset = 0` the range is incremented as a big-endian number. -/
theorem BeIncrement8_offset :
    BeIncrement8 [7, 0, 0xFF, 9, 9] 1 2 = some [7, 0, 0xFF, 10, 9] ∧
      (BeValue (slice [7, 0, 0xFF, 9, 9] 1 2) + 1) % 2 ^ (8 * 2) = BeValue [1, 0] ∧
      BeIncrement8 [0, 0] 1 1 = none ∧
      BeIncrement8 [0, 0xFF, 0xFF] 0 3 = some [1, 0, 0] ∧
      BeIncrement8 [0xFF, 0xFF] 0 2 = some [0, 0] := by
  decide

/-- C30, at the failing input: for the bytes `A = 3` and `B = 2` the mask `ExpandTopBit`
of the first argument is 0, so `CMax` returns `B = 2`, not the larger value 3, and `CMin`
returns `A = 3`, not the lesser value 2; the same holds for 64-bit words. For
`A = 200, B = 250` the top bit of `A` is set and `CMax` returns `A`. -/
theorem CMax_selects_on_top_bit :
    CMax 8 3 2 = 2 ∧ Max 3 2 = 3 ∧ CMin 8 3 2 = 3 ∧ Min 3 2 = 2 ∧
      CMax 64 3 2 = 2 ∧ CMin 64 3 2 = 3 ∧
      ExpandTopBit 8 3 = 0 ∧ ExpandTopBit 8 200 = 0xFF ∧
      CMax 8 200 250 = 200 ∧ Max 200 250 = 250 := by
  decide

/-- C26, at the failing input: `FromName` maps the name "XMSSSHA256H10" to the enumeral
`XMSSSHA256H16`, so `FromName(ToName(XMSSSHA256H10))` is not `XMSSSHA256H10` and the names
"XMSSSHA256H10" and "XMSSSHA256H16" are mapped to the same enumeral. For every other
enumeral `FromName(ToName(e))` is `e`. -/
theorem FromName_of_XMSSSHA256H10 :
    AsymmetricTransformConvert.ToName .XMSSSHA256H10 = "XMSSSHA256H10" ∧
      AsymmetricTransformConvert.FromName
        (AsymmetricTransformConvert.ToName .XMSSSHA256H10) = .XMSSSHA256H16 ∧
      AsymmetricTransformConvert.FromName
        (AsymmetricTransformConvert.ToName .XMSSSHA256H10) ≠ .XMSSSHA256H10 ∧
      AsymmetricTransformConvert.FromName "XMSSSHA256H10"
        = AsymmetricTransformConvert.FromName "XMSSSHA256H16" ∧
      (∀ e : AsymmetricParameters, e ≠ .XMSSSHA256H10 →
        AsymmetricTransformConvert.FromName (AsymmetricTransformConvert.ToName e) = e) := by
  refine ⟨by decide, by decide, by decide, by decide, ?_⟩
  intro e he
  cases e <;> first | exact absurd rfl he | decide

/-! ## `AsymmetricKey` -/

/-- C25: the constructor of `AsymmetricKey` ends with `InvalidParam` exactly when the
polynomial is empty or the primitive, the key class or the parameter set is `None`, and
`InvalidParam` is its only exception; in every other case it returns a key that holds the
polynomial bytes, the key class, the primitive and the parameter set it was given. -/
theorem AsymmetricKey_new_iff (Polynomial : List Nat)
    (PrimitiveType CipherKeyType ParameterType : Nat) :
    (AsymmetricKey.new Polynomial PrimitiveType CipherKeyType ParameterType
        = .error .InvalidParam ↔
      (Polynomial = [] ∨ PrimitiveType = AsymmetricPrimitives.None ∨
        CipherKeyType = AsymmetricKeyTypes.None ∨
        ParameterType = AsymmetricParameters.NoneId)) ∧
    (∀ e, AsymmetricKey.new Polynomial PrimitiveType CipherKeyType ParameterType = .error e →
      e = .InvalidParam) ∧
    (¬ (Polynomial = [] ∨ PrimitiveType = AsymmetricPrimitives.None ∨
        CipherKeyType = AsymmetricKeyTypes.None ∨
        ParameterType = AsymmetricParameters.NoneId) →
      ∃ k, AsymmetricKey.new Polynomial PrimitiveType CipherKeyType ParameterType = .ok k ∧
        k.Polynomial = Polynomial ∧ k.KeyClass = CipherKeyType ∧
        k.Primitive = PrimitiveType ∧ k.Parameters = ParameterType) := by
  have hlen : Polynomial.length ≠ 0 ↔ Polynomial ≠ [] := by
    rw [Ne, Ne, List.length_eq_zero]
  by_cases h : Polynomial.length ≠ 0 ∧ PrimitiveType ≠ AsymmetricPrimitives.None ∧
      CipherKeyType ≠ AsymmetricKeyTypes.None ∧ ParameterType ≠ AsymmetricParameters.NoneId
  · have hnew : AsymmetricKey.new Polynomial PrimitiveType CipherKeyType ParameterType
        = .ok ⟨Polynomial, CipherKeyType, PrimitiveType, ParameterType⟩ := by
      unfold AsymmetricKey.new
      rw [if_pos h]
    have hno : ¬ (Polynomial = [] ∨ PrimitiveType = AsymmetricPrimitives.None ∨
        CipherKeyType = AsymmetricKeyTypes.None ∨
        ParameterType = AsymmetricParameters.NoneId) := by
      rintro (h1 | h1 | h1 | h1)
      · exact (hlen.mp h.1) h1
      · exact h.2.1 h1
      · exact h.2.2.1 h1
      · exact h.2.2.2 h1
    refine ⟨⟨fun he => ?_, fun hor => absurd hor hno⟩, fun e he => ?_, fun _ => ?_⟩
    · rw [hnew] at he
      cases he
    · rw [hnew] at he
      cases he
    · exact ⟨_, hnew, rfl, rfl, rfl, rfl⟩
  · have hnew : AsymmetricKey.new Polynomial PrimitiveType CipherKeyType ParameterType
        = .error .InvalidParam := by
      unfold AsymmetricKey.new
      rw [if_neg h]
    have hor : Polynomial = [] ∨ PrimitiveType = AsymmetricPrimitives.None ∨
        CipherKeyType = AsymmetricKeyTypes.None ∨
        ParameterType = AsymmetricParameters.NoneId := by
      by_contra hcon
      apply h
      refine ⟨hlen.mpr (fun h1 => hcon (Or.inl h1)), fun h1 => hcon (Or.inr (Or.inl h1)),
        fun h1 => hcon (Or.inr (Or.inr (Or.inl h1))),
        fun h1 => hcon (Or.inr (Or.inr (Or.inr h1)))⟩
    refine ⟨⟨fun _ => hor, fun _ => hnew⟩, fun e he => ?_, fun hno => absurd hor hno⟩
    rw [hnew] at he
    cases he
    rfl

/-- C24: for a key whose key class, parameter set and primitive are byte values,
`Serialize` returns `3 + |polynomial|` bytes: byte 0 is the key class, byte 1 the
parameter set, byte 2 the primitive, and the bytes from index 3 to the end are the
polynomial bytes in their order; nothing precedes or follows them. -/
theorem Serialize_layout (k : AsymmetricKey) (hc : k.KeyClass < 256)
    (hp : k.Parameters < 256) (hq : k.Primitive < 256) :
    AsymmetricKey.Serialize k = [k.KeyClass, k.Parameters, k.Primitive] ++ k.Polynomial ∧
      (AsymmetricKey.Serialize k).length = 3 + k.Polynomial.length ∧
      (AsymmetricKey.Serialize k).getD 0 0 = k.KeyClass ∧
      (AsymmetricKey.Serialize k).getD 1 0 = k.Parameters ∧
      (AsymmetricKey.Serialize k).getD 2 0 = k.Primitive ∧
      (AsymmetricKey.Serialize k).drop 3 = k.Polynomial ∧
      (∀ i, i < k.Polynomial.length →
        (AsymmetricKey.Serialize k).getD (3 + i) 0 = k.Polynomial.getD i 0) := by
  have hs : AsymmetricKey.Serialize k
      = [k.KeyClass, k.Parameters, k.Primitive] ++ k.Polynomial := by
    unfold AsymmetricKey.Serialize
    rw [Nat.mod_eq_of_lt hc, Nat.mod_eq_of_lt hp, Nat.mod_eq_of_lt hq]
    rfl
  rw [hs]
  refine ⟨rfl, ?_, rfl, rfl, rfl, rfl, fun i _ => ?_⟩
  · rw [List.length_append]
    rfl
  · rw [List.getD_eq_getElem?_getD, List.getD_eq_getElem?_getD,
      List.getElem?_append_right (by simp)]
    simp

/-- A key with a polynomial of four bytes: its serialized form is seven bytes. -/
theorem Serialize_layout_witness :
    AsymmetricKey.Serialize ⟨[9, 8, 7, 6], 2, 4, 11⟩ = [2, 11, 4, 9, 8, 7, 6] ∧
      (AsymmetricKey.Serialize ⟨[9, 8, 7, 6], 2, 4, 11⟩).length = 3 + 4 := by
  have h := Serialize_layout ⟨[9, 8, 7, 6], 2, 4, 11⟩ (by decide) (by decide) (by decide)
  exact ⟨h.1, h.2.1⟩

/-- C23: a key built from a non-empty polynomial and a primitive, key class and parameter
set that are byte values other than `None` is returned by the constructor, and
`DeSerialize` of its serialized form returns a key equal to it: the same polynomial bytes,
key class, primitive and parameter set. -/
theorem DeSerialize_Serialize (Polynomial : List Nat)
    (PrimitiveType CipherKeyType ParameterType : Nat)
    (hpoly : Polynomial ≠ []) (h1 : PrimitiveType ≠ AsymmetricPrimitives.None)
    (h2 : CipherKeyType ≠ AsymmetricKeyTypes.None)
    (h3 : ParameterType ≠ AsymmetricParameters.NoneId)
    (b1 : PrimitiveType < 256) (b2 : CipherKeyType < 256) (b3 : ParameterType < 256) :
    ∃ k, AsymmetricKey.new Polynomial PrimitiveType CipherKeyType ParameterType = .ok k ∧
      AsymmetricKey.DeSerialize (AsymmetricKey.Serialize k) = some (.ok k) ∧
      k.Polynomial = Polynomial ∧ k.KeyClass = CipherKeyType ∧
      k.Primitive = PrimitiveType ∧ k.Parameters = ParameterType := by
  have hlen : Polynomial.length ≠ 0 := by
    rw [Ne, List.length_eq_zero]
    exact hpoly
  have hnew : AsymmetricKey.new Polynomial PrimitiveType CipherKeyType ParameterType
      = .ok ⟨Polynomial, CipherKeyType, PrimitiveType, ParameterType⟩ := by
    unfold AsymmetricKey.new
    rw [if_pos ⟨hlen, h1, h2, h3⟩]
  refine ⟨_, hnew, ?_, rfl, rfl, rfl, rfl⟩
  have hs : AsymmetricKey.Serialize ⟨Polynomial, CipherKeyType, PrimitiveType, ParameterType⟩
      = [CipherKeyType, ParameterType, PrimitiveType] ++ Polynomial := by
    unfold AsymmetricKey.Serialize
    simp only
    rw [Nat.mod_eq_of_lt b1, Nat.mod_eq_of_lt b2, Nat.mod_eq_of_lt b3]
    rfl
  rw [hs]
  unfold AsymmetricKey.DeSerialize
  rw [if_neg (by rw [List.length_append]; simp)]
  exact congrArg some hnew

/-- The key of the serialization test, with a polynomial of three bytes. -/
theorem DeSerialize_Serialize_witness :
    ∃ k, AsymmetricKey.new [5, 0, 255] 4 2 11 = .ok k ∧
      AsymmetricKey.DeSerialize (AsymmetricKey.Serialize k) = some (.ok k) ∧
      k.Polynomial = [5, 0, 255] := by
  obtain ⟨k, h1, h2, h3, _⟩ := DeSerialize_Serialize [5, 0, 255] 4 2 11 (by decide)
    (by decide) (by decide) (by decide) (by decide) (by decide) (by decide)
  exact ⟨k, h1, h2, h3⟩

/-! ## `GMAC` -/

theorem GMAC_Finalize_flag {B G : Type} (P : GmacPrimitives B G) (g : GMAC B G)
    (Output : List Nat) (OutOffset : Nat) (r : GMAC B G × List Nat)
    (h : GMAC.Finalize P g Output OutOffset = .ok r) :
    r.1.m_isInitialized = true ∧ r.1.m_msgCounter = 0 := by
  unfold GMAC.Finalize at h
  by_cases hi : g.m_isInitialized = false
  · rw [if_pos hi] at h
    cases h
  · rw [if_neg hi] at h
    split_ifs at h
    simp only at h
    split at h
    · cases h
    · split at h
      · cases h
      · cases h
        exact ⟨by simpa [GMAC.Reset] using hi, rfl⟩

set_option maxRecDepth 100000 in
/-- C27, at the failing input: after `Finalize` on the sample generator has returned, the
flag `m_isInitialized` is still true; an `Update` of one byte made without a new
`Initialize` returns normally and counts the byte, and a second `Finalize` returns
normally with a tag, computed with the zeroized masking block. -/
theorem GMAC_usable_after_finalize :
    ∃ g1 tag1 g2 g3 tag2,
      SampleGmac.m_isInitialized = true ∧
      GMAC.Finalize SampleGmacPrimitives SampleGmac (List.replicate 16 0) 0 = .ok (g1, tag1) ∧
      GMAC.IsInitialized g1 = true ∧
      g1.m_gmacNonce = List.replicate 16 0 ∧
      GMAC.Update SampleGmacPrimitives g1 [1] 0 1 = .ok g2 ∧
      g2.m_msgCounter = 1 ∧
      GMAC.Finalize SampleGmacPrimitives g2 (List.replicate 16 0) 0 = .ok (g3, tag2) ∧
      tag2
        = [126, 126, 127, 128, 129, 130, 131, 132, 133, 134, 135, 136, 137, 138, 139, 140] := by
  refine ⟨_, _, _, _, _, ?_, rfl, ?_, ?_, rfl, ?_, rfl, ?_⟩ <;> decide

theorem resize_12 (Nonce : List Nat) (h : Nonce.length = 12) :
    (resize Nonce 16).set 15 1 = Nonce ++ [0, 0, 0, 1] := by
  unfold resize
  rw [List.take_of_length_le (by omega), h, List.set_append_right _ _ (by omega), h]
  rfl

theorem BeBytesTo64_isSome (Input : List Nat) (off : Nat) (h : off + 8 ≤ Input.length) :
    ∃ w, BeBytesTo64 Input off = some w := by
  unfold BeBytesTo64
  rw [if_pos h]
  exact ⟨_, rfl⟩

theorem GMAC_LoadKey_keyed {B G : Type} (P : GmacPrimitives B G) (g : GMAC B G)
    (KeyParams : SymmetricKey) (h0 : KeyParams.Key.length ≠ 0)
    (hb : 16 ≤ (P.CipherTransform (P.CipherInitialize g.m_blockCipher KeyParams)
      (List.replicate 16 0)).length) :
    ∃ w0 w1,
      BeBytesTo64 (P.CipherTransform (P.CipherInitialize g.m_blockCipher KeyParams)
        (List.replicate 16 0)) 0 = some w0 ∧
      BeBytesTo64 (P.CipherTransform (P.CipherInitialize g.m_blockCipher KeyParams)
        (List.replicate 16 0)) 8 = some w1 ∧
      GMAC.LoadKey P g KeyParams
        = some { g with m_blockCipher := P.CipherInitialize g.m_blockCipher KeyParams,
                        m_gmacKey := [w0, w1],
                        m_gmacHash := P.HashInitialize g.m_gmacHash [w0, w1] } := by
  obtain ⟨w0, e0⟩ := BeBytesTo64_isSome
    (P.CipherTransform (P.CipherInitialize g.m_blockCipher KeyParams)
      (List.replicate 16 0)) 0 (by omega)
  obtain ⟨w1, e1⟩ := BeBytesTo64_isSome
    (P.CipherTransform (P.CipherInitialize g.m_blockCipher KeyParams)
      (List.replicate 16 0)) 8 (by omega)
  refine ⟨w0, w1, e0, e1, ?_⟩
  unfold GMAC.LoadKey
  rw [if_pos h0]
  simp only [GMAC.BLOCK_SIZE, e0, e1]

/-- C28: with a legal key size, a nonce of at least `TAG_MINLEN` bytes and a cipher whose
blocks hold 16 bytes, `GMAC::Initialize` returns with the flag set. The stored masking
block is the encryption of the pre-counter block `J0`; for a nonce of 12 bytes `J0` is
the nonce followed by `00 00 00 01`, 16 bytes in all, and for any other nonce `J0` is
the block that the hash leaves after `ProcessSegment` over the whole nonce and
`FinalizeBlock` with the nonce size, from the zero block. With a non-empty key the cipher
is keyed with the key container and the hash with the two big-endian words of the
encryption of the zero block. -/
theorem GMAC_Initialize_precounter {B G : Type} (P : GmacPrimitives B G) (g : GMAC B G)
    (KeyParams : SymmetricKey)
    (hk : KeyParams.Key.length ∈ g.m_legalKeySizes)
    (hn : GMAC.TAG_MINLEN ≤ KeyParams.Nonce.length)
    (hblk : ∀ c x, 16 ≤ (P.CipherTransform c x).length) :
    ∃ g1 g2 J0,
      GMAC.LoadKey P (if g.m_isInitialized then GMAC.Reset P g else g) KeyParams = some g1 ∧
      GMAC.Initialize P g KeyParams = .ok g2 ∧
      g2.m_isInitialized = true ∧
      g2.m_blockCipher = g1.m_blockCipher ∧
      g2.m_gmacNonce = P.CipherTransform g2.m_blockCipher J0 ∧
      (KeyParams.Nonce.length = 12 →
        J0 = KeyParams.Nonce ++ [0, 0, 0, 1] ∧ J0.length = 16) ∧
      (KeyParams.Nonce.length ≠ 12 →
        J0 = (P.HashFinalizeBlock
          (P.HashProcessSegment g1.m_gmacHash KeyParams.Nonce 0
            (List.replicate 16 0) KeyParams.Nonce.length).1
          (P.HashProcessSegment g1.m_gmacHash KeyParams.Nonce 0
            (List.replicate 16 0) KeyParams.Nonce.length).2 0 KeyParams.Nonce.length).2) ∧
      (KeyParams.Key.length ≠ 0 →
        ∃ h0 h1,
          g1.m_blockCipher = P.CipherInitialize g.m_blockCipher KeyParams ∧
          BeBytesTo64 (P.CipherTransform g1.m_blockCipher (List.replicate 16 0)) 0 = some h0 ∧
          BeBytesTo64 (P.CipherTransform g1.m_blockCipher (List.replicate 16 0)) 8 = some h1 ∧
          g1.m_gmacHash = P.HashInitialize
            (if g.m_isInitialized then P.HashReset g.m_gmacHash else g.m_gmacHash) [h0, h1]) := by
  have hkey : ∃ g1, GMAC.LoadKey P (if g.m_isInitialized then GMAC.Reset P g else g) KeyParams
        = some g1 ∧
      (KeyParams.Key.length ≠ 0 →
        ∃ h0 h1,
          g1.m_blockCipher = P.CipherInitialize g.m_blockCipher KeyParams ∧
          BeBytesTo64 (P.CipherTransform g1.m_blockCipher (List.replicate 16 0)) 0 = some h0 ∧
          BeBytesTo64 (P.CipherTransform g1.m_blockCipher (List.replicate 16 0)) 8 = some h1 ∧
          g1.m_gmacHash = P.HashInitialize
            (if g.m_isInitialized then P.HashReset g.m_gmacHash else g.m_gmacHash)
            [h0, h1]) := by
    have hc : (if g.m_isInitialized then GMAC.Reset P g else g).m_blockCipher
        = g.m_blockCipher := by
      split_ifs <;> rfl
    have hh : (if g.m_isInitialized then GMAC.Reset P g else g).m_gmacHash
        = (if g.m_isInitialized then P.HashReset g.m_gmacHash else g.m_gmacHash) := by
      split_ifs <;> rfl
    by_cases h0 : KeyParams.Key.length ≠ 0
    · obtain ⟨w0, w1, e0, e1, hl⟩ := GMAC_LoadKey_keyed P
        (if g.m_isInitialized then GMAC.Reset P g else g) KeyParams h0
        (hblk _ _)
      rw [hc] at e0 e1
      refine ⟨_, hl, fun _ => ⟨w0, w1, ?_, ?_, ?_, ?_⟩⟩
      · simp only [hc]
      · simp only [hc]
        exact e0
      · simp only [hc]
        exact e1
      · simp only [hh]
    · have hl : GMAC.LoadKey P (if g.m_isInitialized then GMAC.Reset P g else g) KeyParams
          = some (if g.m_isInitialized then GMAC.Reset P g else g) := by
        unfold GMAC.LoadKey
        rw [if_neg h0]
      exact ⟨_, hl, fun h => absurd h h0⟩
  obtain ⟨g1, hg1, hkey1⟩ := hkey
  have hinit : GMAC.Initialize P g KeyParams
      = .ok { GMAC.LoadNonce P g1 KeyParams.Nonce with
              m_gmacNonce :=
                P.CipherTransform (GMAC.LoadNonce P g1 KeyParams.Nonce).m_blockCipher
                  (GMAC.LoadNonce P g1 KeyParams.Nonce).m_gmacNonce,
              m_isInitialized := true } := by
    unfold GMAC.Initialize
    rw [if_neg (by simpa using hk), if_neg (by omega)]
    simp only [hg1]
  have hcipher : (GMAC.LoadNonce P g1 KeyParams.Nonce).m_blockCipher = g1.m_blockCipher := by
    unfold GMAC.LoadNonce
    split_ifs <;> rfl
  refine ⟨g1, _, (GMAC.LoadNonce P g1 KeyParams.Nonce).m_gmacNonce, hg1, hinit, rfl, hcipher,
    rfl, ?_, ?_, hkey1⟩
  · intro h12
    have : (GMAC.LoadNonce P g1 KeyParams.Nonce).m_gmacNonce
        = KeyParams.Nonce ++ [0, 0, 0, 1] := by
      unfold GMAC.LoadNonce
      rw [if_pos h12]
      exact resize_12 _ h12
    rw [this]
    refine ⟨rfl, ?_⟩
    rw [List.length_append, h12]
    rfl
  · intro h12
    unfold GMAC.LoadNonce
    rw [if_neg h12]
    rfl

set_option maxRecDepth 100000 in
/-- The sample generator: a key of 16 bytes and the nonce `01 .. 0C`; the masking block is
the encryption of `01 .. 0C 00 00 00 01`. -/
theorem GMAC_Initialize_precounter_witness :
    ∃ g2, GMAC.Initialize SampleGmacPrimitives (GMAC.new [] ([], []) [16, 32]) SampleGmacKey
        = .ok g2 ∧
      g2.m_gmacNonce = SampleGmacPrimitives.CipherTransform g2.m_blockCipher
        [1, 2, 3, 4, 5, 6, 7, 8, 9, 10, 11, 12, 0, 0, 0, 1] := by
  obtain ⟨g1, g2, J0, _, h2, _, _, h5, h6, _, _⟩ := GMAC_Initialize_precounter
    SampleGmacPrimitives (GMAC.new [] ([], []) [16, 32]) SampleGmacKey (by decide) (by decide)
    (by intro c x; simp [SampleGmacPrimitives])
  refine ⟨g2, h2, ?_⟩
  rw [h5, (h6 (by decide)).1]
  rfl

/-! ## Little-endian loads and stores -/

theorem LeBytes_length (n v : Nat) : (LeBytes n v).length = n := by
  induction n generalizing v with
  | zero => rfl
  | succ n ih => rw [LeBytes, List.length_cons, ih]

theorem LeBytes_lt (n v : Nat) : ∀ b ∈ LeBytes n v, b < 256 := by
  induction n generalizing v with
  | zero =>
    intro b hb
    cases hb
  | succ n ih =>
    intro b hb
    rw [LeBytes, List.mem_cons] at hb
    rcases hb with h | h
    · rw [h]
      exact Nat.mod_lt _ (by decide)
    · exact ih _ b h

theorem LeValue_LeBytes (n v : Nat) : LeValue (LeBytes n v) = v % 256 ^ n := by
  induction n generalizing v with
  | zero => rw [LeBytes, LeValue, Nat.pow_zero, Nat.mod_one]
  | succ n ih =>
    rw [LeBytes, LeValue, ih, Nat.pow_succ, Nat.mul_comm (256 ^ n) 256, Nat.mod_mul]

theorem LeBytes_LeValue (l : List Nat) (hb : ∀ b ∈ l, b < 256) :
    LeBytes l.length (LeValue l) = l := by
  induction l with
  | nil => rfl
  | cons a l ih =>
    have ha : a < 256 := hb a (List.mem_cons_self _ _)
    rw [List.length_cons, LeBytes, LeValue]
    have h1 : (a + 256 * LeValue l) % 256 = a := by omega
    have h2 : (a + 256 * LeValue l) / 256 = LeValue l := by omega
    rw [h1, h2, ih (fun b h => hb b (List.mem_cons_of_mem _ h))]

theorem LeValue_lt (l : List Nat) (hb : ∀ b ∈ l, b < 256) : LeValue l < 256 ^ l.length := by
  induction l with
  | nil =>
    rw [LeValue]
    exact Nat.one_pos
  | cons a l ih =>
    have ha : a < 256 := hb a (List.mem_cons_self _ _)
    have := ih (fun b h => hb b (List.mem_cons_of_mem _ h))
    rw [LeValue, List.length_cons, Nat.pow_succ]
    omega

theorem LeBytes_getD (n v i : Nat) (h : i < n) :
    (LeBytes n v).getD i 0 = (v >>> (8 * i)) % 256 := by
  induction n generalizing v i with
  | zero => omega
  | succ n ih =>
    rw [LeBytes]
    cases i with
    | zero => rfl
    | succ i =>
      rw [List.getD_cons_succ, ih _ _ (by omega), Nat.shiftRight_eq_div_pow,
        Nat.shiftRight_eq_div_pow, Nat.div_div_eq_div_mul]
      congr 2
      rw [Nat.mul_succ, Nat.pow_add, Nat.mul_comm]

theorem slice_succ (v : List Nat) (o n : Nat) (h : o < v.length) :
    slice v o (n + 1) = v.getD o 0 :: slice v (o + 1) n := by
  unfold slice
  rw [List.drop_eq_getElem_cons h, List.take_succ_cons, List.getD_eq_getElem _ _ h]

theorem slice_zero (v : List Nat) (o : Nat) : slice v o 0 = [] := by
  unfold slice
  rw [List.take_zero]

theorem mem_slice (v : List Nat) (o n b : Nat) (h : b ∈ slice v o n) : b ∈ v := by
  unfold slice at h
  exact List.mem_of_mem_drop (List.mem_of_mem_take h)

theorem or_shl (acc b k : Nat) (h : acc < 2 ^ k) : acc ||| (b <<< k) = acc + 2 ^ k * b := by
  rw [Nat.lor_comm, Nat.shiftLeft_eq, Nat.mul_comm b, ← Nat.mul_add_lt_is_or h, Nat.add_comm]

theorem and_0xFF (x : Nat) : x &&& 0xFF = x % 256 :=
  Nat.and_pow_two_sub_one_eq_mod x 8

theorem getD_slice_lt (X : List Nat) (off n : Nat) (h : off + n ≤ X.length)
    (hb : ∀ b ∈ slice X off n, b < 256) (i : Nat) (hi : i < n) : X.getD (off + i) 0 < 256 := by
  have hi1 : i < (slice X off n).length := by rw [slice_length _ _ _ h]; exact hi
  have h1 := List.getElem?_eq_getElem hi1
  rw [getElem?_slice, if_pos hi] at h1
  rw [List.getD_eq_getElem?_getD, h1]
  exact hb _ (List.getElem_mem hi1)

theorem LeLoadStorePair_of (n : Nat) (store : Nat → List Nat → Nat → Option (List Nat))
    (load : List Nat → Nat → Option Nat)
    (hs : ∀ v Output off, off + n ≤ Output.length →
      store v Output off = some (writeAt Output off (LeBytes n v)))
    (hl : ∀ X off, off + n ≤ X.length → (∀ b ∈ slice X off n, b < 256) →
      load X off = some (LeValue (slice X off n))) :
    LeLoadStorePair n store load := by
  have hpow : (2 : Nat) ^ (8 * n) = 256 ^ n := by
    rw [Nat.pow_mul]
  constructor
  · intro v Output OutOffset hv hout
    have hlen : (writeAt Output OutOffset (LeBytes n v)).length = Output.length :=
      writeAt_length _ _ _ (by rw [LeBytes_length]; exact hout)
    refine ⟨_, hs v Output OutOffset hout, hlen, ?_, ?_, ?_⟩
    · intro i hi
      rw [getD_writeAt _ _ _ (by omega), if_neg (by omega),
        if_pos (by rw [LeBytes_length]; omega), Nat.add_sub_cancel_left,
        LeBytes_getD _ _ _ hi, and_0xFF]
    · intro j hj
      rw [getElem?_writeAt _ _ _ (by omega), LeBytes_length]
      split_ifs
      · rfl
      · exfalso; omega
      · rfl
    · have hsl : slice (writeAt Output OutOffset (LeBytes n v)) OutOffset n = LeBytes n v := by
        have := slice_writeAt Output OutOffset (LeBytes n v) (by omega)
        rw [LeBytes_length] at this
        exact this
      rw [hl _ _ (by rw [hlen]; exact hout) (by rw [hsl]; exact LeBytes_lt n v), hsl,
        LeValue_LeBytes, ← hpow, Nat.mod_eq_of_lt hv]
  · intro Input InOffset Output OutOffset hb hin hout
    have hbs : ∀ b ∈ slice Input InOffset n, b < 256 := fun b h => hb b (mem_slice _ _ _ _ h)
    have hsl : (slice Input InOffset n).length = n := slice_length _ _ _ hin
    have hback : LeBytes n (LeValue (slice Input InOffset n)) = slice Input InOffset n := by
      have := LeBytes_LeValue _ hbs
      rw [hsl] at this
      exact this
    refine ⟨_, _, hl Input InOffset hin hbs, ?_, hs _ Output OutOffset hout, ?_, ?_⟩
    · have := LeValue_lt _ hbs
      rw [hsl] at this
      rw [hpow]
      exact this
    · rw [hback]
      have := slice_writeAt Output OutOffset (slice Input InOffset n) (by omega)
      rw [hsl] at this
      exact this
    · rw [hs _ Input InOffset hin, hback, writeAt_slice _ _ _ hin]

theorem Le64Bytes_eq (v : Nat) : Le64Bytes v = LeBytes 8 v := by
  unfold Le64Bytes
  simp only [LeBytes, Nat.shiftRight_eq_div_pow]
  refine congrArg₂ _ rfl (congrArg₂ _ ?_ (congrArg₂ _ ?_ (congrArg₂ _ ?_ (congrArg₂ _ ?_
    (congrArg₂ _ ?_ (congrArg₂ _ ?_ (congrArg₂ _ ?_ rfl))))))) <;> omega

theorem LeBytesTo64_value (X : List Nat) (off : Nat) (h : off + 8 ≤ X.length)
    (hb : ∀ b ∈ slice X off 8, b < 256) :
    LeBytesTo64 X off = some (LeValue (slice X off 8)) := by
  have g := getD_slice_lt X off 8 h hb
  have g0 := g 0 (by omega)
  have g1 := g 1 (by omega)
  have g2 := g 2 (by omega)
  have g3 := g 3 (by omega)
  have g4 := g 4 (by omega)
  have g5 := g 5 (by omega)
  have g6 := g 6 (by omega)
  have g7 := g 7 (by omega)
  rw [Nat.add_zero] at g0
  unfold LeBytesTo64
  rw [if_pos h, slice_succ _ _ _ (by omega), slice_succ _ _ _ (by omega),
    slice_succ _ _ _ (by omega), slice_succ _ _ _ (by omega), slice_succ _ _ _ (by omega),
    slice_succ _ _ _ (by omega), slice_succ _ _ _ (by omega), slice_succ _ _ _ (by omega),
    slice_zero]
  simp only [LeValue, Nat.add_assoc, Nat.reduceAdd]
  rw [or_shl _ _ 8 g0, or_shl _ _ 16 (by omega), or_shl _ _ 24 (by omega),
    or_shl _ _ 32 (by omega), or_shl _ _ 40 (by omega), or_shl _ _ 48 (by omega),
    or_shl _ _ 56 (by omega)]
  congr 1
  omega

theorem LeBytesTo32_value (X : List Nat) (off : Nat) (h : off + 4 ≤ X.length)
    (hb : ∀ b ∈ slice X off 4, b < 256) :
    LeBytesTo32 X off = some (LeValue (slice X off 4)) := by
  have g := getD_slice_lt X off 4 h hb
  have g0 := g 0 (by omega)
  have g1 := g 1 (by omega)
  have g2 := g 2 (by omega)
  have g3 := g 3 (by omega)
  rw [Nat.add_zero] at g0
  unfold LeBytesTo32
  rw [if_pos h, slice_succ _ _ _ (by omega), slice_succ _ _ _ (by omega),
    slice_succ _ _ _ (by omega), slice_succ _ _ _ (by omega), slice_zero]
  simp only [LeValue, Nat.add_assoc, Nat.reduceAdd]
  rw [or_shl _ _ 8 g0, or_shl _ _ 16 (by omega), or_shl _ _ 24 (by omega)]
  congr 1
  omega

theorem LeBytesTo16_value (X : List Nat) (off : Nat) (h : off + 2 ≤ X.length)
    (hb : ∀ b ∈ slice X off 2, b < 256) :
    LeBytesTo16 X off = some (LeValue (slice X off 2)) := by
  have g := getD_slice_lt X off 2 h hb
  have g0 := g 0 (by omega)
  have g1 := g 1 (by omega)
  rw [Nat.add_zero] at g0
  unfold LeBytesTo16
  rw [if_pos h, slice_succ _ _ _ (by omega), slice_succ _ _ _ (by omega), slice_zero]
  simp only [LeValue, Nat.add_assoc, Nat.reduceAdd]
  rw [or_shl _ _ 8 g0]
  congr 1

/-- C22: `Le64ToBytes` and `LeBytesTo64` are inverse to each other, and so are the 32-bit
and the 16-bit pairs. Storing a word `v` of the width writes the byte `(v >> 8 * i) & 0xFF`
at `Output[OutOffset + i]` and no other byte, and loading from those bytes returns `v`;
storing the word loaded from any bytes of a byte array writes those bytes. -/
theorem Le_load_store_pairs :
    LeLoadStorePair 8 Le64ToBytes LeBytesTo64 ∧
      LeLoadStorePair 4 Le32ToBytes LeBytesTo32 ∧
      LeLoadStorePair 2 Le16ToBytes LeBytesTo16 := by
  refine ⟨LeLoadStorePair_of 8 _ _ ?_ LeBytesTo64_value,
    LeLoadStorePair_of 4 _ _ ?_ LeBytesTo32_value,
    LeLoadStorePair_of 2 _ _ ?_ LeBytesTo16_value⟩
  · intro v Output off h
    unfold Le64ToBytes
    rw [if_pos h, Le64Bytes_eq]
  · intro v Output off h
    unfold Le32ToBytes
    rw [if_pos h]
    simp only [LeBytes, Nat.shiftRight_eq_div_pow]
    congr 2
    refine congrArg₂ _ rfl (congrArg₂ _ ?_ (congrArg₂ _ ?_ (congrArg₂ _ ?_ rfl))) <;> omega
  · intro v Output off h
    unfold Le16ToBytes
    rw [if_pos h]
    simp only [LeBytes, Nat.shiftRight_eq_div_pow]

/-- The word `0x0102030405060708` stored at offset 1 of an array of ten bytes and loaded
again, and the 32-bit word loaded from `DD CC BB AA`. -/
theorem Le_load_store_pairs_witness :
    (∃ out, Le64ToBytes 0x0102030405060708 (List.replicate 10 9) 1 = some out ∧
      out = [9, 8, 7, 6, 5, 4, 3, 2, 1, 9] ∧
      LeBytesTo64 out 1 = some 0x0102030405060708) ∧
    (∃ w, LeBytesTo32 [0xDD, 0xCC, 0xBB, 0xAA] 0 = some w ∧ w = 0xAABBCCDD ∧
      Le32ToBytes w [0xDD, 0xCC, 0xBB, 0xAA] 0 = some [0xDD, 0xCC, 0xBB, 0xAA]) := by
  constructor
  · obtain ⟨out, h1, _, _, _, h5⟩ := Le_load_store_pairs.1.1 0x0102030405060708
      (List.replicate 10 9) 1 (by decide) (by decide)
    refine ⟨out, h1, ?_, h5⟩
    have h : Le64ToBytes 0x0102030405060708 (List.replicate 10 9) 1
        = some [9, 8, 7, 6, 5, 4, 3, 2, 1, 9] := by decide
    rw [h] at h1
    exact (Option.some.inj h1).symm
  · obtain ⟨w, out, h1, _, _, _, h5⟩ := Le_load_store_pairs.2.1.2 [0xDD, 0xCC, 0xBB, 0xAA] 0
      [0xDD, 0xCC, 0xBB, 0xAA] 0 (by decide) (by decide) (by decide)
    have h : LeBytesTo32 [0xDD, 0xCC, 0xBB, 0xAA] 0 = some 0xAABBCCDD := by decide
    rw [h] at h1
    have hw : w = 0xAABBCCDD := (Option.some.inj h1).symm
    exact ⟨w, by rw [hw]; exact h, hw, h5⟩

/-! ## `LeIncreaseW`, the single-byte `Update` of `GMAC`, `DeSerialize` and `OFB` -/

theorem LeIncreaseW_eq (c : Nat × Nat) (n : Nat) (hc : WordsOk c) (hn : n < 2 ^ 64) :
    LeIncreaseW c n = CounterOfValue (CounterValue c + n) := by
  obtain ⟨a, b⟩ := c
  obtain ⟨ha, hb⟩ := hc
  simp only at ha hb
  unfold LeIncreaseW CounterOfValue CounterValue
  simp only [Nat.mod_eq_of_lt hn]
  split_ifs with h
  · refine Prod.ext ?_ ?_ <;> simp only <;> omega
  · refine Prod.ext ?_ ?_ <;> simp only <;> omega

theorem LeIncreaseWInPlace_eq (c : Nat × Nat) (n : Nat) (hc : WordsOk c) (hn : n < 2 ^ 64) :
    LeIncreaseWInPlace c n = CounterOfValue (CounterValue c + n) := by
  obtain ⟨a, b⟩ := c
  obtain ⟨ha, hb⟩ := hc
  simp only at ha hb
  unfold LeIncreaseWInPlace CounterOfValue CounterValue
  simp only [Nat.mod_eq_of_lt hn]
  split_ifs with h
  · refine Prod.ext ?_ ?_ <;> simp only <;> omega
  · refine Prod.ext ?_ ?_ <;> simp only <;> omega

/-- C32: for a counter of two 64-bit words and every `n < 2 ^ 64`, both overloads of
`LeIncreaseW`, the one that works in place and the one that copies and adds, return the
counter whose word 0 is the low half and whose word 1 is the high half of
`(w0 + 2 ^ 64 * w1 + n) mod 2 ^ 128`; the value of the result is that sum, its words are
64-bit words, and the result is the counter after `n` applications of `LeIncrementW`. -/
theorem LeIncreaseW_is_sum (c : Nat × Nat) (n : Nat) (hc : WordsOk c) (hn : n < 2 ^ 64) :
    LeIncreaseWInPlace c n
        = ((c.1 + 2 ^ 64 * c.2 + n) % 2 ^ 128 % 2 ^ 64,
           (c.1 + 2 ^ 64 * c.2 + n) % 2 ^ 128 / 2 ^ 64) ∧
      LeIncreaseW c n = LeIncreaseWInPlace c n ∧
      CounterValue (LeIncreaseWInPlace c n) = (CounterValue c + n) % 2 ^ 128 ∧
      CounterValue (LeIncreaseW c n) = (CounterValue c + n) % 2 ^ 128 ∧
      WordsOk (LeIncreaseW c n) ∧
      Nat.iterate LeIncrementW n c = LeIncreaseW c n ∧
      Nat.iterate LeIncrementW n c = LeIncreaseWInPlace c n := by
  have e1 := LeIncreaseW_eq c n hc hn
  have e2 := LeIncreaseWInPlace_eq c n hc hn
  have e3 := LeIncrementW_iterate c hc n
  rw [e1, e2, e3]
  refine ⟨?_, rfl, CounterValue_ofValue _, CounterValue_ofValue _, CounterOfValue_wordsOk _,
    rfl, rfl⟩
  unfold CounterOfValue CounterValue
  refine Prod.ext ?_ ?_ <;> simp only <;> omega

/-- The counter `(2 ^ 64 - 1, 7)` increased by 3: the low word wraps to 2 and the carry
goes to the high word. -/
theorem LeIncreaseW_is_sum_witness :
    LeIncreaseWInPlace (2 ^ 64 - 1, 7) 3 = (2, 8) ∧ LeIncreaseW (2 ^ 64 - 1, 7) 3 = (2, 8) ∧
      Nat.iterate LeIncrementW 3 (2 ^ 64 - 1, 7) = (2, 8) := by
  have h := LeIncreaseW_is_sum (2 ^ 64 - 1, 7) 3 (by decide) (by decide)
  have e : LeIncreaseWInPlace (2 ^ 64 - 1, 7) 3 = (2, 8) := by decide
  exact ⟨e, by rw [h.2.1, e], by rw [h.2.2.2.2.2.2, e]⟩

set_option maxRecDepth 100000 in
/-- C39, at the failing input: on the sample generator `Update(b)` with the byte 1 and
`Update([1], 0, 1)` both return and leave the same hash state and the same code block,
but the processed-length counter is 0 after the first and 1 after the second, and
`Finalize`, which passes the counter to the hash, returns different tags. -/
theorem GMAC_Update_byte_skips_counter :
    ∃ g1 g2 f1 f2 tag1 tag2,
      GMAC.UpdateByte SampleGmacPrimitives SampleGmac 1 = .ok g1 ∧
      GMAC.Update SampleGmacPrimitives SampleGmac [1] 0 1 = .ok g2 ∧
      g1.m_gmacHash = g2.m_gmacHash ∧ g1.m_msgCode = g2.m_msgCode ∧
      g1.m_msgCounter = 0 ∧ g2.m_msgCounter = 1 ∧
      GMAC.Finalize SampleGmacPrimitives g1 (List.replicate 16 0) 0 = .ok (f1, tag1) ∧
      GMAC.Finalize SampleGmacPrimitives g2 (List.replicate 16 0) 0 = .ok (f2, tag2) ∧
      tag1 ≠ tag2 := by
  refine ⟨_, _, _, _, _, _, rfl, rfl, ?_, ?_, ?_, ?_, rfl, rfl, ?_⟩ <;> decide

theorem GMAC_UpdateByte_counter {B G : Type} (P : GmacPrimitives B G) (g : GMAC B G) (b : Nat)
    (h : g.m_isInitialized = true) :
    ∃ g1 g2, GMAC.UpdateByte P g b = .ok g1 ∧ GMAC.Update P g [b] 0 1 = .ok g2 ∧
      g1.m_gmacHash = g2.m_gmacHash ∧ g1.m_msgCode = g2.m_msgCode ∧
      g1.m_msgCounter = g.m_msgCounter ∧
      g2.m_msgCounter = (g.m_msgCounter + 1) % 2 ^ 64 := by
  have e1 : GMAC.UpdateByte P g b
      = .ok { g with m_gmacHash := (P.HashUpdate g.m_gmacHash [b] 0 g.m_msgCode 1).1,
                     m_msgCode := (P.HashUpdate g.m_gmacHash [b] 0 g.m_msgCode 1).2 } := by
    unfold GMAC.UpdateByte
    rw [if_neg (by simp [h])]
  have e2 : GMAC.Update P g [b] 0 1
      = .ok { g with m_gmacHash := (P.HashUpdate g.m_gmacHash [b] 0 g.m_msgCode 1).1,
                     m_msgCode := (P.HashUpdate g.m_gmacHash [b] 0 g.m_msgCode 1).2,
                     m_msgCounter := (g.m_msgCounter + 1) % 2 ^ 64 } := by
    have hs : ¬ (([b].length + 2 ^ 64 - 0) % 2 ^ 64 < 1) := by
      rw [List.length_singleton]
      omega
    unfold GMAC.Update
    rw [if_neg (by simp [h]), if_neg hs, if_pos (by omega), if_pos (by simp)]
  exact ⟨_, _, e1, e2, rfl, rfl, rfl, rfl⟩

theorem DeSerialize_long (KeyStream : List Nat) (h : 4 ≤ KeyStream.length)
    (h0 : KeyStream.getD 0 0 ≠ AsymmetricKeyTypes.None)
    (h1 : KeyStream.getD 1 0 ≠ AsymmetricParameters.NoneId)
    (h2 : KeyStream.getD 2 0 ≠ AsymmetricPrimitives.None) :
    AsymmetricKey.DeSerialize KeyStream
      = some (.ok ⟨KeyStream.drop 3, KeyStream.getD 0 0, KeyStream.getD 2 0,
          KeyStream.getD 1 0⟩) := by
  unfold AsymmetricKey.DeSerialize AsymmetricKey.new
  rw [if_neg (by omega), if_pos ⟨by rw [List.length_drop]; omega, h2, h0, h1⟩]

theorem DeSerialize_three (KeyStream : List Nat) (h : KeyStream.length = 3) :
    AsymmetricKey.DeSerialize KeyStream = some (.error .InvalidParam) := by
  unfold AsymmetricKey.DeSerialize AsymmetricKey.new
  rw [if_neg (by omega), if_neg (by rw [List.length_drop]; omega)]

/-- C40, at the failing input: `DeSerialize` of a blob of two bytes, of one byte and of
the empty blob reads `KeyStream[2]`, outside the blob, and forms the range that starts at
`begin() + 3`, behind its end: the call is undefined, it does not fail with an error. A
blob of three bytes is rejected by the constructor with `InvalidParam`, and a blob of four
bytes with header bytes other than `None` gives the key whose polynomial is byte 3. -/
theorem DeSerialize_short_blob :
    AsymmetricKey.DeSerialize [2, 11] = none ∧
      AsymmetricKey.DeSerialize [2] = none ∧
      AsymmetricKey.DeSerialize [] = none ∧
      AsymmetricKey.DeSerialize [2, 11, 4] = some (.error .InvalidParam) ∧
      AsymmetricKey.DeSerialize [2, 11, 4, 9] = some (.ok ⟨[9], 2, 4, 11⟩) :=
  ⟨rfl, rfl, rfl, rfl, rfl⟩

set_option maxRecDepth 100000 in
/-- C37, at the failing input: with a register of 8 bytes around a cipher of 16-byte
blocks, `Transform` of 16 bytes returns after one call of `EncryptBlock`, which writes 8
bytes: the bytes 8 to 15 of `Output` are as before the call (here `AA`), not the input
combined with a key stream. Transforming the result again after `Initialize` with the same
key and nonce returns the first 8 input bytes only. With a register of 16 bytes every
byte is written and the second pass returns the input. -/
theorem OFB_Transform_short_register :
    ∃ o1 out1 o2 out2 p1 q1 p2 q2,
      SampleOfb8.m_blockSize = 8 ∧ SampleBlockCipher.BlockSize = 16 ∧
      OFB.Transform SampleBlockCipher SampleOfb8 ((List.range 16).map (fun i => i + 1)) 0
        (List.replicate 16 0xAA) 0 16 = some (.ok (o1, out1)) ∧
      slice out1 8 8 = List.replicate 8 0xAA ∧
      OFB.Transform SampleBlockCipher SampleOfb8 out1 0 (List.replicate 16 0xBB) 0 16
        = some (.ok (o2, out2)) ∧
      out2 = [1, 2, 3, 4, 5, 6, 7, 8] ++ List.replicate 8 0xBB ∧
      out2 ≠ (List.range 16).map (fun i => i + 1) ∧
      OFB.Transform SampleBlockCipher SampleOfb16 ((List.range 16).map (fun i => i + 1)) 0
        (List.replicate 16 0xAA) 0 16 = some (.ok (p1, q1)) ∧
      OFB.Transform SampleBlockCipher SampleOfb16 q1 0 (List.replicate 16 0xBB) 0 16
        = some (.ok (p2, q2)) ∧
      q2 = (List.range 16).map (fun i => i + 1) := by
  refine ⟨_, _, _, _, _, _, _, _, ?_, ?_, rfl, ?_, rfl, ?_, ?_, rfl, rfl, ?_⟩ <;> decide

/-! ## The MAC key after an authenticated `Transform` -/

theorem Transform_decrypt_auth_inv_failure (P : Primitives) (c : TSX1024) (m : MacState)
    (Input : List Nat) (InOffset : Nat) (Output : List Nat) (OutOffset L : Nat)
    (r : TSX1024 × List Nat)
    (hr : AuthReady P c m) (he : c.State.Encryption = false)
    (h : Transform P c Input InOffset Output OutOffset L = .throw .AuthenticationFailure r) :
    InOffset + L + P.TagSize ≤ Input.length := by
  obtain ⟨hm, hi, ht, hc, hk⟩ := hr
  obtain ⟨S, M, Pr⟩ := c
  simp only at hm he ht hc hk
  subst hm
  unfold Transform at h
  simp only [IsEncryption, IsAuthenticator, he, Bool.false_eq_true, if_false,
    Option.isSome_some, if_true] at h
  rw [MacUpdate_eq _ m _ _ _ _ rfl hi (by rw [Le64Bytes_length])] at h
  simp only [Outcome.andThen] at h
  rw [MacUpdate_eq _ _ _ _ _ _ rfl (by exact hi) (by rw [Le64Bytes_length])] at h
  simp only [Outcome.andThen] at h
  by_cases hb : InOffset + L ≤ Input.length
  · rw [MacUpdate_eq _ _ _ _ _ _ rfl (by exact hi) hb] at h
    simp only [Outcome.andThen, AddCounter, FinalizeStep] at h
    rw [Finalize_eq P _ _ rfl (by exact hi) (by simp only; omega) (by simpa using hc)
      (by simp only; omega)] at h
    simp only [Outcome.andThen, VerifyTag] at h
    have hcl := Code_length P (⟨m.Initialized, m.Key,
      ((m.Absorbed ++ slice (Le64Bytes S.Nonce.1) 0 8)
        ++ slice (Le64Bytes S.Nonce.2) 0 8) ++ slice Input InOffset L⟩ : MacState)
    rw [writeAt_full S.MacTag _ (by rw [hcl, ht]), hcl] at h
    unfold Compare at h
    by_cases hcmp : InOffset + L + P.TagSize ≤ Input.length ∧
        0 + P.TagSize ≤ (IMac.Code P (⟨m.Initialized, m.Key,
          ((m.Absorbed ++ slice (Le64Bytes S.Nonce.1) 0 8)
            ++ slice (Le64Bytes S.Nonce.2) 0 8) ++ slice Input InOffset L⟩ : MacState)).length
    · exact hcmp.1
    · rw [if_neg hcmp] at h
      cases h
  · unfold MacUpdate IMac.Update at h
    simp only [hi, Bool.true_eq_false, if_false, if_pos (Nat.lt_of_not_le hb),
      Outcome.andThen] at h
    cases h

theorem Transform_encrypt_auth_no_failure (P : Primitives) (c : TSX1024) (m : MacState)
    (Input : List Nat) (InOffset : Nat) (Output : List Nat) (OutOffset L : Nat)
    (r : TSX1024 × List Nat)
    (hr : AuthReady P c m) (he : c.State.Encryption = true) :
    Transform P c Input InOffset Output OutOffset L ≠ .throw .AuthenticationFailure r := by
  intro h
  by_cases hguard : Output.length < (L + OutOffset + P.TagSize) % 2 ^ 64
  · unfold Transform at h
    obtain ⟨hm, hi, ht, hc, hk⟩ := hr
    simp only [IsEncryption, IsAuthenticator, he, if_true, hm, Option.isSome_some,
      if_pos hguard] at h
    cases h
  · cases hproc : Process P c Input InOffset Output OutOffset L with
    | none =>
      obtain ⟨hm, hi, ht, hc, hk⟩ := hr
      obtain ⟨S, M, Pr⟩ := c
      simp only at hm he ht hc hk
      subst hm
      unfold Transform at h
      simp only [IsEncryption, IsAuthenticator, he, if_true, Option.isSome_some,
        if_neg hguard] at h
      rw [MacUpdate_eq _ m _ _ _ _ rfl hi (by rw [Le64Bytes_length])] at h
      simp only [Outcome.andThen] at h
      rw [MacUpdate_eq _ _ _ _ _ _ rfl (by exact hi) (by rw [Le64Bytes_length])] at h
      simp only [Outcome.andThen, ProcessStep] at h
      rw [Process_congr P ⟨S, some m, Pr⟩
        ⟨S, some ⟨m.Initialized, m.Key, m.Absorbed ++ slice (Le64Bytes S.Nonce.1) 0 8
          ++ slice (Le64Bytes S.Nonce.2) 0 8⟩, Pr⟩ rfl rfl rfl rfl, hproc] at h
      cases h
    | some q =>
      obtain ⟨c1, out1⟩ := q
      by_cases hout : OutOffset + L + P.TagSize ≤ Output.length
      · rw [Transform_encrypt_auth P c m Input InOffset Output OutOffset L c1 out1 hr he hout
          hproc] at h
        cases h
      · have hfr := (Process_frame P _ Input InOffset Output OutOffset L (c1, out1) hproc).2
        simp only at hfr
        obtain ⟨hm, hi, ht, hc, hk⟩ := hr
        obtain ⟨S, M, Pr⟩ := c
        simp only at hm he ht hc hk
        subst hm
        unfold Transform at h
        simp only [IsEncryption, IsAuthenticator, he, if_true, Option.isSome_some,
          if_neg hguard] at h
        rw [MacUpdate_eq _ m _ _ _ _ rfl hi (by rw [Le64Bytes_length])] at h
        simp only [Outcome.andThen] at h
        rw [MacUpdate_eq _ _ _ _ _ _ rfl (by exact hi) (by rw [Le64Bytes_length])] at h
        simp only [Outcome.andThen, ProcessStep] at h
        rw [Process_congr P ⟨S, some m, Pr⟩
          ⟨S, some ⟨m.Initialized, m.Key, m.Absorbed ++ slice (Le64Bytes S.Nonce.1) 0 8
            ++ slice (Le64Bytes S.Nonce.2) 0 8⟩, Pr⟩ rfl rfl rfl rfl, hproc] at h
        simp only [Option.map_some'] at h
        by_cases hb : OutOffset + L ≤ out1.length
        · rw [MacUpdate_eq _ _ _ _ _ _ rfl (by exact hi) hb] at h
          simp only [Outcome.andThen, AddCounter, FinalizeStep] at h
          rw [Finalize_eq P _ _ rfl (by exact hi) (by simp only; omega) (by simpa using hc)
            (by simp only; omega)] at h
          simp only [Outcome.andThen, AppendTag] at h
          have hcl := Code_length P (⟨m.Initialized, m.Key,
            ((m.Absorbed ++ slice (Le64Bytes S.Nonce.1) 0 8)
              ++ slice (Le64Bytes S.Nonce.2) 0 8) ++ slice out1 OutOffset L⟩ : MacState)
          rw [writeAt_full S.MacTag _ (by rw [hcl, ht]), hcl] at h
          unfold MemoryTools.Copy at h
          rw [if_neg (by omega)] at h
          cases h
        · unfold MacUpdate IMac.Update at h
          simp only [hi, Bool.true_eq_false, if_false, if_pos (Nat.lt_of_not_le hb),
            Outcome.andThen] at h
          cases h

theorem Transform_auth_end (P : Primitives) (c : TSX1024) (m : MacState)
    (Input : List Nat) (InOffset : Nat) (Output : List Nat) (OutOffset L : Nat)
    (c2 : TSX1024) (out : List Nat) (hr : AuthReady P c m)
    (h : Transform P c Input InOffset Output OutOffset L = .ok (c2, out) ∨
      Transform P c Input InOffset Output OutOffset L = .throw .AuthenticationFailure (c2, out)) :
    c2.State.Counter = (c.State.Counter + L) % 2 ^ 64 ∧
      c2.State.Custom = Le64Bytes ((c.State.Counter + L) % 2 ^ 64) ++ c.State.Custom.drop 8 ∧
      c2.State.MacKey = ShakeGenerate P c.State.MacKey
        (Le64Bytes ((c.State.Counter + L) % 2 ^ 64) ++ c.State.Custom.drop 8) 0 P.MacKeySize ∧
      c2.Mac = some (IMac.Initialize (ShakeGenerate P c.State.MacKey
        (Le64Bytes ((c.State.Counter + L) % 2 ^ 64) ++ c.State.Custom.drop 8) 0
          P.MacKeySize)) := by
  have hk := hr.2.2.2.2
  by_cases he : c.State.Encryption = true
  · rcases h with h | h
    · obtain ⟨hout, cp, outp, hproc⟩ :=
        Transform_encrypt_auth_inv P c m Input InOffset Output OutOffset L _ hr he h
      have hT := Transform_encrypt_auth P c m Input InOffset Output OutOffset L cp outp hr he
        hout hproc
      obtain ⟨f1, f2, f3, f4⟩ := Rekeyed_fields P c m (Le64Bytes c.State.Nonce.1
        ++ Le64Bytes c.State.Nonce.2 ++ slice outp OutOffset L) L hk
      rw [h] at hT
      injection hT with hT
      injection hT with hc2 hO
      rw [hc2]
      simp only
      rw [f4, f3, f2]
      exact ⟨f1, rfl, rfl, rfl⟩
    · exact absurd h (Transform_encrypt_auth_no_failure P c m Input InOffset Output OutOffset L
        _ hr he)
  · have he1 : c.State.Encryption = false := by simpa using he
    have hin : InOffset + L + P.TagSize ≤ Input.length := by
      rcases h with h | h
      · exact Transform_decrypt_auth_inv P c m Input InOffset Output OutOffset L _ hr he1 h
      · exact Transform_decrypt_auth_inv_failure P c m Input InOffset Output OutOffset L _ hr
          he1 h
    have hT := Transform_decrypt_auth P c m Input InOffset Output OutOffset L hr he1 hin
    obtain ⟨f1, f2, f3, f4⟩ := Rekeyed_fields P c m (Le64Bytes c.State.Nonce.1
      ++ Le64Bytes c.State.Nonce.2 ++ slice Input InOffset L) L hk
    rw [f2] at f3
    rw [f3] at f4
    have key : ∀ c3 : TSX1024,
        c3 = { Rekeyed P c m (Le64Bytes c.State.Nonce.1 ++ Le64Bytes c.State.Nonce.2
            ++ slice Input InOffset L) L with
          State := { (Rekeyed P c m (Le64Bytes c.State.Nonce.1 ++ Le64Bytes c.State.Nonce.2
            ++ slice Input InOffset L) L).State with Nonce := c3.State.Nonce } } →
        c3.State.Counter = (c.State.Counter + L) % 2 ^ 64 ∧
          c3.State.Custom
            = Le64Bytes ((c.State.Counter + L) % 2 ^ 64) ++ c.State.Custom.drop 8 ∧
          c3.State.MacKey = ShakeGenerate P c.State.MacKey
            (Le64Bytes ((c.State.Counter + L) % 2 ^ 64) ++ c.State.Custom.drop 8) 0
              P.MacKeySize ∧
          c3.Mac = some (IMac.Initialize (ShakeGenerate P c.State.MacKey
            (Le64Bytes ((c.State.Counter + L) % 2 ^ 64) ++ c.State.Custom.drop 8) 0
              P.MacKeySize)) := by
      intro c3 h3
      rw [h3]
      exact ⟨f1, f2, f3, f4⟩
    rcases h with h | h
    · rw [h] at hT
      split_ifs at hT
      have hproc := ProcessStep_ok _ _ _ _ _ _ _ hT.symm
      exact key c2 (Process_frame P _ Input InOffset Output OutOffset L _ hproc).1
    · rw [h] at hT
      split_ifs at hT
      · unfold ProcessStep at hT
        split at hT <;> cases hT
      · injection hT with _ hT
        injection hT with hc2 _
        rw [hc2]
        exact ⟨f1, f2, f3, f4⟩

/-- C35: two authenticated `Transform` calls of the same length `L` made on the same
cipher, on any two inputs, offsets and outputs, that end normally or with
`AuthenticationFailure`, leave the same stored MAC key, the same MAC counter, the same
customization buffer and the same key in the MAC generator. The new MAC counter is the
old one plus `L` modulo `2 ^ 64`, the customization buffer is its little-endian encoding
followed by the bytes that the buffer held from index 8 on (the cipher name), and the new
MAC key is the cSHAKE output for the old MAC key and that buffer: no byte of the message
enters. -/
theorem Transform_mac_key_ignores_message (P : Primitives) (c : TSX1024) (m : MacState)
    (Input1 Input2 : List Nat) (InOffset1 InOffset2 : Nat) (Output1 Output2 : List Nat)
    (OutOffset1 OutOffset2 L : Nat) (c1 c2 : TSX1024) (out1 out2 : List Nat)
    (hr : AuthReady P c m)
    (h1 : Transform P c Input1 InOffset1 Output1 OutOffset1 L = .ok (c1, out1) ∨
      Transform P c Input1 InOffset1 Output1 OutOffset1 L
        = .throw .AuthenticationFailure (c1, out1))
    (h2 : Transform P c Input2 InOffset2 Output2 OutOffset2 L = .ok (c2, out2) ∨
      Transform P c Input2 InOffset2 Output2 OutOffset2 L
        = .throw .AuthenticationFailure (c2, out2)) :
    c1.State.MacKey = c2.State.MacKey ∧ c1.State.Counter = c2.State.Counter ∧
      c1.State.Custom = c2.State.Custom ∧ c1.Mac = c2.Mac ∧
      c1.State.Counter = (c.State.Counter + L) % 2 ^ 64 ∧
      c1.State.Custom = Le64Bytes ((c.State.Counter + L) % 2 ^ 64) ++ c.State.Custom.drop 8 ∧
      c1.State.MacKey = ShakeGenerate P c.State.MacKey
        (Le64Bytes ((c.State.Counter + L) % 2 ^ 64) ++ c.State.Custom.drop 8) 0
          P.MacKeySize := by
  obtain ⟨a1, a2, a3, a4⟩ :=
    Transform_auth_end P c m Input1 InOffset1 Output1 OutOffset1 L c1 out1 hr h1
  obtain ⟨b1, b2, b3, b4⟩ :=
    Transform_auth_end P c m Input2 InOffset2 Output2 OutOffset2 L c2 out2 hr h2
  exact ⟨by rw [a3, b3], by rw [a1, b1], by rw [a2, b2], by rw [a4, b4], a1, a2, a3⟩

set_option maxRecDepth 100000 in
/-- The sample encryptor on the messages `05 06` and `F7 08`: the ciphertexts differ, the
stored MAC keys, MAC counters and customization buffers are the same. -/
theorem Transform_mac_key_ignores_message_witness :
    ∃ c1 out1 c2 out2,
      Transform SamplePrimitives SampleEncryptor [5, 6] 0 [9, 9, 9, 9, 9, 9] 0 2
        = .ok (c1, out1) ∧
      Transform SamplePrimitives SampleEncryptor [0xF7, 8] 0 [9, 9, 9, 9, 9, 9] 0 2
        = .ok (c2, out2) ∧
      out1 ≠ out2 ∧
      c1.State.MacKey = c2.State.MacKey ∧ c1.State.Counter = c2.State.Counter ∧
      c1.State.Custom = c2.State.Custom ∧ c1.State.Counter = 3 := by
  refine ⟨_, _, _, _, rfl, rfl, by decide, ?_⟩
  have h := Transform_mac_key_ignores_message SamplePrimitives SampleEncryptor
    (IMac.Initialize SampleEncryptor.State.MacKey) [5, 6] [0xF7, 8] 0 0 [9, 9, 9, 9, 9, 9]
    [9, 9, 9, 9, 9, 9] 0 0 2 _ _ _ _ (by unfold AuthReady; decide) (Or.inl rfl) (Or.inl rfl)
  exact ⟨h.1, h.2.1, h.2.2.1, by rw [h.2.2.2.2.1]; decide⟩

open Threefish1024
/-! ## Threefish-1024 -/

theorem Inject_eq (A B R K0 K1 : Nat) :
    Inject A B R K0 K1
      = RefMix ((A + K0 % 2 ^ 64) % 2 ^ 64) ((B + K1 % 2 ^ 64) % 2 ^ 64) R := by
  unfold Inject RefMix
  have h1 : (B + K1) % 2 ^ 64 = (B + K1 % 2 ^ 64) % 2 ^ 64 := by omega
  have h2 : (A + ((B + K1 % 2 ^ 64) % 2 ^ 64 + K0) % 2 ^ 64) % 2 ^ 64
      = ((A + K0 % 2 ^ 64) % 2 ^ 64 + (B + K1 % 2 ^ 64) % 2 ^ 64) % 2 ^ 64 := by omega
  simp only []
  rw [h1, h2]

theorem InjectAt_eq (a b R K0 K1 : Nat) :
    InjectAt a b R K0 K1 = fun B =>
      (B.set a (RefMix ((B.getD a 0 + K0 % 2 ^ 64) % 2 ^ 64)
        ((B.getD b 0 + K1 % 2 ^ 64) % 2 ^ 64) R).1).set b
        (RefMix ((B.getD a 0 + K0 % 2 ^ 64) % 2 ^ 64)
          ((B.getD b 0 + K1 % 2 ^ 64) % 2 ^ 64) R).2 := by
  funext B
  unfold InjectAt
  rw [Inject_eq]

theorem list_of_length_16 (w : List Nat) (h : w.length = 16) :
    ∃ b0 b1 b2 b3 b4 b5 b6 b7 b8 b9 b10 b11 b12 b13 b14 b15,
      w = [b0, b1, b2, b3, b4, b5, b6, b7, b8, b9, b10, b11, b12, b13, b14, b15] := by
  have e : w = (List.range 16).map (fun i => w.getD i 0) := by
    apply List.ext_getElem?
    intro i
    rw [List.getElem?_map]
    by_cases hi : i < 16
    · rw [List.getElem?_range hi, Option.map_some', List.getD_eq_getElem?_getD,
        List.getElem?_eq_getElem (by omega)]
      rfl
    · rw [List.getElem?_eq_none (by omega),
        List.getElem?_eq_none (by rw [List.length_range]; omega)]
      rfl
  exact ⟨_, _, _, _, _, _, _, _, _, _, _, _, _, _, _, _, e⟩

theorem RefSubkey_mod (K T : List Nat) (s i : Nat) :
    RefSubkey K T s i % 2 ^ 64 = RefSubkey K T s i := by
  unfold RefSubkey
  rw [Nat.mod_mod]

theorem RefMixPairs_mod (d : Nat) (v : List Nat) : RefMixPairs d v = RefMixPairs (d % 8) v := by
  unfold RefMixPairs
  rw [Nat.mod_mod]

theorem FourRoundsA_eq (k0 k1 k2 k3 k4 k5 k6 k7 k8 k9 k10 k11 k12 k13 k14 k15 : Nat)
    (b0 b1 b2 b3 b4 b5 b6 b7 b8 b9 b10 b11 b12 b13 b14 b15 : Nat) :
    (FourRoundsA k0 k1 k2 k3 k4 k5 k6 k7 k8 k9 k10 k11 k12 k13 k14 k15).foldl
        (fun B statement => statement B)
        [b0, b1, b2, b3, b4, b5, b6, b7, b8, b9, b10, b11, b12, b13, b14, b15]
      = RefPermute (RefMixPairs 3 (RefPermute (RefMixPairs 2 (RefPermute (RefMixPairs 1
          (RefPermute (RefMixPairs 0
            [(b0 + k0 % 2 ^ 64) % 2 ^ 64, (b1 + k1 % 2 ^ 64) % 2 ^ 64,
             (b2 + k2 % 2 ^ 64) % 2 ^ 64, (b3 + k3 % 2 ^ 64) % 2 ^ 64,
             (b4 + k4 % 2 ^ 64) % 2 ^ 64, (b5 + k5 % 2 ^ 64) % 2 ^ 64,
             (b6 + k6 % 2 ^ 64) % 2 ^ 64, (b7 + k7 % 2 ^ 64) % 2 ^ 64,
             (b8 + k8 % 2 ^ 64) % 2 ^ 64, (b9 + k9 % 2 ^ 64) % 2 ^ 64,
             (b10 + k10 % 2 ^ 64) % 2 ^ 64, (b11 + k11 % 2 ^ 64) % 2 ^ 64,
             (b12 + k12 % 2 ^ 64) % 2 ^ 64, (b13 + k13 % 2 ^ 64) % 2 ^ 64,
             (b14 + k14 % 2 ^ 64) % 2 ^ 64, (b15 + k15 % 2 ^ 64) % 2 ^ 64]))))))) := by
  simp only [FourRoundsA, InjectAt_eq, List.foldl_cons, List.foldl_nil, MixAt,
    List.getD_cons_succ, List.getD_cons_zero, List.set_cons_succ, List.set_cons_zero,
    RefPermute, Permutation, List.map_cons, List.map_nil, RefMixPairs, List.range,
    List.range.loop, List.flatMap_cons, List.flatMap_nil, RotationTable, List.cons_append,
    List.nil_append, Nat.reduceMod, Nat.reduceMul, Nat.reduceAdd, Mix, RefMix]

theorem FourRoundsB_eq (k0 k1 k2 k3 k4 k5 k6 k7 k8 k9 k10 k11 k12 k13 k14 k15 : Nat)
    (b0 b1 b2 b3 b4 b5 b6 b7 b8 b9 b10 b11 b12 b13 b14 b15 : Nat) :
    (FourRoundsB k0 k1 k2 k3 k4 k5 k6 k7 k8 k9 k10 k11 k12 k13 k14 k15).foldl
        (fun B statement => statement B)
        [b0, b1, b2, b3, b4, b5, b6, b7, b8, b9, b10, b11, b12, b13, b14, b15]
      = RefPermute (RefMixPairs 7 (RefPermute (RefMixPairs 6 (RefPermute (RefMixPairs 5
          (RefPermute (RefMixPairs 4
            [(b0 + k0 % 2 ^ 64) % 2 ^ 64, (b1 + k1 % 2 ^ 64) % 2 ^ 64,
             (b2 + k2 % 2 ^ 64) % 2 ^ 64, (b3 + k3 % 2 ^ 64) % 2 ^ 64,
             (b4 + k4 % 2 ^ 64) % 2 ^ 64, (b5 + k5 % 2 ^ 64) % 2 ^ 64,
             (b6 + k6 % 2 ^ 64) % 2 ^ 64, (b7 + k7 % 2 ^ 64) % 2 ^ 64,
             (b8 + k8 % 2 ^ 64) % 2 ^ 64, (b9 + k9 % 2 ^ 64) % 2 ^ 64,
             (b10 + k10 % 2 ^ 64) % 2 ^ 64, (b11 + k11 % 2 ^ 64) % 2 ^ 64,
             (b12 + k12 % 2 ^ 64) % 2 ^ 64, (b13 + k13 % 2 ^ 64) % 2 ^ 64,
             (b14 + k14 % 2 ^ 64) % 2 ^ 64, (b15 + k15 % 2 ^ 64) % 2 ^ 64]))))))) := by
  simp only [FourRoundsB, InjectAt_eq, List.foldl_cons, List.foldl_nil, MixAt,
    List.getD_cons_succ, List.getD_cons_zero, List.set_cons_succ, List.set_cons_zero,
    RefPermute, Permutation, List.map_cons, List.map_nil, RefMixPairs, List.range,
    List.range.loop, List.flatMap_cons, List.flatMap_nil, RotationTable, List.cons_append,
    List.nil_append, Nat.reduceMod, Nat.reduceMul, Nat.reduceAdd, Mix, RefMix]

theorem RefAddSubkey_eq (K T : List Nat) (s : Nat)
    (b0 b1 b2 b3 b4 b5 b6 b7 b8 b9 b10 b11 b12 b13 b14 b15 : Nat) :
    RefAddSubkey K T s [b0, b1, b2, b3, b4, b5, b6, b7, b8, b9, b10, b11, b12, b13, b14, b15]
      = [(b0 + RefSubkey K T s 0 % 2 ^ 64) % 2 ^ 64, (b1 + RefSubkey K T s 1 % 2 ^ 64) % 2 ^ 64,
         (b2 + RefSubkey K T s 2 % 2 ^ 64) % 2 ^ 64, (b3 + RefSubkey K T s 3 % 2 ^ 64) % 2 ^ 64,
         (b4 + RefSubkey K T s 4 % 2 ^ 64) % 2 ^ 64, (b5 + RefSubkey K T s 5 % 2 ^ 64) % 2 ^ 64,
         (b6 + RefSubkey K T s 6 % 2 ^ 64) % 2 ^ 64, (b7 + RefSubkey K T s 7 % 2 ^ 64) % 2 ^ 64,
         (b8 + RefSubkey K T s 8 % 2 ^ 64) % 2 ^ 64, (b9 + RefSubkey K T s 9 % 2 ^ 64) % 2 ^ 64,
         (b10 + RefSubkey K T s 10 % 2 ^ 64) % 2 ^ 64,
         (b11 + RefSubkey K T s 11 % 2 ^ 64) % 2 ^ 64,
         (b12 + RefSubkey K T s 12 % 2 ^ 64) % 2 ^ 64,
         (b13 + RefSubkey K T s 13 % 2 ^ 64) % 2 ^ 64,
         (b14 + RefSubkey K T s 14 % 2 ^ 64) % 2 ^ 64,
         (b15 + RefSubkey K T s 15 % 2 ^ 64) % 2 ^ 64] := by
  simp only [RefSubkey_mod]
  rfl

theorem RefPermute_length (v : List Nat) : (RefPermute v).length = 16 := by
  unfold RefPermute
  rw [List.length_map]
  rfl

theorem RefRounds_length (K T : List Nat) (n : Nat) (v : List Nat) (h : v.length = 16) :
    (RefRounds K T n v).length = 16 := by
  cases n with
  | zero => exact h
  | succ n => exact RefPermute_length _

theorem FourRounds_eq (K T : List Nat) (s : Nat) (w : List Nat) (hw : w.length = 16) :
    (FourRounds K T s).foldl (fun B statement => statement B) w
      = RefRound K T (4 * s + 3) (RefRound K T (4 * s + 2) (RefRound K T (4 * s + 1)
          (RefRound K T (4 * s) w))) := by
  obtain ⟨b0, b1, b2, b3, b4, b5, b6, b7, b8, b9, b10, b11, b12, b13, b14, b15, rfl⟩ :=
    list_of_length_16 w hw
  have e0 : 4 * s % 4 = 0 := by omega
  have e1 : ¬ (4 * s + 1) % 4 = 0 := by omega
  have e2 : ¬ (4 * s + 2) % 4 = 0 := by omega
  have e3 : ¬ (4 * s + 3) % 4 = 0 := by omega
  have ed : 4 * s / 4 = s := by omega
  unfold RefRound FourRounds
  rw [if_pos e0, if_neg e1, if_neg e2, if_neg e3, ed, RefAddSubkey_eq,
    RefMixPairs_mod (4 * s), RefMixPairs_mod (4 * s + 1), RefMixPairs_mod (4 * s + 2),
    RefMixPairs_mod (4 * s + 3)]
  by_cases hs : s % 2 = 0
  · rw [if_pos hs, FourRoundsA_eq, show 4 * s % 8 = 0 by omega,
      show (4 * s + 1) % 8 = 1 by omega, show (4 * s + 2) % 8 = 2 by omega,
      show (4 * s + 3) % 8 = 3 by omega]
  · rw [if_neg hs, FourRoundsB_eq, show 4 * s % 8 = 4 by omega,
      show (4 * s + 1) % 8 = 5 by omega, show (4 * s + 2) % 8 = 6 by omega,
      show (4 * s + 3) % 8 = 7 by omega]

theorem FourRounds_foldl (K T : List Nat) (v : List Nat) (hv : v.length = 16) (n : Nat) :
    ((List.range n).flatMap (FourRounds K T)).foldl (fun B statement => statement B) v
      = RefRounds K T (4 * n) v := by
  induction n with
  | zero => rfl
  | succ n ih =>
    rw [List.range_succ, List.flatMap_append, List.foldl_append, ih, List.flatMap_singleton,
      FourRounds_eq K T n _ (RefRounds_length K T _ v hv)]
    rfl

set_option maxRecDepth 100000 in
theorem Transfrom128Rounds_eq
    (K0 K1 K2 K3 K4 K5 K6 K7 K8 K9 K10 K11 K12 K13 K14 K15 K16 T0 T1 T2 : Nat) :
    Transfrom128Rounds K0 K1 K2 K3 K4 K5 K6 K7 K8 K9 K10 K11 K12 K13 K14 K15 K16 T0 T1 T2
      = (List.range 20).flatMap (FourRounds
          [K0, K1, K2, K3, K4, K5, K6, K7, K8, K9, K10, K11, K12, K13, K14, K15, K16]
          [T0, T1, T2]) := by
  simp only [Transfrom128Rounds, List.range, List.range.loop, List.flatMap_cons,
    List.flatMap_nil, FourRounds, FourRoundsA, FourRoundsB, InjectAt_eq, RefSubkey,
    List.getD_cons_succ, List.getD_cons_zero, Nat.reduceMod, Nat.reduceAdd, Nat.reduceEqDiff,
    if_true, if_false, Nat.add_zero, Nat.mod_mod, List.cons_append, List.nil_append,
    List.append_nil, ↓reduceIte]

/-- C31: for a block of at least 16 words, a key `Output.S` of 16 words and a tweak
`Output.T`, `Threefish1024::Transfrom128` returns and leaves in `Output.S` the reference
Threefish-1024 encryption of the 16 input words under the key `Output.S` and the tweak
`(Output.T[0], Output.T[1])`: `K16` is the parity word and `T2 = T0 XOR T1`, subkey `s` of
the reference is added before round `4s` for `s = 0, …, 19`, each of the 80 rounds
applies MIX to the eight word pairs with the rotation table of period 8 and permutes the
words, and subkey 20 is added to the final state. -/
theorem Transfrom128_is_Threefish1024 (Input : List Nat) (InOffset : Nat) (S T : List Nat)
    (hI : 16 ≤ Input.length) (hS : S.length = 16) (hT : 2 ≤ T.length) :
    Transfrom128 Input InOffset S T = some (RefEncrypt S (T.take 2) (Input.take 16)) := by
  have hv : (Input.take 16).length = 16 := by
    rw [List.length_take]
    omega
  obtain ⟨K0, K1, K2, K3, K4, K5, K6, K7, K8, K9, K10, K11, K12, K13, K14, K15, rfl⟩ :=
    list_of_length_16 S hS
  obtain ⟨T0, T1, T3, rfl⟩ : ∃ T0 T1 T3, T = T0 :: T1 :: T3 := by
    match T, hT with
    | a :: b :: l, _ => exact ⟨a, b, l, rfl⟩
  unfold Transfrom128 RefEncrypt
  rw [if_pos ⟨hI, Nat.le_of_eq hS.symm, hT⟩]
  simp only [List.getD_cons_succ, List.getD_cons_zero, GetParity, List.take_succ_cons,
    List.take_zero, List.cons_append, List.nil_append]
  rw [Transfrom128Rounds_eq, FourRounds_foldl _ _ _ hv 20]
  have hw := RefRounds_length
    [K0, K1, K2, K3, K4, K5, K6, K7, K8, K9, K10, K11, K12, K13, K14, K15,
      List.foldl (fun parity k => parity ^^^ k) 0x1BD11BDAA9FC1A22
        [K0, K1, K2, K3, K4, K5, K6, K7, K8, K9, K10, K11, K12, K13, K14, K15]]
    [T0, T1, T0 ^^^ T1] (4 * 20) (Input.take 16) hv
  obtain ⟨c0, c1, c2, c3, c4, c5, c6, c7, c8, c9, c10, c11, c12, c13, c14, c15, hc⟩ :=
    list_of_length_16 _ hw
  rw [show (80 : Nat) = 4 * 20 from rfl, hc, RefAddSubkey_eq, writeAt_full _ _ (by rfl)]
  simp only [RefSubkey, List.getD_cons_succ, List.getD_cons_zero, Nat.reduceMod,
    Nat.reduceAdd, Nat.reduceEqDiff, if_true, if_false, Nat.add_zero, Nat.mod_mod,
    Nat.add_mod_mod, Nat.mod_add_mod, Nat.add_assoc, ↓reduceIte]

set_option maxRecDepth 1000000 in
theorem RefEncrypt_zero :
    RefEncrypt (List.replicate 16 0) [0, 0] (List.replicate 16 0)
      = [0x04B3053D0A3D5CF0, 0x0136E0D1C7DD85F7, 0x067B212F6EA78A5C, 0x0DA9C10B4C54E1C6,
         0x0F4EC27394CBACF0, 0x32437F0568EA4FD5, 0xCFF56D1D7654B49C, 0xA2D5FB14369B2E7B,
         0x540306B460472E0B, 0x71C18254BCEA820D, 0xC36B4068BEAF32C8, 0xFA4329597A360095,
         0xC4A36C28434A5B9A, 0xD54331444B1046CF, 0xDF11834830B2A460, 0x1E39E8DFE1F7EE4F] := by
  decide

/-- The zero block under the zero key and the zero tweak: `Transfrom128` leaves the words
of the known answer of Threefish-1024 for this input. -/
theorem Transfrom128_is_Threefish1024_witness :
    Transfrom128 (List.replicate 16 0) 0 (List.replicate 16 0) [0, 0]
      = some [0x04B3053D0A3D5CF0, 0x0136E0D1C7DD85F7, 0x067B212F6EA78A5C, 0x0DA9C10B4C54E1C6,
         0x0F4EC27394CBACF0, 0x32437F0568EA4FD5, 0xCFF56D1D7654B49C, 0xA2D5FB14369B2E7B,
         0x540306B460472E0B, 0x71C18254BCEA820D, 0xC36B4068BEAF32C8, 0xFA4329597A360095,
         0xC4A36C28434A5B9A, 0xD54331444B1046CF, 0xDF11834830B2A460, 0x1E39E8DFE1F7EE4F] :=
  (Transfrom128_is_Threefish1024 (List.replicate 16 0) 0 (List.replicate 16 0) [0, 0]
    (by decide) (by decide) (by decide)).trans (congrArg some RefEncrypt_zero)

/-! ## `SHX`: `Decrypt16` inverts `Encrypt16` -/

theorem writeAt_prepend (v : List Nat) (o : Nat) (a b : List Nat)
    (h : o + a.length + b.length ≤ v.length) :
    writeAt (writeAt v (o + a.length) b) o a = writeAt v o (a ++ b) := by
  have h1 := writeAt_length v (o + a.length) b (by omega)
  apply List.ext_getElem?
  intro t
  rw [getElem?_writeAt _ _ _ (by omega), getElem?_writeAt v _ b (by omega),
    getElem?_writeAt v o (a ++ b) (by omega), List.length_append]
  by_cases c1 : t < o
  · simp only [c1, if_true, show t < o + a.length by omega]
  · by_cases c2 : t < o + a.length
    · simp only [c1, c2, if_true, if_false, show t < o + (a.length + b.length) by omega]
      rw [List.getElem?_append_left (by omega)]
    · by_cases c3 : t < o + a.length + b.length
      · simp only [c1, c2, c3, if_true, if_false, show t < o + (a.length + b.length) by omega]
        rw [List.getElem?_append_right (by omega)]
        congr 1
        omega
      · simp only [c1, c2, c3, if_false, show ¬ t < o + (a.length + b.length) by omega]

theorem Le32ToBytes_eq (v : Nat) (Output : List Nat) (off : Nat) (h : off + 4 ≤ Output.length) :
    Le32ToBytes v Output off = some (writeAt Output off (LeBytes 4 v)) := by
  unfold Le32ToBytes
  rw [if_pos h]
  simp only [LeBytes, Nat.shiftRight_eq_div_pow]
  congr 2
  refine congrArg₂ _ rfl (congrArg₂ _ ?_ (congrArg₂ _ ?_ (congrArg₂ _ ?_ rfl))) <;> omega

theorem Words32_xor (K : List Nat) (hK : ∀ k ∈ K, k < 2 ^ 32) (i : Nat) (a : Nat)
    (ha : a < 2 ^ 32) : a ^^^ K.getD i 0 < 2 ^ 32 := by
  apply Nat.xor_lt_two_pow ha
  by_cases hi : i < K.length
  · rw [List.getD_eq_getElem _ _ hi]
    exact hK _ (List.getElem_mem hi)
  · rw [List.getD_eq_default _ _ (by omega)]
    exact Nat.two_pow_pos 32

theorem RoundKey_words (K : List Nat) (hK : ∀ k ∈ K, k < 2 ^ 32) (r : Nat)
    (x : Nat × Nat × Nat × Nat) (hx : Words32 x) : Words32 (RoundKey K r x) :=
  ⟨Words32_xor K hK _ _ hx.1, Words32_xor K hK _ _ hx.2.1, Words32_xor K hK _ _ hx.2.2.1,
    Words32_xor K hK _ _ hx.2.2.2⟩

theorem xor_xor_cancel (a b : Nat) : (a ^^^ b) ^^^ b = a := by
  rw [Nat.xor_assoc, Nat.xor_self, Nat.xor_zero]

theorem RoundKey_RoundKey (K : List Nat) (r : Nat) (x : Nat × Nat × Nat × Nat) :
    RoundKey K r (RoundKey K r x) = x := by
  unfold RoundKey
  simp only [xor_xor_cancel]

theorem AddKey_round (K : List Nat) (r : Nat) (x : Nat × Nat × Nat × Nat)
    (h : 4 * r + 4 ≤ K.length) : SHX.AddKey K (4 * r) x = some (RoundKey K r x) := by
  unfold SHX.AddKey
  rw [if_pos h]
  rfl

theorem SubKey_round (K : List Nat) (r : Nat) (x : Nat × Nat × Nat × Nat)
    (h : 4 * r + 4 ≤ K.length) : SHX.SubKey K (4 * r + 4) x = some (RoundKey K r x) := by
  unfold SHX.SubKey
  rw [if_pos (by omega), Nat.add_sub_cancel, AddKey_round K r x h]

theorem SboxOf_inverse (F : SerpentFunctions) (hF : SerpentInverses F) (r : Nat)
    (x : Nat × Nat × Nat × Nat) (hx : Words32 x) : Words32 (SboxOf F r x) := by
  obtain ⟨h0, h1, h2, h3, h4, h5, h6, h7, _⟩ := hF
  unfold SboxOf
  have hm : r % 8 < 8 := Nat.mod_lt _ (by omega)
  generalize r % 8 = m at hm
  interval_cases m
  · exact (h0 x hx).1
  · exact (h1 x hx).1
  · exact (h2 x hx).1
  · exact (h3 x hx).1
  · exact (h4 x hx).1
  · exact (h5 x hx).1
  · exact (h6 x hx).1
  · exact (h7 x hx).1

theorem RoundInput_words (F : SerpentFunctions) (hF : SerpentInverses F) (K : List Nat)
    (hK : ∀ k ∈ K, k < 2 ^ 32) (x : Nat × Nat × Nat × Nat) (hx : Words32 x) (r : Nat) :
    Words32 (RoundInput F K x r) := by
  induction r with
  | zero => exact hx
  | succ r ih =>
    rw [RoundInput]
    exact (hF.2.2.2.2.2.2.2.2 _ (SboxOf_inverse F hF r _ (RoundKey_words K hK r _ ih))).1

theorem SboxOf_mod (F : SerpentFunctions) (j : Nat) :
    SboxOf F (8 * j) = F.Sb0 ∧ SboxOf F (8 * j + 1) = F.Sb1 ∧ SboxOf F (8 * j + 2) = F.Sb2 ∧
      SboxOf F (8 * j + 3) = F.Sb3 ∧ SboxOf F (8 * j + 4) = F.Sb4 ∧
      SboxOf F (8 * j + 5) = F.Sb5 ∧ SboxOf F (8 * j + 6) = F.Sb6 ∧
      SboxOf F (8 * j + 7) = F.Sb7 := by
  unfold SboxOf
  refine ⟨?_, ?_, ?_, ?_, ?_, ?_, ?_, ?_⟩
  · rw [show 8 * j % 8 = 0 by omega]
  · rw [show (8 * j + 1) % 8 = 1 by omega]
  · rw [show (8 * j + 2) % 8 = 2 by omega]
  · rw [show (8 * j + 3) % 8 = 3 by omega]
  · rw [show (8 * j + 4) % 8 = 4 by omega]
  · rw [show (8 * j + 5) % 8 = 5 by omega]
  · rw [show (8 * j + 6) % 8 = 6 by omega]
  · rw [show (8 * j + 7) % 8 = 7 by omega]

theorem RoundInput_block (F : SerpentFunctions) (K : List Nat) (x : Nat × Nat × Nat × Nat)
    (j : Nat) :
    RoundInput F K x (8 * j + 1)
        = F.LinearTransform (F.Sb0 (RoundKey K (8 * j) (RoundInput F K x (8 * j)))) ∧
      RoundInput F K x (8 * j + 2)
        = F.LinearTransform (F.Sb1 (RoundKey K (8 * j + 1) (RoundInput F K x (8 * j + 1)))) ∧
      RoundInput F K x (8 * j + 3)
        = F.LinearTransform (F.Sb2 (RoundKey K (8 * j + 2) (RoundInput F K x (8 * j + 2)))) ∧
      RoundInput F K x (8 * j + 4)
        = F.LinearTransform (F.Sb3 (RoundKey K (8 * j + 3) (RoundInput F K x (8 * j + 3)))) ∧
      RoundInput F K x (8 * j + 5)
        = F.LinearTransform (F.Sb4 (RoundKey K (8 * j + 4) (RoundInput F K x (8 * j + 4)))) ∧
      RoundInput F K x (8 * j + 6)
        = F.LinearTransform (F.Sb5 (RoundKey K (8 * j + 5) (RoundInput F K x (8 * j + 5)))) ∧
      RoundInput F K x (8 * j + 7)
        = F.LinearTransform (F.Sb6 (RoundKey K (8 * j + 6) (RoundInput F K x (8 * j + 6)))) ∧
      RoundInput F K x (8 * j + 8)
        = F.LinearTransform (F.Sb7 (RoundKey K (8 * j + 7) (RoundInput F K x (8 * j + 7)))) := by
  obtain ⟨s0, s1, s2, s3, s4, s5, s6, s7⟩ := SboxOf_mod F j
  refine ⟨?_, ?_, ?_, ?_, ?_, ?_, ?_, ?_⟩
  · rw [RoundInput, s0]
  · rw [RoundInput, s1]
  · rw [RoundInput, s2]
  · rw [RoundInput, s3]
  · rw [RoundInput, s4]
  · rw [RoundInput, s5]
  · rw [RoundInput, s6]
  · rw [RoundInput, s7]

theorem Encrypt16Loop_eq (F : SerpentFunctions) (K : List Nat) (x : Nat × Nat × Nat × Nat)
    (k : Nat) (hK : K.length = 4 * (8 * k + 1)) :
    ∀ n j fuel, j + n + 1 = k → n < fuel →
      SHX.Encrypt16Loop F K (32 * k - 1) fuel (32 * j) (RoundInput F K x (8 * j))
        = some (32 * k, F.Sb7 (RoundKey K (8 * k - 1) (RoundInput F K x (8 * k - 1)))) := by
  intro n
  induction n with
  | zero =>
    intro j fuel hj hf
    obtain ⟨fuel, rfl⟩ : ∃ f, fuel = f + 1 := ⟨fuel - 1, by omega⟩
    obtain ⟨r1, r2, r3, r4, r5, r6, r7, r8⟩ := RoundInput_block F K x j
    rw [SHX.Encrypt16Loop]
    rw [show 32 * j = 4 * (8 * j) by omega, AddKey_round K _ _ (by omega), Option.some_bind,
      show 4 * (8 * j) + 4 = 4 * (8 * j + 1) by omega, ← r1, AddKey_round K _ _ (by omega),
      Option.some_bind,
      show 4 * (8 * j) + 8 = 4 * (8 * j + 2) by omega, ← r2, AddKey_round K _ _ (by omega),
      Option.some_bind,
      show 4 * (8 * j) + 12 = 4 * (8 * j + 3) by omega, ← r3, AddKey_round K _ _ (by omega),
      Option.some_bind,
      show 4 * (8 * j) + 16 = 4 * (8 * j + 4) by omega, ← r4, AddKey_round K _ _ (by omega),
      Option.some_bind,
      show 4 * (8 * j) + 20 = 4 * (8 * j + 5) by omega, ← r5, AddKey_round K _ _ (by omega),
      Option.some_bind,
      show 4 * (8 * j) + 24 = 4 * (8 * j + 6) by omega, ← r6, AddKey_round K _ _ (by omega),
      Option.some_bind,
      show 4 * (8 * j) + 28 = 4 * (8 * j + 7) by omega, ← r7, AddKey_round K _ _ (by omega),
      Option.some_bind, if_neg (by omega)]
    rw [show 8 * k - 1 = 8 * j + 7 by omega, show 32 * k = 4 * (8 * j) + 32 by omega]
  | succ n ih =>
    intro j fuel hj hf
    obtain ⟨fuel, rfl⟩ : ∃ f, fuel = f + 1 := ⟨fuel - 1, by omega⟩
    obtain ⟨r1, r2, r3, r4, r5, r6, r7, r8⟩ := RoundInput_block F K x j
    rw [SHX.Encrypt16Loop]
    rw [show 32 * j = 4 * (8 * j) by omega, AddKey_round K _ _ (by omega), Option.some_bind,
      show 4 * (8 * j) + 4 = 4 * (8 * j + 1) by omega, ← r1, AddKey_round K _ _ (by omega),
      Option.some_bind,
      show 4 * (8 * j) + 8 = 4 * (8 * j + 2) by omega, ← r2, AddKey_round K _ _ (by omega),
      Option.some_bind,
      show 4 * (8 * j) + 12 = 4 * (8 * j + 3) by omega, ← r3, AddKey_round K _ _ (by omega),
      Option.some_bind,
      show 4 * (8 * j) + 16 = 4 * (8 * j + 4) by omega, ← r4, AddKey_round K _ _ (by omega),
      Option.some_bind,
      show 4 * (8 * j) + 20 = 4 * (8 * j + 5) by omega, ← r5, AddKey_round K _ _ (by omega),
      Option.some_bind,
      show 4 * (8 * j) + 24 = 4 * (8 * j + 6) by omega, ← r6, AddKey_round K _ _ (by omega),
      Option.some_bind,
      show 4 * (8 * j) + 28 = 4 * (8 * j + 7) by omega, ← r7, AddKey_round K _ _ (by omega),
      Option.some_bind, if_pos (by omega), ← r8,
      show 4 * (8 * j) + 32 = 32 * (j + 1) by omega, show 8 * j + 8 = 8 * (j + 1) by omega]
    exact ih (j + 1) fuel (by omega) (by omega)

theorem Decrypt_last (F : SerpentFunctions) (hF : SerpentInverses F) (K : List Nat)
    (hK : ∀ k ∈ K, k < 2 ^ 32) (x : Nat × Nat × Nat × Nat) (hx : Words32 x) (r r1 : Nat)
    (hr : r1 = r + 1) (Sb Ib : Nat × Nat × Nat × Nat → Nat × Nat × Nat × Nat)
    (hS : SboxOf F r = Sb) (hI : ∀ z, Words32 z → Words32 (Sb z) ∧ Ib (Sb z) = z) :
    Ib (F.InverseTransform (RoundInput F K x r1)) = RoundKey K r (RoundInput F K x r) := by
  have hy := RoundKey_words K hK r _ (RoundInput_words F hF K hK x hx r)
  rw [hr, RoundInput, hS, (hF.2.2.2.2.2.2.2.2 _ (hI _ hy).1).2, (hI _ hy).2]

theorem Decrypt_step (F : SerpentFunctions) (hF : SerpentInverses F) (K : List Nat)
    (hK : ∀ k ∈ K, k < 2 ^ 32) (x : Nat × Nat × Nat × Nat) (hx : Words32 x) (r r1 : Nat)
    (hr : r1 = r + 1) (Sb Ib : Nat × Nat × Nat × Nat → Nat × Nat × Nat × Nat)
    (hS : SboxOf F r = Sb) (hI : ∀ z, Words32 z → Words32 (Sb z) ∧ Ib (Sb z) = z)
    (hb : 4 * r + 4 ≤ K.length) :
    SHX.SubKey K (4 * r + 4) (Ib (F.InverseTransform (RoundInput F K x r1)))
      = some (RoundInput F K x r) := by
  rw [Decrypt_last F hF K hK x hx r r1 hr Sb Ib hS hI, SubKey_round K r _ hb, RoundKey_RoundKey]

theorem Decrypt_first (F : SerpentFunctions) (hF : SerpentInverses F) (K : List Nat)
    (hK : ∀ k ∈ K, k < 2 ^ 32) (x : Nat × Nat × Nat × Nat) (hx : Words32 x) (r : Nat)
    (hb : 4 * r + 4 ≤ K.length) :
    SHX.SubKey K (4 * r + 4) (F.Ib7 (F.Sb7 (RoundKey K r (RoundInput F K x r))))
      = some (RoundInput F K x r) := by
  have hy := RoundKey_words K hK r _ (RoundInput_words F hF K hK x hx r)
  rw [(hF.2.2.2.2.2.2.2.1 _ hy).2, SubKey_round K r _ hb, RoundKey_RoundKey]

theorem Decrypt16Loop_eq (F : SerpentFunctions) (hF : SerpentInverses F) (K : List Nat)
    (hK : ∀ k ∈ K, k < 2 ^ 32) (x : Nat × Nat × Nat × Nat) (hx : Words32 x)
    (k : Nat) (hL : K.length = 4 * (8 * k + 1)) :
    ∀ j fuel, j < k → j < fuel →
      SHX.Decrypt16Loop F K 4 fuel (32 * j + 32)
          (F.Sb7 (RoundKey K (8 * j + 7) (RoundInput F K x (8 * j + 7))))
        = some (4, RoundKey K 0 x) := by
  obtain ⟨h0, h1, h2, h3, h4, h5, h6, h7, hl⟩ := hF
  have hF : SerpentInverses F := ⟨h0, h1, h2, h3, h4, h5, h6, h7, hl⟩
  intro j
  induction j with
  | zero =>
    intro fuel hj hf
    obtain ⟨fuel, rfl⟩ : ∃ f, fuel = f + 1 := ⟨fuel - 1, by omega⟩
    obtain ⟨s0, s1, s2, s3, s4, s5, s6, s7⟩ := SboxOf_mod F 0
    rw [SHX.Decrypt16Loop]
    rw [show 32 * 0 + 32 = 4 * (8 * 0 + 7) + 4 by omega,
      Decrypt_first F hF K hK x hx _ (by omega), Option.some_bind,
      show 4 * (8 * 0 + 7) + 4 - 4 = 4 * (8 * 0 + 6) + 4 by omega,
      Decrypt_step F hF K hK x hx (8 * 0 + 6) _ rfl _ _ s6 h6 (by omega), Option.some_bind,
      show 4 * (8 * 0 + 7) + 4 - 8 = 4 * (8 * 0 + 5) + 4 by omega,
      Decrypt_step F hF K hK x hx (8 * 0 + 5) _ rfl _ _ s5 h5 (by omega), Option.some_bind,
      show 4 * (8 * 0 + 7) + 4 - 12 = 4 * (8 * 0 + 4) + 4 by omega,
      Decrypt_step F hF K hK x hx (8 * 0 + 4) _ rfl _ _ s4 h4 (by omega), Option.some_bind,
      show 4 * (8 * 0 + 7) + 4 - 16 = 4 * (8 * 0 + 3) + 4 by omega,
      Decrypt_step F hF K hK x hx (8 * 0 + 3) _ rfl _ _ s3 h3 (by omega), Option.some_bind,
      show 4 * (8 * 0 + 7) + 4 - 20 = 4 * (8 * 0 + 2) + 4 by omega,
      Decrypt_step F hF K hK x hx (8 * 0 + 2) _ rfl _ _ s2 h2 (by omega), Option.some_bind,
      show 4 * (8 * 0 + 7) + 4 - 24 = 4 * (8 * 0 + 1) + 4 by omega,
      Decrypt_step F hF K hK x hx (8 * 0 + 1) _ rfl _ _ s1 h1 (by omega), Option.some_bind,
      if_neg (by omega),
      Decrypt_last F hF K hK x hx (8 * 0) _ rfl _ _ s0 h0]
    rfl
  | succ j ih =>
    intro fuel hj hf
    obtain ⟨fuel, rfl⟩ : ∃ f, fuel = f + 1 := ⟨fuel - 1, by omega⟩
    obtain ⟨s0, s1, s2, s3, s4, s5, s6, s7⟩ := SboxOf_mod F (j + 1)
    have r8 := (RoundInput_block F K x j).2.2.2.2.2.2.2
    have hy := RoundKey_words K hK (8 * j + 7) _ (RoundInput_words F hF K hK x hx (8 * j + 7))
    rw [SHX.Decrypt16Loop]
    rw [show 32 * (j + 1) + 32 = 4 * (8 * (j + 1) + 7) + 4 by omega,
      Decrypt_first F hF K hK x hx _ (by omega), Option.some_bind,
      show 4 * (8 * (j + 1) + 7) + 4 - 4 = 4 * (8 * (j + 1) + 6) + 4 by omega,
      Decrypt_step F hF K hK x hx (8 * (j + 1) + 6) _ rfl _ _ s6 h6 (by omega),
      Option.some_bind,
      show 4 * (8 * (j + 1) + 7) + 4 - 8 = 4 * (8 * (j + 1) + 5) + 4 by omega,
      Decrypt_step F hF K hK x hx (8 * (j + 1) + 5) _ rfl _ _ s5 h5 (by omega),
      Option.some_bind,
      show 4 * (8 * (j + 1) + 7) + 4 - 12 = 4 * (8 * (j + 1) + 4) + 4 by omega,
      Decrypt_step F hF K hK x hx (8 * (j + 1) + 4) _ rfl _ _ s4 h4 (by omega),
      Option.some_bind,
      show 4 * (8 * (j + 1) + 7) + 4 - 16 = 4 * (8 * (j + 1) + 3) + 4 by omega,
      Decrypt_step F hF K hK x hx (8 * (j + 1) + 3) _ rfl _ _ s3 h3 (by omega),
      Option.some_bind,
      show 4 * (8 * (j + 1) + 7) + 4 - 20 = 4 * (8 * (j + 1) + 2) + 4 by omega,
      Decrypt_step F hF K hK x hx (8 * (j + 1) + 2) _ rfl _ _ s2 h2 (by omega),
      Option.some_bind,
      show 4 * (8 * (j + 1) + 7) + 4 - 24 = 4 * (8 * (j + 1) + 1) + 4 by omega,
      Decrypt_step F hF K hK x hx (8 * (j + 1) + 1) _ rfl _ _ s1 h1 (by omega),
      Option.some_bind, if_pos (by omega),
      show 4 * (8 * (j + 1) + 7) + 4 - 28 = 4 * (8 * (j + 1)) + 4 by omega,
      Decrypt_step F hF K hK x hx (8 * (j + 1)) _ rfl _ _ s0 h0 (by omega),
      Option.some_bind,
      show 4 * (8 * (j + 1) + 7) + 4 - 32 = 32 * j + 32 by omega,
      show 8 * (j + 1) = 8 * j + 8 by omega, r8, (hl _ (h7 _ hy).1).2]
    exact ih fuel (by omega) (by omega)

theorem writeAt_then (v : List Nat) (o : Nat) (a b : List Nat) (n : Nat) (ha : a.length = n)
    (h : o + n ≤ v.length) : writeAt (writeAt v o a) (o + n) b = writeAt v o (a ++ b) := by
  subst ha
  exact writeAt_writeAt v o a b h

theorem writeAt_before (v : List Nat) (o : Nat) (a b : List Nat) (n : Nat) (ha : a.length = n)
    (h : o + n + b.length ≤ v.length) :
    writeAt (writeAt v (o + n) b) o a = writeAt v o (a ++ b) := by
  subst ha
  exact writeAt_prepend v o a b h

theorem slice_append (v : List Nat) (o n m : Nat) :
    slice v o n ++ slice v (o + n) m = slice v o (n + m) := by
  unfold slice
  rw [List.take_add, List.drop_drop]

theorem WordBytes_length (W : Nat × Nat × Nat × Nat) : (WordBytes W).length = 16 := by
  unfold WordBytes
  simp only [List.length_append, LeBytes_length]

theorem WordBytes_slices (W : Nat × Nat × Nat × Nat) :
    slice (WordBytes W) 0 4 = LeBytes 4 W.1 ∧ slice (WordBytes W) 4 4 = LeBytes 4 W.2.1 ∧
      slice (WordBytes W) 8 4 = LeBytes 4 W.2.2.1 ∧
      slice (WordBytes W) 12 4 = LeBytes 4 W.2.2.2 := by
  simp only [WordBytes, LeBytes, slice, List.cons_append, List.nil_append, List.drop_succ_cons,
    List.drop_zero, List.take_succ_cons, List.take_zero, and_self]

theorem load_word (X : List Nat) (o a : Nat) (w : Nat) (hw : w < 2 ^ 32)
    (W : List Nat) (hX : o + W.length ≤ X.length) (ha : a + 4 ≤ W.length)
    (hs : slice W a 4 = LeBytes 4 w) :
    LeBytesTo32 (writeAt X o W) (o + a) = some w := by
  have hl := writeAt_length X o W hX
  have e : slice (writeAt X o W) (o + a) 4 = LeBytes 4 w := by
    rw [slice_writeAt_inner X o W a 4 (by omega) ha, hs]
  rw [LeBytesTo32_value _ _ (by omega) (by rw [e]; exact LeBytes_lt 4 w), e, LeValue_LeBytes,
    Nat.mod_eq_of_lt (by omega)]

theorem BytesWords_load (Input : List Nat) (InOffset : Nat) (hin : InOffset + 16 ≤ Input.length)
    (hb : ∀ b ∈ slice Input InOffset 16, b < 256) :
    LeBytesTo32 Input InOffset = some (BytesWords (slice Input InOffset 16)).1 ∧
      LeBytesTo32 Input (InOffset + 4) = some (BytesWords (slice Input InOffset 16)).2.1 ∧
      LeBytesTo32 Input (InOffset + 8) = some (BytesWords (slice Input InOffset 16)).2.2.1 ∧
      LeBytesTo32 Input (InOffset + 12) = some (BytesWords (slice Input InOffset 16)).2.2.2 ∧
      Words32 (BytesWords (slice Input InOffset 16)) ∧
      WordBytes (BytesWords (slice Input InOffset 16)) = slice Input InOffset 16 := by
  have e0 := slice_slice Input InOffset 16 0 4 (by omega)
  have e1 := slice_slice Input InOffset 16 4 4 (by omega)
  have e2 := slice_slice Input InOffset 16 8 4 (by omega)
  have e3 := slice_slice Input InOffset 16 12 4 (by omega)
  have hm : ∀ a, ∀ b ∈ slice (slice Input InOffset 16) a 4, b < 256 :=
    fun a b h => hb b (mem_slice _ _ _ _ h)
  have hl : ∀ a, a + 4 ≤ 16 → (slice (slice Input InOffset 16) a 4).length = 4 := fun a ha =>
    slice_length _ _ _ (by rw [slice_length _ _ _ hin]; exact ha)
  have hv : ∀ a, a + 4 ≤ 16 → LeValue (slice (slice Input InOffset 16) a 4) < 2 ^ 32 := by
    intro a ha
    have := LeValue_lt _ (hm a)
    rw [hl a ha] at this
    exact this
  have hback : ∀ a, a + 4 ≤ 16 → LeBytes 4 (LeValue (slice (slice Input InOffset 16) a 4))
      = slice (slice Input InOffset 16) a 4 := by
    intro a ha
    have := LeBytes_LeValue _ (hm a)
    rw [hl a ha] at this
    exact this
  refine ⟨?_, ?_, ?_, ?_, ⟨hv 0 (by omega), hv 4 (by omega), hv 8 (by omega),
    hv 12 (by omega)⟩, ?_⟩
  · rw [LeBytesTo32_value _ _ (by omega) (by rw [← Nat.add_zero InOffset, ← e0]; exact hm 0)]
    unfold BytesWords
    rw [e0, Nat.add_zero]
  · rw [LeBytesTo32_value _ _ (by omega) (by rw [← e1]; exact hm 4)]
    unfold BytesWords
    rw [e1]
  · rw [LeBytesTo32_value _ _ (by omega) (by rw [← e2]; exact hm 8)]
    unfold BytesWords
    rw [e2]
  · rw [LeBytesTo32_value _ _ (by omega) (by rw [← e3]; exact hm 12)]
    unfold BytesWords
    rw [e3]
  · unfold WordBytes BytesWords
    simp only
    rw [hback 0 (by omega), hback 4 (by omega), hback 8 (by omega), hback 12 (by omega),
      slice_append _ 0 4 4, slice_append _ 0 8 4, slice_append _ 0 12 4,
      slice_full _ _ (slice_length _ _ _ hin)]

theorem store_words (Output : List Nat) (o : Nat) (W : Nat × Nat × Nat × Nat)
    (h : o + 16 ≤ Output.length) :
    ((Le32ToBytes W.1 Output o).bind fun O => (Le32ToBytes W.2.1 O (o + 4)).bind
        fun O => (Le32ToBytes W.2.2.1 O (o + 8)).bind fun O => Le32ToBytes W.2.2.2 O (o + 12))
      = some (writeAt Output o (WordBytes W)) := by
  have l1 := writeAt_length Output o (LeBytes 4 W.1) (by rw [LeBytes_length]; omega)
  rw [Le32ToBytes_eq _ _ _ (by omega), Option.some_bind,
    Le32ToBytes_eq _ _ _ (by omega), writeAt_then _ _ _ _ 4 (LeBytes_length 4 _) (by omega),
    Option.some_bind]
  have l2 := writeAt_length Output o (LeBytes 4 W.1 ++ LeBytes 4 W.2.1)
    (by rw [List.length_append, LeBytes_length, LeBytes_length]; omega)
  rw [Le32ToBytes_eq _ _ _ (by omega),
    writeAt_then _ _ _ _ 8 (by rw [List.length_append, LeBytes_length, LeBytes_length])
      (by omega), Option.some_bind]
  have l3 := writeAt_length Output o (LeBytes 4 W.1 ++ LeBytes 4 W.2.1 ++ LeBytes 4 W.2.2.1)
    (by simp only [List.length_append, LeBytes_length]; omega)
  rw [Le32ToBytes_eq _ _ _ (by omega),
    writeAt_then _ _ _ _ 12 (by simp only [List.length_append, LeBytes_length]) (by omega)]
  rfl

theorem store_words_down (Output : List Nat) (o : Nat) (W : Nat × Nat × Nat × Nat)
    (h : o + 16 ≤ Output.length) :
    ((Le32ToBytes W.2.2.2 Output (o + 12)).bind fun O =>
        (Le32ToBytes W.2.2.1 O (o + 8)).bind fun O =>
          (Le32ToBytes W.2.1 O (o + 4)).bind fun O => Le32ToBytes W.1 O o)
      = some (writeAt Output o (WordBytes W)) := by
  have l1 := writeAt_length Output (o + 12) (LeBytes 4 W.2.2.2) (by rw [LeBytes_length]; omega)
  rw [Le32ToBytes_eq _ _ _ (by omega), Option.some_bind,
    Le32ToBytes_eq _ _ _ (by omega), show o + 12 = o + 8 + 4 by omega,
    writeAt_before _ _ _ _ 4 (LeBytes_length 4 _) (by rw [LeBytes_length]; omega),
    Option.some_bind]
  have l2 := writeAt_length Output (o + 8) (LeBytes 4 W.2.2.1 ++ LeBytes 4 W.2.2.2)
    (by rw [List.length_append, LeBytes_length, LeBytes_length]; omega)
  rw [Le32ToBytes_eq _ _ _ (by omega), show o + 8 = o + 4 + 4 by omega,
    writeAt_before _ _ _ _ 4 (LeBytes_length 4 _)
      (by simp only [List.length_append, LeBytes_length]; omega), Option.some_bind]
  have l3 := writeAt_length Output (o + 4)
    (LeBytes 4 W.2.1 ++ (LeBytes 4 W.2.2.1 ++ LeBytes 4 W.2.2.2))
    (by simp only [List.length_append, LeBytes_length]; omega)
  rw [Le32ToBytes_eq _ _ _ (by omega),
    writeAt_before _ _ _ _ 4 (LeBytes_length 4 _)
      (by simp only [List.length_append, LeBytes_length]; omega)]
  unfold WordBytes
  simp only [List.append_assoc]

/-- C36: for an expanded key of `4 * (R + 1)` 32-bit words with `R` a positive multiple of
8 and a block of 16 bytes, `Encrypt16` returns: its loop ends after `R` rounds with the
first `4 * R` key words used, and the block it writes is the one of the `R` rounds with
the key words `4r, …, 4r + 3` in round `r` and the key words `4R, …, 4R + 3` at the end.
`Decrypt16` on that block returns, its loop ends at the key counter 4, and it writes the
16 input bytes. The functions of `Serpent.h` are taken with the assumption that every
`Ib` inverts its `Sb` and `InverseTransform` inverts `LinearTransform`. -/
theorem Decrypt16_inverts_Encrypt16 (F : SerpentFunctions) (K Input Output Output2 : List Nat)
    (InOffset OutOffset OutOffset2 R : Nat) (hF : SerpentInverses F)
    (hR : 0 < R) (hR8 : R % 8 = 0) (hL : K.length = 4 * (R + 1)) (hsz : K.length < 2 ^ 64)
    (hK : ∀ k ∈ K, k < 2 ^ 32) (hin : InOffset + 16 ≤ Input.length)
    (hb : ∀ b ∈ slice Input InOffset 16, b < 256) (hout : OutOffset + 16 ≤ Output.length)
    (hout2 : OutOffset2 + 16 ≤ Output2.length) :
    ∃ ct pt T,
      SHX.Encrypt16 F K Input InOffset Output OutOffset = some ct ∧
      ct = writeAt Output OutOffset
        (WordBytes (EncryptWords F K R (BytesWords (slice Input InOffset 16)))) ∧
      SHX.Decrypt16 F K ct OutOffset Output2 OutOffset2 = some pt ∧
      pt = writeAt Output2 OutOffset2 (slice Input InOffset 16) ∧
      slice pt OutOffset2 16 = slice Input InOffset 16 ∧
      SHX.Encrypt16Loop F K ((K.length + 2 ^ 64 - 5) % 2 ^ 64) K.length 0
        (BytesWords (slice Input InOffset 16)) = some (4 * R, T) ∧
      SHX.Decrypt16Loop F K 4 K.length (K.length - 4) T
        = some (4, RoundKey K 0 (BytesWords (slice Input InOffset 16))) := by
  obtain ⟨k, rfl⟩ : ∃ k, R = 8 * k := ⟨R / 8, by omega⟩
  obtain ⟨q0, q1, q2, q3, hx, hwb⟩ := BytesWords_load Input InOffset hin hb
  have hLRD : (K.length + 2 ^ 64 - 5) % 2 ^ 64 = 32 * k - 1 := by omega
  have hE : SHX.Encrypt16Loop F K (32 * k - 1) K.length 0 (BytesWords (slice Input InOffset 16))
      = some (32 * k, F.Sb7 (RoundKey K (8 * k - 1)
          (RoundInput F K (BytesWords (slice Input InOffset 16)) (8 * k - 1)))) :=
    Encrypt16Loop_eq F K _ k (by omega) (k - 1) 0 K.length (by omega) (by omega)
  have hT := (hF.2.2.2.2.2.2.2.1 _ (RoundKey_words K hK (8 * k - 1) _
    (RoundInput_words F hF K hK _ hx (8 * k - 1)))).1
  have hS7 : SboxOf F (8 * k - 1) = F.Sb7 := by
    have := (SboxOf_mod F (k - 1)).2.2.2.2.2.2.2
    rw [show 8 * (k - 1) + 7 = 8 * k - 1 by omega] at this
    exact this
  have hW : EncryptWords F K (8 * k) (BytesWords (slice Input InOffset 16))
      = RoundKey K (8 * k) (F.Sb7 (RoundKey K (8 * k - 1)
          (RoundInput F K (BytesWords (slice Input InOffset 16)) (8 * k - 1)))) := by
    unfold EncryptWords
    rw [hS7]
  have hW32 := RoundKey_words K hK (8 * k) _ hT
  have hEnc : SHX.Encrypt16 F K Input InOffset Output OutOffset
      = some (writeAt Output OutOffset
          (WordBytes (EncryptWords F K (8 * k) (BytesWords (slice Input InOffset 16))))) := by
    unfold SHX.Encrypt16
    simp only [q0, q1, q2, q3]
    rw [hLRD, hE, Option.some_bind]
    simp only
    rw [show 32 * k = 4 * (8 * k) by omega, AddKey_round K _ _ (by omega), Option.some_bind,
      store_words _ _ _ hout, hW]
  have hD : SHX.Decrypt16Loop F K 4 K.length (K.length - 4)
      (F.Sb7 (RoundKey K (8 * k - 1)
        (RoundInput F K (BytesWords (slice Input InOffset 16)) (8 * k - 1))))
      = some (4, RoundKey K 0 (BytesWords (slice Input InOffset 16))) := by
    have := Decrypt16Loop_eq F hF K hK _ hx k (by omega) (k - 1) K.length (by omega) (by omega)
    rw [show 32 * (k - 1) + 32 = K.length - 4 by omega,
      show 8 * (k - 1) + 7 = 8 * k - 1 by omega] at this
    exact this
  have hlen := WordBytes_length (EncryptWords F K (8 * k) (BytesWords (slice Input InOffset 16)))
  obtain ⟨w0, w1, w2, w3⟩ :=
    WordBytes_slices (EncryptWords F K (8 * k) (BytesWords (slice Input InOffset 16)))
  rw [hW] at w0 w1 w2 w3 hlen
  have d0 := load_word Output OutOffset 0 _ hW32.1 _ (by rw [hlen]; exact hout)
    (by rw [hlen]; omega) w0
  have d1 := load_word Output OutOffset 4 _ hW32.2.1 _ (by rw [hlen]; exact hout)
    (by rw [hlen]; omega) w1
  have d2 := load_word Output OutOffset 8 _ hW32.2.2.1 _ (by rw [hlen]; exact hout)
    (by rw [hlen]; omega) w2
  have d3 := load_word Output OutOffset 12 _ hW32.2.2.2 _ (by rw [hlen]; exact hout)
    (by rw [hlen]) w3
  rw [Nat.add_zero] at d0
  have hsub : SHX.SubKey K K.length (RoundKey K (8 * k) (F.Sb7 (RoundKey K (8 * k - 1)
      (RoundInput F K (BytesWords (slice Input InOffset 16)) (8 * k - 1)))))
      = some (F.Sb7 (RoundKey K (8 * k - 1)
          (RoundInput F K (BytesWords (slice Input InOffset 16)) (8 * k - 1)))) := by
    rw [show K.length = 4 * (8 * k) + 4 by omega, SubKey_round K _ _ (by omega),
      RoundKey_RoundKey]
  have hsub0 : SHX.SubKey K 4 (RoundKey K 0 (BytesWords (slice Input InOffset 16)))
      = some (BytesWords (slice Input InOffset 16)) := by
    have := SubKey_round K 0 (RoundKey K 0 (BytesWords (slice Input InOffset 16))) (by omega)
    rw [RoundKey_RoundKey] at this
    exact this
  have hDec : SHX.Decrypt16 F K (writeAt Output OutOffset
        (WordBytes (EncryptWords F K (8 * k) (BytesWords (slice Input InOffset 16)))))
        OutOffset Output2 OutOffset2
      = some (writeAt Output2 OutOffset2 (slice Input InOffset 16)) := by
    unfold SHX.Decrypt16
    rw [hW]
    simp only [d0, d1, d2, d3]
    rw [hsub, Option.some_bind, hD, Option.some_bind]
    simp only
    rw [hsub0, Option.some_bind, store_words_down _ _ _ hout2, hwb]
  refine ⟨_, _, _, hEnc, rfl, hDec, rfl, ?_, ?_, hD⟩
  · have := slice_writeAt Output2 OutOffset2 (slice Input InOffset 16) (by omega)
    rw [slice_length _ _ _ hin] at this
    exact this
  · rw [hLRD, hE, show 4 * (8 * k) = 32 * k by omega]

theorem SampleSerpent_inverses : SerpentInverses SampleSerpent := by
  refine ⟨?_, ?_, ?_, ?_, ?_, ?_, ?_, ?_, ?_⟩
  all_goals
    intro x hx
    obtain ⟨a, b, c, d⟩ := x
    obtain ⟨ha, hb, hc, hd⟩ := hx
    simp only at ha hb hc hd
    refine ⟨⟨?_, ?_, ?_, ?_⟩, ?_⟩
    all_goals simp only [SampleSerpent, xor_xor_cancel]
    all_goals first
      | assumption
      | exact Nat.xor_lt_two_pow (by assumption) (by decide)

set_option maxRecDepth 100000 in
/-- The block `1, …, 16` under the sample functions and the sample key of 132 words, that
is 32 rounds: `Decrypt16` on the block that `Encrypt16` writes returns the 16 bytes. -/
theorem Decrypt16_inverts_Encrypt16_witness :
    ∃ ct pt,
      SHX.Encrypt16 SampleSerpent SampleExpandedKey ((List.range 16).map (fun i => i + 1)) 0
        (List.replicate 16 0) 0 = some ct ∧
      SHX.Decrypt16 SampleSerpent SampleExpandedKey ct 0 (List.replicate 16 0) 0 = some pt ∧
      pt = (List.range 16).map (fun i => i + 1) := by
  obtain ⟨ct, pt, T, h1, _, h3, h4, _⟩ := Decrypt16_inverts_Encrypt16 SampleSerpent
    SampleExpandedKey ((List.range 16).map (fun i => i + 1)) (List.replicate 16 0)
    (List.replicate 16 0) 0 0 0 32 SampleSerpent_inverses (by decide) (by decide) (by decide)
    (by decide)
    (by
      intro k hk
      simp only [SampleExpandedKey, List.mem_map] at hk
      obtain ⟨i, _, rfl⟩ := hk
      omega)
    (by decide) (by decide) (by decide) (by decide)
  refine ⟨ct, pt, h1, h3, ?_⟩
  rw [h4]
  decide

/-! ## `WOTS`: the digits in base `w` and the checksum -/

theorem set_eq_writeAt (v : List Nat) (off x : Nat) (h : off < v.length) :
    v.set off x = writeAt v off [x] := by
  rw [List.set_eq_take_append_cons_drop, if_pos h]
  unfold writeAt
  rw [List.append_assoc]
  rfl

theorem writeAt_cons (v : List Nat) (off x : Nat) (X : List Nat) (h : off < v.length) :
    writeAt (writeAt v off [x]) (off + 1) X = writeAt v off (x :: X) := by
  have e := writeAt_writeAt v off [x] X (by rw [List.length_singleton]; omega)
  rw [List.length_singleton] at e
  exact e

theorem Digits_length (l : List Nat) : (Digits l).length = 2 * l.length := by
  induction l with
  | nil => rfl
  | cons b l ih =>
    rw [Digits, List.length_cons, List.length_cons, ih, List.length_cons]
    omega

theorem Digits_drop (Input : List Nat) (inoff : Nat) (h : inoff < Input.length) :
    Digits (Input.drop inoff)
      = ((Input.getD inoff 0 >>> 4) &&& 15) :: (Input.getD inoff 0 &&& 15)
          :: Digits (Input.drop (inoff + 1)) := by
  rw [List.drop_eq_getElem_cons h, Digits, List.getD_eq_getElem _ _ h]

theorem BaseWLoop_eq (Input : List Nat) :
    ∀ n off inoff total Output, off + n ≤ Output.length →
      (n ≤ 2 * (Input.length - inoff) →
        WOTS.BaseWLoop Input n off inoff 0 total Output
          = some (writeAt Output off ((Digits (Input.drop inoff)).take n))) ∧
      (n ≤ 2 * (Input.length - inoff) + 1 →
        WOTS.BaseWLoop Input n off inoff 4 total Output
          = some (writeAt Output off (((total &&& 15) :: Digits (Input.drop inoff)).take n))) := by
  intro n
  induction n with
  | zero =>
    intro off inoff total Output _
    refine ⟨fun _ => ?_, fun _ => ?_⟩
    · rw [WOTS.BaseWLoop, List.take_zero, writeAt_nil]
    · rw [WOTS.BaseWLoop, List.take_zero, writeAt_nil]
  | succ n ih =>
    intro off inoff total Output hout
    have hoff : off < Output.length := by omega
    have hset : ∀ x, (Output.set off x).length = Output.length := fun x => List.length_set _ _ _
    refine ⟨fun hn => ?_, fun hn => ?_⟩
    · have hin : inoff < Input.length := by omega
      rw [WOTS.BaseWLoop, if_neg (by omega)]
      simp only [if_true, WOTS.SPX_WOTS_LOGW, WOTS.SPX_WOTS_W, Nat.zero_add, Nat.reduceSub]
      rw [if_pos hoff, (ih (off + 1) (inoff + 1) (Input.getD inoff 0) _
        (by rw [hset]; omega)).2 (by omega), set_eq_writeAt _ _ _ hoff,
        writeAt_cons _ _ _ _ hoff, Digits_drop Input inoff hin, List.take_succ_cons]
    · rw [WOTS.BaseWLoop, if_neg (by omega)]
      simp only [show ¬ (4 = 0) by omega, if_false, WOTS.SPX_WOTS_LOGW, WOTS.SPX_WOTS_W,
        Nat.reduceSub, Nat.shiftRight_zero]
      rw [if_pos hoff, (ih (off + 1) inoff total _ (by rw [hset]; omega)).1 (by omega),
        set_eq_writeAt _ _ _ hoff, writeAt_cons _ _ _ _ hoff, List.take_succ_cons]

theorem BaseW_eq (Output : List Nat) (OutOffset OutLength : Nat) (Input : List Nat)
    (hlen : OutLength ≤ 2 * Input.length) (hout : OutOffset + OutLength ≤ Output.length) :
    WOTS.BaseW Output OutOffset OutLength Input
      = some (writeAt Output OutOffset ((Digits Input).take OutLength)) := by
  unfold WOTS.BaseW
  rw [(BaseWLoop_eq Input OutLength OutOffset 0 0 Output hout).1 (by omega), List.drop_zero]

theorem byte_digits (b : Nat) (h : b < 256) :
    (b >>> 4) &&& 15 = b >>> 4 ∧ b &&& 15 = b % 16 ∧ b >>> 4 = b / 16 := by
  have e1 : b >>> 4 = b / 16 := by rw [Nat.shiftRight_eq_div_pow]
  have e2 : ∀ x, x &&& 15 = x % 16 := fun x => Nat.and_pow_two_sub_one_eq_mod x 4
  refine ⟨?_, e2 b, e1⟩
  rw [e2, e1]
  omega

theorem Digits_getD (l : List Nat) (hb : ∀ b ∈ l, b < 256) :
    ∀ i, i < 2 * l.length →
      (Digits l).getD i 0
        = if i % 2 = 0 then l.getD (i / 2) 0 >>> 4 else l.getD (i / 2) 0 &&& 15 := by
  induction l with
  | nil =>
    intro i hi
    simp only [List.length_nil] at hi
    omega
  | cons b l ih =>
    intro i hi
    have hb0 := hb b (List.mem_cons_self _ _)
    rw [Digits]
    match i with
    | 0 =>
      rw [List.getD_cons_zero, if_pos (by omega), show 0 / 2 = 0 by omega, List.getD_cons_zero,
        (byte_digits b hb0).1]
    | 1 =>
      rw [List.getD_cons_succ, List.getD_cons_zero, if_neg (by omega),
        show 1 / 2 = 0 by omega, List.getD_cons_zero]
    | i + 2 =>
      rw [List.getD_cons_succ, List.getD_cons_succ,
        ih (fun x hx => hb x (List.mem_cons_of_mem _ hx)) i
          (by rw [List.length_cons] at hi; omega),
        show (i + 2) / 2 = i / 2 + 1 by omega, List.getD_cons_succ,
        show (i + 2) % 2 = i % 2 by omega]

/-- C33: with `w = 16`, for an input of bytes, `OutLength <= 2 * |Input|` and an `Output`
that holds `OutLength` elements from `OutOffset` on, `BaseW` returns; `Output` keeps its
size, `Output[OutOffset + i]` is for every `i < OutLength` the digit `i` of the input,
most significant digit of a byte first (`Input[i / 2] >> 4` for even `i`,
`Input[i / 2] & 15` for odd `i`), a value of at most 15; no other element of `Output` is
changed, and each two consecutive digits `hi, lo` give back the input byte `16 * hi + lo`. -/
theorem BaseW_digits (Output : List Nat) (OutOffset OutLength : Nat) (Input : List Nat)
    (hb : ∀ b ∈ Input, b < 256) (hlen : OutLength ≤ 2 * Input.length)
    (hout : OutOffset + OutLength ≤ Output.length) :
    ∃ out, WOTS.BaseW Output OutOffset OutLength Input = some out ∧
      out.length = Output.length ∧
      (∀ i, i < OutLength →
        out.getD (OutOffset + i) 0
          = (if i % 2 = 0 then Input.getD (i / 2) 0 >>> 4 else Input.getD (i / 2) 0 &&& 15) ∧
        out.getD (OutOffset + i) 0 ≤ 15) ∧
      (∀ j, j < OutOffset ∨ OutOffset + OutLength ≤ j → out[j]? = Output[j]?) ∧
      (∀ j, 2 * j + 1 < OutLength →
        16 * out.getD (OutOffset + 2 * j) 0 + out.getD (OutOffset + (2 * j + 1)) 0
          = Input.getD j 0) := by
  have hl : ((Digits Input).take OutLength).length = OutLength := by
    rw [List.length_take, Digits_length]
    omega
  have hget : ∀ i, i < OutLength →
      (writeAt Output OutOffset ((Digits Input).take OutLength)).getD (OutOffset + i) 0
        = if i % 2 = 0 then Input.getD (i / 2) 0 >>> 4 else Input.getD (i / 2) 0 &&& 15 := by
    intro i hi
    rw [getD_writeAt _ _ _ (by omega), if_neg (by omega), if_pos (by rw [hl]; omega),
      Nat.add_sub_cancel_left, List.getD_eq_getElem?_getD, List.getElem?_take_of_lt hi,
      ← List.getD_eq_getElem?_getD, Digits_getD Input hb i (by omega)]
  have hbyte : ∀ j, j < Input.length → Input.getD j 0 < 256 := by
    intro j hj
    rw [List.getD_eq_getElem _ _ hj]
    exact hb _ (List.getElem_mem hj)
  refine ⟨_, BaseW_eq Output OutOffset OutLength Input hlen hout,
    writeAt_length _ _ _ (by rw [hl]; exact hout), fun i hi => ⟨hget i hi, ?_⟩, ?_, ?_⟩
  · rw [hget i hi]
    have h1 := byte_digits _ (hbyte (i / 2) (by omega))
    split_ifs
    · rw [h1.2.2]
      have := hbyte (i / 2) (by omega)
      omega
    · rw [h1.2.1]
      omega
  · intro j hj
    rw [getElem?_writeAt _ _ _ (by omega), hl]
    split_ifs
    · rfl
    · exfalso
      omega
    · rfl
  · intro j hj
    have h1 := byte_digits _ (hbyte j (by omega))
    rw [hget (2 * j) (by omega), hget (2 * j + 1) hj, if_pos (by omega), if_neg (by omega),
      show 2 * j / 2 = j by omega, show (2 * j + 1) / 2 = j by omega, h1.2.2, h1.2.1]
    omega

/-- The bytes `A7 3C` as four digits written at offset 1 of an array of six elements:
the call returns and the digits are `10, 7, 3, 12`. -/
theorem BaseW_digits_witness :
    ∃ out, WOTS.BaseW [9, 9, 9, 9, 9, 9] 1 4 [0xA7, 0x3C] = some out ∧
      out.length = [9, 9, 9, 9, 9, 9].length ∧
      (∀ i, i < 4 →
        out.getD (1 + i) 0
          = (if i % 2 = 0 then [0xA7, 0x3C].getD (i / 2) 0 >>> 4
              else [0xA7, 0x3C].getD (i / 2) 0 &&& 15) ∧
        out.getD (1 + i) 0 ≤ 15) ∧
      (∀ j, j < 1 ∨ 1 + 4 ≤ j → out[j]? = [9, 9, 9, 9, 9, 9][j]?) ∧
      (∀ j, 2 * j + 1 < 4 →
        16 * out.getD (1 + 2 * j) 0 + out.getD (1 + (2 * j + 1)) 0
          = [0xA7, 0x3C].getD j 0) :=
  BaseW_digits [9, 9, 9, 9, 9, 9] 1 4 [0xA7, 0x3C] (by decide) (by decide) (by decide)

theorem DigitChecksum_le (l : List Nat) : DigitChecksum l ≤ 15 * l.length := by
  induction l with
  | nil => exact Nat.le_refl _
  | cons d l ih =>
    rw [DigitChecksum, List.length_cons]
    omega

theorem Digits_le (l : List Nat) : ∀ d ∈ Digits l, d ≤ 15 := by
  induction l with
  | nil =>
    intro d hd
    cases hd
  | cons b l ih =>
    intro d hd
    rw [Digits, List.mem_cons, List.mem_cons] at hd
    rcases hd with h | h | h
    · rw [h]
      exact Nat.and_le_right
    · rw [h]
      exact Nat.and_le_right
    · exact ih d h

theorem Digits_injective : ∀ l l' : List Nat, (∀ b ∈ l, b < 256) → (∀ b ∈ l', b < 256) →
    Digits l = Digits l' → l = l' := by
  intro l
  induction l with
  | nil =>
    intro l' _ _ h
    cases l' with
    | nil => rfl
    | cons b l' =>
      rw [Digits, Digits] at h
      cases h
  | cons b l ih =>
    intro l' hb hb' h
    cases l' with
    | nil =>
      rw [Digits, Digits] at h
      cases h
    | cons b' l' =>
      rw [Digits, Digits] at h
      injection h with h1 h2
      injection h2 with h2 h3
      have e := byte_digits b (hb b (List.mem_cons_self _ _))
      have e' := byte_digits b' (hb' b' (List.mem_cons_self _ _))
      rw [e.1, e.2.2, e'.1, e'.2.2] at h1
      rw [e.2.1, e'.2.1] at h2
      have hbb : b = b' := by omega
      rw [hbb, ih l' (fun x hx => hb x (List.mem_cons_of_mem _ hx))
        (fun x hx => hb' x (List.mem_cons_of_mem _ hx)) h3]

theorem DigitChecksum_mono : ∀ ds ds' : List Nat, ds.length = ds'.length →
    (∀ d ∈ ds', d ≤ 15) → (∀ i, i < ds.length → ds.getD i 0 ≤ ds'.getD i 0) →
    DigitChecksum ds' ≤ DigitChecksum ds ∧ (ds ≠ ds' → DigitChecksum ds' < DigitChecksum ds) := by
  intro ds
  induction ds with
  | nil =>
    intro ds' hl _ _
    cases ds' with
    | nil => exact ⟨Nat.le_refl _, fun h => absurd rfl h⟩
    | cons d l => cases hl
  | cons d l ih =>
    intro ds' hl hd hle
    cases ds' with
    | nil => cases hl
    | cons d' l' =>
      have h0 := hle 0 (by rw [List.length_cons]; omega)
      rw [List.getD_cons_zero, List.getD_cons_zero] at h0
      have h15 := hd d' (List.mem_cons_self _ _)
      have hl1 : l.length = l'.length := by
        rw [List.length_cons, List.length_cons] at hl
        omega
      have ht := ih l' hl1 (fun x hx => hd x (List.mem_cons_of_mem _ hx)) (fun i hi => by
        have := hle (i + 1) (by rw [List.length_cons]; omega)
        rw [List.getD_cons_succ, List.getD_cons_succ] at this
        exact this)
      rw [DigitChecksum, DigitChecksum]
      refine ⟨by omega, fun hne => ?_⟩
      by_cases hdd : d = d'
      · have hll : l ≠ l' := fun e => hne (by rw [hdd, e])
        have := ht.2 hll
        omega
      · omega

theorem ChecksumLoop_eq (M : List Nat) :
    ∀ n idx csum, idx + n ≤ M.length → (∀ i, idx ≤ i → i < idx + n → M.getD i 0 ≤ 15) →
      csum + 15 * n < 2 ^ 64 →
      WOTS.ChecksumLoop M n idx csum = some (csum + DigitChecksum (slice M idx n)) := by
  intro n
  induction n with
  | zero =>
    intro idx csum _ _ _
    rw [WOTS.ChecksumLoop, slice_zero, DigitChecksum, Nat.add_zero]
  | succ n ih =>
    intro idx csum h1 h2 h3
    have hd := h2 idx (by omega) (by omega)
    rw [WOTS.ChecksumLoop, if_pos (by omega), slice_succ _ _ _ (by omega), DigitChecksum]
    have e : (csum + (WOTS.SPX_WOTS_W - 1 + 2 ^ 64 - M.getD idx 0 % 2 ^ 64)) % 2 ^ 64
        = csum + (15 - M.getD idx 0) := by
      unfold WOTS.SPX_WOTS_W
      omega
    rw [e, ih (idx + 1) _ (by omega) (fun i hi1 hi2 => h2 i (by omega) (by omega)) (by omega),
      Nat.add_assoc]

theorem UllToBytes_two (v : Nat) :
    WOTS.UllToBytes [0, 0] 0 v 2 = some [(v >>> 8) % 256, v % 256] := by
  unfold WOTS.UllToBytes
  rw [if_pos (by decide)]
  rfl

theorem ChainLengths_eq (Lengths Message : List Nat) (N : Nat) (hN : N ≤ 32)
    (hm : Message.length = N) (hL : 2 * N + 3 ≤ Lengths.length) :
    WOTS.ChainLengths Lengths Message N
      = some (writeAt Lengths 0 (Digits Message ++
          [DigitChecksum (Digits Message) / 256, DigitChecksum (Digits Message) / 16 % 16,
           DigitChecksum (Digits Message) % 16])) := by
  have hlen1 : (8 * N / WOTS.SPX_WOTS_LOGW) % 2 ^ 32 = 2 * N := by
    unfold WOTS.SPX_WOTS_LOGW
    omega
  have hD : (Digits Message).length = 2 * N := by rw [Digits_length, hm]
  have hc := DigitChecksum_le (Digits Message)
  rw [hD] at hc
  have hL1 : (writeAt Lengths 0 (Digits Message)).length = Lengths.length :=
    writeAt_length _ _ _ (by omega)
  have hs : slice (writeAt Lengths 0 (Digits Message)) 0 (2 * N) = Digits Message := by
    have := slice_writeAt Lengths 0 (Digits Message) (by omega)
    rw [hD] at this
    exact this
  have h15 : ∀ i, 0 ≤ i → i < 0 + 2 * N →
      (writeAt Lengths 0 (Digits Message)).getD i 0 ≤ 15 := by
    intro i _ hi
    rw [getD_writeAt _ _ _ (by omega), if_neg (by omega), if_pos (by omega), Nat.sub_zero,
      List.getD_eq_getElem _ _ (by omega)]
    exact Digits_le _ _ (List.getElem_mem _)
  unfold WOTS.ChainLengths
  simp only [hlen1]
  rw [BaseW_eq _ _ _ _ (by omega) (by omega), List.take_of_length_le (by omega)]
  simp only []
  unfold WOTS.WotsChecksum
  simp only [hlen1]
  rw [ChecksumLoop_eq _ _ _ _ (by omega) h15 (by omega), hs, Nat.zero_add]
  simp only []
  have hb : List.replicate ((WOTS.SPX_WOTS_LEN2 * WOTS.SPX_WOTS_LOGW + 7) / 8) 0 = [0, 0] := rfl
  rw [hb]
  have hsh : (DigitChecksum (Digits Message)
      <<< (8 - (WOTS.SPX_WOTS_LEN2 * WOTS.SPX_WOTS_LOGW) % 8)) % 2 ^ 64
      = 16 * DigitChecksum (Digits Message) := by
    rw [Nat.shiftLeft_eq, show 2 ^ (8 - (WOTS.SPX_WOTS_LEN2 * WOTS.SPX_WOTS_LOGW) % 8) = 16
      from rfl]
    omega
  rw [hsh, show [0, 0].length = 2 from rfl, UllToBytes_two]
  simp only []
  have hb0 := byte_digits ((16 * DigitChecksum (Digits Message)) >>> 8 % 256)
    (Nat.mod_lt _ (by decide))
  have hb1 := byte_digits (16 * DigitChecksum (Digits Message) % 256) (Nat.mod_lt _ (by decide))
  have hw := writeAt_then Lengths 0 (Digits Message)
    [DigitChecksum (Digits Message) / 256, DigitChecksum (Digits Message) / 16 % 16,
      DigitChecksum (Digits Message) % 16] (2 * N) hD (by omega)
  rw [Nat.zero_add] at hw
  rw [BaseW_eq _ _ _ _ (by rw [List.length_cons, List.length_singleton]; decide)
    (by unfold WOTS.SPX_WOTS_LEN2; omega), ← hw]
  unfold WOTS.SPX_WOTS_LEN2
  rw [Digits, Digits, Digits, List.take_succ_cons, List.take_succ_cons, List.take_succ_cons,
    List.take_zero, hb0.1, hb0.2.1, hb0.2.2, hb1.1, hb1.2.2, Nat.shiftRight_eq_div_pow]
  have e0 : 16 * DigitChecksum (Digits Message) / 2 ^ 8 % 256 / 16
      = DigitChecksum (Digits Message) / 256 := by omega
  have e1 : 16 * DigitChecksum (Digits Message) / 2 ^ 8 % 256 % 16
      = DigitChecksum (Digits Message) / 16 % 16 := by omega
  have e2 : 16 * DigitChecksum (Digits Message) % 256 / 16
      = DigitChecksum (Digits Message) % 16 := by omega
  rw [e0, e1, e2]

theorem ChainLengths_getD (Lengths D : List Nat) (c2 c1 c0 N : Nat) (hD : D.length = 2 * N) :
    (∀ i, i < 2 * N → (writeAt Lengths 0 (D ++ [c2, c1, c0])).getD i 0 = D.getD i 0) ∧
      (writeAt Lengths 0 (D ++ [c2, c1, c0])).getD (2 * N) 0 = c2 ∧
      (writeAt Lengths 0 (D ++ [c2, c1, c0])).getD (2 * N + 1) 0 = c1 ∧
      (writeAt Lengths 0 (D ++ [c2, c1, c0])).getD (2 * N + 2) 0 = c0 := by
  have hl : (D ++ [c2, c1, c0]).length = 2 * N + 3 := by
    rw [List.length_append, hD]
    rfl
  have h : ∀ i, i < 2 * N + 3 →
      (writeAt Lengths 0 (D ++ [c2, c1, c0])).getD i 0 = (D ++ [c2, c1, c0]).getD i 0 := by
    intro i hi
    rw [getD_writeAt _ _ _ (by omega), if_neg (by omega), if_pos (by omega), Nat.sub_zero]
  refine ⟨fun i hi => ?_, ?_, ?_, ?_⟩
  · rw [h i (by omega), List.getD_append _ _ _ _ (by omega)]
  · rw [h _ (by omega), List.getD_append_right _ _ _ _ (by omega), hD, Nat.sub_self]
    rfl
  · rw [h _ (by omega), List.getD_append_right _ _ _ _ (by omega), hD, Nat.add_sub_cancel_left]
    rfl
  · rw [h _ (by omega), List.getD_append_right _ _ _ _ (by omega), hD, Nat.add_sub_cancel_left]
    rfl

/-- C38: for two distinct messages `m` and `m'` of `N <= 32` bytes and `Lengths` vectors of
at least `2 * N + 3` elements, `ChainLengths` returns for both; the first `2 * N` lengths
are the digits of the message, the last three the digits in base 16, most significant
first, of the checksum `c`, the sum of `15 - d` over the message digits, which is below
`16 ^ 3`; there is an index at which the length for `m'` is below the length for `m`;
and when no message digit of `m'` is below that of `m` the checksum of `m'` is below the
checksum of `m`. -/
theorem ChainLengths_not_dominated (Lengths Lengths' m m' : List Nat) (N : Nat) (hN : N ≤ 32)
    (hm : m.length = N) (hm' : m'.length = N) (hb : ∀ b ∈ m, b < 256)
    (hb' : ∀ b ∈ m', b < 256) (hL : 2 * N + 3 ≤ Lengths.length)
    (hL' : 2 * N + 3 ≤ Lengths'.length) (hne : m ≠ m') :
    ∃ L L', WOTS.ChainLengths Lengths m N = some L ∧
      WOTS.ChainLengths Lengths' m' N = some L' ∧
      slice L 0 (2 * N) = Digits m ∧ slice L' 0 (2 * N) = Digits m' ∧
      slice L (2 * N) 3 = [DigitChecksum (Digits m) / 256, DigitChecksum (Digits m) / 16 % 16,
        DigitChecksum (Digits m) % 16] ∧
      slice L' (2 * N) 3 = [DigitChecksum (Digits m') / 256,
        DigitChecksum (Digits m') / 16 % 16, DigitChecksum (Digits m') % 16] ∧
      DigitChecksum (Digits m) < 16 ^ 3 ∧ DigitChecksum (Digits m') < 16 ^ 3 ∧
      (∃ i, i < 2 * N + 3 ∧ L'.getD i 0 < L.getD i 0) ∧
      ((∀ i, i < 2 * N → L.getD i 0 ≤ L'.getD i 0) →
        DigitChecksum (Digits m') < DigitChecksum (Digits m)) := by
  have hD : (Digits m).length = 2 * N := by rw [Digits_length, hm]
  have hD' : (Digits m').length = 2 * N := by rw [Digits_length, hm']
  have hc := DigitChecksum_le (Digits m)
  have hc' := DigitChecksum_le (Digits m')
  rw [hD] at hc
  rw [hD'] at hc'
  have hdne : Digits m ≠ Digits m' := fun e => hne (Digits_injective m m' hb hb' e)
  have g := ChainLengths_getD Lengths (Digits m) (DigitChecksum (Digits m) / 256)
    (DigitChecksum (Digits m) / 16 % 16) (DigitChecksum (Digits m) % 16) N hD
  have g' := ChainLengths_getD Lengths' (Digits m') (DigitChecksum (Digits m') / 256)
    (DigitChecksum (Digits m') / 16 % 16) (DigitChecksum (Digits m') % 16) N hD'
  have hmono : (∀ i, i < 2 * N →
      (writeAt Lengths 0 (Digits m ++ [DigitChecksum (Digits m) / 256,
        DigitChecksum (Digits m) / 16 % 16, DigitChecksum (Digits m) % 16])).getD i 0
      ≤ (writeAt Lengths' 0 (Digits m' ++ [DigitChecksum (Digits m') / 256,
        DigitChecksum (Digits m') / 16 % 16, DigitChecksum (Digits m') % 16])).getD i 0) →
      DigitChecksum (Digits m') < DigitChecksum (Digits m) := by
    intro h
    refine (DigitChecksum_mono (Digits m) (Digits m') (by rw [hD, hD']) (Digits_le m')
      (fun i hi => ?_)).2 hdne
    have := h i (by omega)
    rw [g.1 i (by omega), g'.1 i (by omega)] at this
    exact this
  have hsl : ∀ (V D X : List Nat), D.length = 2 * N → X.length = 3 → 2 * N + 3 ≤ V.length →
      slice (writeAt V 0 (D ++ X)) 0 (2 * N) = D ∧ slice (writeAt V 0 (D ++ X)) (2 * N) 3 = X := by
    intro V D X h1 h2 h3
    have e1 := slice_writeAt_inner V 0 (D ++ X) 0 (2 * N) (by omega)
      (by rw [List.length_append]; omega)
    have e2 := slice_writeAt_inner V 0 (D ++ X) (2 * N) 3 (by omega)
      (by rw [List.length_append]; omega)
    rw [Nat.zero_add] at e1 e2
    rw [e1, e2]
    unfold slice
    rw [List.drop_zero, ← h1, List.take_left, List.drop_left, ← h2, List.take_length]
    exact ⟨rfl, rfl⟩
  have s := hsl Lengths (Digits m) [DigitChecksum (Digits m) / 256,
    DigitChecksum (Digits m) / 16 % 16, DigitChecksum (Digits m) % 16] hD rfl hL
  have s' := hsl Lengths' (Digits m') [DigitChecksum (Digits m') / 256,
    DigitChecksum (Digits m') / 16 % 16, DigitChecksum (Digits m') % 16] hD' rfl hL'
  refine ⟨_, _, ChainLengths_eq Lengths m N hN hm hL, ChainLengths_eq Lengths' m' N hN hm' hL',
    s.1, s'.1, s.2, s'.2, by omega, by omega, ?_, hmono⟩
  by_contra hcon
  have hall : ∀ i, i < 2 * N + 3 →
      (writeAt Lengths 0 (Digits m ++ [DigitChecksum (Digits m) / 256,
        DigitChecksum (Digits m) / 16 % 16, DigitChecksum (Digits m) % 16])).getD i 0
      ≤ (writeAt Lengths' 0 (Digits m' ++ [DigitChecksum (Digits m') / 256,
        DigitChecksum (Digits m') / 16 % 16, DigitChecksum (Digits m') % 16])).getD i 0 := by
    intro i hi
    by_contra hlt
    exact hcon ⟨i, hi, by omega⟩
  have hlt := hmono (fun i hi => hall i (by omega))
  have h2 := hall (2 * N) (by omega)
  have h1 := hall (2 * N + 1) (by omega)
  have h0 := hall (2 * N + 2) (by omega)
  rw [g.2.1, g'.2.1] at h2
  rw [g.2.2.1, g'.2.2.1] at h1
  rw [g.2.2.2, g'.2.2.2] at h0
  omega

/-- The messages `[0x12]` and `[0x21]`: the chain lengths are `1, 2` and `2, 1`, each
followed by the digits `0, 1, 11` of the checksum 27, and the second is below the first
at index 1. -/
theorem ChainLengths_not_dominated_witness :
    ∃ L L', WOTS.ChainLengths [0, 0, 0, 0, 0] [0x12] 1 = some L ∧
      WOTS.ChainLengths [0, 0, 0, 0, 0] [0x21] 1 = some L' ∧
      slice L 0 (2 * 1) = Digits [0x12] ∧ slice L' 0 (2 * 1) = Digits [0x21] ∧
      slice L (2 * 1) 3 = [DigitChecksum (Digits [0x12]) / 256,
        DigitChecksum (Digits [0x12]) / 16 % 16, DigitChecksum (Digits [0x12]) % 16] ∧
      slice L' (2 * 1) 3 = [DigitChecksum (Digits [0x21]) / 256,
        DigitChecksum (Digits [0x21]) / 16 % 16, DigitChecksum (Digits [0x21]) % 16] ∧
      DigitChecksum (Digits [0x12]) < 16 ^ 3 ∧ DigitChecksum (Digits [0x21]) < 16 ^ 3 ∧
      (∃ i, i < 2 * 1 + 3 ∧ L'.getD i 0 < L.getD i 0) ∧
      ((∀ i, i < 2 * 1 → L.getD i 0 ≤ L'.getD i 0) →
        DigitChecksum (Digits [0x21]) < DigitChecksum (Digits [0x12])) :=
  ChainLengths_not_dominated [0, 0, 0, 0, 0] [0, 0, 0, 0, 0] [0x12] [0x21] 1 (by decide) rfl rfl
    (by decide) (by decide) (by decide) (by decide) (by decide)

/-! ## `WOTS`: the public key from a signature -/

theorem writeAt_over (v : List Nat) (o : Nat) (X Y : List Nat) (hXY : Y.length = X.length)
    (h : o + X.length ≤ v.length) : writeAt (writeAt v o X) o Y = writeAt v o Y := by
  have e := writeAt_writeAt_inner v o X 0 Y h (by omega)
  rw [Nat.add_zero, writeAt_full X Y hXY.symm] at e
  exact e

theorem writeAt_zero_then (v a b : List Nat) (n : Nat) (ha : a.length = n) (h : n ≤ v.length) :
    writeAt (writeAt v 0 a) n b = writeAt v 0 (a ++ b) := by
  have e := writeAt_then v 0 a b n ha (by omega)
  rw [Nat.zero_add] at e
  exact e

theorem ChainStep_length (U : SphincsUtils) (PkSeed A : List Nat) (N : Nat) (x : List Nat) :
    (ChainStep U PkSeed A N x).length = N := by
  unfold ChainStep
  rw [List.length_map, List.length_range]

theorem ChainValue_length (U : SphincsUtils) (PkSeed a : List Nat) (N : Nat) :
    ∀ n s x, x.length = N → (ChainValue U PkSeed a N s n x).length = N := by
  intro n
  induction n with
  | zero =>
    intro s x hx
    rw [ChainValue]
    exact hx
  | succ n ih =>
    intro s x _
    rw [ChainValue]
    exact ih _ _ (ChainStep_length _ _ _ _ _)

theorem ChainValue_add (U : SphincsUtils) (PkSeed a : List Nat) (N : Nat) :
    ∀ n m s x, ChainValue U PkSeed a N s (n + m) x
      = ChainValue U PkSeed a N (s + n) m (ChainValue U PkSeed a N s n x) := by
  intro n
  induction n with
  | zero =>
    intro m s x
    rw [Nat.zero_add, Nat.add_zero, ChainValue]
  | succ n ih =>
    intro m s x
    rw [show n + 1 + m = (n + m) + 1 by omega, ChainValue, ChainValue, ih,
      show s + 1 + n = s + (n + 1) by omega]

theorem SecretElement_length (U : SphincsUtils) (SkSeed a0 : List Nat) (N idx : Nat) :
    (SecretElement U SkSeed a0 N idx).length = N := by
  unfold SecretElement
  rw [List.length_map, List.length_range]

theorem THash_eq (U : SphincsUtils) (O : List Nat) (off : Nat) (PkSeed A : List Nat) (N : Nat)
    (hP : N ≤ PkSeed.length) (hO : off + N ≤ O.length) :
    WOTS.THash U O off O off 1 PkSeed A
        (List.replicate (N + WOTS.SPX_ADDR_BYTES + 1 * N) 0) (List.replicate (1 * N) 0) N
      = some (writeAt O off (ChainStep U PkSeed A N (slice O off N))) := by
  have hS : (slice PkSeed 0 N).length = N := slice_length _ _ _ (by omega)
  have hA : ((List.range WOTS.SPX_ADDR_BYTES).map (U.AddressToBytes A)).length
      = WOTS.SPX_ADDR_BYTES := by rw [List.length_map, List.length_range]
  have hB0 : (List.replicate (N + WOTS.SPX_ADDR_BYTES + N) 0).length
      = N + WOTS.SPX_ADDR_BYTES + N := List.length_replicate _ _
  have hB1 : (writeAt (List.replicate (N + WOTS.SPX_ADDR_BYTES + N) 0) 0
      (slice PkSeed 0 N)).length = N + WOTS.SPX_ADDR_BYTES + N := by
    rw [writeAt_length _ _ _ (by rw [hB0, hS]; omega), hB0]
  have hSA : (slice PkSeed 0 N
      ++ (List.range WOTS.SPX_ADDR_BYTES).map (U.AddressToBytes A)).length
      = N + WOTS.SPX_ADDR_BYTES := by rw [List.length_append, hS, hA]
  have hk : slice (writeAt (List.replicate (N + WOTS.SPX_ADDR_BYTES + N) 0) 0
      (slice PkSeed 0 N ++ (List.range WOTS.SPX_ADDR_BYTES).map (U.AddressToBytes A))) 0
      (N + WOTS.SPX_ADDR_BYTES)
      = slice PkSeed 0 N ++ (List.range WOTS.SPX_ADDR_BYTES).map (U.AddressToBytes A) := by
    have e := slice_writeAt (List.replicate (N + WOTS.SPX_ADDR_BYTES + N) 0) 0
      (slice PkSeed 0 N ++ (List.range WOTS.SPX_ADDR_BYTES).map (U.AddressToBytes A))
      (by omega)
    rw [hSA] at e
    exact e
  unfold WOTS.THash MemoryTools.Clear
  simp only [Nat.one_mul, List.length_replicate]
  rw [Copy_eq _ _ _ _ _ (by omega) (by rw [hB0]; omega)]
  simp only []
  rw [if_pos ⟨by rw [hB1]; omega, Nat.le_refl _, hO, by rw [hB1], hO⟩,
    writeAt_zero_then _ _ _ N hS (by rw [hB0]; omega), hk,
    writeAt_full (List.replicate N 0) _
      (by rw [List.length_replicate, List.length_map, List.length_range]),
    slice_full (List.map _ (List.range N)) N (by rw [List.length_map, List.length_range]),
    writeAt_zero_then _ _ _ (N + WOTS.SPX_ADDR_BYTES) hSA (by rw [hB0]; omega),
    writeAt_full _ _ (by
      rw [hB0, List.length_append, hSA, xorBytes_length, slice_length _ _ _ hO,
        List.length_map, List.length_range, Nat.min_self]),
    slice_full (_ ++ xorBytes _ _) _ (by
      rw [List.length_append, hSA, xorBytes_length, slice_length _ _ _ hO,
        List.length_map, List.length_range, Nat.min_self])]
  rfl

theorem SameHash_set (U : SphincsUtils) (hU : AddressLaws U) (a b : List Nat) (i : Nat)
    (h : SameHash U a b) : SameHash U (U.SetHashAddress a i) b := by
  intro j
  rw [hU.1, h j]

theorem SameHash_chain (U : SphincsUtils) (a b : List Nat) (c : Nat) (h : SameChains U a b) :
    SameHash U (U.SetChainAddress a c) (U.SetChainAddress b c) :=
  fun j => h c j

theorem SameChains_of_hash (U : SphincsUtils) (hU : AddressLaws U) (a a0 : List Nat) (c : Nat)
    (h : SameHash U a (U.SetChainAddress a0 c)) : SameChains U a a0 := by
  intro d j
  rw [← hU.2.1, h j, hU.2.1, hU.2.2]

theorem GenChainLoop_eq (U : SphincsUtils) (hU : AddressLaws U) (off : Nat)
    (PkSeed a : List Nat) (N : Nat) (hP : N ≤ PkSeed.length) :
    ∀ n idx O A, idx + n ≤ WOTS.SPX_WOTS_W → off + N ≤ O.length → SameHash U A a →
      ∃ A1, WOTS.GenChainLoop U off PkSeed N n idx (O, A)
          = some (writeAt O off (ChainValue U PkSeed a N idx n (slice O off N)), A1) ∧
        SameHash U A1 a := by
  intro n
  induction n with
  | zero =>
    intro idx O A _ hO hA
    refine ⟨A, ?_, hA⟩
    rw [WOTS.GenChainLoop, ChainValue, writeAt_slice _ _ _ hO]
  | succ n ih =>
    intro idx O A hidx hO hA
    have hl := ChainStep_length U PkSeed (U.SetHashAddress a idx) N (slice O off N)
    have hO1 : off + N ≤ (writeAt O off
        (ChainStep U PkSeed (U.SetHashAddress a idx) N (slice O off N))).length := by
      rw [writeAt_length _ _ _ (by rw [hl]; exact hO)]
      exact hO
    obtain ⟨A1, e, hA1⟩ := ih (idx + 1) (writeAt O off
      (ChainStep U PkSeed (U.SetHashAddress a idx) N (slice O off N))) (U.SetHashAddress a idx)
      (by omega) hO1 (SameHash_set U hU a a idx (fun _ => rfl))
    have hs : slice (writeAt O off
        (ChainStep U PkSeed (U.SetHashAddress a idx) N (slice O off N))) off N
        = ChainStep U PkSeed (U.SetHashAddress a idx) N (slice O off N) := by
      have := slice_writeAt O off
        (ChainStep U PkSeed (U.SetHashAddress a idx) N (slice O off N)) (by omega)
      rw [hl] at this
      exact this
    refine ⟨A1, ?_, hA1⟩
    rw [WOTS.GenChainLoop, if_pos (by omega)]
    simp only []
    rw [hA idx, THash_eq U O off PkSeed _ N hP hO]
    simp only []
    rw [e, hs, ChainValue, writeAt_over _ _ _ _
      (by rw [hl, ChainValue_length _ _ _ _ _ _ _ hl]) (by rw [hl]; exact hO)]

theorem GenChain_eq (U : SphincsUtils) (hU : AddressLaws U) (Output : List Nat) (off : Nat)
    (Input : List Nat) (inoff Start Steps : Nat) (PkSeed A a : List Nat) (N : Nat)
    (hP : N ≤ PkSeed.length) (hS : Start + Steps ≤ WOTS.SPX_WOTS_W)
    (hI : inoff + N ≤ Input.length) (hO : off + N ≤ Output.length) (hA : SameHash U A a) :
    ∃ A1, WOTS.GenChain U Output off Input inoff Start Steps PkSeed A N
        = some (writeAt Output off
            (ChainValue U PkSeed a N Start Steps (slice Input inoff N)), A1) ∧
      SameHash U A1 a := by
  have hl := slice_length Input inoff N hI
  obtain ⟨A1, e, hA1⟩ := GenChainLoop_eq U hU off PkSeed a N hP Steps Start
    (writeAt Output off (slice Input inoff N)) A hS
    (by rw [writeAt_length _ _ _ (by rw [hl]; exact hO)]; exact hO) hA
  have hs := slice_writeAt Output off (slice Input inoff N) (by omega)
  rw [hl] at hs
  refine ⟨A1, ?_, hA1⟩
  unfold WOTS.GenChain
  rw [Copy_eq _ _ _ _ _ hI hO]
  simp only []
  rw [e, hs, writeAt_over _ _ _ _ (by rw [hl, ChainValue_length _ _ _ _ _ _ _ hl])
    (by rw [hl]; exact hO)]

theorem flatMap_range_succ (f : Nat → List Nat) (k : Nat) :
    (List.range (k + 1)).flatMap f = (List.range k).flatMap f ++ f k := by
  rw [List.range_succ, List.flatMap_append, List.flatMap_singleton]

theorem flatMap_range_length (f : Nat → List Nat) (N : Nat) (hf : ∀ i, (f i).length = N) :
    ∀ k, ((List.range k).flatMap f).length = k * N := by
  intro k
  induction k with
  | zero => rw [Nat.zero_mul]; rfl
  | succ k ih => rw [flatMap_range_succ, List.length_append, ih, hf, Nat.succ_mul]

theorem slice_flatMap_range (f : Nat → List Nat) (N : Nat) (hf : ∀ i, (f i).length = N) :
    ∀ k i, i < k → slice ((List.range k).flatMap f) (i * N) N = f i := by
  intro k
  induction k with
  | zero =>
    intro i hi
    omega
  | succ k ih =>
    intro i hi
    have hl := flatMap_range_length f N hf k
    rw [flatMap_range_succ]
    by_cases hik : i < k
    · have hle : i * N + N ≤ k * N := by
        have := Nat.mul_le_mul_right N (show i + 1 ≤ k by omega)
        rw [Nat.succ_mul] at this
        exact this
      rw [← ih i hik]
      unfold slice
      rw [List.drop_append_of_le_length (by omega), List.take_append_of_le_length
        (by rw [List.length_drop]; omega)]
    · have hik1 : i = k := by omega
      rw [hik1]
      unfold slice
      rw [List.drop_left' hl, ← hf k, List.take_length]

theorem writeAt_blocks (V : List Nat) (base : Nat) (f : Nat → List Nat) (N : Nat)
    (hf : ∀ i, (f i).length = N) (k : Nat) (h : base + k * N ≤ V.length) :
    writeAt (writeAt V base ((List.range k).flatMap f)) (base + k * N) (f k)
      = writeAt V base ((List.range (k + 1)).flatMap f) := by
  rw [flatMap_range_succ]
  exact writeAt_then V base _ _ (k * N) (flatMap_range_length f N hf k) h

theorem writeAt_blocks_zero (V : List Nat) (f : Nat → List Nat) (N : Nat)
    (hf : ∀ i, (f i).length = N) (k : Nat) (h : k * N ≤ V.length) :
    writeAt (writeAt V 0 ((List.range k).flatMap f)) (k * N) (f k)
      = writeAt V 0 ((List.range (k + 1)).flatMap f) := by
  have e := writeAt_blocks V 0 f N hf k (by omega)
  rw [Nat.zero_add] at e
  exact e

theorem PublicKeyOf_block (U : SphincsUtils) (SkSeed PkSeed a0 : List Nat) (N : Nat) :
    ∀ i, (ChainValue U PkSeed (U.SetChainAddress a0 i) N 0 (WOTS.SPX_WOTS_W - 1)
      (SecretElement U SkSeed a0 N i)).length = N :=
  fun i => ChainValue_length U PkSeed _ N _ _ _ (SecretElement_length U SkSeed a0 N i)

theorem SignatureOf_block (U : SphincsUtils) (SkSeed PkSeed a0 lengths : List Nat) (N : Nat) :
    ∀ i, (ChainValue U PkSeed (U.SetChainAddress a0 i) N 0 (lengths.getD i 0)
      (SecretElement U SkSeed a0 N i)).length = N :=
  fun i => ChainValue_length U PkSeed _ N _ _ _ (SecretElement_length U SkSeed a0 N i)

theorem WotsGenPkLoop_eq (U : SphincsUtils) (hU : AddressLaws U) (SkSeed PkSeed a0 : List Nat)
    (N : Nat) (hP : N ≤ PkSeed.length) (PK : List Nat) :
    ∀ n idx A, (idx + n) * N ≤ PK.length → SameChains U A a0 →
      ∃ A1, WOTS.WotsGenPkLoop U SkSeed PkSeed N n idx
          (writeAt PK 0 (PublicKeyOf U SkSeed PkSeed a0 N idx), A)
          = some (writeAt PK 0 (PublicKeyOf U SkSeed PkSeed a0 N (idx + n)), A1) ∧
        SameChains U A1 a0 := by
  intro n
  induction n with
  | zero =>
    intro idx A _ hA
    exact ⟨A, by rw [WOTS.WotsGenPkLoop, Nat.add_zero], hA⟩
  | succ n ih =>
    intro idx A hlen hA
    have hb := PublicKeyOf_block U SkSeed PkSeed a0 N
    have hpl : (PublicKeyOf U SkSeed PkSeed a0 N idx).length = idx * N :=
      flatMap_range_length _ N hb idx
    have hle : idx * N + N ≤ PK.length := by
      have := Nat.mul_le_mul_right N (show idx + 1 ≤ idx + (n + 1) by omega)
      rw [Nat.succ_mul] at this
      omega
    have hbuf : (writeAt PK 0 (PublicKeyOf U SkSeed PkSeed a0 N idx)).length = PK.length :=
      writeAt_length _ _ _ (by omega)
    have hsk := SecretElement_length U SkSeed a0 N idx
    have hbuf1 : (writeAt (writeAt PK 0 (PublicKeyOf U SkSeed PkSeed a0 N idx)) (idx * N)
        (SecretElement U SkSeed a0 N idx)).length = PK.length := by
      rw [writeAt_length _ _ _ (by rw [hbuf, hsk]; exact hle), hbuf]
    obtain ⟨A1, e, hA1⟩ := GenChain_eq U hU
      (writeAt (writeAt PK 0 (PublicKeyOf U SkSeed PkSeed a0 N idx)) (idx * N)
        (SecretElement U SkSeed a0 N idx)) (idx * N)
      (writeAt (writeAt PK 0 (PublicKeyOf U SkSeed PkSeed a0 N idx)) (idx * N)
        (SecretElement U SkSeed a0 N idx)) (idx * N) 0 (WOTS.SPX_WOTS_W - 1) PkSeed
      (U.SetHashAddress (U.SetChainAddress a0 idx) 0) (U.SetChainAddress a0 idx) N hP
      (by decide) (by rw [hbuf1]; exact hle) (by rw [hbuf1]; exact hle)
      (SameHash_set U hU _ _ 0 (fun _ => rfl))
    have hs := slice_writeAt (writeAt PK 0 (PublicKeyOf U SkSeed PkSeed a0 N idx)) (idx * N)
      (SecretElement U SkSeed a0 N idx) (by omega)
    rw [hsk] at hs
    have hn : (idx + 1 + n) * N ≤ PK.length := by
      rw [show idx + 1 + n = idx + (n + 1) by omega]
      exact hlen
    obtain ⟨A2, e2, hA2⟩ := ih (idx + 1) A1 hn (SameChains_of_hash U hU A1 a0 idx hA1)
    refine ⟨A2, ?_, hA2⟩
    rw [WOTS.WotsGenPkLoop]
    unfold WOTS.WotsGenSk
    rw [if_pos (by rw [hbuf]; exact hle)]
    simp only []
    rw [hA idx 0]
    rw [hs, writeAt_over _ _ _ _ (by rw [hsk]; exact hb idx) (by rw [hbuf, hsk]; exact hle)] at e
    unfold PublicKeyOf at e
    rw [writeAt_blocks_zero PK _ N hb idx (by omega)] at e
    unfold SecretElement at e
    unfold PublicKeyOf SecretElement
    rw [e]
    simp only []
    unfold PublicKeyOf SecretElement at e2
    rw [e2, show idx + 1 + n = idx + (n + 1) by omega]

theorem WotsSignLoop_eq (U : SphincsUtils) (hU : AddressLaws U) (SigOffset : Nat)
    (SkSeed PkSeed a0 lengths : List Nat) (hlen : ∀ i, lengths.getD i 0 ≤ 15)
    (N : Nat) (hP : N ≤ PkSeed.length) (Sig : List Nat) :
    ∀ n idx A, SigOffset + (idx + n) * N ≤ Sig.length → SameChains U A a0 →
      ∃ A1, WOTS.WotsSignLoop U SigOffset SkSeed PkSeed lengths N n idx
          (writeAt Sig SigOffset (SignatureOf U SkSeed PkSeed a0 lengths N idx), A)
          = some (writeAt Sig SigOffset
              (SignatureOf U SkSeed PkSeed a0 lengths N (idx + n)), A1) ∧
        SameChains U A1 a0 := by
  intro n
  induction n with
  | zero =>
    intro idx A _ hA
    exact ⟨A, by rw [WOTS.WotsSignLoop, Nat.add_zero], hA⟩
  | succ n ih =>
    intro idx A hsz hA
    have hb := SignatureOf_block U SkSeed PkSeed a0 lengths N
    have hpl : (SignatureOf U SkSeed PkSeed a0 lengths N idx).length = idx * N :=
      flatMap_range_length _ N hb idx
    have hle : SigOffset + idx * N + N ≤ Sig.length := by
      have := Nat.mul_le_mul_right N (show idx + 1 ≤ idx + (n + 1) by omega)
      rw [Nat.succ_mul] at this
      omega
    have hbuf : (writeAt Sig SigOffset (SignatureOf U SkSeed PkSeed a0 lengths N idx)).length
        = Sig.length := writeAt_length _ _ _ (by omega)
    have hsk := SecretElement_length U SkSeed a0 N idx
    have hbuf1 : (writeAt (writeAt Sig SigOffset (SignatureOf U SkSeed PkSeed a0 lengths N idx))
        (SigOffset + idx * N) (SecretElement U SkSeed a0 N idx)).length = Sig.length := by
      rw [writeAt_length _ _ _ (by rw [hbuf, hsk]; exact hle), hbuf]
    obtain ⟨A1, e, hA1⟩ := GenChain_eq U hU
      (writeAt (writeAt Sig SigOffset (SignatureOf U SkSeed PkSeed a0 lengths N idx))
        (SigOffset + idx * N) (SecretElement U SkSeed a0 N idx)) (SigOffset + idx * N)
      (writeAt (writeAt Sig SigOffset (SignatureOf U SkSeed PkSeed a0 lengths N idx))
        (SigOffset + idx * N) (SecretElement U SkSeed a0 N idx)) (SigOffset + idx * N) 0
      (lengths.getD idx 0) PkSeed
      (U.SetHashAddress (U.SetChainAddress a0 idx) 0) (U.SetChainAddress a0 idx) N hP
      (by have := hlen idx; unfold WOTS.SPX_WOTS_W; omega) (by rw [hbuf1]; exact hle)
      (by rw [hbuf1]; exact hle) (SameHash_set U hU _ _ 0 (fun _ => rfl))
    have hs := slice_writeAt (writeAt Sig SigOffset
      (SignatureOf U SkSeed PkSeed a0 lengths N idx)) (SigOffset + idx * N)
      (SecretElement U SkSeed a0 N idx) (by omega)
    rw [hsk] at hs
    have hn : SigOffset + (idx + 1 + n) * N ≤ Sig.length := by
      rw [show idx + 1 + n = idx + (n + 1) by omega]
      exact hsz
    obtain ⟨A2, e2, hA2⟩ := ih (idx + 1) A1 hn (SameChains_of_hash U hU A1 a0 idx hA1)
    refine ⟨A2, ?_, hA2⟩
    rw [WOTS.WotsSignLoop]
    unfold WOTS.WotsGenSk
    rw [if_pos (by rw [hbuf]; exact hle)]
    simp only []
    rw [hA idx 0]
    rw [hs, writeAt_over _ _ _ _ (by rw [hsk]; exact hb idx) (by rw [hbuf, hsk]; exact hle)] at e
    unfold SignatureOf at e
    rw [writeAt_blocks Sig SigOffset _ N hb idx (by omega)] at e
    unfold SecretElement at e
    unfold SignatureOf SecretElement
    rw [e]
    simp only []
    unfold SignatureOf SecretElement at e2
    rw [e2, show idx + 1 + n = idx + (n + 1) by omega]

theorem WotsPkFromSigLoop_eq (U : SphincsUtils) (hU : AddressLaws U) (Signature : List Nat)
    (SigOffset : Nat) (SkSeed PkSeed a0 lengths : List Nat) (hlen : ∀ i, lengths.getD i 0 ≤ 15)
    (N : Nat) (hP : N ≤ PkSeed.length) (PK : List Nat) (LEN : Nat)
    (hsz : SigOffset + LEN * N ≤ Signature.length)
    (hsig : ∀ i, i < LEN → slice Signature (SigOffset + i * N) N
      = ChainValue U PkSeed (U.SetChainAddress a0 i) N 0 (lengths.getD i 0)
          (SecretElement U SkSeed a0 N i)) :
    ∀ n idx A, idx + n ≤ LEN → (idx + n) * N ≤ PK.length → SameChains U A a0 →
      ∃ A1, WOTS.WotsPkFromSigLoop U Signature SigOffset PkSeed lengths N n idx
          (writeAt PK 0 (PublicKeyOf U SkSeed PkSeed a0 N idx), A)
          = some (writeAt PK 0 (PublicKeyOf U SkSeed PkSeed a0 N (idx + n)), A1) ∧
        SameChains U A1 a0 := by
  intro n
  induction n with
  | zero =>
    intro idx A _ _ hA
    exact ⟨A, by rw [WOTS.WotsPkFromSigLoop, Nat.add_zero], hA⟩
  | succ n ih =>
    intro idx A hidx hpk hA
    have hb := PublicKeyOf_block U SkSeed PkSeed a0 N
    have hpl : (PublicKeyOf U SkSeed PkSeed a0 N idx).length = idx * N :=
      flatMap_range_length _ N hb idx
    have hle : idx * N + N ≤ PK.length := by
      have := Nat.mul_le_mul_right N (show idx + 1 ≤ idx + (n + 1) by omega)
      rw [Nat.succ_mul] at this
      omega
    have hle2 : SigOffset + idx * N + N ≤ Signature.length := by
      have := Nat.mul_le_mul_right N (show idx + 1 ≤ LEN by omega)
      rw [Nat.succ_mul] at this
      omega
    have hbuf : (writeAt PK 0 (PublicKeyOf U SkSeed PkSeed a0 N idx)).length = PK.length :=
      writeAt_length _ _ _ (by omega)
    have h15 := hlen idx
    obtain ⟨A1, e, hA1⟩ := GenChain_eq U hU
      (writeAt PK 0 (PublicKeyOf U SkSeed PkSeed a0 N idx)) (idx * N) Signature
      (SigOffset + idx * N) (lengths.getD idx 0) (WOTS.SPX_WOTS_W - 1 - lengths.getD idx 0)
      PkSeed (U.SetChainAddress A idx) (U.SetChainAddress a0 idx) N hP
      (by unfold WOTS.SPX_WOTS_W; omega) hle2 (by rw [hbuf]; exact hle)
      (SameHash_chain U A a0 idx hA)
    have hadd := ChainValue_add U PkSeed (U.SetChainAddress a0 idx) N (lengths.getD idx 0)
      (WOTS.SPX_WOTS_W - 1 - lengths.getD idx 0) 0 (SecretElement U SkSeed a0 N idx)
    rw [Nat.zero_add, show lengths.getD idx 0 + (WOTS.SPX_WOTS_W - 1 - lengths.getD idx 0)
      = WOTS.SPX_WOTS_W - 1 by unfold WOTS.SPX_WOTS_W; omega] at hadd
    have hn : (idx + 1 + n) * N ≤ PK.length := by
      rw [show idx + 1 + n = idx + (n + 1) by omega]
      exact hpk
    obtain ⟨A2, e2, hA2⟩ := ih (idx + 1) A1 (by omega) hn
      (SameChains_of_hash U hU A1 a0 idx hA1)
    refine ⟨A2, ?_, hA2⟩
    rw [WOTS.WotsPkFromSigLoop]
    rw [hsig idx (by omega), ← hadd] at e
    unfold PublicKeyOf at e
    rw [writeAt_blocks_zero PK _ N hb idx (by omega)] at e
    unfold PublicKeyOf
    rw [e]
    simp only []
    unfold PublicKeyOf at e2
    rw [e2, show idx + 1 + n = idx + (n + 1) by omega]

theorem getD_le_of_mem (l : List Nat) (h : ∀ d ∈ l, d ≤ 15) (i : Nat) : l.getD i 0 ≤ 15 := by
  by_cases hi : i < l.length
  · rw [List.getD_eq_getElem _ _ hi]
    exact h _ (List.getElem_mem hi)
  · rw [List.getD_eq_default _ _ (by omega)]
    omega

theorem ChainLengths_digits (Message : List Nat) (N : Nat) (hN : 2 * N + 3 < 2 ^ 32)
    (hm : Message.length = N) :
    ∃ lengths, WOTS.ChainLengths
        (List.replicate (((8 * N / WOTS.SPX_WOTS_LOGW) + WOTS.SPX_WOTS_LEN2) % 2 ^ 32) 0)
        Message N = some lengths ∧
      ∀ i, lengths.getD i 0 ≤ 15 := by
  have hlen1 : (8 * N / WOTS.SPX_WOTS_LOGW) % 2 ^ 32 = 2 * N := by
    unfold WOTS.SPX_WOTS_LOGW
    omega
  have hlen : ((8 * N / WOTS.SPX_WOTS_LOGW) + WOTS.SPX_WOTS_LEN2) % 2 ^ 32 = 2 * N + 3 := by
    unfold WOTS.SPX_WOTS_LOGW WOTS.SPX_WOTS_LEN2
    omega
  have hD : (Digits Message).length = 2 * N := by rw [Digits_length, hm]
  have hc := DigitChecksum_le (Digits Message)
  rw [hD] at hc
  have hR : (List.replicate (2 * N + 3) 0).length = 2 * N + 3 := List.length_replicate _ _
  have hL1 : (writeAt (List.replicate (2 * N + 3) 0) 0 (Digits Message)).length = 2 * N + 3 := by
    rw [writeAt_length _ _ _ (by omega), hR]
  have hs : slice (writeAt (List.replicate (2 * N + 3) 0) 0 (Digits Message)) 0 (2 * N)
      = Digits Message := by
    have := slice_writeAt (List.replicate (2 * N + 3) 0) 0 (Digits Message) (by omega)
    rw [hD] at this
    exact this
  have h15 : ∀ i, 0 ≤ i → i < 0 + 2 * N →
      (writeAt (List.replicate (2 * N + 3) 0) 0 (Digits Message)).getD i 0 ≤ 15 := by
    intro i _ hi
    rw [getD_writeAt _ _ _ (by omega), if_neg (by omega), if_pos (by omega), Nat.sub_zero]
    exact getD_le_of_mem _ (Digits_le _) i
  have hb : List.replicate ((WOTS.SPX_WOTS_LEN2 * WOTS.SPX_WOTS_LOGW + 7) / 8) 0 = [0, 0] := rfl
  rw [hlen]
  unfold WOTS.ChainLengths
  simp only [hlen1]
  rw [BaseW_eq _ _ _ _ (by omega) (by omega), List.take_of_length_le (by omega)]
  simp only []
  unfold WOTS.WotsChecksum
  simp only [hlen1]
  rw [ChecksumLoop_eq _ _ _ _ (by omega) h15 (by omega), hs, Nat.zero_add]
  simp only []
  rw [hb, show [0, 0].length = 2 from rfl, UllToBytes_two]
  simp only []
  rw [BaseW_eq _ _ _ _ (by rw [List.length_cons, List.length_singleton]; decide)
    (by unfold WOTS.SPX_WOTS_LEN2; omega)]
  refine ⟨_, rfl, fun i => getD_le_of_mem _ (fun d hd => ?_) i⟩
  rw [writeAt_zero_then _ _ _ (2 * N) hD (by omega), writeAt_full _ _ (by
    rw [hR, List.length_append, hD, List.length_take]
    unfold WOTS.SPX_WOTS_LEN2
    rw [Digits_length]
    rfl)] at hd
  rcases List.mem_append.1 hd with h | h
  · exact Digits_le _ _ h
  · exact Digits_le _ _ (List.mem_of_mem_take h)

theorem SampleSphincsUtils_laws : AddressLaws SampleSphincsUtils :=
  ⟨fun a _ _ => List.set_set _ _ a 7,
   fun a _ _ => List.set_comm _ _ a (by decide),
   fun a _ _ => List.set_set _ _ a 6⟩

/-- C34: for address setters that obey `AddressLaws`, every message `m` of `N` bytes, every
secret seed, every public seed of at least `N` bytes and every starting address,
`WotsGenPk`, `WotsSign` and `WotsPkFromSig` on the signature of `WotsSign` all return, and
the public key that `WotsPkFromSig` writes is the public key that `WotsGenPk` writes:
element `idx` of both is the secret element of chain `idx` after the hash steps
`0, …, w - 2` under the addresses of chain `idx`, the signature element being the value
after the steps `0, …, lengths[idx] - 1`. -/
theorem WotsPkFromSig_of_WotsSign (U : SphincsUtils) (hU : AddressLaws U) (N : Nat)
    (hN : 2 * N + 3 < 2 ^ 32) (m SkSeed PkSeed a0 PK PK1 Sig : List Nat) (SigOffset : Nat)
    (hm : m.length = N) (hP : N ≤ PkSeed.length) (hPK : (2 * N + 3) * N ≤ PK.length)
    (hPK1 : (2 * N + 3) * N ≤ PK1.length) (hSig : SigOffset + (2 * N + 3) * N ≤ Sig.length) :
    ∃ lengths pk A1 sig A2 pk1 A3,
      WOTS.ChainLengths
        (List.replicate (((8 * N / WOTS.SPX_WOTS_LOGW) + WOTS.SPX_WOTS_LEN2) % 2 ^ 32) 0)
        m N = some lengths ∧
      (∀ i, lengths.getD i 0 ≤ 15) ∧
      WOTS.WotsGenPk U PK SkSeed PkSeed a0 N = some (pk, A1) ∧
      WOTS.WotsSign U Sig SigOffset m SkSeed PkSeed a0 N = some (sig, A2) ∧
      WOTS.WotsPkFromSig U PK1 sig SigOffset m PkSeed a0 N = some (pk1, A3) ∧
      pk = writeAt PK 0 (PublicKeyOf U SkSeed PkSeed a0 N (2 * N + 3)) ∧
      sig = writeAt Sig SigOffset (SignatureOf U SkSeed PkSeed a0 lengths N (2 * N + 3)) ∧
      pk1 = writeAt PK1 0 (PublicKeyOf U SkSeed PkSeed a0 N (2 * N + 3)) ∧
      slice pk1 0 ((2 * N + 3) * N) = slice pk 0 ((2 * N + 3) * N) ∧
      (PK1 = PK → pk1 = pk) := by
  have hlen1 : (8 * N / WOTS.SPX_WOTS_LOGW) % 2 ^ 32 = 2 * N := by
    unfold WOTS.SPX_WOTS_LOGW
    omega
  have hlen : ((8 * N / WOTS.SPX_WOTS_LOGW) + WOTS.SPX_WOTS_LEN2) % 2 ^ 32 = 2 * N + 3 := by
    unfold WOTS.SPX_WOTS_LOGW WOTS.SPX_WOTS_LEN2
    omega
  have hlen2 : (2 * N + WOTS.SPX_WOTS_LEN2) % 2 ^ 32 = 2 * N + 3 := by
    unfold WOTS.SPX_WOTS_LEN2
    omega
  obtain ⟨lengths, hl, h15⟩ := ChainLengths_digits m N hN hm
  have hrefl : SameChains U a0 a0 := fun _ _ => rfl
  obtain ⟨A1, e1, _⟩ := WotsGenPkLoop_eq U hU SkSeed PkSeed a0 N hP PK (2 * N + 3) 0 a0
    (by rw [Nat.zero_add]; exact hPK) hrefl
  obtain ⟨A2, e2, _⟩ := WotsSignLoop_eq U hU SigOffset SkSeed PkSeed a0 lengths h15 N hP Sig
    (2 * N + 3) 0 a0 (by rw [Nat.zero_add]; exact hSig) hrefl
  have hsl : (SignatureOf U SkSeed PkSeed a0 lengths N (2 * N + 3)).length = (2 * N + 3) * N :=
    flatMap_range_length _ N (SignatureOf_block U SkSeed PkSeed a0 lengths N) _
  have hpl : (PublicKeyOf U SkSeed PkSeed a0 N (2 * N + 3)).length = (2 * N + 3) * N :=
    flatMap_range_length _ N (PublicKeyOf_block U SkSeed PkSeed a0 N) _
  have hsig : ∀ i, i < 2 * N + 3 →
      slice (writeAt Sig SigOffset (SignatureOf U SkSeed PkSeed a0 lengths N (2 * N + 3)))
        (SigOffset + i * N) N
      = ChainValue U PkSeed (U.SetChainAddress a0 i) N 0 (lengths.getD i 0)
          (SecretElement U SkSeed a0 N i) := by
    intro i hi
    have hle : i * N + N ≤ (2 * N + 3) * N := by
      have := Nat.mul_le_mul_right N (show i + 1 ≤ 2 * N + 3 by omega)
      rw [Nat.succ_mul] at this
      exact this
    rw [slice_writeAt_inner _ _ _ _ _ (by omega) (by rw [hsl]; exact hle)]
    exact slice_flatMap_range _ N (SignatureOf_block U SkSeed PkSeed a0 lengths N) _ i hi
  obtain ⟨A3, e3, _⟩ := WotsPkFromSigLoop_eq U hU
    (writeAt Sig SigOffset (SignatureOf U SkSeed PkSeed a0 lengths N (2 * N + 3))) SigOffset
    SkSeed PkSeed a0 lengths h15 N hP PK1 (2 * N + 3)
    (by rw [writeAt_length _ _ _ (by rw [hsl]; exact hSig)]; exact hSig) hsig
    (2 * N + 3) 0 a0 (by omega) (by rw [Nat.zero_add]; exact hPK1) hrefl
  have z1 : writeAt PK 0 (PublicKeyOf U SkSeed PkSeed a0 N 0) = PK := writeAt_nil PK 0
  have z2 : writeAt Sig SigOffset (SignatureOf U SkSeed PkSeed a0 lengths N 0) = Sig :=
    writeAt_nil Sig SigOffset
  have z3 : writeAt PK1 0 (PublicKeyOf U SkSeed PkSeed a0 N 0) = PK1 := writeAt_nil PK1 0
  rw [z1, Nat.zero_add] at e1
  rw [z2, Nat.zero_add] at e2
  rw [z3, Nat.zero_add] at e3
  have s1 := slice_writeAt PK 0 (PublicKeyOf U SkSeed PkSeed a0 N (2 * N + 3)) (by omega)
  have s2 := slice_writeAt PK1 0 (PublicKeyOf U SkSeed PkSeed a0 N (2 * N + 3)) (by omega)
  rw [hpl] at s1 s2
  refine ⟨lengths, _, A1, _, A2, _, A3, hl, h15, ?_, ?_, ?_, rfl, rfl, rfl, ?_, ?_⟩
  · unfold WOTS.WotsGenPk
    simp only [hlen1, hlen2]
    exact e1
  · unfold WOTS.WotsSign
    simp only []
    rw [hl]
    simp only [hlen]
    exact e2
  · unfold WOTS.WotsPkFromSig
    simp only []
    rw [hl]
    simp only [hlen]
    exact e3
  · rw [s1, s2]
  · intro h
    rw [h]

/-- The sample address setters, a message of one byte, and buffers of the sizes the
callers use: the three calls return and the recomputed public key is the public key. -/
theorem WotsPkFromSig_of_WotsSign_witness :
    ∃ lengths pk A1 sig A2 pk1 A3,
      WOTS.ChainLengths
        (List.replicate (((8 * 1 / WOTS.SPX_WOTS_LOGW) + WOTS.SPX_WOTS_LEN2) % 2 ^ 32) 0)
        [0x3A] 1 = some lengths ∧
      (∀ i, lengths.getD i 0 ≤ 15) ∧
      WOTS.WotsGenPk SampleSphincsUtils (List.replicate 5 0) [7] [9] (List.replicate 8 0) 1
        = some (pk, A1) ∧
      WOTS.WotsSign SampleSphincsUtils (List.replicate 6 0) 1 [0x3A] [7] [9]
        (List.replicate 8 0) 1 = some (sig, A2) ∧
      WOTS.WotsPkFromSig SampleSphincsUtils (List.replicate 5 0) sig 1 [0x3A] [9]
        (List.replicate 8 0) 1 = some (pk1, A3) ∧
      pk = writeAt (List.replicate 5 0) 0
        (PublicKeyOf SampleSphincsUtils [7] [9] (List.replicate 8 0) 1 (2 * 1 + 3)) ∧
      sig = writeAt (List.replicate 6 0) 1
        (SignatureOf SampleSphincsUtils [7] [9] (List.replicate 8 0) lengths 1 (2 * 1 + 3)) ∧
      pk1 = writeAt (List.replicate 5 0) 0
        (PublicKeyOf SampleSphincsUtils [7] [9] (List.replicate 8 0) 1 (2 * 1 + 3)) ∧
      slice pk1 0 ((2 * 1 + 3) * 1) = slice pk 0 ((2 * 1 + 3) * 1) ∧
      (List.replicate 5 0 = List.replicate 5 0 → pk1 = pk) :=
  WotsPkFromSig_of_WotsSign SampleSphincsUtils SampleSphincsUtils_laws 1 (by decide) [0x3A] [7] [9]
    (List.replicate 8 0) (List.replicate 5 0) (List.replicate 5 0) (List.replicate 6 0) 1 rfl
    (by decide) (by decide) (by decide) (by decide)

end TSX1024

end CEX
